import Mathlib

/-!
# Zhou2007: seam removal, patch placement and ridge/valley feature graphs

A shallow embedding of `src/patchmerge.hpp` (namespace `zhou`) and of
`src/ppa.hpp` (namespace `ppa`), followed by theorems about them.

Modelling conventions.

* `cv::Point` is a pair of integers, `x` the column and `y` the row.
* A one-channel `cv::Mat` is its extent together with its cells, read by
  row and column.  Only cells inside the extent are ever read or written by
  the embedded code.
* A `float` sample is a rational number or NaN (`none`).  Every arithmetic
  operation is the exact operation followed by a rounding function `rnd`
  that the definitions take as a parameter; NaN is absorbing.  Infinities
  and signed zeros are not modelled.
* An 8-bit mask cell is a `Bool` (zero / non-zero).
* The sparse least-squares solver (Eigen) is a parameter `solve` of the
  embedded functions: it maps the assembled system to the solution vector.
-/

namespace zhou

/-- The type `cv::Point`: integer pixel coordinates, `x` is the column and `y` the row. -/
structure Point where
  x : Int
  y : Int
deriving DecidableEq

instance : Add Point := ⟨fun a b => ⟨a.x + b.x, a.y + b.y⟩⟩

/-- A `float` sample: a rational number, or NaN (`none`). -/
abbrev Val := Option ℚ

/-- The test `isnan(v)`. -/
def isnan (v : Val) : Bool := v.isNone

/-- Rounded float addition, NaN absorbing. -/
def fadd (rnd : ℚ → ℚ) (a b : Val) : Val :=
  match a, b with
  | some u, some v => some (rnd (u + v))
  | _, _ => none

/-- Rounded float subtraction, NaN absorbing. -/
def fsub (rnd : ℚ → ℚ) (a b : Val) : Val :=
  match a, b with
  | some u, some v => some (rnd (u - v))
  | _, _ => none

/-- Rounded float multiplication, NaN absorbing. -/
def fmul (rnd : ℚ → ℚ) (a b : Val) : Val :=
  match a, b with
  | some u, some v => some (rnd (u * v))
  | _, _ => none

/-- A one-channel `cv::Mat`: extent and cells, `data row col`. -/
structure Mat (α : Type) where
  rows : Nat
  cols : Nat
  data : Int → Int → α

namespace Mat

/-- The read `m.at<T>(p)` for a point `p`: row `p.y`, column `p.x`. -/
def get {α : Type} (m : Mat α) (p : Point) : α := m.data p.y p.x

/-- The write `m.at<T>(p) = v`. -/
def set {α : Type} (m : Mat α) (p : Point) (v : α) : Mat α :=
  { m with data := fun i j => if i = p.y ∧ j = p.x then v else m.data i j }

/-- The test `Rect(Point(0,0), m.size()).contains(p)`. -/
def contains {α : Type} (m : Mat α) (p : Point) : Bool :=
  decide (0 ≤ p.x) && decide (p.x < (m.cols : Int)) && decide (0 ≤ p.y) && decide (p.y < (m.rows : Int))

/-- The constructor `Mat(rows, cols, type, Scalar(v))`. -/
def fill {α : Type} (rows cols : Nat) (v : α) : Mat α := ⟨rows, cols, fun _ _ => v⟩

end Mat

/-- The loop nest `for (i < rows) for (j < cols) body`, threading a state. -/
def forCells {σ : Type} (rows cols : Nat) (body : σ → Nat → Nat → σ) (init : σ) : σ :=
  (List.range rows).foldl (fun st i => (List.range cols).foldl (fun st j => body st i j) st) init

/-- The array `delta[4]` of `poissonSeamRemoval` and `placePatch`. -/
def delta : List Point := [⟨1, 0⟩, ⟨0, 1⟩, ⟨-1, 0⟩, ⟨0, -1⟩]

/-- One `Eigen::Triplet<float>(row, col, val)`; the values the code stores are
the integers `1` and `dx_count`, `dy_count`. -/
structure Triplet where
  row : Nat
  col : Nat
  val : ℚ
deriving DecidableEq

/-- The mutable locals of `poissonSeamRemoval` during assembly. -/
structure Assembly where
  pointToid : Mat Int
  idToPoint : List Point
  triplet_list : List Triplet
  b_list : List Val
  row : Nat

/-- The locals before the assembly loop: `pointToid` is `-1` everywhere. -/
def Assembly.init (rows cols : Nat) : Assembly :=
  ⟨Mat.fill rows cols (-1), [], [], [], 0⟩

/-- The lambda `getid` (patchmerge.hpp 42-50). -/
def getid (st : Assembly) (p : Point) : Nat × Assembly :=
  let id := st.pointToid.get p
  if id < 0 then
    (st.idToPoint.length,
      { st with
        idToPoint := st.idToPoint ++ [p]
        pointToid := st.pointToid.set p (st.idToPoint.length : Int) })
  else (id.toNat, st)

/-- A sequence of `getid` calls, in order: the ids returned and the locals afterwards. -/
def requestIds (st : Assembly) (ps : List Point) : List Nat × Assembly :=
  ps.foldl (fun acc p => (acc.1 ++ [(getid acc.2 p).1], (getid acc.2 p).2)) ([], st)

/-- The statement `triplet_list.emplace_back(row, getid(p), val)`. -/
def emplace (st : Assembly) (p : Point) (val : ℚ) : Assembly :=
  let r := getid st p
  { r.2 with triplet_list := r.2.triplet_list ++ [⟨st.row, r.1, val⟩] }

/-- The statements `b_list.push_back(v); row++`. -/
def pushRow (st : Assembly) (v : Val) : Assembly :=
  { st with b_list := st.b_list ++ [v], row := st.row + 1 }

/-- One block `if (bound.contains(q) && mask.at<bool>(q)) { emplace(row, getid(q), 1); d += S(q); count++ }`
of the masked branch; the accumulator holds the locals, the running sum and the count. -/
def addNeighbour (rnd : ℚ → ℚ) (synthesis : Mat Val) (mask : Mat Bool) (q : Point)
    (acc : Assembly × Val × Nat) : Assembly × Val × Nat :=
  if mask.contains q && mask.get q then
    (emplace acc.1 q 1, fadd rnd acc.2.1 (synthesis.get q), acc.2.2 + 1)
  else acc

/-- The tail `if (count > 0) { d -= count * pvalue; emplace(row, getid(p), count);
if (seam_mask(p)) d = 0; b_list.push_back(d); row++; }` of one axis. -/
def closeAxis (rnd : ℚ → ℚ) (seam_mask : Mat Bool) (p : Point) (pvalue : Val)
    (acc : Assembly × Val × Nat) : Assembly :=
  if acc.2.2 > 0 then
    let d := fsub rnd acc.2.1 (fmul rnd (some (acc.2.2 : ℚ)) pvalue)
    let st := emplace acc.1 p (acc.2.2 : ℚ)
    pushRow st (if seam_mask.get p then some 0 else d)
  else acc.1

/-- One axis of the masked branch (patchmerge.hpp 76-99 for `dx`, 101-124 for `dy`):
the neighbours `p + n1` and `p + n2` in this order, then the tail. -/
def axisRow (rnd : ℚ → ℚ) (synthesis : Mat Val) (mask seam_mask : Mat Bool) (p n1 n2 : Point)
    (pvalue : Val) (st : Assembly) : Assembly :=
  closeAxis rnd seam_mask p pvalue
    (addNeighbour rnd synthesis mask (p + n2)
      (addNeighbour rnd synthesis mask (p + n1) (st, some 0, 0)))

/-- The loop `for (d < 4)` of the non-masked branch (patchmerge.hpp 130-140): the first
in-bounds masked neighbour emits the boundary row and breaks. -/
def boundaryLoop (mask : Mat Bool) (p : Point) (pvalue : Val) (st : Assembly) :
    List Point → Assembly
  | [] => st
  | d :: ds =>
    if mask.contains (p + d) && mask.get (p + d) then
      pushRow (emplace st p 1) pvalue
    else boundaryLoop mask p pvalue st ds

/-- The body of the assembly loop for the cell `p` (patchmerge.hpp 67-141). -/
def cellStep (rnd : ℚ → ℚ) (synthesis : Mat Val) (mask seam_mask : Mat Bool)
    (st : Assembly) (p : Point) : Assembly :=
  let pvalue := synthesis.get p
  if isnan pvalue then st
  else if mask.get p then
    axisRow rnd synthesis mask seam_mask p ⟨0, 1⟩ ⟨0, -1⟩ pvalue
      (axisRow rnd synthesis mask seam_mask p ⟨1, 0⟩ ⟨-1, 0⟩ pvalue st)
  else boundaryLoop mask p pvalue st delta

/-- The assembly loop (patchmerge.hpp 64-143): rows `i`, columns `j`, `p = Point(j, i)`. -/
def assemble (rnd : ℚ → ℚ) (synthesis : Mat Val) (mask seam_mask : Mat Bool) : Assembly :=
  forCells mask.rows mask.cols
    (fun st i j => cellStep rnd synthesis mask seam_mask st ⟨(j : Int), (i : Int)⟩)
    (Assembly.init mask.rows mask.cols)

/-- The condition under which the non-masked branch (patchmerge.hpp 127-141) emits the
boundary (Dirichlet) row of the cell `p`: `p` is a cell of the extent, its value is not
NaN, it is not masked, and one of its four neighbours is in bounds and masked. -/
def dirichletCell (synthesis : Mat Val) (mask : Mat Bool) (p : Point) : Bool :=
  mask.contains p && !isnan (synthesis.get p) && !mask.get p &&
    delta.any (fun d => mask.contains (p + d) && mask.get (p + d))

/-- The system handed to the solver: `A` is `nrows × ncols`, built from the triplets. -/
structure LinSystem where
  nrows : Nat
  ncols : Nat
  triplets : List Triplet
  b : List Val
deriving DecidableEq

/-- The system `A(row, idToPoint.size())`, `b` of patchmerge.hpp 149-153. -/
def Assembly.system (st : Assembly) : LinSystem :=
  ⟨st.row, st.idToPoint.length, st.triplet_list, st.b_list⟩

/-- The scatter-back loop (patchmerge.hpp 180-183), from index `i` on. -/
def scatterFrom (x : Nat → Val) : Nat → List Point → Mat Val → Mat Val
  | _, [], s => s
  | i, p :: ps, s => scatterFrom x (i + 1) ps (s.set p (x i))

/-- The function `poissonSeamRemoval` (patchmerge.hpp 22-184); the result is the field
`synthesis` after the in-place update. -/
def poissonSeamRemoval (rnd : ℚ → ℚ) (solve : LinSystem → Nat → Val)
    (synthesis : Mat Val) (mask seam_mask : Mat Bool) : Mat Val :=
  let st := assemble rnd synthesis mask seam_mask
  scatterFrom (solve st.system) 0 st.idToPoint synthesis

/-- The first loop of `placePatch` (patchmerge.hpp 205-213): the patch mask copied into
an all-false mask of the target extent, at the offset `pos`. -/
def placeMask (synthesis : Mat Val) (mask : Mat Bool) (pos : Int × Int) : Mat Bool :=
  forCells mask.rows mask.cols
    (fun sm i j =>
      let p : Point := ⟨(j : Int) + pos.1, (i : Int) + pos.2⟩
      if synthesis.contains p && mask.data i j then sm.set p true else sm)
    (Mat.fill synthesis.rows synthesis.cols false)

/-- The loop `for (d < 4)` of patchmerge.hpp 221-227 for one masked cell `p`. -/
def seamNeighbours (synthesis : Mat Val) (synthesis_mask : Mat Bool) (p : Point)
    (seam_mask : Mat Bool) : Mat Bool :=
  delta.foldl
    (fun sk d =>
      let q := p + d
      if synthesis.contains q && !isnan (synthesis.get q) && !synthesis_mask.get q then
        sk.set q true
      else sk)
    seam_mask

/-- The second loop of `placePatch` (patchmerge.hpp 215-230): the seam mask. -/
def makeSeam (synthesis : Mat Val) (mask : Mat Bool) (pos : Int × Int)
    (synthesis_mask : Mat Bool) : Mat Bool :=
  forCells mask.rows mask.cols
    (fun sk i j =>
      let p : Point := ⟨(j : Int) + pos.1, (i : Int) + pos.2⟩
      if synthesis.contains p && synthesis_mask.get p then
        seamNeighbours synthesis synthesis_mask p sk
      else sk)
    (Mat.fill synthesis.rows synthesis.cols false)

/-- The third loop of `placePatch` (patchmerge.hpp 232-240): the patch values copied in. -/
def placeValues (synthesis patch : Mat Val) (mask : Mat Bool) (pos : Int × Int) : Mat Val :=
  forCells mask.rows mask.cols
    (fun s i j =>
      let p : Point := ⟨(j : Int) + pos.1, (i : Int) + pos.2⟩
      if synthesis.contains p && mask.data i j then s.set p (patch.data i j) else s)
    synthesis

/-- The function `placePatch` (patchmerge.hpp 191-246); the result is the field
`synthesis` after the in-place update. -/
def placePatch (rnd : ℚ → ℚ) (solve : LinSystem → Nat → Val)
    (synthesis patch : Mat Val) (mask : Mat Bool) (pos : Int × Int) : Mat Val :=
  let synthesis_mask := placeMask synthesis mask pos
  let seam_mask := makeSeam synthesis mask pos synthesis_mask
  poissonSeamRemoval rnd solve (placeValues synthesis patch mask pos) synthesis_mask seam_mask

/-! ### The least-squares problem handed to the solver

The solver is external; these definitions state what an exact least-squares solution of
the assembled system is.  `setFromTriplets` adds the values of triplets that share a
position, so row `r` of `A x` is the sum over all triplets of that row. -/

/-- Row `r` of the product `A x`. -/
def rowDot (ts : List Triplet) (x : Nat → ℚ) (r : Nat) : ℚ :=
  ((ts.filter (fun t => t.row = r)).map (fun t => t.val * x t.col)).sum

/-- The squared residual `‖A x - b‖²` over the rows `0 .. nrows-1`. -/
def residual (nrows : Nat) (ts : List Triplet) (b : List ℚ) (x : Nat → ℚ) : ℚ :=
  Finset.sum (Finset.range nrows) (fun r => (rowDot ts x r - b.getD r 0) ^ 2)

/-- The vector `x` is an exact least-squares solution of the system: the right-hand side
has no NaN and no vector has a smaller squared residual. -/
def IsLeastSquares (sys : LinSystem) (x : Nat → ℚ) : Prop :=
  ∃ b : List ℚ, sys.b = b.map some ∧
    ∀ y : Nat → ℚ, residual sys.nrows sys.triplets b x ≤ residual sys.nrows sys.triplets b y

/-- The solver returns, for the system `sys`, an exact least-squares solution. -/
def ExactSolve (solve : LinSystem → Nat → Val) (sys : LinSystem) : Prop :=
  ∃ x : Nat → ℚ, (∀ j, j < sys.ncols → solve sys j = some (x j)) ∧ IsLeastSquares sys x

end zhou

namespace zhou

/-! ### Definitions used by the proofs and the witnesses -/

/-- The cells of a `rows × cols` extent in the order of the loop nest. -/
def cellList (rows cols : Nat) : List (Nat × Nat) :=
  (List.range rows).flatMap (fun i => (List.range cols).map (fun j => (i, j)))

/-- The cell of the target that the patch cell `(i, j)` lands on. -/
def target (pos : Int × Int) (c : Nat × Nat) : Point := ⟨(c.2 : Int) + pos.1, (c.1 : Int) + pos.2⟩

/-- The point of the cell in row `c.1` and column `c.2`. -/
def cellPoint (c : Nat × Nat) : Point := ⟨(c.2 : Int), (c.1 : Int)⟩

/-- The table and the list of the indexer are inverse to each other, and the table is
`-1` off the list. -/
structure IndexInv (st : Assembly) : Prop where
  inv : ∀ (i : Nat) (q : Point), st.idToPoint[i]? = some q ↔ st.pointToid.get q = (i : Int)
  neg : ∀ q, q ∉ st.idToPoint → st.pointToid.get q = -1

/-- The record of a boundary unknown: its column holds one triplet, with value 1, that
triplet is alone in its row, and the right-hand side of the row is the cell's value. -/
def DirRec (synthesis : Mat Val) (st : Assembly) (id : Nat) (q : Point) : Prop :=
  ∃ r, r < st.b_list.length ∧
    st.triplet_list.filter (fun t => t.col = id) = [⟨r, id, 1⟩] ∧
    st.triplet_list.filter (fun t => t.row = r) = [⟨r, id, 1⟩] ∧
    st.b_list[r]? = some (synthesis.get q)

/-- The invariant of the assembly that holds at every statement. -/
structure AsmInv (synthesis : Mat Val) (mask : Mat Bool) (st : Assembly) : Prop where
  idx : IndexInv st
  row_eq : st.row = st.b_list.length
  col_lt : ∀ t ∈ st.triplet_list, t.col < st.idToPoint.length
  dir : ∀ id q, st.idToPoint[id]? = some q → mask.get q = false → DirRec synthesis st id q

/-- Every triplet lies in a row that is already closed. -/
def RowLt (st : Assembly) : Prop := ∀ t ∈ st.triplet_list, t.row < st.row

/-- The invariant of the assembly loop between two cells; `done` lists the cells
processed so far. -/
structure LoopInv (synthesis : Mat Val) (mask : Mat Bool) (st : Assembly)
    (done : List (Nat × Nat)) : Prop where
  asm : AsmInv synthesis mask st
  rows : RowLt st
  alloc : ∀ c ∈ done, dirichletCell synthesis mask (cellPoint c) = true →
    cellPoint c ∈ st.idToPoint
  seen : ∀ q ∈ st.idToPoint, mask.get q = false → ∃ c ∈ done, cellPoint c = q

/-- The field of the witness for C3: the row `1 2 2 4`. -/
def rampField : Mat Val :=
  ⟨1, 4, fun _ j => if j = 0 then some 1 else if j = 3 then some 4 else some 2⟩

/-- The mask of the witness for C3: the two middle cells. -/
def middleMask : Mat Bool := ⟨1, 4, fun _ j => decide (j = 1 ∨ j = 2)⟩

/-- A solver that returns `1 0 0 4`. -/
def rampSolve : LinSystem → Nat → Val :=
  fun _ j => if j = 0 then some 1 else if j = 3 then some 4 else some 0

/-- The field `NaN 1` on a 1×2 extent. -/
def nanField : Mat Val := ⟨1, 2, fun _ j => if j = 0 then none else some 1⟩

/-- The flat 1×4 field of value 1. -/
def flatOne : Mat Val := Mat.fill 1 4 (some 1)

/-- The seam field around the two middle cells. -/
def ringSeam : Mat Bool := ⟨1, 4, fun _ j => decide (j = 0 ∨ j = 3)⟩

end zhou
namespace zhou

/-! ## `terrain.cpp`: the text export -/

/-- Modelled from the spec: the struct `terrain` (terrain.hpp is not part of the sources),
as `terrain.cpp` uses it: the constructor `terrain(heightmap, spacing)` and the members
`heightmap`, a one-channel float field, and `spacing`. -/
structure terrain where
  heightmap : Mat Val
  spacing : ℚ

/-- The statements `outfile << ter.heightmap.at<float>(i, 0); for (j = 1; j < cols; j++)
outfile << " " << ter.heightmap.at<float>(i, j); outfile << endl;` (terrain.cpp 203-207)
for the row `i`.  The text that `operator<<` writes for a `float` is the parameter
`showFloat`. -/
def writeRow (showFloat : Val → String) (m : Mat Val) (i : Nat) : String :=
  (List.range (m.cols - 1)).foldl
    (fun out (j0 : Nat) => out ++ " " ++ showFloat (m.data (i : Int) ((j0 : Int) + 1)))
    (showFloat (m.data (i : Int) 0)) ++ "\n"

/-- The function `terrainWriteTxt` (terrain.cpp 190-211): the text written to the file.
The text that `operator<<` writes for the spacing is the parameter `showSpacing`; an
`int` is written in decimal; `endl` is a line feed. -/
def terrainWriteTxt (showFloat : Val → String) (showSpacing : ℚ → String) (ter : terrain) :
    String :=
  (List.range ter.heightmap.rows).foldl
    (fun out i => out ++ writeRow showFloat ter.heightmap i)
    ("ncols        " ++ toString ter.heightmap.cols ++ "\n" ++
     "nrows        " ++ toString ter.heightmap.cols ++ "\n" ++
     "xllcorner    0.0" ++ "\n" ++
     "yllcorner    0.0" ++ "\n" ++
     "cellsize     " ++ showSpacing ter.spacing ++ "\n")

/-! ### Definitions used by the proofs and the witnesses, second part -/

/-- The test `bound.contains(q) && mask.at<bool>(q)` of the assembly loop. -/
def maskedAt (mask : Mat Bool) (q : Point) : Bool := mask.contains q && mask.get q

/-- The cell has an in-bounds masked neighbour among its four lattice neighbours. -/
def hasMaskedNeighbour (mask : Mat Bool) (p : Point) : Bool :=
  delta.any (fun d => maskedAt mask (p + d))

/-- The invariant of the assembly loop about the cells that hold an unknown: every such
cell is in bounds and either a boundary cell or a masked cell with a masked neighbour,
and every processed cell that is masked and defined and has a masked neighbour holds an
unknown. -/
structure UnkInv (synthesis : Mat Val) (mask : Mat Bool) (st : Assembly)
    (done : List (Nat × Nat)) : Prop where
  sound : ∀ x ∈ st.idToPoint, mask.contains x = true ∧
    (dirichletCell synthesis mask x = true ∨
      (mask.get x = true ∧ hasMaskedNeighbour mask x = true))
  complete : ∀ c ∈ done, mask.get (cellPoint c) = true → synthesis.get (cellPoint c) ≠ none →
    hasMaskedNeighbour mask (cellPoint c) = true → cellPoint c ∈ st.idToPoint

/-- The field `1 2 4` on a 1×3 extent. -/
def stepField : Mat Val :=
  ⟨1, 3, fun _ j => if j = 0 then some 1 else if j = 1 then some 2 else some 4⟩

/-- The mask of a 1×3 extent that holds the first cell only. -/
def firstMask : Mat Bool := ⟨1, 3, fun _ j => decide (j = 0)⟩

/-- A 1×2 heightmap with the values `1 2` and spacing 1. -/
def smallTerrain : terrain := ⟨⟨1, 2, fun _ j => if j = 0 then some 1 else some 2⟩, 1⟩

end zhou

namespace ppa

open zhou

/-! ## `ppa.hpp`: the feature graph

Further conventions for this part.

* Operations on `double` values round with a second parameter `rndD`.
* `cv::resize(..., INTER_NEAREST)` is modelled by the source index
  `min(floor(i * rows / drows), rows - 1)`; with an empty destination size it raises an
  error, and the constructor then returns no graph (`none`).
* `kruskal::minSpanForest` (kruskal.hpp is not part of the sources) is a parameter
  `minSpanForest` of the constructor.
* The iteration order of the `unordered_map` `nodetoedge` is a parameter `order`.
* `visited` is kept as the list of the inserted ids, in insertion order; membership in the
  list is membership in the `unordered_set`.
* The `while` loops of the traversal take a fuel bound; running out of fuel is `none`.
-/

instance : Sub Point := ⟨fun a b => ⟨a.x - b.x, a.y - b.y⟩⟩

/-- The product `n * l` of a `cv::Point` and an `int`. -/
def scale (n : Point) (l : Int) : Point := ⟨n.x * l, n.y * l⟩

/-- The type `cv::Vec2f`. -/
structure Vec2f where
  x : Val
  y : Val
deriving DecidableEq

instance : Inhabited Vec2f := ⟨⟨some 0, some 0⟩⟩

/-- The struct `FeatureNode` (ppa.hpp 21-27). -/
structure FeatureNode where
  id : Int
  p : Vec2f
  edges : List Int
deriving DecidableEq

/-- The default constructor `FeatureNode()`. -/
instance : Inhabited FeatureNode := ⟨⟨-1, default, []⟩⟩

/-- The struct `FeatureEdge` (ppa.hpp 29-37). -/
structure FeatureEdge where
  id : Int
  node_start : Int
  node_end : Int
  path : List Vec2f
deriving DecidableEq

/-- The method `FeatureEdge::other`. -/
def FeatureEdge.other (e : FeatureEdge) (n : Int) : Int :=
  if n = e.node_start then e.node_end else e.node_start

/-- The helper struct `FeatureGraph::edge` (ppa.hpp 46-54). -/
structure edge where
  weight : Val
  id1 : Int
  id2 : Int
  p1 : Point
  p2 : Point
deriving DecidableEq

/-- The method `edge::other`. -/
def edge.other (e : edge) (id : Int) : Int := if id = e.id1 then e.id2 else e.id1

/-- The method `edge::point`. -/
def edge.point (e : edge) (id : Int) : Point := if id = e.id1 then e.p1 else e.p2

/-- The comparison `a > b` of two floating-point values: false when one is NaN. -/
def fgt (a b : Val) : Bool :=
  match a, b with
  | some u, some v => decide (v < u)
  | _, _ => false

/-- Rounded float division; a zero divisor gives NaN (infinities are not modelled). -/
def fdiv (rnd : ℚ → ℚ) (a b : Val) : Val :=
  match a, b with
  | some u, some v => if v = 0 then none else some (rnd (u / v))
  | _, _ => none

/-- The call `resize(input, grid, Size(cols, rows), 0, 0, INTER_NEAREST)`. -/
def resizeNearest (input : Mat Val) (rows cols : Nat) : Mat Val :=
  ⟨rows, cols, fun i j =>
    input.data (min (i * (input.rows : Int) / (rows : Int)) ((input.rows : Int) - 1))
      (min (j * (input.cols : Int) / (cols : Int)) ((input.cols : Int) - 1))⟩

/-- The operational grid (ppa.hpp 70-73): the input resized to `input.size() / grid_spacing`
and multiplied by `feature_type`. -/
def operationalGrid (rnd : ℚ → ℚ) (input : Mat Val) (grid_spacing : Nat) (feature_type : Int) :
    Mat Val :=
  ⟨input.rows / grid_spacing, input.cols / grid_spacing, fun i j =>
    fmul rnd
      ((resizeNearest input (input.rows / grid_spacing) (input.cols / grid_spacing)).data i j)
      (some (feature_type : ℚ))⟩

/-- The samples of a field, row by row. -/
def samples (m : Mat Val) : List Val :=
  (cellList m.rows m.cols).map (fun c => m.data (c.1 : Int) (c.2 : Int))

/-- The call `minMaxIdx(input, &mmin, &mmax)`: minimum and maximum of the samples that are
not NaN, if there is one. -/
def minMaxIdx (m : Mat Val) : Option (ℚ × ℚ) :=
  (samples m).foldl
    (fun acc v =>
      match v, acc with
      | none, _ => acc
      | some u, none => some (u, u)
      | some u, some lohi => some (min lohi.1 u, max lohi.2 u))
    none

/-- The threshold `0.01 * (mmax - mmin)` (ppa.hpp 79-81), in `double` arithmetic. -/
def threshold (rndD : ℚ → ℚ) (input : Mat Val) : Val :=
  match minMaxIdx input with
  | some lohi => some (rndD (1 / 100 * rndD (lohi.2 - lohi.1)))
  | none => none

/-- The array `fneighbours` (ppa.hpp 98-103). -/
def fneighbours : List Point := [⟨1, 0⟩, ⟨0, 1⟩, ⟨1, 1⟩, ⟨-1, 1⟩]

/-- The loop `for (l = 1; l <= profile_length / 2; l++)` (ppa.hpp 117-122) for the cell `p`
and the direction `n`: the pair `(profile0, profile1)`. -/
def profiles (rnd : ℚ → ℚ) (grid : Mat Val) (thresh : Val) (profile_length : Nat)
    (p n : Point) : Bool × Bool :=
  (List.range (profile_length / 2)).foldl
    (fun acc l0 =>
      let d := scale n ((l0 : Int) + 1)
      (acc.1 || (grid.contains (p + d) && fgt (fsub rnd (grid.get p) (grid.get (p + d))) thresh),
       acc.2 || (grid.contains (p - d) && fgt (fsub rnd (grid.get p) (grid.get (p - d))) thresh)))
    (false, false)

/-- The loop `for (Point n : fneighbours)` (ppa.hpp 114-131) for the cell `p`: the first
direction with both profiles gives the cell the next id and breaks.  The state is
`nodeids` and `nodeidcounter`. -/
def markCell (rnd : ℚ → ℚ) (grid : Mat Val) (thresh : Val) (profile_length : Nat) (p : Point)
    (st : Mat Int × Int) : List Point → Mat Int × Int
  | [] => st
  | n :: ns =>
    if (profiles rnd grid thresh profile_length p n).1 &&
        (profiles rnd grid thresh profile_length p n).2 then
      (st.1.set p st.2, st.2 + 1)
    else markCell rnd grid thresh profile_length p st ns

/-- The selection of the feature points (ppa.hpp 106-133): `nodeids` and `nodeidcounter`. -/
def selectFeaturePoints (rnd : ℚ → ℚ) (grid : Mat Val) (thresh : Val) (profile_length : Nat) :
    Mat Int × Int :=
  forCells grid.rows grid.cols
    (fun st i j => markCell rnd grid thresh profile_length ⟨(j : Int), (i : Int)⟩ st fneighbours)
    (Mat.fill grid.rows grid.cols (-1), 0)

/-- The candidate graph (ppa.hpp 136-156). -/
def createGraph (rnd : ℚ → ℚ) (grid : Mat Val) (nodeids : Mat Int) : List edge :=
  forCells (grid.rows - 1) (grid.cols - 1)
    (fun es i j =>
      let p : Point := ⟨(j : Int), (i : Int)⟩
      if nodeids.get p < 0 then es
      else
        fneighbours.foldl
          (fun es n =>
            let q := p + n
            if grid.contains q && decide (0 ≤ nodeids.get q) then
              es ++ [⟨fadd rnd (grid.get p) (grid.get q), nodeids.get p, nodeids.get q, p, q⟩]
            else es)
          es)
    []

/-- The matrix `degree` of one pruning round (ppa.hpp 170-174). -/
def degreeMat (rows cols : Nat) (es : List edge) : Mat Int :=
  es.foldl
    (fun d e => (d.set e.p1 (d.get e.p1 + 1)).set e.p2 ((d.set e.p1 (d.get e.p1 + 1)).get e.p2 + 1))
    (Mat.fill rows cols 0)

/-- One pruning round (ppa.hpp 170-180). -/
def reduceRound (rows cols : Nat) (es : List edge) : List edge :=
  es.filter (fun e =>
    decide (1 < (degreeMat rows cols es).get e.p1) && decide (1 < (degreeMat rows cols es).get e.p2))

/-- The pruning rounds (ppa.hpp 169-181). -/
def reduceGraph (rows cols : Nat) (profile_length : Nat) (es : List edge) : List edge :=
  (List.range (profile_length / 2)).foldl (fun es _ => reduceRound rows cols es) es

/-- The statement `nodetoedge[k].push_back(e)`; a key that is absent holds the empty list. -/
def pushEdge (m : Int → List edge) (k : Int) (e : edge) : Int → List edge :=
  Function.update m k (m k ++ [e])

/-- The map `nodetoedge` (ppa.hpp 190-196). -/
def buildNodeToEdge (es : List edge) : Int → List edge :=
  es.foldl (fun m e => pushEdge (pushEdge m e.id1 e) e.id2 e) (fun _ => [])

/-- The map `nodetoposition` (ppa.hpp 189-196); a key that is absent reads as `(0, 0)`. -/
def buildNodeToPosition (es : List edge) : Int → Point :=
  es.foldl (fun m e => Function.update (Function.update m e.id1 e.p1) e.id2 e.p2) (fun _ => ⟨0, 0⟩)

/-- The product `w * Vec2f(p.x, p.y) * grid_spacing`: the two `int` coordinates and the
`int` `grid_spacing` are converted to `float`, and both products are `float` products. -/
def weighted (rnd : ℚ → ℚ) (w : Val) (p : Point) (grid_spacing : Nat) : Vec2f :=
  ⟨fmul rnd (fmul rnd w (some (rnd (p.x : ℚ)))) (some (rnd (grid_spacing : ℚ))),
   fmul rnd (fmul rnd w (some (rnd (p.y : ℚ)))) (some (rnd (grid_spacing : ℚ)))⟩

/-- The smoothed position of the node `k` (ppa.hpp 199-215).  The first weight is the
`double` product `1.01 * w` converted to `float`, where the literal `1.01` is the `double`
nearest to 101/100; the quotient `position / weight` of a `Vec2f` by a `float` is the
product with the rounded reciprocal `1.f / weight`. -/
def smoothAt (rnd rndD : ℚ → ℚ) (grid : Mat Val) (grid_spacing : Nat)
    (nodetoedge : Int → List edge) (nodetoposition : Int → Point) (k : Int) : Vec2f :=
  let weight0 : Val :=
    (fmul rndD (some (rndD (101 / 100))) (grid.get (nodetoposition k))).map rnd
  let acc := (nodetoedge k).foldl
    (fun (acc : Val × Vec2f) e =>
      let p := nodetoposition (e.other k)
      let w := grid.get p
      (fadd rnd acc.1 w,
        ⟨fadd rnd acc.2.x (weighted rnd w p grid_spacing).x,
         fadd rnd acc.2.y (weighted rnd w p grid_spacing).y⟩))
    (weight0, weighted rnd weight0 (nodetoposition k) grid_spacing)
  ⟨fmul rnd acc.2.x (fdiv rnd (some 1) acc.1), fmul rnd acc.2.y (fdiv rnd (some 1) acc.1)⟩

/-! ### Maps keyed by id (`unordered_map<int, T>`) as association lists -/

/-- The lookup `m.find(k)`. -/
def mapFind {β : Type} (m : List (Int × β)) (k : Int) : Option β :=
  (m.find? (fun kv => decide (kv.1 = k))).map Prod.snd

/-- The assignment `m[k] = v`. -/
def mapSet {β : Type} (m : List (Int × β)) (k : Int) (v : β) : List (Int × β) :=
  if m.any (fun kv => decide (kv.1 = k)) then
    m.map (fun kv => if kv.1 = k then (k, v) else kv)
  else m ++ [(k, v)]

/-- The update `f(m[k])`, where `m[k]` default-constructs an absent entry. -/
def mapModify {β : Type} [Inhabited β] (m : List (Int × β)) (k : Int) (f : β → β) :
    List (Int × β) :=
  if m.any (fun kv => decide (kv.1 = k)) then
    m.map (fun kv => if kv.1 = k then (k, f kv.2) else kv)
  else m ++ [(k, f default)]

/-- The locals `visited`, `edgeidcounter` and the members `m_nodes`, `m_edges` during the
traversal (ppa.hpp 218-276). -/
structure Trace where
  visited : List Int
  edgeidcounter : Int
  m_nodes : List (Int × FeatureNode)
  m_edges : List (Int × FeatureEdge)

/-- The loop `while (nodetoedge.at(next).size() == 2)` (ppa.hpp 250-258) on the locals
`visited`, `path` and `next`. -/
def walkChain (nodetoedge : Int → List edge) (smoothPosition : Int → Vec2f) :
    Nat → List Int → List Vec2f → Int → Option (List Int × List Vec2f × Int)
  | 0, _, _, _ => none
  | fuel + 1, visited, path, next =>
    match nodetoedge next with
    | [e0, e1] =>
      walkChain nodetoedge smoothPosition fuel
        (visited ++ [if e0.other next ∈ visited then e1.other next else e0.other next])
        (path ++ [smoothPosition next])
        (if e0.other next ∈ visited then e1.other next else e0.other next)
    | _ => some (visited, path, next)

/-- The statements after the chain walk (ppa.hpp 260-268): the end node `next` is stored,
the path is closed with its position, and the new edge is stored and pushed to the edge
lists of `currentid` and `next`. -/
def storeEdge (smoothPosition : Int → Vec2f) (st : Trace) (currentid : Int)
    (visited : List Int) (path : List Vec2f) (next : Int) : Trace :=
  let nodes1 := mapSet st.m_nodes next ⟨next, smoothPosition next, []⟩
  let fe : FeatureEdge :=
    ⟨st.edgeidcounter, currentid, next, path ++ [((mapFind nodes1 next).getD default).p]⟩
  let nodes2 := mapModify nodes1 currentid (fun n => { n with edges := n.edges ++ [fe.id] })
  let nodes3 := mapModify nodes2 next (fun n => { n with edges := n.edges ++ [fe.id] })
  ⟨visited, st.edgeidcounter + 1, nodes3, mapSet st.m_edges fe.id fe⟩

/-- The body of the loop `for (const edge &e : nodetoedge.at(currentid))`
(ppa.hpp 240-273); the state is the traversal locals and the stack `toProcess`, whose
back is the head of the list. -/
def processEdge (fuel : Nat) (nodetoedge : Int → List edge) (smoothPosition : Int → Vec2f)
    (currentid : Int) (acc : Trace × List Int) (e : edge) : Option (Trace × List Int) :=
  if e.other currentid ∈ acc.1.visited then some acc
  else
    match walkChain nodetoedge smoothPosition fuel (acc.1.visited ++ [e.other currentid])
        [smoothPosition currentid] (e.other currentid) with
    | none => none
    | some r => some (storeEdge smoothPosition acc.1 currentid r.1 r.2.1 r.2.2, r.2.2 :: acc.2)

/-- The loop over the edges of `currentid` (ppa.hpp 240-273). -/
def processNode (fuel : Nat) (nodetoedge : Int → List edge) (smoothPosition : Int → Vec2f)
    (currentid : Int) (acc : Trace × List Int) : Option (Trace × List Int) :=
  (nodetoedge currentid).foldlM (processEdge fuel nodetoedge smoothPosition currentid) acc

/-- The loop `while (!toProcess.empty())` (ppa.hpp 235-274). -/
def dfsLoop (chainFuel : Nat) (nodetoedge : Int → List edge) (smoothPosition : Int → Vec2f) :
    Nat → Trace → List Int → Option Trace
  | _, st, [] => some st
  | 0, _, _ :: _ => none
  | fuel + 1, st, currentid :: rest =>
    match processNode chainFuel nodetoedge smoothPosition currentid (st, rest) with
    | none => none
    | some r => dfsLoop chainFuel nodetoedge smoothPosition fuel r.1 r.2

/-- The body of the loop `for (const auto &nte : nodetoedge)` (ppa.hpp 222-276) for the
key `pid`. -/
def traceFrom (fuel : Nat) (nodetoedge : Int → List edge) (smoothPosition : Int → Vec2f)
    (st : Trace) (pid : Int) : Option Trace :=
  if (nodetoedge pid).length = 1 ∧ pid ∉ st.visited then
    dfsLoop fuel nodetoedge smoothPosition fuel
      { st with
        visited := st.visited ++ [pid]
        m_nodes := mapSet st.m_nodes pid ⟨pid, smoothPosition pid, []⟩ }
      [pid]
  else some st

/-- The conversion from edges to nodes and paths (ppa.hpp 218-276); `order` lists the keys
of `nodetoedge` in the order in which the map is iterated. -/
def traceSkeleton (fuel : Nat) (nodetoedge : Int → List edge) (smoothPosition : Int → Vec2f)
    (order : List Int) : Option Trace :=
  order.foldlM (traceFrom fuel nodetoedge smoothPosition) ⟨[], 0, [], []⟩

/-- The class `FeatureGraph`: its members. -/
structure FeatureGraph where
  m_nodes : List (Int × FeatureNode)
  m_edges : List (Int × FeatureEdge)
  feature_type : Int

/-- The accessor `nodes()`. -/
def FeatureGraph.nodes (g : FeatureGraph) : List (Int × FeatureNode) := g.m_nodes

/-- The accessor `edges()`. -/
def FeatureGraph.edges (g : FeatureGraph) : List (Int × FeatureEdge) := g.m_edges

/-- The edge list returned by the spanning-forest step, from the input field
(ppa.hpp 70-161). -/
def spanningForest (rnd rndD : ℚ → ℚ) (minSpanForest : List edge → List edge) (input : Mat Val)
    (grid_spacing profile_length : Nat) (feature_type : Int) : List edge :=
  let grid := operationalGrid rnd input grid_spacing feature_type
  let nodeids := (selectFeaturePoints rnd grid (threshold rndD input) profile_length).1
  minSpanForest (createGraph rnd grid nodeids)

/-- The edge list after the pruning rounds (ppa.hpp 167-181). -/
def prunedEdges (rnd rndD : ℚ → ℚ) (minSpanForest : List edge → List edge) (input : Mat Val)
    (grid_spacing profile_length : Nat) (feature_type : Int) : List edge :=
  reduceGraph (input.rows / grid_spacing) (input.cols / grid_spacing) profile_length
    (spanningForest rnd rndD minSpanForest input grid_spacing profile_length feature_type)

/-- The constructor `FeatureGraph::FeatureGraph` (ppa.hpp 60-301). -/
def FeatureGraph.build (rnd rndD : ℚ → ℚ) (minSpanForest : List edge → List edge)
    (order : List Int) (fuel : Nat) (input : Mat Val) (grid_spacing profile_length : Nat)
    (feature_type : Int) : Option FeatureGraph :=
  if input.rows / grid_spacing = 0 ∨ input.cols / grid_spacing = 0 then none
  else
    let grid := operationalGrid rnd input grid_spacing feature_type
    let tempedges := prunedEdges rnd rndD minSpanForest input grid_spacing profile_length feature_type
    let nodetoedge := buildNodeToEdge tempedges
    let smoothPosition :=
      smoothAt rnd rndD grid grid_spacing nodetoedge (buildNodeToPosition tempedges)
    (traceSkeleton fuel nodetoedge smoothPosition order).map
      (fun t => ⟨t.m_nodes, t.m_edges, feature_type⟩)

end ppa

namespace ppa

open zhou

/-! ### Graphs as lists of endpoint pairs; cycles -/

/-- The endpoint ids of the edges of an edge list. -/
def ends (es : List edge) : List (Int × Int) := es.map (fun e => (e.id1, e.id2))

/-- The graph of a feature graph: every `FeatureEdge` joins `node_start` and `node_end`. -/
def featureEnds (fs : List (Int × FeatureEdge)) : List (Int × Int) :=
  fs.map (fun kv => (kv.2.node_start, kv.2.node_end))

/-- Edge number `i` of `g` joins `u` and `v`. -/
def Joins (g : List (Int × Int)) (i : Nat) (u v : Int) : Prop :=
  g[i]? = some (u, v) ∨ g[i]? = some (v, u)

/-- A walk from `u` to `v`: the list of its steps, each the number of the edge taken and
the vertex reached. -/
def IsWalk (g : List (Int × Int)) : Int → List (Nat × Int) → Int → Prop
  | u, [], v => u = v
  | u, s :: rest, v => Joins g s.1 u s.2 ∧ IsWalk g s.2 rest v

/-- The graph has a cycle: a closed walk with at least one step that uses no edge twice. -/
def HasCycle (g : List (Int × Int)) : Prop :=
  ∃ (u : Int) (w : List (Nat × Int)), w ≠ [] ∧ IsWalk g u w u ∧ (w.map Prod.fst).Nodup

/-- The graph is a forest: it has no cycle. -/
def Acyclic (g : List (Int × Int)) : Prop := ¬ HasCycle g

/-- The number of edges with both endpoints in `U`. -/
def inner (g : List (Int × Int)) (U : Finset Int) : Nat :=
  g.countP (fun e => decide (e.1 ∈ U ∧ e.2 ∈ U))

/-- Every non-empty set of vertices spans fewer edges than it has vertices. -/
def Sparse (g : List (Int × Int)) : Prop :=
  ∀ U : Finset Int, U.Nonempty → inner g U < U.card

/-- At most one path connects any two vertices: two walks between the same two vertices
that use no edge twice are the same walk. -/
def UniquePaths (g : List (Int × Int)) : Prop :=
  ∀ (u v : Int) (w1 w2 : List (Nat × Int)), IsWalk g u w1 v → IsWalk g u w2 v →
    (w1.map Prod.fst).Nodup → (w2.map Prod.fst).Nodup → w1 = w2

/-- A labelling of the vertices by components: the two ends of an edge carry the same
label, two vertices with the same label are joined by a walk that uses no edge twice,
every set of vertices has at least as many vertices as edges inside plus labels, and at
most one path connects any two vertices. -/
structure Components (g : List (Int × Int)) (lab : Int → Int) : Prop where
  edge : ∀ e ∈ g, lab e.1 = lab e.2
  conn : ∀ a b, lab a = lab b → ∃ w, IsWalk g a w b ∧ (w.map Prod.fst).Nodup
  count : ∀ U : Finset Int, inner g U + (U.image lab).card ≤ U.card
  unique : UniquePaths g

/-- The edges of the list that touch the node `k`, in list order; an edge from `k` to `k`
is listed twice. -/
def incident (es : List edge) (k : Int) : List edge :=
  es.flatMap (fun e => (if e.id1 = k then [e] else []) ++ (if e.id2 = k then [e] else []))

/-- The number of edges from the node `x` to nodes of `U`. -/
def link (es : List edge) (x : Int) (U : Finset Int) : Nat :=
  (buildNodeToEdge es x).countP (fun e => decide (e.other x ∈ U))

/-- The ids of the candidates that have at least one edge in the list, each once. -/
def survivors (es : List edge) : List Int :=
  (es.flatMap (fun e => [e.id1, e.id2])).dedup

/-! ### Invariants of the traversal -/

/-- The set `old` of nodes is closed under the edges. -/
def Closed (es : List edge) (old : List Int) : Prop :=
  ∀ e ∈ es, e.id1 ∈ old ↔ e.id2 ∈ old

/-- Every neighbour of the node `k` is in the list `vis`. -/
def Finished (es : List edge) (vis : List Int) (k : Int) : Prop :=
  ∀ e ∈ buildNodeToEdge es k, e.other k ∈ vis

/-- The state of the chain walk: `old` holds the nodes of the trees traversed before,
`V` the nodes of the current tree visited before `x`, and `x` was reached from `V`. -/
structure ChainInv (es : List edge) (old V : List Int) (x : Int) : Prop where
  nd : (old ++ (V ++ [x])).Nodup
  tight : inner (ends es) V.toFinset + 1 = V.length
  closed : Closed es old
  entry : ∃ e ∈ buildNodeToEdge es x, e.other x ∈ V
  keys : ∀ k ∈ old ++ (V ++ [x]), buildNodeToEdge es k ≠ []

/-- The invariant of the node and edge tables. -/
structure TableInv (st : Trace) : Prop where
  nodes_nd : (st.m_nodes.map Prod.fst).Nodup
  nodes_sub : ∀ k ∈ st.m_nodes.map Prod.fst, k ∈ st.visited
  count : st.m_nodes.length + (st.m_edges.map (fun kv => kv.2.path.length - 2)).sum =
    st.visited.length
  fsparse : Sparse (featureEnds st.m_edges)
  fnodes : ∀ kv ∈ st.m_edges,
    kv.2.node_start ∈ st.m_nodes.map Prod.fst ∧ kv.2.node_end ∈ st.m_nodes.map Prod.fst
  edge_lt : ∀ kv ∈ st.m_edges, kv.1 < st.edgeidcounter

/-- The invariant of the depth-first traversal of one tree: `old` holds the nodes of the
trees traversed before, `cur` the nodes of this tree visited so far, `pending` the node
whose edges are being processed (if any) and `stack` is `toProcess`. -/
structure DfsInv (es : List edge) (old cur : List Int) (st : Trace)
    (pending stack : List Int) : Prop where
  closed : Closed es old
  vis : st.visited = old ++ cur
  nd : st.visited.Nodup
  ne : cur ≠ []
  tight : inner (ends es) cur.toFinset + 1 = cur.length
  keys : ∀ k ∈ st.visited, buildNodeToEdge es k ≠ []
  fin : ∀ k ∈ cur, k ∈ stack ∨ k ∈ pending ∨ Finished es st.visited k
  sub : ∀ k, k ∈ stack ∨ k ∈ pending → k ∈ cur
  isnode : ∀ k, k ∈ stack ∨ k ∈ pending → k ∈ st.m_nodes.map Prod.fst
  tab : TableInv st

/-- The invariant of the traversal between two trees. -/
structure OuterInv (es : List edge) (st : Trace) : Prop where
  closed : Closed es st.visited
  nd : st.visited.Nodup
  keys : ∀ k ∈ st.visited, buildNodeToEdge es k ≠ []
  tab : TableInv st

/-! ### Inputs of the witnesses -/

/-- A 5×5 field with a ridge of height 10 along row 2. -/
def ridgeField : Mat Val := ⟨5, 5, fun i _ => if i = 2 then some 10 else some 0⟩

/-- An edge between the nodes `a` and `b`, placed at the cells `(a, 0)` and `(b, 0)`. -/
def mkEdge (a b : Int) : edge := ⟨some 0, a, b, ⟨a, 0⟩, ⟨b, 0⟩⟩

/-- The path 0 - 1 - 2. -/
def pathEdges : List edge := [mkEdge 0 1, mkEdge 1 2]

/-- A tree with a branch at node 2: 0 - 1 - 2, 2 - 3, 2 - 4 - 5. -/
def treeEdges : List edge := [mkEdge 0 1, mkEdge 1 2, mkEdge 2 3, mkEdge 2 4, mkEdge 4 5]

end ppa
namespace ppa

open zhou

/-! ### Definitions used by the proofs and the witnesses, second part -/

/-- The test of the selection loop for the cell `p` (ppa.hpp 114-131): one of the four
forward directions has both profiles. -/
def crest (rnd : ℚ → ℚ) (grid : Mat Val) (thresh : Val) (profile_length : Nat) (p : Point) :
    Bool :=
  fneighbours.any (fun n =>
    (profiles rnd grid thresh profile_length p n).1 &&
      (profiles rnd grid thresh profile_length p n).2)

/-- The crest cells of the grid, in the order of the selection loop (row by row). -/
def crestCells (rnd : ℚ → ℚ) (grid : Mat Val) (thresh : Val) (profile_length : Nat) :
    List (Nat × Nat) :=
  (cellList grid.rows grid.cols).filter
    (fun c => crest rnd grid thresh profile_length (cellPoint c))

/-- The invariant of the selection loop; `done` lists the cells processed so far. -/
structure SelInv (rnd : ℚ → ℚ) (grid : Mat Val) (thresh : Val) (profile_length : Nat)
    (st : Mat Int × Int) (done : List (Nat × Nat)) : Prop where
  counter : st.2 =
    ((done.filter (fun c => crest rnd grid thresh profile_length (cellPoint c))).length : Int)
  ids : ∀ (k : Nat) (c : Nat × Nat),
    (done.filter (fun c => crest rnd grid thresh profile_length (cellPoint c)))[k]? = some c →
      st.1.get (cellPoint c) = (k : Int)
  rest : ∀ p : Point,
    (¬ ∃ c ∈ done, crest rnd grid thresh profile_length (cellPoint c) = true ∧ cellPoint c = p) →
      st.1.get p = -1

/-- A 2×4 field with a plateau of height 10 on the two middle columns. -/
def plateauField : Mat Val := ⟨2, 4, fun _ j => if j = 1 ∨ j = 2 then some 10 else some 0⟩

end ppa

namespace ppa

open zhou

/-! ### Paths in the edge list, by cells -/

/-- The number of edge ends at the cell `x`: the value of the matrix `degree` at `x`. -/
def pointDegree (es : List edge) (x : Point) : Nat :=
  es.countP (fun e => decide (e.p1 = x)) + es.countP (fun e => decide (e.p2 = x))

/-- The edge joins the cells `a` and `b`. -/
def joinsPoints (e : edge) (a b : Point) : Bool :=
  decide ((e.p1 = a ∧ e.p2 = b) ∨ (e.p1 = b ∧ e.p2 = a))

/-- The edge has an end among the cells `vs`. -/
def touches (vs : List Point) (e : edge) : Bool := decide (e.p1 ∈ vs ∨ e.p2 ∈ vs)

/-- The cell number `i` of a list of cells. -/
def cellAt (vs : List Point) (i : Nat) : Point := vs.getD i ⟨0, 0⟩

/-- The cells `vs` are a connected component of the edge list that is a simple path: the
cells are distinct, exactly one edge joins each cell to the next, and every edge with an
end among the cells joins a cell to the next. -/
structure PathComponent (es : List edge) (vs : List Point) : Prop where
  nodup : vs.Nodup
  link : ∀ i, i + 1 < vs.length →
    es.countP (fun e => joinsPoints e (cellAt vs i) (cellAt vs (i + 1))) = 1
  only : ∀ e ∈ es, (e.p1 ∈ vs ∨ e.p2 ∈ vs) →
    ∃ i, i + 1 < vs.length ∧ joinsPoints e (cellAt vs i) (cellAt vs (i + 1)) = true

/-- The same for the cells `v 0, …, v (n - 1)`. -/
structure PathFn (es : List edge) (v : Nat → Point) (n : Nat) : Prop where
  inj : ∀ i j, i < n → j < n → v i = v j → i = j
  link : ∀ i, i + 1 < n → es.countP (fun e => joinsPoints e (v i) (v (i + 1))) = 1
  only : ∀ e ∈ es, (∃ i, i < n ∧ (e.p1 = v i ∨ e.p2 = v i)) →
    ∃ i, i + 1 < n ∧ joinsPoints e (v i) (v (i + 1)) = true

/-- The path 0 - 1 - 2 - 3 - 4 on the cells of row 0. -/
def path5 : List edge := [mkEdge 0 1, mkEdge 1 2, mkEdge 2 3, mkEdge 3 4]

/-- The cells of `path5`. -/
def path5Cells : List Point := [⟨0, 0⟩, ⟨1, 0⟩, ⟨2, 0⟩, ⟨3, 0⟩, ⟨4, 0⟩]

end ppa

namespace ppa

open zhou

/-! ### The steps of the traversal that change the tables -/

/-- The step of the traversal that starts a tree at the leaf `pid` (ppa.hpp 229-232). -/
def StartStep (es : List edge) (smoothPosition : Int → Vec2f) (st st2 : Trace) : Prop :=
  ∃ pid : Int,
    (buildNodeToEdge es pid).length = 1 ∧ pid ∉ st.visited ∧ OuterInv es st ∧
    st2 = { st with
      visited := st.visited ++ [pid]
      m_nodes := mapSet st.m_nodes pid ⟨pid, smoothPosition pid, []⟩ }

/-- The step of the traversal that follows the edge `e` of the node `c` along the chain
`chain` to the node `x2` and stores the new node and the new edge (ppa.hpp 241-272). -/
def EdgeStep (es : List edge) (smoothPosition : Int → Vec2f) (fuel : Nat) (st st2 : Trace) :
    Prop :=
  ∃ (c x2 : Int) (e : edge) (chain : List Int),
    e ∈ buildNodeToEdge es c ∧ e.other c ∉ st.visited ∧
    walkChain (buildNodeToEdge es) smoothPosition fuel (st.visited ++ [e.other c])
        [smoothPosition c] (e.other c) =
      some (st.visited ++ (chain ++ [x2]), [smoothPosition c] ++ chain.map smoothPosition, x2) ∧
    st2 = storeEdge smoothPosition st c (st.visited ++ (chain ++ [x2]))
      ([smoothPosition c] ++ chain.map smoothPosition) x2 ∧
    TableInv st ∧ c ∈ st.m_nodes.map Prod.fst ∧ c ∈ st.visited ∧
    (st.visited ++ (chain ++ [x2])).Nodup ∧
    (∀ k ∈ chain, (buildNodeToEdge es k).length = 2) ∧
    (buildNodeToEdge es x2).length ≠ 2 ∧
    (∀ k ∈ st.visited, buildNodeToEdge es k ≠ [])

/-- The update of one entry of a map by `f`, entry by entry. -/
def updEntry {β : Type} (k : Int) (f : β → β) (kv : Int × β) : Int × β :=
  if kv.1 = k then (k, f kv.2) else kv

/-- The node and edge tables are consistent with each other and with the degrees. -/
structure TableCons (es : List edge) (st : Trace) : Prop where
  node_id : ∀ kv ∈ st.m_nodes, kv.2.id = kv.1
  edge_id : ∀ kv ∈ st.m_edges, kv.2.id = kv.1
  edge_keys : st.m_edges.map Prod.fst =
    (List.range st.m_edges.length).map (fun i : Nat => (i : Int))
  counter : st.edgeidcounter = (st.m_edges.length : Int)
  node_edges : ∀ kv ∈ st.m_nodes,
    kv.2.edges =
      (st.m_edges.filter
        (fun f => decide (f.2.node_start = kv.1 ∨ f.2.node_end = kv.1))).map Prod.fst
  degree : ∀ k ∈ st.visited,
    (k ∈ st.m_nodes.map Prod.fst ↔ (buildNodeToEdge es k).length ≠ 2)

/-- The number of edge ends at the node `k`: the size of `nodetoedge[k]`. -/
def idDegree (es : List edge) (k : Int) : Nat :=
  es.countP (fun e => decide (e.id1 = k)) + es.countP (fun e => decide (e.id2 = k))

end ppa
namespace ppa

open zhou

/-! ### Definitions used by the proofs and the witnesses, third part -/

/-- The value of the grid at a cell, 0 when it is NaN. -/
def gridValue (grid : Mat Val) (p : Point) : ℚ := (grid.get p).getD 0

/-- The one-hop weighted average of C22, in exact arithmetic, following the words of the
claim: `grid_spacing · (1.01·w_v·p_v + Σ w_i·p_i) / (1.01·w_v + Σ w_i)` for the cell `pv`
with the weight `wv` and the neighbour cells with their weights. -/
def hopAverage (grid_spacing : Nat) (wv : ℚ) (pv : Point) (nbrs : List (ℚ × Point)) : ℚ × ℚ :=
  ((grid_spacing : ℚ) *
      (101 / 100 * wv * (pv.x : ℚ) + (nbrs.map (fun n => n.1 * (n.2.x : ℚ))).sum) /
      (101 / 100 * wv + (nbrs.map Prod.fst).sum),
   (grid_spacing : ℚ) *
      (101 / 100 * wv * (pv.y : ℚ) + (nbrs.map (fun n => n.1 * (n.2.y : ℚ))).sum) /
      (101 / 100 * wv + (nbrs.map Prod.fst).sum))

/-- The neighbours of the node `k` as the smoothing loop reads them (ppa.hpp 207-209): for
every edge of `nodetoedge[k]` the cell `nodetoposition[e.other(k)]` and the grid value
there. -/
def neighbourWeights (grid : Mat Val) (es : List edge) (k : Int) : List (ℚ × Point) :=
  (buildNodeToEdge es k).map (fun e =>
    (gridValue grid (buildNodeToPosition es (e.other k)), buildNodeToPosition es (e.other k)))

/-- The average of C22 as the claim states it, with the magnitudes of the grid values as
weights. -/
def magnitudeAverage (grid : Mat Val) (grid_spacing : Nat) (es : List edge) (k : Int) : ℚ × ℚ :=
  hopAverage grid_spacing |gridValue grid (buildNodeToPosition es k)| (buildNodeToPosition es k)
    ((neighbourWeights grid es k).map (fun n => (|n.1|, n.2)))

/-- The average with the grid values themselves as weights. -/
def signedAverage (grid : Mat Val) (grid_spacing : Nat) (es : List edge) (k : Int) : ℚ × ℚ :=
  hopAverage grid_spacing (gridValue grid (buildNodeToPosition es k)) (buildNodeToPosition es k)
    (neighbourWeights grid es k)

end ppa
namespace ppa

open zhou

/-! ### The node ids along the path of a `FeatureEdge` -/

/-- The steps of a list of node ids: the pairs of consecutive ids. -/
def hopSteps (hop : List Int) : List (Int × Int) := hop.zip hop.tail

/-- The interior of a list of node ids: all but the first and the last. -/
def interior (hop : List Int) : List Int := hop.tail.dropLast

/-- The edge `e` joins the two ids of the step `s`. -/
def covers (e : edge) (s : Int × Int) : Bool :=
  decide ((e.id1 = s.1 ∧ e.id2 = s.2) ∨ (e.id1 = s.2 ∧ e.id2 = s.1))

/-- The number 1 when both ends of the edge `e` are in the list `W`, else 0. -/
def spans (W : List Int) (e : edge) : Nat := if e.id1 ∈ W ∧ e.id2 ∈ W then 1 else 0

/-- The node `x` is new and is reached from the node `u` of `W`, through the only edge
from `x` into `W`. -/
def BackLink (es : List edge) (W : List Int) (u x : Int) : Prop :=
  u ∈ W ∧ x ∉ W ∧
    ∃ e0 ∈ buildNodeToEdge es x, e0.other x = u ∧
      ∀ e ∈ buildNodeToEdge es x, e.other x ∈ W → e = e0

/-- The nodes of the list are visited one after the other, starting from the node `u` of
`W`: each one is new and is reached from the one before through its only edge into the
nodes visited before it. -/
def Hops (es : List edge) : List Int → Int → List Int → Prop
  | _, _, [] => True
  | W, u, x :: rest => BackLink es W u x ∧ Hops es (W ++ [x]) x rest

/-- The list `hop` of node ids is the simple path of the edge set that the `FeatureEdge`
stores: the path of the edge holds the smoothed positions of the ids of `hop`, in order;
`hop` starts at `node_start`, ends at `node_end`, has at least two ids and repeats none;
consecutive ids are joined by an edge of the edge set; and every id in the interior has
exactly two edge ends. -/
structure HopOf (es : List edge) (smoothPosition : Int → Vec2f) (fe : FeatureEdge)
    (hop : List Int) : Prop where
  path : fe.path = hop.map smoothPosition
  first : hop.head? = some fe.node_start
  last : hop.getLast? = some fe.node_end
  len : 2 ≤ hop.length
  nodup : hop.Nodup
  linked : ∀ s ∈ hopSteps hop, ∃ e ∈ es, covers e s = true
  mid : ∀ k ∈ interior hop, idDegree es k = 2

/-- The invariant of the traversal about the paths of the stored edges: `hops` lists the
node ids along the path of every stored edge; `old` holds the nodes of the trees traversed
before and `cur` the visited nodes of the current tree; the interiors hold the visited
nodes with two edges, each once; and every edge of the edge set with both ends visited is
joined by exactly one step, every other edge by none. -/
structure HopInv (es : List edge) (smoothPosition : Int → Vec2f) (st : Trace)
    (hops : List (List Int)) (old cur : List Int) : Prop where
  hop : List.Forall₂ (fun kv hop => HopOf es smoothPosition kv.2 hop) st.m_edges hops
  vis : st.visited = old ++ cur
  closed : Closed es old
  nd : st.visited.Nodup
  tight : cur = [] ∨ inner (ends es) cur.toFinset + 1 = cur.length
  mid_nd : (hops.flatMap interior).Nodup
  mid_iff : ∀ k, k ∈ hops.flatMap interior ↔
    k ∈ st.visited ∧ (buildNodeToEdge es k).length = 2
  cover : ∀ e ∈ es, (hops.flatMap hopSteps).countP (covers e) = spans st.visited e

end ppa

namespace zhou

/-! ## Loops -/

theorem foldl_invariant {σ α : Type} (P : σ → Prop) (f : σ → α → σ) (l : List α) (init : σ)
    (h0 : P init) (hstep : ∀ st a, a ∈ l → P st → P (f st a)) : P (l.foldl f init) := by
  induction l generalizing init with
  | nil => simpa using h0
  | cons a l ih =>
    simp only [List.foldl_cons]
    apply ih
    · exact hstep init a (List.mem_cons_self a l) h0
    · intro st b hb hst
      exact hstep st b (List.mem_cons_of_mem a hb) hst

theorem forCells_invariant {σ : Type} (P : σ → Prop) (rows cols : Nat) (body : σ → Nat → Nat → σ)
    (init : σ) (h0 : P init)
    (hstep : ∀ st i j, i < rows → j < cols → P st → P (body st i j)) :
    P (forCells rows cols body init) := by
  unfold forCells
  apply foldl_invariant P _ _ _ h0
  intro st i hi hst
  apply foldl_invariant P _ _ _ hst
  intro st2 j hj hst2
  exact hstep st2 i j (List.mem_range.mp hi) (List.mem_range.mp hj) hst2

theorem contains_cell {α : Type} (m : Mat α) (i j : Nat) (hi : i < m.rows) (hj : j < m.cols) :
    m.contains ⟨(j : Int), (i : Int)⟩ = true := by
  simp [Mat.contains, hi, hj]

/-! ## C1 -/

theorem boundaryLoop_unmasked (mask : Mat Bool) (p : Point) (pvalue : Val) (st : Assembly)
    (hmask : ∀ q, mask.contains q = true → mask.get q = false) (ds : List Point) :
    boundaryLoop mask p pvalue st ds = st := by
  induction ds with
  | nil => rfl
  | cons d ds ih =>
    have h : (mask.contains (p + d) && mask.get (p + d)) = false := by
      cases hc : mask.contains (p + d) with
      | false => simp
      | true => simp [hmask _ hc]
    simp [boundaryLoop, h, ih]

theorem cellStep_unmasked (rnd : ℚ → ℚ) (synthesis : Mat Val) (mask seam_mask : Mat Bool)
    (st : Assembly) (p : Point)
    (hmask : ∀ q, mask.contains q = true → mask.get q = false) (hp : mask.contains p = true) :
    cellStep rnd synthesis mask seam_mask st p = st := by
  unfold cellStep
  simp only [hmask p hp]
  split
  · rfl
  · simp [boundaryLoop_unmasked mask p _ st hmask]

theorem assemble_unmasked (rnd : ℚ → ℚ) (synthesis : Mat Val) (mask seam_mask : Mat Bool)
    (hmask : ∀ q, mask.contains q = true → mask.get q = false) :
    assemble rnd synthesis mask seam_mask = Assembly.init mask.rows mask.cols := by
  unfold assemble
  apply forCells_invariant (fun st => st = Assembly.init mask.rows mask.cols)
  · rfl
  · intro st i j hi hj hst
    rw [cellStep_unmasked rnd synthesis mask seam_mask st _ hmask (contains_cell mask i j hi hj)]
    exact hst

theorem poissonSeamRemoval_unmasked (rnd : ℚ → ℚ) (solve : LinSystem → Nat → Val)
    (synthesis : Mat Val) (mask seam_mask : Mat Bool)
    (hmask : ∀ q, mask.contains q = true → mask.get q = false) :
    poissonSeamRemoval rnd solve synthesis mask seam_mask = synthesis := by
  unfold poissonSeamRemoval
  simp only [assemble_unmasked rnd synthesis mask seam_mask hmask]
  rfl

/-- C1: with a mask that is false on every cell of the extent, `poissonSeamRemoval`
assembles no row (no triplet, no right-hand side), allocates no unknown, and returns the
field unchanged, whatever the field, the seam field and the solver are. -/
theorem poissonSeamRemoval_empty_mask (rnd : ℚ → ℚ) (solve : LinSystem → Nat → Val)
    (synthesis : Mat Val) (mask seam_mask : Mat Bool)
    (hmask : ∀ q, mask.contains q = true → mask.get q = false) :
    (assemble rnd synthesis mask seam_mask).row = 0 ∧
    (assemble rnd synthesis mask seam_mask).triplet_list = [] ∧
    (assemble rnd synthesis mask seam_mask).b_list = [] ∧
    (assemble rnd synthesis mask seam_mask).idToPoint = [] ∧
    poissonSeamRemoval rnd solve synthesis mask seam_mask = synthesis := by
  have h := assemble_unmasked rnd synthesis mask seam_mask hmask
  exact ⟨by rw [h]; rfl, by rw [h]; rfl, by rw [h]; rfl, by rw [h]; rfl,
    poissonSeamRemoval_unmasked rnd solve synthesis mask seam_mask hmask⟩

/-- Witness for C1: a 2×3 ramp with an all-false mask is returned unchanged. -/
theorem poissonSeamRemoval_empty_mask_witness :
    poissonSeamRemoval id (fun _ _ => some 7) ⟨2, 3, fun _ j => some (j : ℚ)⟩
      (Mat.fill 2 3 false) (Mat.fill 2 3 true) = ⟨2, 3, fun _ j => some (j : ℚ)⟩ :=
  (poissonSeamRemoval_empty_mask id (fun _ _ => some 7) ⟨2, 3, fun _ j => some (j : ℚ)⟩
    (Mat.fill 2 3 false) (Mat.fill 2 3 true) (fun _ _ => rfl)).2.2.2.2

end zhou

namespace zhou

/-! ## The grid indexer -/

@[simp] theorem Mat.get_set {α : Type} (m : Mat α) (p q : Point) (v : α) :
    (m.set p v).get q = if q = p then v else m.get q := by
  unfold Mat.get Mat.set
  by_cases h : q = p
  · subst h; simp
  · have : ¬ (q.y = p.y ∧ q.x = p.x) := by
      intro hh; apply h; cases q; cases p; simp_all
    simp [this, h]

@[simp] theorem Mat.contains_set {α : Type} (m : Mat α) (p q : Point) (v : α) :
    (m.set p v).contains q = m.contains q := rfl

theorem indexInv_init (rows cols : Nat) : IndexInv (Assembly.init rows cols) := by
  constructor
  · intro i q
    simp [Assembly.init, Mat.fill, Mat.get]
  · intro q _
    rfl

theorem IndexInv.mem_iff {st : Assembly} (h : IndexInv st) (q : Point) :
    q ∈ st.idToPoint ↔ 0 ≤ st.pointToid.get q := by
  constructor
  · intro hq
    obtain ⟨i, hi⟩ := List.mem_iff_getElem?.mp hq
    rw [(h.inv i q).mp hi]
    exact Int.natCast_nonneg i
  · intro hq
    by_contra hn
    rw [h.neg q hn] at hq
    omega

theorem getid_seen {st : Assembly} (h : IndexInv st) (p : Point) (hp : p ∈ st.idToPoint) :
    getid st p = (st.idToPoint.indexOf p, st) := by
  have h0 := (h.mem_iff p).mp hp
  have hlt : st.idToPoint.indexOf p < st.idToPoint.length := List.indexOf_lt_length.mpr hp
  have hget : st.idToPoint[st.idToPoint.indexOf p]? = some p := by
    rw [List.getElem?_eq_getElem hlt]
    simp
  have := (h.inv _ p).mp hget
  unfold getid
  simp only [this]
  simp

theorem getid_new {st : Assembly} (h : IndexInv st) (p : Point) (hp : p ∉ st.idToPoint) :
    getid st p = (st.idToPoint.length,
      { st with idToPoint := st.idToPoint ++ [p]
                pointToid := st.pointToid.set p (st.idToPoint.length : Int) }) := by
  unfold getid
  simp [h.neg p hp]

theorem getid_inv {st : Assembly} (h : IndexInv st) (p : Point) : IndexInv (getid st p).2 := by
  by_cases hp : p ∈ st.idToPoint
  · rw [getid_seen h p hp]; exact h
  · rw [getid_new h p hp]
    constructor
    · intro i q
      simp only [Mat.get_set]
      by_cases hq : q = p
      · subst hq
        simp only [if_true]
        constructor
        · intro hi
          rcases Nat.lt_trichotomy i st.idToPoint.length with hlt | heq | hgt
          · rw [List.getElem?_append_left hlt] at hi
            exact absurd (List.mem_iff_getElem?.mpr ⟨i, hi⟩) hp
          · rw [heq]
          · rw [List.getElem?_eq_none (by simp; omega)] at hi
            cases hi
        · intro hi
          have : i = st.idToPoint.length := by exact_mod_cast hi.symm
          subst this
          simp
      · simp only [hq, if_false]
        rw [← h.inv i q]
        rcases Nat.lt_trichotomy i st.idToPoint.length with hlt | heq | hgt
        · rw [List.getElem?_append_left hlt]
        · subst heq
          simp
          exact fun hh => hq hh.symm
        · rw [List.getElem?_eq_none (by simp; omega), List.getElem?_eq_none (by omega)]
    · intro q hq
      simp only [List.mem_append, List.mem_singleton, not_or] at hq
      simp only [Mat.get_set, hq.2, if_false]
      exact h.neg q hq.1

end zhou

namespace zhou

theorem requestIds_append (st : Assembly) (ps : List Point) (p : Point) :
    requestIds st (ps ++ [p]) =
      ((requestIds st ps).1 ++ [(getid (requestIds st ps).2 p).1],
        (getid (requestIds st ps).2 p).2) := by
  simp [requestIds, List.foldl_append]

theorem firstTouch_append (ps : List Point) (p : Point) :
    ((ps ++ [p]).reverse.dedup).reverse =
      if p ∈ ps then (ps.reverse.dedup).reverse else (ps.reverse.dedup).reverse ++ [p] := by
  rw [List.reverse_append, List.reverse_singleton, List.singleton_append]
  by_cases hp : p ∈ ps
  · rw [List.dedup_cons_of_mem (List.mem_reverse.mpr hp)]
    simp [hp]
  · rw [List.dedup_cons_of_not_mem (fun h => hp (List.mem_reverse.mp h))]
    simp [hp]

theorem mem_firstTouch (ps : List Point) (q : Point) :
    q ∈ (ps.reverse.dedup).reverse ↔ q ∈ ps := by
  simp

theorem requestIds_spec (rows cols : Nat) (ps : List Point) :
    IndexInv (requestIds (Assembly.init rows cols) ps).2 ∧
    (requestIds (Assembly.init rows cols) ps).2.idToPoint = (ps.reverse.dedup).reverse ∧
    (requestIds (Assembly.init rows cols) ps).1 =
      ps.map (fun q => (requestIds (Assembly.init rows cols) ps).2.idToPoint.indexOf q) := by
  induction ps using List.reverseRecOn with
  | nil => exact ⟨indexInv_init rows cols, rfl, rfl⟩
  | append_singleton ps p ih =>
    obtain ⟨hinv, hlist, hids⟩ := ih
    rw [requestIds_append]
    refine ⟨getid_inv hinv p, ?_, ?_⟩
    · rw [firstTouch_append]
      by_cases hp : p ∈ ps
      · have hp2 : p ∈ (requestIds (Assembly.init rows cols) ps).2.idToPoint := by
          rw [hlist]; exact (mem_firstTouch ps p).mpr hp
        simp only [getid_seen hinv p hp2, hp, if_true]
        exact hlist
      · have hp2 : p ∉ (requestIds (Assembly.init rows cols) ps).2.idToPoint := by
          rw [hlist]; exact fun h => hp ((mem_firstTouch ps p).mp h)
        simp only [getid_new hinv p hp2, hp, if_false]
        rw [hlist]
    · by_cases hp2 : p ∈ (requestIds (Assembly.init rows cols) ps).2.idToPoint
      · simp only [getid_seen hinv p hp2, List.map_append, List.map_cons, List.map_nil]
        rw [← hids]
      · simp only [getid_new hinv p hp2, List.map_append, List.map_cons, List.map_nil]
        congr 1
        · rw [hids]
          apply List.map_congr_left
          intro q hq
          have hq2 : q ∈ (requestIds (Assembly.init rows cols) ps).2.idToPoint := by
            rw [hlist]; exact (mem_firstTouch ps q).mpr hq
          rw [List.indexOf_append_of_mem hq2]
        · rw [List.indexOf_append_of_not_mem hp2]
          simp

/-- C7: after any sequence `ps` of id requests the table `pointToid` and the list
`idToPoint` are inverse to each other (`idToPoint[i] = q` exactly when `pointToid(q) = i`),
the table is `-1` at every coordinate never requested, the list holds the requested
coordinates without repetition in first-touch order, and every request was answered with
the position of its coordinate in that list; a further request for a coordinate seen
before returns that id and changes nothing, and a request for a new coordinate returns
the current count, appends the coordinate and records the id in the table. -/
theorem getid_bijection (rows cols : Nat) (ps : List Point) (p : Point) :
    (∀ (i : Nat) (q : Point),
      (requestIds (Assembly.init rows cols) ps).2.idToPoint[i]? = some q ↔
        (requestIds (Assembly.init rows cols) ps).2.pointToid.get q = (i : Int)) ∧
    (∀ q, q ∉ ps → (requestIds (Assembly.init rows cols) ps).2.pointToid.get q = -1) ∧
    (requestIds (Assembly.init rows cols) ps).2.idToPoint = (ps.reverse.dedup).reverse ∧
    (requestIds (Assembly.init rows cols) ps).2.idToPoint.Nodup ∧
    (requestIds (Assembly.init rows cols) ps).1 =
      ps.map (fun q => (requestIds (Assembly.init rows cols) ps).2.idToPoint.indexOf q) ∧
    (p ∈ ps → getid (requestIds (Assembly.init rows cols) ps).2 p =
      ((requestIds (Assembly.init rows cols) ps).2.idToPoint.indexOf p,
        (requestIds (Assembly.init rows cols) ps).2)) ∧
    (p ∉ ps → getid (requestIds (Assembly.init rows cols) ps).2 p =
      ((requestIds (Assembly.init rows cols) ps).2.idToPoint.length,
        { (requestIds (Assembly.init rows cols) ps).2 with
          idToPoint := (requestIds (Assembly.init rows cols) ps).2.idToPoint ++ [p]
          pointToid := (requestIds (Assembly.init rows cols) ps).2.pointToid.set p
            ((requestIds (Assembly.init rows cols) ps).2.idToPoint.length : Int) })) := by
  obtain ⟨hinv, hlist, hids⟩ := requestIds_spec rows cols ps
  have hmem : ∀ q, q ∈ (requestIds (Assembly.init rows cols) ps).2.idToPoint ↔ q ∈ ps := by
    intro q; rw [hlist]; exact mem_firstTouch ps q
  refine ⟨hinv.inv, ?_, hlist, ?_, hids, ?_, ?_⟩
  · intro q hq
    exact hinv.neg q (fun h => hq ((hmem q).mp h))
  · rw [hlist]
    exact List.nodup_reverse.mpr (List.nodup_dedup _)
  · intro hp
    exact getid_seen hinv p ((hmem p).mpr hp)
  · intro hp
    exact getid_new hinv p (fun h => hp ((hmem p).mp h))

/-- Witness for C7: after the requests (1,1), (0,2), (1,1) on a 3×3 extent, the
coordinate (0,2), seen before, gets its id 1 back and the state is unchanged, and the new
coordinate (2,2) gets the next id 2. -/
theorem getid_bijection_witness :
    (getid (requestIds (Assembly.init 3 3) [⟨1, 1⟩, ⟨0, 2⟩, ⟨1, 1⟩]).2 ⟨0, 2⟩).1 = 1 ∧
    (getid (requestIds (Assembly.init 3 3) [⟨1, 1⟩, ⟨0, 2⟩, ⟨1, 1⟩]).2 ⟨0, 2⟩).2.idToPoint =
      (requestIds (Assembly.init 3 3) [⟨1, 1⟩, ⟨0, 2⟩, ⟨1, 1⟩]).2.idToPoint ∧
    (getid (requestIds (Assembly.init 3 3) [⟨1, 1⟩, ⟨0, 2⟩, ⟨1, 1⟩]).2 ⟨2, 2⟩).1 = 2 := by
  have h1 := (getid_bijection 3 3 [⟨1, 1⟩, ⟨0, 2⟩, ⟨1, 1⟩] ⟨0, 2⟩).2.2.2.2.2.1 (by decide)
  have h2 := (getid_bijection 3 3 [⟨1, 1⟩, ⟨0, 2⟩, ⟨1, 1⟩] ⟨2, 2⟩).2.2.2.2.2.2 (by decide)
  refine ⟨?_, ?_, ?_⟩
  · rw [h1]; decide
  · rw [h1]
  · rw [h2]; decide

end zhou

namespace zhou

/-! ## Which cells are written -/

theorem mem_cellList (rows cols : Nat) (c : Nat × Nat) :
    c ∈ cellList rows cols ↔ c.1 < rows ∧ c.2 < cols := by
  obtain ⟨i, j⟩ := c
  simp [cellList, List.mem_flatMap]

theorem forCells_eq_foldl {σ : Type} (rows cols : Nat) (body : σ → Nat → Nat → σ) (init : σ) :
    forCells rows cols body init =
      (cellList rows cols).foldl (fun st c => body st c.1 c.2) init := by
  unfold forCells cellList List.flatMap
  rw [List.foldl_flatten, List.foldl_map]
  congr 1
  funext st i
  rw [List.foldl_map]

theorem foldl_set_get_of_not_target {α γ : Type} (cond : γ → Bool) (tgt : γ → Point)
    (val : γ → α) (q : Point) (l : List γ) (init : Mat α)
    (h : ∀ c ∈ l, cond c = true → tgt c ≠ q) :
    (l.foldl (fun s c => if cond c then s.set (tgt c) (val c) else s) init).get q = init.get q := by
  refine foldl_invariant (fun s : Mat α => s.get q = init.get q) _ l init rfl ?_
  intro st c hc hst
  by_cases hcond : cond c = true
  · simp only [hcond, if_true, Mat.get_set]
    rw [if_neg (fun hq => h c hc hcond hq.symm)]
    exact hst
  · simp only [hcond]
    exact hst

theorem foldl_set_true_get {γ : Type} (cond : γ → Bool) (tgt : γ → Point) (q : Point)
    (l : List γ) (init : Mat Bool) :
    (l.foldl (fun s c => if cond c then s.set (tgt c) true else s) init).get q = true ↔
      init.get q = true ∨ ∃ c ∈ l, cond c = true ∧ tgt c = q := by
  induction l generalizing init with
  | nil => simp
  | cons a l ih =>
    rw [List.foldl_cons, ih]
    by_cases hcond : cond a = true
    · simp only [hcond, if_true, Mat.get_set]
      by_cases hq : q = tgt a
      · simp [hq, hcond]
      · have hq2 : ¬ tgt a = q := fun h => hq h.symm
        simp [hq, hq2]
    · simp [hcond]

theorem placeMask_get (synthesis : Mat Val) (mask : Mat Bool) (pos : Int × Int) (q : Point) :
    (placeMask synthesis mask pos).get q = true ↔
      ∃ c ∈ cellList mask.rows mask.cols,
        (synthesis.contains (target pos c) && mask.data c.1 c.2) = true ∧ target pos c = q := by
  unfold placeMask
  rw [forCells_eq_foldl]
  have := foldl_set_true_get
    (fun c : Nat × Nat => synthesis.contains (target pos c) && mask.data c.1 c.2)
    (target pos) q (cellList mask.rows mask.cols) (Mat.fill synthesis.rows synthesis.cols false)
  simp only [target] at this ⊢
  rw [this]
  simp [Mat.fill, Mat.get]

theorem placeValues_get_of_unmasked (synthesis patch : Mat Val) (mask : Mat Bool)
    (pos : Int × Int) (q : Point) (hq : (placeMask synthesis mask pos).get q = false) :
    (placeValues synthesis patch mask pos).get q = synthesis.get q := by
  unfold placeValues
  rw [forCells_eq_foldl]
  apply foldl_set_get_of_not_target
    (fun c : Nat × Nat => synthesis.contains (target pos c) && mask.data c.1 c.2)
    (target pos) (fun c : Nat × Nat => patch.data c.1 c.2) q
  intro c hc hcond htgt
  have : (placeMask synthesis mask pos).get q = true :=
    (placeMask_get synthesis mask pos q).mpr ⟨c, hc, hcond, htgt⟩
  rw [hq] at this
  cases this

theorem scatterFrom_get_of_not_mem (x : Nat → Val) (q : Point) (ps : List Point) (i : Nat)
    (s : Mat Val) (hq : q ∉ ps) : (scatterFrom x i ps s).get q = s.get q := by
  induction ps generalizing i s with
  | nil => rfl
  | cons p ps ih =>
    simp only [List.mem_cons, not_or] at hq
    simp only [scatterFrom]
    rw [ih _ _ hq.2, Mat.get_set, if_neg hq.1]

/-! ## Which cells get an unknown -/

theorem getid_mem (st : Assembly) (p q : Point) (hq : q ∈ (getid st p).2.idToPoint) :
    q ∈ st.idToPoint ∨ q = p := by
  by_cases h : st.pointToid.get p < 0
  · simpa [getid, h] using hq
  · left
    simpa [getid, h] using hq

@[simp] theorem emplace_idToPoint (st : Assembly) (p : Point) (v : ℚ) :
    (emplace st p v).idToPoint = (getid st p).2.idToPoint := rfl

@[simp] theorem pushRow_idToPoint (st : Assembly) (v : Val) :
    (pushRow st v).idToPoint = st.idToPoint := rfl

theorem addNeighbour_mem (rnd : ℚ → ℚ) (synthesis : Mat Val) (mask : Mat Bool) (q : Point)
    (acc : Assembly × Val × Nat) (x : Point)
    (hx : x ∈ (addNeighbour rnd synthesis mask q acc).1.idToPoint) :
    x ∈ acc.1.idToPoint ∨ (x = q ∧ mask.contains q = true ∧ mask.get q = true) := by
  unfold addNeighbour at hx
  split at hx
  next h =>
    simp only [Bool.and_eq_true] at h
    rcases getid_mem _ _ _ hx with h1 | h1
    · exact Or.inl h1
    · exact Or.inr ⟨h1, h.1, h.2⟩
  next h => exact Or.inl hx

theorem closeAxis_mem (rnd : ℚ → ℚ) (seam_mask : Mat Bool) (p : Point) (pvalue : Val)
    (acc : Assembly × Val × Nat) (x : Point)
    (hx : x ∈ (closeAxis rnd seam_mask p pvalue acc).idToPoint) :
    x ∈ acc.1.idToPoint ∨ x = p := by
  unfold closeAxis at hx
  split at hx
  · exact getid_mem _ _ _ hx
  · exact Or.inl hx

theorem axisRow_mem (rnd : ℚ → ℚ) (synthesis : Mat Val) (mask seam_mask : Mat Bool)
    (p n1 n2 : Point) (pvalue : Val) (st : Assembly) (x : Point)
    (hx : x ∈ (axisRow rnd synthesis mask seam_mask p n1 n2 pvalue st).idToPoint) :
    x ∈ st.idToPoint ∨ x = p ∨ (mask.contains x = true ∧ mask.get x = true) := by
  unfold axisRow at hx
  rcases closeAxis_mem _ _ _ _ _ _ hx with h | h
  · rcases addNeighbour_mem _ _ _ _ _ _ h with h | ⟨h, hc, hm⟩
    · rcases addNeighbour_mem _ _ _ _ _ _ h with h | ⟨h, hc, hm⟩
      · exact Or.inl h
      · subst h; exact Or.inr (Or.inr ⟨hc, hm⟩)
    · subst h; exact Or.inr (Or.inr ⟨hc, hm⟩)
  · exact Or.inr (Or.inl h)

theorem boundaryLoop_mem (mask : Mat Bool) (p : Point) (pvalue : Val) (st : Assembly)
    (ds : List Point) (x : Point) (hx : x ∈ (boundaryLoop mask p pvalue st ds).idToPoint) :
    x ∈ st.idToPoint ∨
      (x = p ∧ ds.any (fun d => mask.contains (p + d) && mask.get (p + d)) = true) := by
  induction ds with
  | nil => exact Or.inl hx
  | cons d ds ih =>
    unfold boundaryLoop at hx
    split at hx
    next h =>
      rcases getid_mem _ _ _ hx with h1 | h1
      · exact Or.inl h1
      · refine Or.inr ⟨h1, ?_⟩
        simp only [List.any_cons, h, Bool.true_or]
    next h =>
      rcases ih hx with h1 | ⟨h1, h2⟩
      · exact Or.inl h1
      · refine Or.inr ⟨h1, ?_⟩
        simp only [List.any_cons, h2, Bool.or_true]

theorem cellStep_mem (rnd : ℚ → ℚ) (synthesis : Mat Val) (mask seam_mask : Mat Bool)
    (st : Assembly) (p : Point) (hp : mask.contains p = true) (x : Point)
    (hx : x ∈ (cellStep rnd synthesis mask seam_mask st p).idToPoint) :
    x ∈ st.idToPoint ∨ mask.get x = true ∨ dirichletCell synthesis mask x = true := by
  unfold cellStep at hx
  simp only at hx
  split at hx
  · exact Or.inl hx
  next hnan =>
    split at hx
    next hm =>
      rcases axisRow_mem _ _ _ _ _ _ _ _ _ _ hx with h | h | h
      · rcases axisRow_mem _ _ _ _ _ _ _ _ _ _ h with h | h | h
        · exact Or.inl h
        · subst h; exact Or.inr (Or.inl hm)
        · exact Or.inr (Or.inl h.2)
      · subst h; exact Or.inr (Or.inl hm)
      · exact Or.inr (Or.inl h.2)
    next hm =>
      rcases boundaryLoop_mem _ _ _ _ _ _ hx with h | ⟨h, hany⟩
      · exact Or.inl h
      · subst h
        refine Or.inr (Or.inr ?_)
        unfold dirichletCell
        simp only [hp, hany, Bool.and_true, Bool.true_and, Bool.and_eq_true, Bool.not_eq_true']
        exact ⟨by simpa using hnan, by simpa using hm⟩

theorem assemble_mem (rnd : ℚ → ℚ) (synthesis : Mat Val) (mask seam_mask : Mat Bool)
    (x : Point) (hx : x ∈ (assemble rnd synthesis mask seam_mask).idToPoint) :
    mask.get x = true ∨ dirichletCell synthesis mask x = true := by
  have key : ∀ x ∈ (assemble rnd synthesis mask seam_mask).idToPoint,
      mask.get x = true ∨ dirichletCell synthesis mask x = true := by
    unfold assemble
    refine forCells_invariant
      (fun st : Assembly =>
        ∀ x ∈ st.idToPoint, mask.get x = true ∨ dirichletCell synthesis mask x = true)
      _ _ _ _ ?_ ?_
    · intro x hx
      simp [Assembly.init] at hx
    · intro st i j hi hj hst x hx
      rcases cellStep_mem _ _ _ _ _ _ (contains_cell mask i j hi hj) x hx with h | h
      · exact hst x h
      · exact h
  exact key x hx

end zhou

namespace zhou

/-! ## C2 -/

theorem placeMask_empty (synthesis : Mat Val) (mask : Mat Bool) (pos : Int × Int)
    (hout : ∀ i j : Nat, i < mask.rows → j < mask.cols →
      synthesis.contains ⟨(j : Int) + pos.1, (i : Int) + pos.2⟩ = false) (q : Point) :
    (placeMask synthesis mask pos).get q = false := by
  cases hq : (placeMask synthesis mask pos).get q with
  | false => rfl
  | true =>
    obtain ⟨c, hc, hcond, _⟩ := (placeMask_get synthesis mask pos q).mp hq
    rw [mem_cellList] at hc
    have := hout c.1 c.2 hc.1 hc.2
    simp only [target] at hcond
    rw [this] at hcond
    simp at hcond

theorem placeValues_outside (synthesis patch : Mat Val) (mask : Mat Bool) (pos : Int × Int)
    (hout : ∀ i j : Nat, i < mask.rows → j < mask.cols →
      synthesis.contains ⟨(j : Int) + pos.1, (i : Int) + pos.2⟩ = false) :
    placeValues synthesis patch mask pos = synthesis := by
  unfold placeValues
  refine forCells_invariant (fun s : Mat Val => s = synthesis) _ _ _ _ rfl ?_
  intro st i j hi hj hst
  simp only [hout i j hi hj, Bool.false_and]
  exact hst

/-- C2: after `placePatch`, every cell that is not in the placed mask and is not a cell
for which the solver emits a boundary (Dirichlet) row holds the value it had before the
call; and when the offset puts every patch cell outside the target extent, the placed
mask is false everywhere and the field is returned unchanged. -/
theorem placePatch_frame (rnd : ℚ → ℚ) (solve : LinSystem → Nat → Val)
    (synthesis patch : Mat Val) (mask : Mat Bool) (pos : Int × Int) :
    (∀ p, (placeMask synthesis mask pos).get p = false →
      dirichletCell (placeValues synthesis patch mask pos) (placeMask synthesis mask pos) p = false →
      (placePatch rnd solve synthesis patch mask pos).get p = synthesis.get p) ∧
    ((∀ i j : Nat, i < mask.rows → j < mask.cols →
        synthesis.contains ⟨(j : Int) + pos.1, (i : Int) + pos.2⟩ = false) →
      (∀ p, (placeMask synthesis mask pos).get p = false) ∧
      placePatch rnd solve synthesis patch mask pos = synthesis) := by
  constructor
  · intro p hmask hdir
    unfold placePatch poissonSeamRemoval
    simp only
    rw [scatterFrom_get_of_not_mem]
    · exact placeValues_get_of_unmasked synthesis patch mask pos p hmask
    · intro hmem
      rcases assemble_mem _ _ _ _ p hmem with h | h
      · rw [hmask] at h; cases h
      · rw [hdir] at h; cases h
  · intro hout
    refine ⟨placeMask_empty synthesis mask pos hout, ?_⟩
    unfold placePatch
    simp only
    rw [poissonSeamRemoval_unmasked, placeValues_outside synthesis patch mask pos hout]
    intro q _
    exact placeMask_empty synthesis mask pos hout q

/-- Witness for C2: a 1×4 ramp; a 1×1 patch placed on cell 1 leaves cell 3 alone, and the
same patch placed at offset (5, 5) leaves the whole field alone. -/
theorem placePatch_frame_witness :
    (placePatch id (fun _ _ => some 7) ⟨1, 4, fun _ j => some (j : ℚ)⟩ ⟨1, 1, fun _ _ => some 9⟩
      ⟨1, 1, fun _ _ => true⟩ (1, 0)).get ⟨3, 0⟩ = some 3 ∧
    placePatch id (fun _ _ => some 7) ⟨1, 4, fun _ j => some (j : ℚ)⟩ ⟨1, 1, fun _ _ => some 9⟩
      ⟨1, 1, fun _ _ => true⟩ (5, 5) = ⟨1, 4, fun _ j => some (j : ℚ)⟩ :=
  ⟨by
    have h := (placePatch_frame id (fun _ _ => some 7) ⟨1, 4, fun _ j => some (j : ℚ)⟩
      ⟨1, 1, fun _ _ => some 9⟩ ⟨1, 1, fun _ _ => true⟩ (1, 0)).1 ⟨3, 0⟩ (by decide) (by decide)
    rw [h]
    simp [Mat.get],
   ((placePatch_frame id (fun _ _ => some 7) ⟨1, 4, fun _ j => some (j : ℚ)⟩
      ⟨1, 1, fun _ _ => some 9⟩ ⟨1, 1, fun _ _ => true⟩ (5, 5)).2
      (by intro i j hi hj; simp [Mat.contains]; omega)).2⟩

end zhou

namespace zhou

/-! ## The shape of the assembled system -/

theorem cellList_nodup (rows cols : Nat) : (cellList rows cols).Nodup :=
  List.Nodup.product (List.nodup_range rows) (List.nodup_range cols)

theorem getid_get {st : Assembly} (h : IndexInv st) (p : Point) :
    (getid st p).2.idToPoint[(getid st p).1]? = some p := by
  by_cases hp : p ∈ st.idToPoint
  · rw [getid_seen h p hp]
    have hlt : st.idToPoint.indexOf p < st.idToPoint.length := List.indexOf_lt_length.mpr hp
    simp [List.getElem?_eq_getElem hlt]
  · rw [getid_new h p hp]
    simp

theorem getid_list (st : Assembly) (p : Point) :
    (getid st p).2.idToPoint = st.idToPoint ∨ (getid st p).2.idToPoint = st.idToPoint ++ [p] := by
  by_cases h : st.pointToid.get p < 0
  · right; simp [getid, h]
  · left; simp [getid, h]

@[simp] theorem getid_row (st : Assembly) (p : Point) : (getid st p).2.row = st.row := by
  by_cases h : st.pointToid.get p < 0 <;> simp [getid, h]

@[simp] theorem getid_b_list (st : Assembly) (p : Point) : (getid st p).2.b_list = st.b_list := by
  by_cases h : st.pointToid.get p < 0 <;> simp [getid, h]

@[simp] theorem getid_triplet_list (st : Assembly) (p : Point) :
    (getid st p).2.triplet_list = st.triplet_list := by
  by_cases h : st.pointToid.get p < 0 <;> simp [getid, h]

theorem getid_subset (st : Assembly) (p q : Point) (hq : q ∈ st.idToPoint) :
    q ∈ (getid st p).2.idToPoint := by
  rcases getid_list st p with h | h <;> rw [h]
  · exact hq
  · exact List.mem_append_left _ hq

theorem getElem?_lt_of_eq_some {α : Type} {l : List α} {i : Nat} {a : α} (h : l[i]? = some a) :
    i < l.length := by
  by_contra hn
  rw [List.getElem?_eq_none (by omega)] at h
  cases h

/-- An unknown of a non-masked cell keeps its index when a masked cell is requested. -/
theorem getid_old_index {st : Assembly} (p q : Point) (id : Nat) (hne : q ≠ p)
    (hq : (getid st p).2.idToPoint[id]? = some q) : st.idToPoint[id]? = some q := by
  rcases getid_list st p with h | h <;> rw [h] at hq
  · exact hq
  · rcases Nat.lt_trichotomy id st.idToPoint.length with hlt | heq | hgt
    · rwa [List.getElem?_append_left hlt] at hq
    · subst heq
      simp at hq
      exact absurd hq.symm hne
    · rw [List.getElem?_eq_none (by simp; omega)] at hq
      cases hq

theorem emplace_inv {synthesis : Mat Val} {mask : Mat Bool} {st : Assembly}
    (h : AsmInv synthesis mask st) (p : Point) (v : ℚ) (hp : mask.get p = true) :
    AsmInv synthesis mask (emplace st p v) := by
  have hidx := getid_inv h.idx p
  have hget := getid_get h.idx p
  constructor
  · exact ⟨hidx.inv, hidx.neg⟩
  · simp [emplace, h.row_eq]
  · intro t ht
    simp only [emplace, List.mem_append, List.mem_singleton, getid_triplet_list] at ht ⊢
    rcases ht with ht | ht
    · have := h.col_lt t ht
      rcases getid_list st p with hl | hl <;> rw [hl]
      · exact this
      · simp; omega
    · subst ht
      exact getElem?_lt_of_eq_some hget
  · intro id q hq hm
    have hne : q ≠ p := by
      intro hh; rw [hh, hp] at hm; cases hm
    have hold := getid_old_index p q id hne hq
    obtain ⟨r, hr, hcol, hrow, hb⟩ := h.dir id q hold hm
    refine ⟨r, by simpa [emplace] using hr, ?_, ?_, by simpa [emplace] using hb⟩
    · simp only [emplace, getid_triplet_list, List.filter_append, hcol]
      have : (getid st p).1 ≠ id := by
        intro hh
        rw [hh] at hget
        simp only [emplace_idToPoint] at hq
        rw [hq] at hget
        exact hne (Option.some.inj hget)
      simp [this]
    · simp only [emplace, getid_triplet_list, List.filter_append, hrow]
      have : st.row ≠ r := by rw [h.row_eq]; omega
      simp [this]

theorem pushRow_inv {synthesis : Mat Val} {mask : Mat Bool} {st : Assembly}
    (h : AsmInv synthesis mask st) (v : Val) : AsmInv synthesis mask (pushRow st v) := by
  constructor
  · exact ⟨h.idx.inv, h.idx.neg⟩
  · simp [pushRow, h.row_eq]
  · exact h.col_lt
  · intro id q hq hm
    obtain ⟨r, hr, hcol, hrow, hb⟩ := h.dir id q hq hm
    refine ⟨r, by simp [pushRow]; omega, hcol, hrow, ?_⟩
    simp only [pushRow]
    rw [List.getElem?_append_left hr]
    exact hb

theorem addNeighbour_inv {synthesis : Mat Val} {mask : Mat Bool} (rnd : ℚ → ℚ) (q : Point)
    (acc : Assembly × Val × Nat) (h : AsmInv synthesis mask acc.1) :
    AsmInv synthesis mask (addNeighbour rnd synthesis mask q acc).1 := by
  unfold addNeighbour
  split
  next hc =>
    simp only [Bool.and_eq_true] at hc
    exact emplace_inv h q 1 hc.2
  next => exact h

theorem closeAxis_inv {synthesis : Mat Val} {mask : Mat Bool} (rnd : ℚ → ℚ)
    (seam_mask : Mat Bool) (p : Point) (pvalue : Val) (acc : Assembly × Val × Nat)
    (hp : mask.get p = true) (h : AsmInv synthesis mask acc.1) :
    AsmInv synthesis mask (closeAxis rnd seam_mask p pvalue acc) := by
  unfold closeAxis
  split
  · exact pushRow_inv (emplace_inv h p _ hp) _
  · exact h

theorem axisRow_inv {synthesis : Mat Val} {mask : Mat Bool} (rnd : ℚ → ℚ)
    (seam_mask : Mat Bool) (p n1 n2 : Point) (pvalue : Val) (st : Assembly)
    (hp : mask.get p = true) (h : AsmInv synthesis mask st) :
    AsmInv synthesis mask (axisRow rnd synthesis mask seam_mask p n1 n2 pvalue st) := by
  unfold axisRow
  apply closeAxis_inv rnd seam_mask p pvalue _ hp
  apply addNeighbour_inv
  apply addNeighbour_inv
  exact h

end zhou

namespace zhou

theorem addNeighbour_rows (rnd : ℚ → ℚ) (synthesis : Mat Val) (mask : Mat Bool) (q : Point)
    (acc : Assembly × Val × Nat) (row0 : Nat)
    (h : acc.1.row = row0 ∧ (∀ t ∈ acc.1.triplet_list, t.row ≤ row0) ∧
      (acc.2.2 = 0 → ∀ t ∈ acc.1.triplet_list, t.row < row0)) :
    (addNeighbour rnd synthesis mask q acc).1.row = row0 ∧
    (∀ t ∈ (addNeighbour rnd synthesis mask q acc).1.triplet_list, t.row ≤ row0) ∧
    ((addNeighbour rnd synthesis mask q acc).2.2 = 0 →
      ∀ t ∈ (addNeighbour rnd synthesis mask q acc).1.triplet_list, t.row < row0) := by
  obtain ⟨h1, h2, h3⟩ := h
  unfold addNeighbour
  split
  · refine ⟨by simp [emplace, h1], ?_, by simp⟩
    intro t ht
    simp only [emplace, getid_triplet_list, List.mem_append, List.mem_singleton] at ht
    rcases ht with ht | ht
    · exact h2 t ht
    · subst ht; simp [h1]
  · exact ⟨h1, h2, h3⟩

theorem closeAxis_rowLt (rnd : ℚ → ℚ) (seam_mask : Mat Bool) (p : Point) (pvalue : Val)
    (acc : Assembly × Val × Nat) (row0 : Nat)
    (h : acc.1.row = row0 ∧ (∀ t ∈ acc.1.triplet_list, t.row ≤ row0) ∧
      (acc.2.2 = 0 → ∀ t ∈ acc.1.triplet_list, t.row < row0)) :
    RowLt (closeAxis rnd seam_mask p pvalue acc) := by
  obtain ⟨h1, h2, h3⟩ := h
  unfold closeAxis
  split
  · intro t ht
    simp only [pushRow, emplace, getid_triplet_list, List.mem_append, List.mem_singleton,
      getid_row] at ht ⊢
    rcases ht with ht | ht
    · have := h2 t ht; omega
    · subst ht; simp
  next hc =>
    intro t ht
    rw [h1]
    exact h3 (by omega) t ht

theorem axisRow_rowLt (rnd : ℚ → ℚ) (synthesis : Mat Val) (mask seam_mask : Mat Bool)
    (p n1 n2 : Point) (pvalue : Val) (st : Assembly) (h : RowLt st) :
    RowLt (axisRow rnd synthesis mask seam_mask p n1 n2 pvalue st) := by
  unfold axisRow
  apply closeAxis_rowLt rnd seam_mask p pvalue _ st.row
  apply addNeighbour_rows
  apply addNeighbour_rows
  exact ⟨rfl, fun t ht => Nat.le_of_lt (h t ht), fun _ => h⟩

theorem boundaryLoop_eq (mask : Mat Bool) (p : Point) (pvalue : Val) (st : Assembly)
    (ds : List Point) :
    boundaryLoop mask p pvalue st ds =
      if ds.any (fun d => mask.contains (p + d) && mask.get (p + d)) = true then
        pushRow (emplace st p 1) pvalue
      else st := by
  induction ds with
  | nil => simp [boundaryLoop]
  | cons d ds ih =>
    unfold boundaryLoop
    by_cases h : (mask.contains (p + d) && mask.get (p + d)) = true
    · simp [h]
    · simp only [h, List.any_cons]
      rw [ih]
      simp

/-- The boundary row of a cell without an unknown yet. -/
theorem dirichlet_step {synthesis : Mat Val} {mask : Mat Bool} {st : Assembly}
    (h : AsmInv synthesis mask st) (hrow : RowLt st) (p : Point) (hp : p ∉ st.idToPoint) :
    AsmInv synthesis mask (pushRow (emplace st p 1) (synthesis.get p)) ∧
    RowLt (pushRow (emplace st p 1) (synthesis.get p)) ∧
    (pushRow (emplace st p 1) (synthesis.get p)).idToPoint = st.idToPoint ++ [p] := by
  have hnew := getid_new h.idx p hp
  have hidx := getid_inv h.idx p
  have hts : (pushRow (emplace st p 1) (synthesis.get p)).triplet_list =
      st.triplet_list ++ [⟨st.row, st.idToPoint.length, 1⟩] := by
    simp [pushRow, emplace, hnew]
  have hb : (pushRow (emplace st p 1) (synthesis.get p)).b_list =
      st.b_list ++ [synthesis.get p] := by
    simp [pushRow, emplace]
  have hl : (pushRow (emplace st p 1) (synthesis.get p)).idToPoint = st.idToPoint ++ [p] := by
    simp [pushRow, emplace, hnew]
  have hr : (pushRow (emplace st p 1) (synthesis.get p)).row = st.row + 1 := by
    simp [pushRow, emplace]
  refine ⟨?_, ?_, hl⟩
  · constructor
    · exact ⟨hidx.inv, hidx.neg⟩
    · rw [hr, hb, h.row_eq]; simp
    · intro t ht
      rw [hts] at ht
      rw [hl]
      simp only [List.mem_append, List.mem_singleton] at ht
      rcases ht with ht | ht
      · have := h.col_lt t ht
        simp; omega
      · subst ht; simp
    · intro id q hq hm
      rw [hl] at hq
      unfold DirRec
      rw [hts, hb]
      rcases Nat.lt_trichotomy id st.idToPoint.length with hlt | heq | hgt
      · rw [List.getElem?_append_left hlt] at hq
        obtain ⟨r, hr1, hcol, hrow1, hb1⟩ := h.dir id q hq hm
        refine ⟨r, by simp; omega, ?_, ?_, ?_⟩
        · rw [List.filter_append, hcol]
          have : st.idToPoint.length ≠ id := by omega
          simp [this]
        · rw [List.filter_append, hrow1]
          have : st.row ≠ r := by rw [h.row_eq]; omega
          simp [this]
        · rw [List.getElem?_append_left hr1]
          exact hb1
      · subst heq
        simp at hq
        subst hq
        refine ⟨st.row, by rw [h.row_eq]; simp, ?_, ?_, ?_⟩
        · rw [List.filter_append]
          have : st.triplet_list.filter (fun t => t.col = st.idToPoint.length) = [] := by
            rw [List.filter_eq_nil_iff]
            intro t ht
            have := h.col_lt t ht
            simp; omega
          rw [this]
          simp
        · rw [List.filter_append]
          have : st.triplet_list.filter (fun t => t.row = st.row) = [] := by
            rw [List.filter_eq_nil_iff]
            intro t ht
            have := hrow t ht
            simp; omega
          rw [this]
          simp
        · rw [h.row_eq]
          simp
      · rw [List.getElem?_eq_none (by simp; omega)] at hq
        cases hq
  · intro t ht
    rw [hts] at ht
    rw [hr]
    simp only [List.mem_append, List.mem_singleton] at ht
    rcases ht with ht | ht
    · have := hrow t ht; omega
    · subst ht; simp

theorem addNeighbour_subset (rnd : ℚ → ℚ) (synthesis : Mat Val) (mask : Mat Bool) (q : Point)
    (acc : Assembly × Val × Nat) (x : Point) (hx : x ∈ acc.1.idToPoint) :
    x ∈ (addNeighbour rnd synthesis mask q acc).1.idToPoint := by
  unfold addNeighbour
  split
  · exact getid_subset _ _ _ hx
  · exact hx

theorem closeAxis_subset (rnd : ℚ → ℚ) (seam_mask : Mat Bool) (p : Point) (pvalue : Val)
    (acc : Assembly × Val × Nat) (x : Point) (hx : x ∈ acc.1.idToPoint) :
    x ∈ (closeAxis rnd seam_mask p pvalue acc).idToPoint := by
  unfold closeAxis
  split
  · exact getid_subset _ _ _ hx
  · exact hx

theorem axisRow_subset (rnd : ℚ → ℚ) (synthesis : Mat Val) (mask seam_mask : Mat Bool)
    (p n1 n2 : Point) (pvalue : Val) (st : Assembly) (x : Point) (hx : x ∈ st.idToPoint) :
    x ∈ (axisRow rnd synthesis mask seam_mask p n1 n2 pvalue st).idToPoint := by
  unfold axisRow
  apply closeAxis_subset
  apply addNeighbour_subset
  apply addNeighbour_subset
  exact hx

end zhou

namespace zhou

theorem cellPoint_injective {c d : Nat × Nat} (h : cellPoint c = cellPoint d) : c = d := by
  obtain ⟨c1, c2⟩ := c
  obtain ⟨d1, d2⟩ := d
  simp only [cellPoint, Point.mk.injEq, Nat.cast_inj] at h
  simp [h.1, h.2]

theorem loopInv_init (synthesis : Mat Val) (mask : Mat Bool) (rows cols : Nat) :
    LoopInv synthesis mask (Assembly.init rows cols) [] := by
  constructor
  · constructor
    · exact indexInv_init rows cols
    · rfl
    · intro t ht; simp [Assembly.init] at ht
    · intro id q hq; simp [Assembly.init] at hq
  · intro t ht; simp [Assembly.init] at ht
  · intro c hc; simp at hc
  · intro q hq; simp [Assembly.init] at hq

theorem cellStep_loopInv (rnd : ℚ → ℚ) (synthesis : Mat Val) (mask seam_mask : Mat Bool)
    (st : Assembly) (done : List (Nat × Nat)) (c : Nat × Nat)
    (h : LoopInv synthesis mask st done) (hc : c ∉ done)
    (hin : mask.contains (cellPoint c) = true) :
    LoopInv synthesis mask (cellStep rnd synthesis mask seam_mask st (cellPoint c))
      (done ++ [c]) := by
  unfold cellStep
  simp only
  by_cases hnan : isnan (synthesis.get (cellPoint c)) = true
  · -- NaN: the cell is skipped
    simp only [hnan, if_true]
    refine ⟨h.asm, h.rows, ?_, ?_⟩
    · intro d hd hdir
      simp only [List.mem_append, List.mem_singleton] at hd
      rcases hd with hd | hd
      · exact h.alloc d hd hdir
      · subst hd
        simp [dirichletCell, hnan] at hdir
    · intro q hq hm
      obtain ⟨d, hd, hdq⟩ := h.seen q hq hm
      exact ⟨d, List.mem_append_left _ hd, hdq⟩
  · have hnan2 : isnan (synthesis.get (cellPoint c)) = false := by simpa using hnan
    simp only [hnan2, Bool.false_eq_true, if_false]
    by_cases hm : mask.get (cellPoint c) = true
    · -- masked: two axis rows
      simp only [hm, if_true]
      refine ⟨?_, ?_, ?_, ?_⟩
      · exact axisRow_inv rnd seam_mask _ _ _ _ _ hm (axisRow_inv rnd seam_mask _ _ _ _ _ hm h.asm)
      · exact axisRow_rowLt _ _ _ _ _ _ _ _ _ (axisRow_rowLt _ _ _ _ _ _ _ _ _ h.rows)
      · intro d hd hdir
        simp only [List.mem_append, List.mem_singleton] at hd
        rcases hd with hd | hd
        · exact axisRow_subset _ _ _ _ _ _ _ _ _ _ (axisRow_subset _ _ _ _ _ _ _ _ _ _
            (h.alloc d hd hdir))
        · subst hd
          simp [dirichletCell, hm] at hdir
      · intro q hq hmq
        have hold : q ∈ st.idToPoint := by
          rcases axisRow_mem _ _ _ _ _ _ _ _ _ _ hq with h1 | h1 | h1
          · rcases axisRow_mem _ _ _ _ _ _ _ _ _ _ h1 with h2 | h2 | h2
            · exact h2
            · rw [h2, hm] at hmq; cases hmq
            · rw [h2.2] at hmq; cases hmq
          · rw [h1, hm] at hmq; cases hmq
          · rw [h1.2] at hmq; cases hmq
        obtain ⟨d, hd, hdq⟩ := h.seen q hold hmq
        exact ⟨d, List.mem_append_left _ hd, hdq⟩
    · -- not masked: the boundary row, if a neighbour is masked
      have hm2 : mask.get (cellPoint c) = false := by simpa using hm
      simp only [hm2, Bool.false_eq_true, if_false]
      rw [boundaryLoop_eq]
      have hnew : cellPoint c ∉ st.idToPoint := by
        intro hmem
        obtain ⟨d, hd, hdq⟩ := h.seen _ hmem hm2
        rw [cellPoint_injective hdq] at hd
        exact hc hd
      by_cases hany : delta.any
          (fun d => mask.contains (cellPoint c + d) && mask.get (cellPoint c + d)) = true
      · simp only [hany, if_true]
        obtain ⟨h1, h2, h3⟩ := dirichlet_step h.asm h.rows (cellPoint c) hnew
        refine ⟨h1, h2, ?_, ?_⟩
        · intro d hd hdir
          rw [h3]
          simp only [List.mem_append, List.mem_singleton] at hd ⊢
          rcases hd with hd | hd
          · exact Or.inl (h.alloc d hd hdir)
          · subst hd; exact Or.inr rfl
        · intro q hq hmq
          rw [h3] at hq
          simp only [List.mem_append, List.mem_singleton] at hq
          rcases hq with hq | hq
          · obtain ⟨d, hd, hdq⟩ := h.seen q hq hmq
            exact ⟨d, List.mem_append_left _ hd, hdq⟩
          · exact ⟨c, by simp, hq.symm⟩
      · simp only [hany, if_false]
        refine ⟨h.asm, h.rows, ?_, ?_⟩
        · intro d hd hdir
          simp only [List.mem_append, List.mem_singleton] at hd
          rcases hd with hd | hd
          · exact h.alloc d hd hdir
          · subst hd
            simp only [dirichletCell, Bool.and_eq_true] at hdir
            exact absurd hdir.2 hany
        · intro q hq hmq
          obtain ⟨d, hd, hdq⟩ := h.seen q hq hmq
          exact ⟨d, List.mem_append_left _ hd, hdq⟩

theorem foldl_loopInv (rnd : ℚ → ℚ) (synthesis : Mat Val) (mask seam_mask : Mat Bool)
    (rest : List (Nat × Nat)) (done : List (Nat × Nat)) (st : Assembly)
    (h : LoopInv synthesis mask st done) (hnd : rest.Nodup) (hdisj : ∀ c ∈ rest, c ∉ done)
    (hin : ∀ c ∈ rest, mask.contains (cellPoint c) = true) :
    LoopInv synthesis mask
      (rest.foldl (fun st c => cellStep rnd synthesis mask seam_mask st (cellPoint c)) st)
      (done ++ rest) := by
  induction rest generalizing done st with
  | nil => simpa using h
  | cons c rest ih =>
    rw [List.foldl_cons]
    have hstep := cellStep_loopInv rnd synthesis mask seam_mask st done c h
      (hdisj c (List.mem_cons_self _ _)) (hin c (List.mem_cons_self _ _))
    have := ih (done ++ [c]) _ hstep (List.nodup_cons.mp hnd).2 (by
      intro d hd hmem
      simp only [List.mem_append, List.mem_singleton] at hmem
      rcases hmem with hmem | hmem
      · exact hdisj d (List.mem_cons_of_mem _ hd) hmem
      · subst hmem
        exact (List.nodup_cons.mp hnd).1 hd) (fun d hd => hin d (List.mem_cons_of_mem _ hd))
    simpa using this

theorem assemble_loopInv (rnd : ℚ → ℚ) (synthesis : Mat Val) (mask seam_mask : Mat Bool) :
    LoopInv synthesis mask (assemble rnd synthesis mask seam_mask)
      (cellList mask.rows mask.cols) := by
  unfold assemble
  rw [forCells_eq_foldl]
  have := foldl_loopInv rnd synthesis mask seam_mask (cellList mask.rows mask.cols) []
    (Assembly.init mask.rows mask.cols) (loopInv_init synthesis mask _ _)
    (cellList_nodup _ _) (fun c _ hc => by simp at hc)
    (fun c hc => by
      rw [mem_cellList] at hc
      exact contains_cell mask c.1 c.2 hc.1 hc.2)
  simpa [cellPoint] using this

theorem mem_cellList_of_contains {α : Type} (m : Mat α) (p : Point)
    (hp : m.contains p = true) : ∃ c ∈ cellList m.rows m.cols, cellPoint c = p := by
  obtain ⟨x, y⟩ := p
  simp only [Mat.contains, Bool.and_eq_true, decide_eq_true_eq] at hp
  obtain ⟨⟨⟨h1, h2⟩, h3⟩, h4⟩ := hp
  refine ⟨(y.toNat, x.toNat), ?_, ?_⟩
  · rw [mem_cellList]
    constructor <;> simp <;> omega
  · simp only [cellPoint, Point.mk.injEq]
    constructor <;> omega

/-- Every cell with a boundary row has an unknown, with the record of that row. -/
theorem assemble_dirichlet (rnd : ℚ → ℚ) (synthesis : Mat Val) (mask seam_mask : Mat Bool)
    (p : Point) (hp : dirichletCell synthesis mask p = true) :
    ∃ id, (assemble rnd synthesis mask seam_mask).idToPoint[id]? = some p ∧
      DirRec synthesis (assemble rnd synthesis mask seam_mask) id p := by
  have hinv := assemble_loopInv rnd synthesis mask seam_mask
  have hin : mask.contains p = true := by
    simp only [dirichletCell, Bool.and_eq_true] at hp
    exact hp.1.1.1
  have hm : mask.get p = false := by
    simp only [dirichletCell, Bool.and_eq_true, Bool.not_eq_true'] at hp
    exact hp.1.2
  obtain ⟨c, hc, hcp⟩ := mem_cellList_of_contains mask p hin
  have hmem := hinv.alloc c hc (by rw [hcp]; exact hp)
  rw [hcp] at hmem
  obtain ⟨id, hid⟩ := List.mem_iff_getElem?.mp hmem
  exact ⟨id, hid, hinv.asm.dir id p hid hm⟩

end zhou

namespace zhou

/-! ## Least squares and the boundary rows -/

theorem residual_nonneg (nrows : Nat) (ts : List Triplet) (b : List ℚ) (x : Nat → ℚ) :
    0 ≤ residual nrows ts b x := by
  unfold residual
  exact Finset.sum_nonneg (fun r _ => sq_nonneg _)

theorem rowDot_update_other (ts : List Triplet) (x : Nat → ℚ) (id r r2 : Nat) (v : ℚ)
    (hcol : ts.filter (fun t => t.col = id) = [⟨r, id, 1⟩]) (hne : r2 ≠ r) :
    rowDot ts (Function.update x id v) r2 = rowDot ts x r2 := by
  unfold rowDot
  congr 1
  apply List.map_congr_left
  intro t ht
  rw [List.mem_filter] at ht
  have hc : t.col ≠ id := by
    intro hh
    have hmem : t ∈ ts.filter (fun t => t.col = id) := by
      rw [List.mem_filter]
      exact ⟨ht.1, by simpa using hh⟩
    rw [hcol] at hmem
    simp only [List.mem_singleton] at hmem
    have h2 : t.row = r2 := by simpa using ht.2
    rw [hmem] at h2
    exact hne h2.symm
  rw [Function.update_noteq hc]

theorem rowDot_single (ts : List Triplet) (x : Nat → ℚ) (id r : Nat)
    (hrow : ts.filter (fun t => t.row = r) = [⟨r, id, 1⟩]) : rowDot ts x r = x id := by
  unfold rowDot
  rw [hrow]
  simp

/-- A least-squares solution satisfies a row that is alone in its column and whose
column is alone in the row. -/
theorem leastSquares_pins (nrows : Nat) (ts : List Triplet) (b : List ℚ) (x : Nat → ℚ)
    (id r : Nat) (v : ℚ) (hr : r < nrows)
    (hcol : ts.filter (fun t => t.col = id) = [⟨r, id, 1⟩])
    (hrow : ts.filter (fun t => t.row = r) = [⟨r, id, 1⟩])
    (hb : b[r]? = some v)
    (hmin : ∀ y : Nat → ℚ, residual nrows ts b x ≤ residual nrows ts b y) : x id = v := by
  have hbd : b.getD r 0 = v := by
    rw [List.getD_eq_getElem?_getD, hb]
    rfl
  have hmem : r ∈ Finset.range nrows := Finset.mem_range.mpr hr
  have hx : residual nrows ts b x = (x id - v) ^ 2 +
      Finset.sum ((Finset.range nrows).erase r) (fun r2 => (rowDot ts x r2 - b.getD r2 0) ^ 2) := by
    unfold residual
    rw [← Finset.add_sum_erase _ _ hmem, rowDot_single ts x id r hrow, hbd]
  have hy : residual nrows ts b (Function.update x id v) =
      Finset.sum ((Finset.range nrows).erase r) (fun r2 => (rowDot ts x r2 - b.getD r2 0) ^ 2) := by
    unfold residual
    rw [← Finset.add_sum_erase _ _ hmem, rowDot_single ts _ id r hrow, hbd]
    simp only [Function.update_same, sub_self, ne_eq, OfNat.ofNat_ne_zero, not_false_eq_true,
      zero_pow, zero_add]
    apply Finset.sum_congr rfl
    intro r2 hr2
    rw [rowDot_update_other ts x id r r2 v hcol (Finset.ne_of_mem_erase hr2)]
  have h := hmin (Function.update x id v)
  rw [hx, hy] at h
  have h0 : (x id - v) ^ 2 ≤ 0 := by linarith
  have h1 : (x id - v) ^ 2 = 0 := le_antisymm h0 (sq_nonneg _)
  have h2 : x id - v = 0 := by
    simpa using h1
  linarith

theorem IndexInv.nodup {st : Assembly} (h : IndexInv st) : st.idToPoint.Nodup := by
  rw [List.nodup_iff_getElem?_ne_getElem?]
  intro i j hij hj heq
  have hi : i < st.idToPoint.length := by omega
  have h1 : st.idToPoint[i]? = some st.idToPoint[i] := List.getElem?_eq_getElem hi
  have h2 : st.idToPoint[j]? = some st.idToPoint[i] := by rw [← heq, h1]
  have e1 := (h.inv i _).mp h1
  have e2 := (h.inv j _).mp h2
  rw [e1] at e2
  have : i = j := by exact_mod_cast e2
  omega

theorem scatterFrom_get_of_index (x : Nat → Val) (p : Point) (ps : List Point) (i k : Nat)
    (s : Mat Val) (hnd : ps.Nodup) (hk : ps[k]? = some p) :
    (scatterFrom x i ps s).get p = x (i + k) := by
  induction ps generalizing i k s with
  | nil => simp at hk
  | cons q ps ih =>
    simp only [scatterFrom]
    cases k with
    | zero =>
      simp only [List.getElem?_cons_zero, Option.some.injEq] at hk
      subst hk
      rw [scatterFrom_get_of_not_mem _ _ _ _ _ (List.nodup_cons.mp hnd).1]
      simp
    | succ k =>
      simp only [List.getElem?_cons_succ] at hk
      rw [ih (i + 1) k _ (List.nodup_cons.mp hnd).2 hk]
      congr 1
      omega

theorem dirichletCell_iff (synthesis : Mat Val) (mask : Mat Bool) (p : Point) :
    dirichletCell synthesis mask p = true ↔
      mask.contains p = true ∧ synthesis.get p ≠ none ∧ mask.get p = false ∧
        ∃ d ∈ delta, mask.contains (p + d) = true ∧ mask.get (p + d) = true := by
  unfold dirichletCell isnan
  simp only [Bool.and_eq_true, Bool.not_eq_true', List.any_eq_true, Option.isNone_eq_false_iff,
    Option.isSome_iff_ne_none]
  constructor
  · rintro ⟨⟨⟨h1, h2⟩, h3⟩, d, hd, h4⟩
    exact ⟨h1, h2, h3, d, hd, h4⟩
  · rintro ⟨h1, h2, h3, d, hd, h4⟩
    exact ⟨⟨⟨h1, h2⟩, h3⟩, d, hd, h4⟩

end zhou

namespace zhou

/-! ## C3 -/

theorem leastSquares_boundary (rnd : ℚ → ℚ) (synthesis : Mat Val) (mask seam_mask : Mat Bool)
    (id : Nat) (p : Point)
    (hrec : DirRec synthesis (assemble rnd synthesis mask seam_mask) id p)
    (x : Nat → ℚ) (hx : IsLeastSquares (assemble rnd synthesis mask seam_mask).system x) :
    synthesis.get p = some (x id) := by
  obtain ⟨r, hr, hcol, hrow, hb⟩ := hrec
  obtain ⟨b, hbq, hmin⟩ := hx
  have hrow_eq := (assemble_loopInv rnd synthesis mask seam_mask).asm.row_eq
  simp only [Assembly.system] at hbq hmin
  rw [hbq] at hb hr
  simp only [List.length_map] at hr
  rw [List.getElem?_map, List.getElem?_eq_getElem hr] at hb
  simp only [Option.map_some', Option.some.injEq] at hb
  have hlen : (assemble rnd synthesis mask seam_mask).row = b.length := by
    rw [hrow_eq, hbq, List.length_map]
  have := leastSquares_pins _ _ b x id r b[r] (by rw [hlen]; exact hr) hcol hrow
    (List.getElem?_eq_getElem hr) hmin
  rw [← hb, this]

/-- C3: in the system assembled by `poissonSeamRemoval`, a cell `p` of the extent that
is defined, not masked and has an in-bounds masked 4-neighbour owns an unknown `id`
whose column holds exactly one triplet, of value 1, in a row `r` that holds no other
triplet and has right-hand side `S[p]`; every exact least-squares solution gives that
unknown the value `S[p]`; and when the solver returns an exact least-squares solution,
every non-masked cell holds after the call the value it held before. -/
theorem dirichlet_rows_pin_boundary (rnd : ℚ → ℚ) (synthesis : Mat Val)
    (mask seam_mask : Mat Bool) :
    (∀ p, mask.contains p = true → synthesis.get p ≠ none → mask.get p = false →
      (∃ d ∈ delta, mask.contains (p + d) = true ∧ mask.get (p + d) = true) →
      ∃ id r,
        (assemble rnd synthesis mask seam_mask).idToPoint[id]? = some p ∧
        (assemble rnd synthesis mask seam_mask).triplet_list.filter (fun t => t.col = id) =
          [⟨r, id, 1⟩] ∧
        (assemble rnd synthesis mask seam_mask).triplet_list.filter (fun t => t.row = r) =
          [⟨r, id, 1⟩] ∧
        (assemble rnd synthesis mask seam_mask).b_list[r]? = some (synthesis.get p) ∧
        ∀ x, IsLeastSquares (assemble rnd synthesis mask seam_mask).system x →
          synthesis.get p = some (x id)) ∧
    (∀ solve : LinSystem → Nat → Val,
      ExactSolve solve (assemble rnd synthesis mask seam_mask).system →
      ∀ p, mask.get p = false →
        (poissonSeamRemoval rnd solve synthesis mask seam_mask).get p = synthesis.get p) := by
  constructor
  · intro p hin hdef hm hnb
    obtain ⟨id, hid, hrec⟩ := assemble_dirichlet rnd synthesis mask seam_mask p
      ((dirichletCell_iff synthesis mask p).mpr ⟨hin, hdef, hm, hnb⟩)
    have hls := leastSquares_boundary rnd synthesis mask seam_mask id p hrec
    obtain ⟨r, _, hcol, hrow, hb⟩ := hrec
    exact ⟨id, r, hid, hcol, hrow, hb, hls⟩
  · intro solve hsolve p hm
    unfold poissonSeamRemoval
    simp only
    by_cases hmem : p ∈ (assemble rnd synthesis mask seam_mask).idToPoint
    · obtain ⟨id, hid⟩ := List.mem_iff_getElem?.mp hmem
      have hinv := assemble_loopInv rnd synthesis mask seam_mask
      rw [scatterFrom_get_of_index _ p _ 0 id _ hinv.asm.idx.nodup hid]
      obtain ⟨x, hx, hls⟩ := hsolve
      have hlt : id < (assemble rnd synthesis mask seam_mask).system.ncols :=
        getElem?_lt_of_eq_some hid
      rw [Nat.zero_add, hx id hlt]
      exact (leastSquares_boundary rnd synthesis mask seam_mask id p
        (hinv.asm.dir id p hid hm) x hls).symm
    · exact scatterFrom_get_of_not_mem _ _ _ _ _ hmem

theorem rampSystem :
    (assemble id rampField middleMask (Mat.fill 1 4 false)).system =
      ⟨4, 4, [⟨0, 0, 1⟩, ⟨1, 1, 1⟩, ⟨1, 2, 1⟩, ⟨2, 2, 1⟩, ⟨2, 1, 1⟩, ⟨3, 3, 1⟩],
        [some 1, some 0, some 0, some 4]⟩ := by
  decide!


theorem rampSolve_exact :
    ExactSolve rampSolve (assemble id rampField middleMask (Mat.fill 1 4 false)).system := by
  refine ⟨fun j => if j = 0 then 1 else if j = 3 then 4 else 0, ?_, [1, 0, 0, 4], ?_, ?_⟩
  · intro j _
    unfold rampSolve
    split_ifs <;> simp_all
  · rw [rampSystem]
    rfl
  · intro y
    rw [rampSystem]
    have h0 : residual 4
        [⟨0, 0, 1⟩, ⟨1, 1, 1⟩, ⟨1, 2, 1⟩, ⟨2, 2, 1⟩, ⟨2, 1, 1⟩, ⟨3, 3, 1⟩] [1, 0, 0, 4]
        (fun j => if j = 0 then 1 else if j = 3 then 4 else 0) = 0 := by
      decide!
    simp only [h0]
    exact residual_nonneg _ _ _ _

/-- Witness for C3: the row `1 2 2 4` with the two middle cells masked; the solver
returns the exact solution `1 0 0 4`, cell 0 keeps its value 1, and the boundary cell 3
owns an unknown whose row has right-hand side 4. -/
theorem dirichlet_rows_pin_boundary_witness :
    ExactSolve rampSolve (assemble id rampField middleMask (Mat.fill 1 4 false)).system ∧
    (poissonSeamRemoval id rampSolve rampField middleMask (Mat.fill 1 4 false)).get ⟨0, 0⟩ =
      rampField.get ⟨0, 0⟩ ∧
    ∃ k r : Nat,
      (assemble id rampField middleMask (Mat.fill 1 4 false)).idToPoint[k]? = some (Point.mk 3 0) ∧
      (assemble id rampField middleMask (Mat.fill 1 4 false)).b_list[r]? =
        some (rampField.get ⟨3, 0⟩) :=
  ⟨rampSolve_exact,
   (dirichlet_rows_pin_boundary id rampField middleMask (Mat.fill 1 4 false)).2 rampSolve
      rampSolve_exact ⟨0, 0⟩ (by decide),
   by
    obtain ⟨k, r, h1, _, _, h2, _⟩ :=
      (dirichlet_rows_pin_boundary id rampField middleMask (Mat.fill 1 4 false)).1 ⟨3, 0⟩
        (by decide) (by decide) (by decide) (by decide)
    exact ⟨k, r, h1, h2⟩⟩

end zhou

namespace zhou

/-! ## C4: NaN cells -/

/-- C4, evaluated on the field `NaN 1` with both cells masked: the NaN cell `(0,0)` is
requested as the left neighbour of the defined masked cell `(1,0)`, so it is given the
unknown id 0, NaN enters the right-hand side, and the scatter-back loop overwrites the
cell with the solver's entry 0. -/
theorem nan_neighbour_gets_unknown :
    nanField.get ⟨0, 0⟩ = none ∧
    (assemble id nanField (Mat.fill 1 2 true) (Mat.fill 1 2 false)).pointToid.get ⟨0, 0⟩ = 0 ∧
    (assemble id nanField (Mat.fill 1 2 true) (Mat.fill 1 2 false)).idToPoint =
      [⟨0, 0⟩, ⟨1, 0⟩] ∧
    (assemble id nanField (Mat.fill 1 2 true) (Mat.fill 1 2 false)).triplet_list =
      [⟨0, 0, 1⟩, ⟨0, 1, 1⟩] ∧
    (assemble id nanField (Mat.fill 1 2 true) (Mat.fill 1 2 false)).b_list = [none] ∧
    ∀ solve : LinSystem → Nat → Val,
      (poissonSeamRemoval id solve nanField (Mat.fill 1 2 true) (Mat.fill 1 2 false)).get ⟨0, 0⟩ =
        solve (assemble id nanField (Mat.fill 1 2 true) (Mat.fill 1 2 false)).system 0 := by
  have hl : (assemble id nanField (Mat.fill 1 2 true) (Mat.fill 1 2 false)).idToPoint =
      [⟨0, 0⟩, ⟨1, 0⟩] := by decide!
  refine ⟨rfl, by decide!, hl, by decide!, by decide!, ?_⟩
  intro solve
  unfold poissonSeamRemoval
  simp only [hl, scatterFrom, Mat.get_set]
  rw [if_neg (by decide), if_pos (by decide)]

end zhou

namespace zhou

/-! ## C5: the flat zero field -/

theorem emplace_b_list (st : Assembly) (p : Point) (v : ℚ) :
    (emplace st p v).b_list = st.b_list := by
  simp [emplace]

theorem addNeighbour_zero (rnd : ℚ → ℚ) (hrnd : rnd 0 = 0) (synthesis : Mat Val)
    (mask : Mat Bool) (hS : ∀ p, mask.contains p = true → synthesis.get p = some 0)
    (q : Point) (acc : Assembly × Val × Nat)
    (h : acc.2.1 = some 0 ∧ ∀ v ∈ acc.1.b_list, v = some 0) :
    (addNeighbour rnd synthesis mask q acc).2.1 = some 0 ∧
      ∀ v ∈ (addNeighbour rnd synthesis mask q acc).1.b_list, v = some 0 := by
  unfold addNeighbour
  split
  next hc =>
    simp only [Bool.and_eq_true] at hc
    refine ⟨?_, ?_⟩
    · simp [h.1, hS q hc.1, fadd, hrnd]
    · simpa [emplace_b_list] using h.2
  next => exact h

theorem closeAxis_zero (rnd : ℚ → ℚ) (hrnd : rnd 0 = 0) (seam_mask : Mat Bool) (p : Point)
    (acc : Assembly × Val × Nat)
    (h : acc.2.1 = some 0 ∧ ∀ v ∈ acc.1.b_list, v = some 0) :
    ∀ v ∈ (closeAxis rnd seam_mask p (some 0) acc).b_list, v = some 0 := by
  unfold closeAxis
  split
  · intro v hv
    simp only [pushRow, emplace_b_list, List.mem_append, List.mem_singleton] at hv
    rcases hv with hv | hv
    · exact h.2 v hv
    · rw [hv]
      split
      · rfl
      · simp [h.1, fsub, fmul, hrnd]
  · exact h.2

theorem cellStep_zero (rnd : ℚ → ℚ) (hrnd : rnd 0 = 0) (synthesis : Mat Val)
    (mask seam_mask : Mat Bool)
    (hS : ∀ p, mask.contains p = true → synthesis.get p = some 0)
    (st : Assembly) (p : Point) (hp : mask.contains p = true)
    (h : ∀ v ∈ st.b_list, v = some 0) :
    ∀ v ∈ (cellStep rnd synthesis mask seam_mask st p).b_list, v = some 0 := by
  unfold cellStep
  simp only [hS p hp]
  split
  · exact h
  · split
    · unfold axisRow
      apply closeAxis_zero rnd hrnd
      apply addNeighbour_zero rnd hrnd synthesis mask hS
      apply addNeighbour_zero rnd hrnd synthesis mask hS
      refine ⟨rfl, ?_⟩
      apply closeAxis_zero rnd hrnd
      apply addNeighbour_zero rnd hrnd synthesis mask hS
      apply addNeighbour_zero rnd hrnd synthesis mask hS
      exact ⟨rfl, h⟩
    · rw [boundaryLoop_eq]
      split
      · intro v hv
        simp only [pushRow, emplace_b_list, List.mem_append, List.mem_singleton] at hv
        rcases hv with hv | hv
        · exact h v hv
        · exact hv
      · exact h

theorem assemble_zero (rnd : ℚ → ℚ) (hrnd : rnd 0 = 0) (synthesis : Mat Val)
    (mask seam_mask : Mat Bool)
    (hS : ∀ p, mask.contains p = true → synthesis.get p = some 0) :
    ∀ v ∈ (assemble rnd synthesis mask seam_mask).b_list, v = some 0 := by
  unfold assemble
  refine forCells_invariant (fun st : Assembly => ∀ v ∈ st.b_list, v = some 0) _ _ _ _ ?_ ?_
  · intro v hv
    simp [Assembly.init] at hv
  · intro st i j hi hj hst
    exact cellStep_zero rnd hrnd synthesis mask seam_mask hS st _ (contains_cell mask i j hi hj) hst

theorem rowDot_zero (ts : List Triplet) (r : Nat) : rowDot ts (fun _ => 0) r = 0 := by
  unfold rowDot
  simp

theorem residual_zero (nrows : Nat) (ts : List Triplet) :
    residual nrows ts (List.replicate nrows 0) (fun _ => 0) = 0 := by
  unfold residual
  apply Finset.sum_eq_zero
  intro r hr
  have hr2 : r < nrows := Finset.mem_range.mp hr
  rw [rowDot_zero]
  simp [List.getD_eq_getElem?_getD, List.getElem?_replicate, hr2]

/-- C5: on a field that is 0 on every cell of the extent, for every mask and every seam
field (rounding maps 0 to 0), every right-hand side assembled by `poissonSeamRemoval` is
0, the all-zero vector satisfies every row exactly (its squared residual is 0, so it is a
least-squares solution), and when the solver maps a zero right-hand side to the zero
vector, every cell of the field is still 0 after the call. -/
theorem flat_zero_field (rnd : ℚ → ℚ) (hrnd : rnd 0 = 0) (synthesis : Mat Val)
    (mask seam_mask : Mat Bool)
    (hrows : synthesis.rows = mask.rows) (hcols : synthesis.cols = mask.cols)
    (hS : ∀ p, synthesis.contains p = true → synthesis.get p = some 0) :
    (assemble rnd synthesis mask seam_mask).b_list =
      List.replicate (assemble rnd synthesis mask seam_mask).row (some 0) ∧
    (∀ r, rowDot (assemble rnd synthesis mask seam_mask).triplet_list (fun _ => 0) r = 0) ∧
    residual (assemble rnd synthesis mask seam_mask).row
      (assemble rnd synthesis mask seam_mask).triplet_list
      (List.replicate (assemble rnd synthesis mask seam_mask).row 0) (fun _ => 0) = 0 ∧
    IsLeastSquares (assemble rnd synthesis mask seam_mask).system (fun _ => 0) ∧
    ∀ solve : LinSystem → Nat → Val,
      (∀ sys : LinSystem, (∀ v ∈ sys.b, v = some 0) →
        ∀ j, j < sys.ncols → solve sys j = some 0) →
      ∀ p, synthesis.contains p = true →
        (poissonSeamRemoval rnd solve synthesis mask seam_mask).get p = some 0 := by
  have hS2 : ∀ p, mask.contains p = true → synthesis.get p = some 0 := by
    intro p hp
    apply hS
    simpa [Mat.contains, hrows, hcols] using hp
  have hb := assemble_zero rnd hrnd synthesis mask seam_mask hS2
  have hinv := assemble_loopInv rnd synthesis mask seam_mask
  have hrep : (assemble rnd synthesis mask seam_mask).b_list =
      List.replicate (assemble rnd synthesis mask seam_mask).row (some 0) := by
    rw [List.eq_replicate_iff]
    exact ⟨hinv.asm.row_eq.symm, hb⟩
  refine ⟨hrep, fun r => rowDot_zero _ r, residual_zero _ _, ?_, ?_⟩
  · refine ⟨List.replicate (assemble rnd synthesis mask seam_mask).row 0, ?_, ?_⟩
    · simp only [Assembly.system, List.map_replicate]
      exact hrep
    · intro y
      simp only [Assembly.system]
      rw [residual_zero]
      exact residual_nonneg _ _ _ _
  · intro solve hsolve p hp
    unfold poissonSeamRemoval
    simp only
    by_cases hmem : p ∈ (assemble rnd synthesis mask seam_mask).idToPoint
    · obtain ⟨k, hk⟩ := List.mem_iff_getElem?.mp hmem
      rw [scatterFrom_get_of_index _ p _ 0 k _ hinv.asm.idx.nodup hk, Nat.zero_add]
      exact hsolve _ hb k (getElem?_lt_of_eq_some hk)
    · rw [scatterFrom_get_of_not_mem _ _ _ _ _ hmem]
      exact hS p hp

/-- Witness for C5: the 10×10 field of zeros, the mask true on the centre 2×2 block, an
empty seam field, and a solver that returns the zero vector: the masked cell (4,4), the
boundary cell (3,4) and the corner (0,0) are 0 after the call. -/
theorem flat_zero_field_witness :
    (poissonSeamRemoval id (fun _ _ => some 0) (Mat.fill 10 10 (some (0 : ℚ)))
      ⟨10, 10, fun i j => decide (4 ≤ i ∧ i ≤ 5 ∧ 4 ≤ j ∧ j ≤ 5)⟩
      (Mat.fill 10 10 false)).get ⟨4, 4⟩ = some 0 ∧
    (poissonSeamRemoval id (fun _ _ => some 0) (Mat.fill 10 10 (some (0 : ℚ)))
      ⟨10, 10, fun i j => decide (4 ≤ i ∧ i ≤ 5 ∧ 4 ≤ j ∧ j ≤ 5)⟩
      (Mat.fill 10 10 false)).get ⟨3, 4⟩ = some 0 ∧
    (poissonSeamRemoval id (fun _ _ => some 0) (Mat.fill 10 10 (some (0 : ℚ)))
      ⟨10, 10, fun i j => decide (4 ≤ i ∧ i ≤ 5 ∧ 4 ≤ j ∧ j ≤ 5)⟩
      (Mat.fill 10 10 false)).get ⟨0, 0⟩ = some 0 :=
  ⟨(flat_zero_field id rfl (Mat.fill 10 10 (some (0 : ℚ)))
      ⟨10, 10, fun i j => decide (4 ≤ i ∧ i ≤ 5 ∧ 4 ≤ j ∧ j ≤ 5)⟩ (Mat.fill 10 10 false)
      rfl rfl (fun _ _ => rfl)).2.2.2.2 (fun _ _ => some 0) (fun _ _ _ _ => rfl) ⟨4, 4⟩
      (by decide),
   (flat_zero_field id rfl (Mat.fill 10 10 (some (0 : ℚ)))
      ⟨10, 10, fun i j => decide (4 ≤ i ∧ i ≤ 5 ∧ 4 ≤ j ∧ j ≤ 5)⟩ (Mat.fill 10 10 false)
      rfl rfl (fun _ _ => rfl)).2.2.2.2 (fun _ _ => some 0) (fun _ _ _ _ => rfl) ⟨3, 4⟩
      (by decide),
   (flat_zero_field id rfl (Mat.fill 10 10 (some (0 : ℚ)))
      ⟨10, 10, fun i j => decide (4 ≤ i ∧ i ≤ 5 ∧ 4 ≤ j ∧ j ≤ 5)⟩ (Mat.fill 10 10 false)
      rfl rfl (fun _ _ => rfl)).2.2.2.2 (fun _ _ => some 0) (fun _ _ _ _ => rfl) ⟨0, 0⟩
      (by decide)⟩

end zhou

namespace zhou

/-! ## C6: a flat field with a non-zero value -/

theorem flatOne_system :
    (assemble id flatOne middleMask ringSeam).system =
      ⟨4, 4, [⟨0, 0, 1⟩, ⟨1, 1, 1⟩, ⟨1, 2, 1⟩, ⟨2, 2, 1⟩, ⟨2, 1, 1⟩, ⟨3, 3, 1⟩],
        [some 1, some 0, some 0, some 1]⟩ := by
  decide!

theorem flatOne_ids :
    (assemble id flatOne middleMask ringSeam).idToPoint = [⟨0, 0⟩, ⟨2, 0⟩, ⟨1, 0⟩, ⟨3, 0⟩] := by
  decide!

theorem flatOne_residual (x : Nat → ℚ) :
    residual 4 [⟨0, 0, 1⟩, ⟨1, 1, 1⟩, ⟨1, 2, 1⟩, ⟨2, 2, 1⟩, ⟨2, 1, 1⟩, ⟨3, 3, 1⟩] [1, 0, 0, 1] x =
      (x 0 - 1) ^ 2 + (x 1 + x 2) ^ 2 + (x 2 + x 1) ^ 2 + (x 3 - 1) ^ 2 := by
  simp [residual, rowDot, Finset.sum_range_succ, List.filter]

/-- C6, evaluated on the flat 1×4 field of value 1 with the two middle cells masked and
the seam field marking the two cells around them: the assembled rows of the masked
cells read `x(2,0) + x(1,0) = 0` and `x(1,0) + x(2,0) = 0` (coefficient `+dx_count` on
the cell itself), so the original values have squared residual 8 while `1 0 0 1` has
residual 0; the original values are not a least-squares solution, and with every solver
that returns an exact least-squares solution a masked cell changes. -/
theorem flat_field_not_fixed :
    (assemble id flatOne middleMask ringSeam).system =
      ⟨4, 4, [⟨0, 0, 1⟩, ⟨1, 1, 1⟩, ⟨1, 2, 1⟩, ⟨2, 2, 1⟩, ⟨2, 1, 1⟩, ⟨3, 3, 1⟩],
        [some 1, some 0, some 0, some 1]⟩ ∧
    ¬ IsLeastSquares (assemble id flatOne middleMask ringSeam).system (fun _ => 1) ∧
    ∀ solve : LinSystem → Nat → Val,
      ExactSolve solve (assemble id flatOne middleMask ringSeam).system →
      ¬ ((poissonSeamRemoval id solve flatOne middleMask ringSeam).get ⟨1, 0⟩ =
            flatOne.get ⟨1, 0⟩ ∧
          (poissonSeamRemoval id solve flatOne middleMask ringSeam).get ⟨2, 0⟩ =
            flatOne.get ⟨2, 0⟩) := by
  have hzero : ∀ x : Nat → ℚ,
      IsLeastSquares (assemble id flatOne middleMask ringSeam).system x → x 1 + x 2 = 0 := by
    intro x hx
    obtain ⟨b, hb, hmin⟩ := hx
    rw [flatOne_system] at hb hmin
    simp only at hb hmin
    have hb2 : b = [1, 0, 0, 1] := by
      have : List.map some b = List.map some [1, 0, 0, 1] := by rw [← hb]; rfl
      exact List.map_injective_iff.mpr (Option.some_injective _) this
    subst hb2
    have h := hmin (fun j => if j = 0 then 1 else if j = 3 then 1 else 0)
    rw [flatOne_residual, flatOne_residual] at h
    norm_num at h
    nlinarith [sq_nonneg (x 0 - 1), sq_nonneg (x 1 + x 2), sq_nonneg (x 2 + x 1),
      sq_nonneg (x 3 - 1)]
  refine ⟨flatOne_system, ?_, ?_⟩
  · intro h
    have := hzero _ h
    norm_num at this
  · intro solve hsolve hfix
    obtain ⟨x, hx, hls⟩ := hsolve
    have hsum := hzero x hls
    have h1 : (poissonSeamRemoval id solve flatOne middleMask ringSeam).get ⟨1, 0⟩ =
        some (x 2) := by
      unfold poissonSeamRemoval
      simp only [flatOne_ids, scatterFrom, Mat.get_set]
      rw [if_neg (by decide), if_pos (by decide)]
      exact hx 2 (by rw [flatOne_system]; decide)
    have h2 : (poissonSeamRemoval id solve flatOne middleMask ringSeam).get ⟨2, 0⟩ =
        some (x 1) := by
      unfold poissonSeamRemoval
      simp only [flatOne_ids, scatterFrom, Mat.get_set]
      rw [if_neg (by decide), if_neg (by decide), if_pos (by decide)]
      exact hx 1 (by rw [flatOne_system]; decide)
    rw [h1, h2] at hfix
    have e1 : x 2 = 1 := by
      have := hfix.1
      simp [flatOne, Mat.fill, Mat.get] at this
      exact this
    have e2 : x 1 = 1 := by
      have := hfix.2
      simp [flatOne, Mat.fill, Mat.get] at this
      exact this
    rw [e1, e2] at hsum
    norm_num at hsum

end zhou

namespace ppa

open zhou

/-! ## C8: a flat field has no candidates -/

theorem fgt_zero_zero (a b : Val) (ha : a = none ∨ a = some 0) (hb : b = none ∨ b = some 0) :
    fgt a b = false := by
  rcases ha with ha | ha <;> rcases hb with hb | hb <;> simp [fgt, ha, hb]

theorem fsub_self_flat (rnd : ℚ → ℚ) (hrnd : rnd 0 = 0) (v : Val) :
    fsub rnd v v = none ∨ fsub rnd v v = some 0 := by
  cases v with
  | none => left; rfl
  | some u => right; simp [fsub, hrnd]

theorem minMaxIdx_flat (l : List Val) (c : Val) (hl : ∀ v ∈ l, v = c)
    (acc : Option (ℚ × ℚ)) (hacc : acc = none ∨ ∃ u, c = some u ∧ acc = some (u, u)) :
    (l.foldl
      (fun acc v =>
        match v, acc with
        | none, _ => acc
        | some u, none => some (u, u)
        | some u, some lohi => some (min lohi.1 u, max lohi.2 u))
      acc = none) ∨
    ∃ u, c = some u ∧
      l.foldl
        (fun acc v =>
          match v, acc with
          | none, _ => acc
          | some u, none => some (u, u)
          | some u, some lohi => some (min lohi.1 u, max lohi.2 u))
        acc = some (u, u) := by
  induction l generalizing acc with
  | nil => simpa using hacc
  | cons v l ih =>
    rw [List.foldl_cons]
    apply ih (fun w hw => hl w (List.mem_cons_of_mem _ hw))
    have hv := hl v (List.mem_cons_self _ _)
    cases c with
    | none =>
      subst hv
      rcases hacc with h | ⟨u, hu, _⟩
      · left; simp [h]
      · cases hu
    | some u =>
      subst hv
      right
      refine ⟨u, rfl, ?_⟩
      rcases hacc with h | ⟨u2, hu, h⟩
      · simp [h]
      · cases hu
        simp [h]

theorem threshold_flat (rndD : ℚ → ℚ) (hrndD : rndD 0 = 0) (input : Mat Val) (c : Val)
    (hflat : ∀ p, input.contains p = true → input.get p = c) :
    threshold rndD input = none ∨ threshold rndD input = some 0 := by
  have hs : ∀ v ∈ samples input, v = c := by
    intro v hv
    simp only [samples, List.mem_map] at hv
    obtain ⟨cell, hcell, rfl⟩ := hv
    rw [mem_cellList] at hcell
    exact hflat ⟨(cell.2 : Int), (cell.1 : Int)⟩ (contains_cell input cell.1 cell.2 hcell.1 hcell.2)
  unfold threshold minMaxIdx
  rcases minMaxIdx_flat (samples input) c hs none (Or.inl rfl) with h | ⟨u, _, h⟩
  · left; rw [h]
  · right; rw [h]; simp [hrndD]

theorem operationalGrid_flat (rnd : ℚ → ℚ) (input : Mat Val) (grid_spacing : Nat)
    (feature_type : Int) (c : Val)
    (hflat : ∀ p, input.contains p = true → input.get p = c) (p : Point)
    (hp : (operationalGrid rnd input grid_spacing feature_type).contains p = true) :
    (operationalGrid rnd input grid_spacing feature_type).get p =
      fmul rnd c (some (feature_type : ℚ)) := by
  obtain ⟨x, y⟩ := p
  simp only [Mat.contains, operationalGrid, Bool.and_eq_true, decide_eq_true_eq] at hp
  obtain ⟨⟨⟨h1, h2⟩, h3⟩, h4⟩ := hp
  have hc : 0 < input.cols / grid_spacing := by omega
  have hr : 0 < input.rows / grid_spacing := by omega
  have hc2 : 0 < input.cols := Nat.lt_of_lt_of_le hc (Nat.div_le_self _ _)
  have hr2 : 0 < input.rows := Nat.lt_of_lt_of_le hr (Nat.div_le_self _ _)
  simp only [operationalGrid, resizeNearest, Mat.get]
  congr 1
  have hx0 : 0 ≤ x * (input.cols : Int) / ((input.cols / grid_spacing : Nat) : Int) :=
    Int.ediv_nonneg (Int.mul_nonneg h1 (Int.natCast_nonneg _)) (Int.natCast_nonneg _)
  have hy0 : 0 ≤ y * (input.rows : Int) / ((input.rows / grid_spacing : Nat) : Int) :=
    Int.ediv_nonneg (Int.mul_nonneg h3 (Int.natCast_nonneg _)) (Int.natCast_nonneg _)
  have := hflat
    ⟨min (x * (input.cols : Int) / ((input.cols / grid_spacing : Nat) : Int))
        ((input.cols : Int) - 1),
      min (y * (input.rows : Int) / ((input.rows / grid_spacing : Nat) : Int))
        ((input.rows : Int) - 1)⟩
    (by
      simp only [Mat.contains, Bool.and_eq_true, decide_eq_true_eq]
      refine ⟨⟨⟨?_, ?_⟩, ?_⟩, ?_⟩
      · exact le_min hx0 (by omega)
      · exact lt_of_le_of_lt (min_le_right _ _) (by omega)
      · exact le_min hy0 (by omega)
      · exact lt_of_le_of_lt (min_le_right _ _) (by omega))
  simpa [Mat.get] using this

theorem profiles_flat (rnd : ℚ → ℚ) (hrnd : rnd 0 = 0) (grid : Mat Val) (thresh : Val)
    (hthresh : thresh = none ∨ thresh = some 0) (profile_length : Nat) (c : Val)
    (hgrid : ∀ q, grid.contains q = true → grid.get q = c)
    (p n : Point) (hp : grid.contains p = true) :
    profiles rnd grid thresh profile_length p n = (false, false) := by
  unfold profiles
  refine foldl_invariant (fun acc : Bool × Bool => acc = (false, false)) _ _ _ rfl ?_
  intro acc l _ hacc
  subst hacc
  have key : ∀ q, (grid.contains q && fgt (fsub rnd (grid.get p) (grid.get q)) thresh) = false := by
    intro q
    cases hq : grid.contains q with
    | false => simp
    | true =>
      rw [hgrid p hp, hgrid q hq]
      simp [fgt_zero_zero _ _ (fsub_self_flat rnd hrnd c) hthresh]
  simp [key]

theorem markCell_flat (rnd : ℚ → ℚ) (hrnd : rnd 0 = 0) (grid : Mat Val) (thresh : Val)
    (hthresh : thresh = none ∨ thresh = some 0) (profile_length : Nat) (c : Val)
    (hgrid : ∀ q, grid.contains q = true → grid.get q = c)
    (p : Point) (hp : grid.contains p = true) (st : Mat Int × Int) (ns : List Point) :
    markCell rnd grid thresh profile_length p st ns = st := by
  induction ns with
  | nil => rfl
  | cons n ns ih =>
    unfold markCell
    rw [profiles_flat rnd hrnd grid thresh hthresh profile_length c hgrid p n hp]
    simpa using ih

theorem selectFeaturePoints_flat (rnd : ℚ → ℚ) (hrnd : rnd 0 = 0) (grid : Mat Val)
    (thresh : Val) (hthresh : thresh = none ∨ thresh = some 0) (profile_length : Nat) (c : Val)
    (hgrid : ∀ q, grid.contains q = true → grid.get q = c) :
    selectFeaturePoints rnd grid thresh profile_length =
      (Mat.fill grid.rows grid.cols (-1), 0) := by
  unfold selectFeaturePoints
  refine forCells_invariant
    (fun st : Mat Int × Int => st = (Mat.fill grid.rows grid.cols (-1), 0)) _ _ _ _ rfl ?_
  intro st i j hi hj hst
  rw [markCell_flat rnd hrnd grid thresh hthresh profile_length c hgrid _
    (contains_cell grid i j hi hj)]
  exact hst

theorem createGraph_no_ids (rnd : ℚ → ℚ) (grid : Mat Val) (rows cols : Nat) :
    createGraph rnd grid (Mat.fill rows cols (-1)) = [] := by
  unfold createGraph
  refine forCells_invariant (fun es : List edge => es = []) _ _ _ _ rfl ?_
  intro es i j _ _ hes
  simp [Mat.fill, Mat.get, hes]

theorem reduceGraph_nil (rows cols profile_length : Nat) :
    reduceGraph rows cols profile_length [] = [] := by
  unfold reduceGraph
  refine foldl_invariant (fun es : List edge => es = []) _ _ _ rfl ?_
  intro es _ _ hes
  subst hes
  rfl

theorem traceSkeleton_no_edges (fuel : Nat) (smoothPosition : Int → Vec2f) (order : List Int) :
    traceSkeleton fuel (fun _ => []) smoothPosition order = some ⟨[], 0, [], []⟩ := by
  unfold traceSkeleton
  induction order with
  | nil => rfl
  | cons k order ih =>
    rw [List.foldlM_cons]
    simp only [traceFrom, List.length_nil, Nat.zero_ne_one, false_and, if_false]
    exact ih

theorem prunedEdges_flat (rnd rndD : ℚ → ℚ) (hrnd : rnd 0 = 0) (hrndD : rndD 0 = 0)
    (minSpanForest : List edge → List edge) (hmsf : minSpanForest [] = [])
    (input : Mat Val) (grid_spacing profile_length : Nat) (feature_type : Int) (c : Val)
    (hflat : ∀ p, input.contains p = true → input.get p = c) :
    prunedEdges rnd rndD minSpanForest input grid_spacing profile_length feature_type = [] := by
  unfold prunedEdges spanningForest
  simp only
  rw [selectFeaturePoints_flat rnd hrnd _ _ (threshold_flat rndD hrndD input c hflat)
    profile_length _ (operationalGrid_flat rnd input grid_spacing feature_type c hflat)]
  simp only
  rw [createGraph_no_ids, hmsf, reduceGraph_nil]

/-- C8: for a field whose samples are all equal (a number or NaN), every grid spacing,
profile length and polarity, with roundings that map 0 to 0 and a spanning-forest step
that returns no edge for no edge: the selector marks no cell (every `nodeids` entry stays
`-1` and the counter stays 0), no edge survives, and the constructor, which fails only
when the resized grid would be empty, returns a graph without nodes and without edges. -/
theorem flat_field_no_features (rnd rndD : ℚ → ℚ) (hrnd : rnd 0 = 0) (hrndD : rndD 0 = 0)
    (minSpanForest : List edge → List edge) (hmsf : minSpanForest [] = [])
    (order : List Int) (fuel : Nat)
    (input : Mat Val) (grid_spacing profile_length : Nat) (feature_type : Int) (c : Val)
    (hflat : ∀ p, input.contains p = true → input.get p = c) :
    selectFeaturePoints rnd (operationalGrid rnd input grid_spacing feature_type)
        (threshold rndD input) profile_length =
      (Mat.fill (input.rows / grid_spacing) (input.cols / grid_spacing) (-1), 0) ∧
    prunedEdges rnd rndD minSpanForest input grid_spacing profile_length feature_type = [] ∧
    (input.rows / grid_spacing ≠ 0 → input.cols / grid_spacing ≠ 0 →
      FeatureGraph.build rnd rndD minSpanForest order fuel input grid_spacing profile_length
        feature_type = some ⟨[], [], feature_type⟩) ∧
    ∀ g, FeatureGraph.build rnd rndD minSpanForest order fuel input grid_spacing profile_length
        feature_type = some g → g.nodes = [] ∧ g.edges = [] := by
  have hsel := selectFeaturePoints_flat rnd hrnd _ _ (threshold_flat rndD hrndD input c hflat)
    profile_length _ (operationalGrid_flat rnd input grid_spacing feature_type c hflat)
  have hpr := prunedEdges_flat rnd rndD hrnd hrndD minSpanForest hmsf input grid_spacing
    profile_length feature_type c hflat
  have hbuild : ∀ g, FeatureGraph.build rnd rndD minSpanForest order fuel input grid_spacing
      profile_length feature_type = some g → g = ⟨[], [], feature_type⟩ := by
    intro g hg
    unfold FeatureGraph.build at hg
    split at hg
    · cases hg
    · simp only [hpr] at hg
      have hnte : buildNodeToEdge [] = fun _ => [] := rfl
      rw [hnte, traceSkeleton_no_edges] at hg
      simp only [Option.map_some', Option.some.injEq] at hg
      exact hg.symm
  refine ⟨hsel, hpr, ?_, ?_⟩
  · intro h1 h2
    unfold FeatureGraph.build
    rw [if_neg (by simp [h1, h2])]
    simp only [hpr]
    have hnte : buildNodeToEdge [] = fun _ => [] := rfl
    rw [hnte, traceSkeleton_no_edges]
    rfl
  · intro g hg
    rw [hbuild g hg]
    exact ⟨rfl, rfl⟩

/-- Witness for C8: the 4×4 field of value 5, grid spacing 2, profile length 3, ridges. -/
theorem flat_field_no_features_witness :
    FeatureGraph.build id id (fun es => es) [] 0 (Mat.fill 4 4 (some 5)) 2 3 1 =
      some ⟨[], [], 1⟩ :=
  (flat_field_no_features id id rfl rfl (fun es => es) rfl [] 0 (Mat.fill 4 4 (some 5)) 2 3 1
    (some 5) (fun _ _ => rfl)).2.2.1 (by decide) (by decide)

end ppa

namespace ppa

open zhou

/-! ## Forests -/

theorem Joins.index_lt {g : List (Int × Int)} {i : Nat} {u v : Int} (h : Joins g i u v) :
    i < g.length := by
  rcases h with h | h <;> exact getElem?_lt_of_eq_some h

theorem Joins.extend {g : List (Int × Int)} {i : Nat} {u v : Int} (h : Joins g i u v)
    (g2 : List (Int × Int)) : Joins (g ++ g2) i u v := by
  have hlt := h.index_lt
  unfold Joins at *
  rw [List.getElem?_append_left hlt]
  exact h

theorem IsWalk.lt {g : List (Int × Int)} {u v : Int} {w : List (Nat × Int)}
    (h : IsWalk g u w v) : ∀ s ∈ w, s.1 < g.length := by
  induction w generalizing u with
  | nil => intro s hs; cases hs
  | cons t rest ih =>
    intro s hs
    rcases List.mem_cons.mp hs with hs | hs
    · subst hs; exact h.1.index_lt
    · exact ih h.2 s hs

theorem IsWalk.lift {g : List (Int × Int)} {u v : Int} {w : List (Nat × Int)}
    (h : IsWalk g u w v) (g2 : List (Int × Int)) : IsWalk (g ++ g2) u w v := by
  induction w generalizing u with
  | nil => exact h
  | cons t rest ih => exact ⟨h.1.extend g2, ih h.2⟩

theorem IsWalk.append {g : List (Int × Int)} {u v x : Int} {w1 w2 : List (Nat × Int)}
    (h1 : IsWalk g u w1 v) (h2 : IsWalk g v w2 x) : IsWalk g u (w1 ++ w2) x := by
  induction w1 generalizing u with
  | nil =>
    have : u = v := h1
    subst this
    exact h2
  | cons t rest ih => exact ⟨h1.1, ih h1.2⟩

/-- Along a walk every edge taken has both ends labelled like the start. -/
theorem IsWalk.labels {g : List (Int × Int)} {lab : Int → Int}
    (hlab : ∀ e ∈ g, lab e.1 = lab e.2) {u v : Int} {w : List (Nat × Int)}
    (h : IsWalk g u w v) :
    lab v = lab u ∧ ∀ s ∈ w, ∃ e, g[s.1]? = some e ∧ lab e.1 = lab u := by
  induction w generalizing u with
  | nil =>
    have : u = v := h
    subst this
    exact ⟨rfl, fun s hs => by cases hs⟩
  | cons t rest ih =>
    obtain ⟨hj, hrest⟩ := h
    obtain ⟨h1, h2⟩ := ih hrest
    have htu : lab t.2 = lab u := by
      rcases hj with hj | hj
      · have := hlab _ (List.mem_iff_getElem?.mpr ⟨_, hj⟩)
        exact this.symm
      · exact hlab _ (List.mem_iff_getElem?.mpr ⟨_, hj⟩)
    refine ⟨by rw [h1, htu], ?_⟩
    intro s hs
    rcases List.mem_cons.mp hs with hs | hs
    · subst hs
      rcases hj with hj | hj
      · exact ⟨_, hj, rfl⟩
      · exact ⟨_, hj, htu⟩
    · obtain ⟨e, he, hl⟩ := h2 s hs
      exact ⟨e, he, by rw [hl, htu]⟩

theorem inner_append (g1 g2 : List (Int × Int)) (U : Finset Int) :
    inner (g1 ++ g2) U = inner g1 U + inner g2 U := by
  simp [inner, List.countP_append]

theorem inner_singleton (a b : Int) (U : Finset Int) :
    inner [(a, b)] U = if a ∈ U ∧ b ∈ U then 1 else 0 := by
  by_cases h : a ∈ U ∧ b ∈ U
  · simp [inner, h, List.countP_cons]
  · simp [inner, h, List.countP_cons]

theorem getElem?_append_length {α : Type} (l : List α) (a : α) :
    (l ++ [a])[l.length]? = some a := by
  simp

theorem walk_nil_graph {u v : Int} {w : List (Nat × Int)} (h : IsWalk [] u w v) : w = [] := by
  cases w with
  | nil => rfl
  | cons s rest =>
    have := h.1.index_lt
    simp at this

/-- A walk in `g ++ g2` that only uses edges of `g` is a walk in `g`. -/
theorem IsWalk.restrict {g g2 : List (Int × Int)} {u v : Int} {w : List (Nat × Int)}
    (h : IsWalk (g ++ g2) u w v) (hlt : ∀ s ∈ w, s.1 < g.length) : IsWalk g u w v := by
  induction w generalizing u with
  | nil => exact h
  | cons t rest ih =>
    refine ⟨?_, ih h.2 (fun s hs => hlt s (List.mem_cons_of_mem _ hs))⟩
    have ht := hlt t (List.mem_cons_self _ _)
    have hj := h.1
    unfold Joins at hj ⊢
    rw [List.getElem?_append_left ht] at hj
    exact hj

/-- A walk without a repeated edge in `g` plus one edge `(a, b)` either stays in `g` or
crosses the new edge once, between a walk of `g` and a walk of `g`. -/
theorem IsWalk.split {g : List (Int × Int)} {a b u v : Int} {w : List (Nat × Int)}
    (h : IsWalk (g ++ [(a, b)]) u w v) (hn : (w.map Prod.fst).Nodup) :
    IsWalk g u w v ∨
    ∃ (p q : List (Nat × Int)) (x y : Int), w = p ++ (g.length, y) :: q ∧
      IsWalk g u p x ∧ IsWalk g y q v ∧ ((x = a ∧ y = b) ∨ (x = b ∧ y = a)) := by
  induction w generalizing u with
  | nil => exact Or.inl h
  | cons t rest ih =>
    rw [List.map_cons, List.nodup_cons] at hn
    have hlt := h.1.index_lt
    simp only [List.length_append, List.length_singleton] at hlt
    by_cases ht : t.1 = g.length
    · right
      have hrest : IsWalk g t.2 rest v := by
        apply h.2.restrict
        intro s hs
        have h1 := h.2.lt s hs
        simp only [List.length_append, List.length_singleton] at h1
        have h2 : s.1 ≠ t.1 := fun hh => hn.1 (hh ▸ List.mem_map_of_mem _ hs)
        omega
      have hj := h.1
      unfold Joins at hj
      rw [ht, getElem?_append_length] at hj
      refine ⟨[], rest, u, t.2, ?_, rfl, hrest, ?_⟩
      · rw [List.nil_append, ← ht]
      · rcases hj with hj | hj
        · simp only [Option.some.injEq, Prod.mk.injEq] at hj
          exact Or.inl ⟨hj.1.symm, hj.2.symm⟩
        · simp only [Option.some.injEq, Prod.mk.injEq] at hj
          exact Or.inr ⟨hj.2.symm, hj.1.symm⟩
    · have hj : Joins g t.1 u t.2 := by
        have hj := h.1
        unfold Joins at hj ⊢
        rw [List.getElem?_append_left (by omega)] at hj
        exact hj
      rcases ih h.2 hn.2 with hr | ⟨p, q, x, y, hw, hp, hq, hxy⟩
      · exact Or.inl ⟨hj, hr⟩
      · right
        refine ⟨t :: p, q, x, y, ?_, ⟨hj, hp⟩, hq, hxy⟩
        rw [hw]
        rfl

theorem components_nil : Components [] (fun x => x) := by
  constructor
  · intro e he; cases he
  · intro a b hab
    exact ⟨[], hab, List.nodup_nil⟩
  · intro U
    simp [inner]
  · intro u v w1 w2 h1 h2 _ _
    rw [walk_nil_graph h1, walk_nil_graph h2]

end ppa

namespace ppa

open zhou

theorem nodup_map_fst_append {w1 w2 : List (Nat × Int)}
    (h1 : (w1.map Prod.fst).Nodup) (h2 : (w2.map Prod.fst).Nodup)
    (hd : ∀ s ∈ w1, ∀ t ∈ w2, s.1 ≠ t.1) : ((w1 ++ w2).map Prod.fst).Nodup := by
  rw [List.map_append, List.nodup_append]
  refine ⟨h1, h2, ?_⟩
  intro i hi1 hi2
  obtain ⟨s, hs, rfl⟩ := List.mem_map.mp hi1
  obtain ⟨t, ht, hst⟩ := List.mem_map.mp hi2
  exact hd s hs t ht hst.symm

/-- The trail through a new edge between two components. -/
theorem trail_through_new_edge {g : List (Int × Int)} {lab : Int → Int}
    (h : Components g lab) (a b x y : Int) (hne : lab a ≠ lab b)
    (hx : lab x = lab a) (hy : lab y = lab b) :
    ∃ w, IsWalk (g ++ [(a, b)]) x w y ∧ (w.map Prod.fst).Nodup := by
  obtain ⟨w1, hw1, hn1⟩ := h.conn x a hx
  obtain ⟨w2, hw2, hn2⟩ := h.conn b y hy.symm
  refine ⟨w1 ++ (g.length, b) :: w2, ?_, ?_⟩
  · apply IsWalk.append (hw1.lift _)
    exact ⟨Or.inl (getElem?_append_length g (a, b)), hw2.lift _⟩
  · apply nodup_map_fst_append hn1
    · rw [List.map_cons, List.nodup_cons]
      refine ⟨?_, hn2⟩
      intro hmem
      obtain ⟨t, ht, hti⟩ := List.mem_map.mp hmem
      have := hw2.lt t ht
      simp only at hti
      omega
    · intro s hs t ht hst
      rcases List.mem_cons.mp ht with ht | ht
      · subst ht
        have := hw1.lt s hs
        simp only at hst
        omega
      · obtain ⟨e1, he1, hl1⟩ := (hw1.labels h.edge).2 s hs
        obtain ⟨e2, he2, hl2⟩ := (hw2.labels h.edge).2 t ht
        rw [hst, he2] at he1
        cases he1
        rw [hl1, hx] at hl2
        exact hne hl2

theorem trail_through_new_edge_rev {g : List (Int × Int)} {lab : Int → Int}
    (h : Components g lab) (a b x y : Int) (hne : lab a ≠ lab b)
    (hx : lab x = lab b) (hy : lab y = lab a) :
    ∃ w, IsWalk (g ++ [(a, b)]) x w y ∧ (w.map Prod.fst).Nodup := by
  obtain ⟨w1, hw1, hn1⟩ := h.conn x b hx
  obtain ⟨w2, hw2, hn2⟩ := h.conn a y hy.symm
  refine ⟨w1 ++ (g.length, a) :: w2, ?_, ?_⟩
  · apply IsWalk.append (hw1.lift _)
    exact ⟨Or.inr (getElem?_append_length g (a, b)), hw2.lift _⟩
  · apply nodup_map_fst_append hn1
    · rw [List.map_cons, List.nodup_cons]
      refine ⟨?_, hn2⟩
      intro hmem
      obtain ⟨t, ht, hti⟩ := List.mem_map.mp hmem
      have := hw2.lt t ht
      simp only at hti
      omega
    · intro s hs t ht hst
      rcases List.mem_cons.mp ht with ht | ht
      · subst ht
        have := hw1.lt s hs
        simp only at hst
        omega
      · obtain ⟨e1, he1, hl1⟩ := (hw1.labels h.edge).2 s hs
        obtain ⟨e2, he2, hl2⟩ := (hw2.labels h.edge).2 t ht
        rw [hst, he2] at he1
        cases he1
        rw [hl1, hx] at hl2
        exact hne hl2.symm

theorem Components.step {g : List (Int × Int)} {lab : Int → Int} (h : Components g lab)
    (a b : Int) (hne : lab a ≠ lab b) :
    Components (g ++ [(a, b)]) (fun x => if lab x = lab b then lab a else lab x) := by
  constructor
  · intro e he
    rcases List.mem_append.mp he with he | he
    · simp only [h.edge e he]
    · simp only [List.mem_singleton] at he
      subst he
      simp [hne]
  · intro x y hxy
    simp only at hxy
    by_cases hx : lab x = lab b <;> by_cases hy : lab y = lab b
    · obtain ⟨w, hw, hn⟩ := h.conn x y (by rw [hx, hy])
      exact ⟨w, hw.lift _, hn⟩
    · simp only [hx, hy, if_true, if_false] at hxy
      exact trail_through_new_edge_rev h a b x y hne hx hxy.symm
    · simp only [hx, hy, if_true, if_false] at hxy
      exact trail_through_new_edge h a b x y hne hxy hy
    · simp only [hx, hy, if_false] at hxy
      obtain ⟨w, hw, hn⟩ := h.conn x y hxy
      exact ⟨w, hw.lift _, hn⟩
  · intro U
    have himg : U.image (fun x => if lab x = lab b then lab a else lab x) =
        (U.image lab).image (fun l => if l = lab b then lab a else l) := by
      rw [Finset.image_image]
      rfl
    rw [inner_append, inner_singleton, himg]
    have hle : ((U.image lab).image (fun l => if l = lab b then lab a else l)).card ≤
        (U.image lab).card := Finset.card_image_le
    have hcount := h.count U
    by_cases hab : a ∈ U ∧ b ∈ U
    · simp only [hab, and_self, if_true]
      have hlt : ((U.image lab).image (fun l => if l = lab b then lab a else l)).card <
          (U.image lab).card := by
        apply lt_of_le_of_ne hle
        intro heq
        have hinj := Finset.card_image_iff.mp heq
        have ha : lab a ∈ ((U.image lab : Finset Int) : Set Int) :=
          Finset.mem_coe.mpr (Finset.mem_image_of_mem lab hab.1)
        have hb : lab b ∈ ((U.image lab : Finset Int) : Set Int) :=
          Finset.mem_coe.mpr (Finset.mem_image_of_mem lab hab.2)
        have := hinj ha hb (by simp [hne])
        exact hne this
      omega
    · simp only [hab, if_false]
      omega
  · intro u v w1 w2 h1 h2 hn1 hn2
    have hcross : ∀ (p q : List (Nat × Int)) (x y : Int) (w3 : List (Nat × Int)),
        IsWalk g u p x → IsWalk g y q v → ((x = a ∧ y = b) ∨ (x = b ∧ y = a)) →
        IsWalk g u w3 v → False := by
      intro p q x y w3 hp hq hxy hw3
      have e1 := (hp.labels h.edge).1
      have e2 := (hq.labels h.edge).1
      have e3 := (hw3.labels h.edge).1
      rcases hxy with ⟨rfl, rfl⟩ | ⟨rfl, rfl⟩
      · exact hne (by rw [e1, ← e3, e2])
      · exact hne (by rw [← e2, e3, ← e1])
    rcases h1.split hn1 with hr1 | ⟨p1, q1, x1, y1, hw1, hp1, hq1, hxy1⟩
    · rcases h2.split hn2 with hr2 | ⟨p2, q2, x2, y2, hw2, hp2, hq2, hxy2⟩
      · exact h.unique u v w1 w2 hr1 hr2 hn1 hn2
      · exact (hcross p2 q2 x2 y2 w1 hp2 hq2 hxy2 hr1).elim
    · rcases h2.split hn2 with hr2 | ⟨p2, q2, x2, y2, hw2, hp2, hq2, hxy2⟩
      · exact (hcross p1 q1 x1 y1 w2 hp1 hq1 hxy1 hr2).elim
      · have ex : x1 = x2 ∧ y1 = y2 := by
          have e1 := (hp1.labels h.edge).1
          have e2 := (hp2.labels h.edge).1
          rcases hxy1 with ⟨rfl, rfl⟩ | ⟨rfl, rfl⟩ <;> rcases hxy2 with ⟨rfl, rfl⟩ | ⟨rfl, rfl⟩
          · exact ⟨rfl, rfl⟩
          · exact (hne (by rw [e1, ← e2])).elim
          · exact (hne (by rw [e2, ← e1])).elim
          · exact ⟨rfl, rfl⟩
        obtain ⟨rfl, rfl⟩ := ex
        subst hw1
        subst hw2
        rw [List.map_append, List.nodup_append] at hn1 hn2
        rw [List.map_cons, List.nodup_cons] at hn1 hn2
        have ep := h.unique u x1 p1 p2 hp1 hp2 hn1.1 hn2.1
        have eq := h.unique y1 v q1 q2 hq1 hq2 hn1.2.1.2 hn2.2.1.2
        rw [ep, eq]

theorem Acyclic.of_append {g g2 : List (Int × Int)} (h : Acyclic (g ++ g2)) : Acyclic g := by
  intro ⟨u, w, hw, hwalk, hn⟩
  exact h ⟨u, w, hw, hwalk.lift g2, hn⟩

theorem acyclic_components (g : List (Int × Int)) (h : Acyclic g) : ∃ lab, Components g lab := by
  induction g using List.reverseRecOn with
  | nil => exact ⟨_, components_nil⟩
  | append_singleton g e ih =>
    obtain ⟨lab, hlab⟩ := ih h.of_append
    obtain ⟨a, b⟩ := e
    by_cases hab : lab a = lab b
    · exfalso
      obtain ⟨w, hw, hn⟩ := hlab.conn a b hab
      apply h
      refine ⟨a, w ++ [(g.length, a)], by simp, ?_, ?_⟩
      · apply IsWalk.append (hw.lift _)
        exact ⟨Or.inr (getElem?_append_length g (a, b)), rfl⟩
      · apply nodup_map_fst_append hn (by simp)
        intro s hs t ht hst
        simp only [List.mem_singleton] at ht
        subst ht
        have := hw.lt s hs
        simp only at hst
        omega
    · exact ⟨_, hlab.step a b hab⟩

/-- A graph without a cycle is sparse. -/
theorem Acyclic.sparse {g : List (Int × Int)} (h : Acyclic g) : Sparse g := by
  obtain ⟨lab, hlab⟩ := acyclic_components g h
  intro U hU
  have hc := hlab.count U
  have : 0 < (U.image lab).card := Finset.card_pos.mpr (hU.image lab)
  omega

end ppa

namespace ppa

open zhou

/-- Distinct positions of a list whose entries satisfy `P` are counted by `countP`. -/
theorem length_le_countP {α : Type} (P : α → Bool) (g : List α) (is : List Nat)
    (hnd : is.Nodup) (hP : ∀ i ∈ is, ∃ e, g[i]? = some e ∧ P e = true) :
    is.length ≤ g.countP P := by
  induction g using List.reverseRecOn generalizing is with
  | nil =>
    cases is with
    | nil => simp
    | cons i is =>
      obtain ⟨e, he, _⟩ := hP i (List.mem_cons_self _ _)
      simp at he
  | append_singleton g e ih =>
    have hrest : ∀ i ∈ is.erase g.length, ∃ e2, g[i]? = some e2 ∧ P e2 = true := by
      intro i hi
      have hne : i ≠ g.length := fun hh => by
        subst hh
        exact (List.Nodup.not_mem_erase hnd) hi
      obtain ⟨e2, he2, hp⟩ := hP i (List.mem_of_mem_erase hi)
      have hlt : i < (g ++ [e]).length := getElem?_lt_of_eq_some he2
      simp only [List.length_append, List.length_singleton] at hlt
      have hlt2 : i < g.length := by omega
      rw [List.getElem?_append_left hlt2] at he2
      exact ⟨e2, he2, hp⟩
    have h1 := ih (is.erase g.length) (hnd.erase _) hrest
    rw [List.countP_append]
    by_cases hmem : g.length ∈ is
    · obtain ⟨e2, he2, hp⟩ := hP _ hmem
      rw [getElem?_append_length] at he2
      cases he2
      rw [List.length_erase_of_mem hmem] at h1
      have hpos : 0 < is.length := List.length_pos_of_mem hmem
      simp only [List.countP_cons, List.countP_nil, hp, if_true]
      omega
    · rw [List.erase_of_not_mem hmem] at h1
      omega

theorem IsWalk.last_mem {g : List (Int × Int)} {u v : Int} {w : List (Nat × Int)}
    (h : IsWalk g u w v) (hw : w ≠ []) : v ∈ w.map Prod.snd := by
  induction w generalizing u with
  | nil => exact absurd rfl hw
  | cons t rest ih =>
    cases rest with
    | nil =>
      have : t.2 = v := h.2
      simp [this]
    | cons t2 rest2 =>
      have := ih h.2 (by simp)
      exact List.mem_cons_of_mem _ this

/-- Every edge of a walk has both ends among the start and the vertices reached. -/
theorem IsWalk.ends_mem {g : List (Int × Int)} {u v : Int} {w : List (Nat × Int)}
    (h : IsWalk g u w v) (U : Finset Int) (hu : u ∈ U) (hU : ∀ s ∈ w, s.2 ∈ U) :
    ∀ s ∈ w, ∃ e, g[s.1]? = some e ∧ decide (e.1 ∈ U ∧ e.2 ∈ U) = true := by
  induction w generalizing u with
  | nil => intro s hs; cases hs
  | cons t rest ih =>
    intro s hs
    have ht : t.2 ∈ U := hU t (List.mem_cons_self _ _)
    rcases List.mem_cons.mp hs with hs | hs
    · subst hs
      rcases h.1 with hj | hj
      · exact ⟨_, hj, by simp [hu, ht]⟩
      · exact ⟨_, hj, by simp [hu, ht]⟩
    · exact ih h.2 ht (fun s2 hs2 => hU s2 (List.mem_cons_of_mem _ hs2)) s hs

/-- A sparse graph has no cycle. -/
theorem Sparse.acyclic {g : List (Int × Int)} (h : Sparse g) : Acyclic g := by
  intro ⟨u, w, hw, hwalk, hn⟩
  have hu : u ∈ (w.map Prod.snd).toFinset := List.mem_toFinset.mpr (hwalk.last_mem hw)
  have hne : ((w.map Prod.snd).toFinset).Nonempty := ⟨u, hu⟩
  have hlt := h _ hne
  have hedges := hwalk.ends_mem (w.map Prod.snd).toFinset hu
    (fun s hs => List.mem_toFinset.mpr (List.mem_map_of_mem _ hs))
  have hcount := length_le_countP (fun e => decide (e.1 ∈ (w.map Prod.snd).toFinset ∧
      e.2 ∈ (w.map Prod.snd).toFinset)) g (w.map Prod.fst) hn (by
    intro i hi
    obtain ⟨s, hs, rfl⟩ := List.mem_map.mp hi
    exact hedges s hs)
  have hcard : ((w.map Prod.snd).toFinset).card ≤ w.length := by
    have := List.toFinset_card_le (w.map Prod.snd)
    simpa using this
  rw [List.length_map] at hcount
  unfold inner at hlt
  omega

/-- In a graph without a cycle at most one path connects any two vertices. -/
theorem Acyclic.unique_paths {g : List (Int × Int)} (h : Acyclic g) : UniquePaths g := by
  obtain ⟨lab, hlab⟩ := acyclic_components g h
  exact hlab.unique

/-- A graph is a forest exactly when it is sparse. -/
theorem acyclic_iff_sparse (g : List (Int × Int)) : Acyclic g ↔ Sparse g :=
  ⟨Acyclic.sparse, Sparse.acyclic⟩

theorem Sparse.sublist {g g2 : List (Int × Int)} (h : Sparse g) (hs : g2.Sublist g) :
    Sparse g2 := by
  intro U hU
  exact lt_of_le_of_lt (hs.countP_le _) (h U hU)

/-- Adding an edge to a vertex that no edge touches keeps the graph sparse. -/
theorem Sparse.pendant {g : List (Int × Int)} (h : Sparse g) (u x : Int) (hux : u ≠ x)
    (hx : ∀ e ∈ g, e.1 ≠ x ∧ e.2 ≠ x) : Sparse (g ++ [(u, x)]) := by
  intro U hU
  rw [inner_append, inner_singleton]
  by_cases hxU : x ∈ U
  · have herase : inner g U = inner g (U.erase x) := by
      unfold inner
      apply List.countP_congr
      intro e he
      have := hx e he
      simp only [decide_eq_true_eq, Finset.mem_erase]
      constructor
      · rintro ⟨h1, h2⟩
        exact ⟨⟨this.1, h1⟩, ⟨this.2, h2⟩⟩
      · rintro ⟨h1, h2⟩
        exact ⟨h1.2, h2.2⟩
    have hcard : (U.erase x).card + 1 = U.card := Finset.card_erase_add_one hxU
    by_cases hne : (U.erase x).Nonempty
    · have := h _ hne
      rw [herase]
      split <;> omega
    · rw [Finset.not_nonempty_iff_eq_empty] at hne
      have hz : inner g (U.erase x) = 0 := by
        rw [hne]
        simp [inner]
      have huU : u ∉ U := by
        intro hu
        have : u ∈ U.erase x := Finset.mem_erase.mpr ⟨hux, hu⟩
        rw [hne] at this
        simp at this
      rw [herase, hz]
      simp only [huU, false_and, if_false]
      omega
  · simp only [hxU, and_false, if_false]
    exact h U hU

end ppa

namespace ppa

open zhou

/-! ## Pruning keeps a sub-list -/

theorem reduceRound_sublist (rows cols : Nat) (es : List edge) :
    (reduceRound rows cols es).Sublist es := by
  unfold reduceRound
  exact List.filter_sublist es

theorem reduceGraph_sublist (rows cols profile_length : Nat) (es : List edge) :
    (reduceGraph rows cols profile_length es).Sublist es := by
  unfold reduceGraph
  refine foldl_invariant (fun r : List edge => r.Sublist es) _ _ _ (List.Sublist.refl es) ?_
  intro r _ _ hr
  exact (reduceRound_sublist rows cols r).trans hr

theorem ends_sublist {es es2 : List edge} (h : es2.Sublist es) : (ends es2).Sublist (ends es) :=
  h.map _

/-! ## The adjacency lists -/

theorem foldl_pushEdge (es : List edge) (m : Int → List edge) (k : Int) :
    (es.foldl (fun m e => pushEdge (pushEdge m e.id1 e) e.id2 e) m) k = m k ++ incident es k := by
  induction es generalizing m with
  | nil => simp [incident]
  | cons e es ih =>
    rw [List.foldl_cons, ih]
    have hcons : incident (e :: es) k =
        ((if e.id1 = k then [e] else []) ++ (if e.id2 = k then [e] else [])) ++ incident es k := by
      simp [incident, List.flatMap_cons]
    rw [hcons, ← List.append_assoc]
    congr 1
    unfold pushEdge
    by_cases h1 : e.id1 = k <;> by_cases h2 : e.id2 = k
    · subst h1
      simp [h2, Function.update]
    · subst h1
      have : ¬ e.id1 = e.id2 := fun hh => h2 hh.symm
      simp [h2, this, Function.update]
    · subst h2
      have : ¬ e.id2 = e.id1 := fun hh => h1 hh.symm
      simp [h1, this, Function.update]
    · have h1b : ¬ k = e.id1 := fun hh => h1 hh.symm
      have h2b : ¬ k = e.id2 := fun hh => h2 hh.symm
      simp [h1, h2, h1b, h2b, Function.update]

theorem buildNodeToEdge_eq (es : List edge) (k : Int) :
    buildNodeToEdge es k = incident es k := by
  unfold buildNodeToEdge
  rw [foldl_pushEdge]
  rfl

theorem mem_nodetoedge (es : List edge) (k : Int) (e : edge) :
    e ∈ buildNodeToEdge es k ↔ e ∈ es ∧ (e.id1 = k ∨ e.id2 = k) := by
  rw [buildNodeToEdge_eq]
  unfold incident
  simp only [List.mem_flatMap, List.mem_append]
  constructor
  · rintro ⟨e2, he2, h | h⟩
    · split at h
      · simp only [List.mem_singleton] at h
        subst h
        exact ⟨he2, Or.inl ‹_›⟩
      · cases h
    · split at h
      · simp only [List.mem_singleton] at h
        subst h
        exact ⟨he2, Or.inr ‹_›⟩
      · cases h
  · rintro ⟨he, h | h⟩
    · exact ⟨e, he, Or.inl (by simp [h])⟩
    · exact ⟨e, he, Or.inr (by simp [h])⟩

theorem Sparse.no_loop {es : List edge} (h : Sparse (ends es)) (e : edge) (he : e ∈ es) :
    e.id1 ≠ e.id2 := by
  intro heq
  have hlt := h {e.id1} (Finset.singleton_nonempty _)
  have hpos : 0 < inner (ends es) {e.id1} := by
    unfold inner
    rw [List.countP_pos_iff]
    refine ⟨(e.id1, e.id2), List.mem_map_of_mem _ he, ?_⟩
    simp [← heq]
  simp only [Finset.card_singleton] at hlt
  omega

theorem incident_eq_filter {es : List edge} (h : ∀ e ∈ es, e.id1 ≠ e.id2) (k : Int) :
    incident es k = es.filter (fun e => decide (e.id1 = k ∨ e.id2 = k)) := by
  induction es with
  | nil => rfl
  | cons e es ih =>
    have hcons : incident (e :: es) k =
        ((if e.id1 = k then [e] else []) ++ (if e.id2 = k then [e] else [])) ++ incident es k := by
      simp [incident, List.flatMap_cons]
    rw [hcons, ih (fun e2 he2 => h e2 (List.mem_cons_of_mem _ he2))]
    have hne := h e (List.mem_cons_self _ _)
    by_cases h1 : e.id1 = k <;> by_cases h2 : e.id2 = k
    · exact absurd (h1.trans h2.symm) hne
    · simp [List.filter_cons, h1, h2]
    · simp [List.filter_cons, h1, h2]
    · simp [List.filter_cons, h1, h2]

/-- The other end of an edge in the adjacency list of `k`. -/
theorem other_of_mem {es : List edge} (h : Sparse (ends es)) {k : Int} {e : edge}
    (he : e ∈ buildNodeToEdge es k) :
    e ∈ es ∧ e.other k ≠ k ∧ e ∈ buildNodeToEdge es (e.other k) ∧ e.other (e.other k) = k ∧
      ((e.id1 = k ∧ e.other k = e.id2) ∨ (e.id2 = k ∧ e.other k = e.id1)) := by
  obtain ⟨hes, hk⟩ := (mem_nodetoedge es k e).mp he
  have hne := h.no_loop e hes
  rcases hk with hk | hk
  · subst hk
    have ho : e.other e.id1 = e.id2 := by simp [edge.other]
    rw [ho]
    refine ⟨hes, fun hh => hne hh.symm, (mem_nodetoedge es _ e).mpr ⟨hes, Or.inr rfl⟩, ?_,
      Or.inl ⟨rfl, rfl⟩⟩
    simp [edge.other, fun hh : e.id2 = e.id1 => hne hh.symm]
  · subst hk
    have ho : e.other e.id2 = e.id1 := by
      simp [edge.other, fun hh : e.id2 = e.id1 => hne hh.symm]
    rw [ho]
    refine ⟨hes, hne, (mem_nodetoedge es _ e).mpr ⟨hes, Or.inl rfl⟩, ?_, Or.inr ⟨rfl, rfl⟩⟩
    simp [edge.other]

end ppa

namespace ppa

open zhou

/-! ## Counting edges into a set -/

theorem countP_add_le {α : Type} (p q r : α → Bool) (l : List α)
    (hd : ∀ e ∈ l, ¬ (p e = true ∧ q e = true))
    (hr : ∀ e ∈ l, p e = true ∨ q e = true → r e = true) :
    l.countP p + l.countP q ≤ l.countP r := by
  induction l with
  | nil => simp
  | cons a l ih =>
    have h := ih (fun e he => hd e (List.mem_cons_of_mem _ he))
      (fun e he => hr e (List.mem_cons_of_mem _ he))
    have hda := hd a (List.mem_cons_self _ _)
    have hra := hr a (List.mem_cons_self _ _)
    simp only [List.countP_cons]
    cases hp : p a <;> cases hq : q a
    · simp; omega
    · have := hra (Or.inr hq); simp [this]; omega
    · have := hra (Or.inl hp); simp [this]; omega
    · exact absurd ⟨hp, hq⟩ hda

theorem inner_insert_ge {es : List edge} (h : Sparse (ends es)) (x : Int) (U : Finset Int)
    (hx : x ∉ U) : inner (ends es) U + link es x U ≤ inner (ends es) (insert x U) := by
  unfold inner link ends
  rw [List.countP_map, List.countP_map, buildNodeToEdge_eq,
    incident_eq_filter (fun e he => h.no_loop e he), List.countP_filter]
  apply countP_add_le
  · intro e _ hpq
    simp only [Function.comp, decide_eq_true_eq, Bool.and_eq_true] at hpq
    obtain ⟨⟨h1, h2⟩, h3, h4⟩ := hpq
    rcases h4 with h4 | h4
    · rw [h4] at h1; exact hx h1
    · rw [h4] at h2; exact hx h2
  · intro e he hpq
    simp only [Function.comp, decide_eq_true_eq, Bool.and_eq_true, Finset.mem_insert] at hpq ⊢
    rcases hpq with ⟨h1, h2⟩ | ⟨h3, h4⟩
    · exact ⟨Or.inr h1, Or.inr h2⟩
    · have hne := h.no_loop e he
      rcases h4 with h4 | h4
      · have ho : e.other x = e.id2 := by simp [edge.other, h4]
        rw [ho] at h3
        exact ⟨Or.inl h4, Or.inr h3⟩
      · have ho : e.other x = e.id1 := by
          have : ¬ x = e.id1 := fun hh => hne (by rw [← hh, h4])
          simp [edge.other, this]
        rw [ho] at h3
        exact ⟨Or.inr h3, Or.inl h4⟩

theorem toFinset_append_singleton (cur : List Int) (x : Int) :
    (cur ++ [x]).toFinset = insert x cur.toFinset := by
  ext y
  simp [or_comm]

theorem eq_of_length_le_one {α : Type} {l : List α} (h : l.length ≤ 1) {a b : α}
    (ha : a ∈ l) (hb : b ∈ l) : a = b := by
  match l, h with
  | [c], _ =>
    simp only [List.mem_singleton] at ha hb
    rw [ha, hb]
  | [], _ => cases ha
  | _ :: _ :: _, h => simp at h

/-- Visiting a new node `x` through an edge from the visited part `cur` of a tree: the
part stays tight and the edge is the only one from `x` into `cur`. -/
theorem visit_new {es : List edge} (h : Sparse (ends es)) (cur : List Int) (x : Int)
    (hnd : cur.Nodup) (htight : inner (ends es) cur.toFinset + 1 = cur.length)
    (hx : x ∉ cur) (e : edge) (he : e ∈ buildNodeToEdge es x) (heo : e.other x ∈ cur) :
    inner (ends es) (cur ++ [x]).toFinset + 1 = (cur ++ [x]).length ∧
    link es x cur.toFinset = 1 := by
  have hxU : x ∉ cur.toFinset := fun hh => hx (List.mem_toFinset.mp hh)
  have hge := inner_insert_ge h x cur.toFinset hxU
  have hlt := h (insert x cur.toFinset) (Finset.insert_nonempty _ _)
  rw [Finset.card_insert_of_not_mem hxU, List.toFinset_card_of_nodup hnd] at hlt
  have hpos : 0 < link es x cur.toFinset := by
    unfold link
    rw [List.countP_pos_iff]
    exact ⟨e, he, by simpa using heo⟩
  rw [toFinset_append_singleton]
  simp only [List.length_append, List.length_singleton]
  omega

theorem link_unique {es : List edge} {x : Int} {U : Finset Int} (hl : link es x U = 1)
    {e e2 : edge} (he : e ∈ buildNodeToEdge es x) (heo : e.other x ∈ U)
    (he2 : e2 ∈ buildNodeToEdge es x) (heo2 : e2.other x ∈ U) : e = e2 := by
  unfold link at hl
  rw [List.countP_eq_length_filter] at hl
  apply eq_of_length_le_one (le_of_eq hl)
  · exact List.mem_filter.mpr ⟨he, by simpa using heo⟩
  · exact List.mem_filter.mpr ⟨he2, by simpa using heo2⟩

/-- The two edges of a chain node: exactly one of them leads back into `U`. -/
theorem link_pair {es : List edge} {x : Int} {U : Finset Int} (hl : link es x U = 1)
    {e0 e1 : edge} (hpair : buildNodeToEdge es x = [e0, e1]) :
    (e0.other x ∈ U ∧ e1.other x ∉ U) ∨ (e0.other x ∉ U ∧ e1.other x ∈ U) := by
  unfold link at hl
  rw [hpair] at hl
  simp only [List.countP_cons, List.countP_nil, decide_eq_true_eq] at hl
  by_cases h0 : e0.other x ∈ U <;> by_cases h1 : e1.other x ∈ U
  · simp [h0, h1] at hl
  · exact Or.inl ⟨h0, h1⟩
  · exact Or.inr ⟨h0, h1⟩
  · simp [h0, h1] at hl

theorem Closed.other {es : List edge} (h : Sparse (ends es)) {old : List Int}
    (hc : Closed es old) {k : Int} {e : edge} (he : e ∈ buildNodeToEdge es k) :
    e.other k ∈ old ↔ k ∈ old := by
  obtain ⟨hes, _, _, _, hk⟩ := other_of_mem h he
  rcases hk with ⟨h1, h2⟩ | ⟨h1, h2⟩
  · rw [h2, ← h1]; exact (hc e hes).symm
  · rw [h2, ← h1]; exact hc e hes

end ppa

namespace ppa

open zhou

/-! ## The chain walk -/

theorem mem_endpoints_of_key {es : List edge} {k : Int} (hk : buildNodeToEdge es k ≠ []) :
    k ∈ es.flatMap (fun e => [e.id1, e.id2]) := by
  obtain ⟨e, he⟩ := List.exists_mem_of_ne_nil _ hk
  obtain ⟨hes, hik⟩ := (mem_nodetoedge es k e).mp he
  rw [List.mem_flatMap]
  refine ⟨e, hes, ?_⟩
  rcases hik with h | h <;> simp [h]

theorem length_endpoints (es : List edge) :
    (es.flatMap (fun e => [e.id1, e.id2])).length = 2 * es.length := by
  induction es with
  | nil => rfl
  | cons e es ih =>
    simp only [List.flatMap_cons, List.length_append, ih, List.length_cons, List.length_nil]
    omega

/-- A duplicate-free list of nodes with edges has at most `2 * |es|` entries. -/
theorem visited_length_le {es : List edge} {vis : List Int} (hnd : vis.Nodup)
    (hk : ∀ k ∈ vis, buildNodeToEdge es k ≠ []) : vis.length ≤ 2 * es.length := by
  rw [← length_endpoints es, ← List.toFinset_card_of_nodup hnd]
  refine le_trans (Finset.card_le_card ?_) (List.toFinset_card_le _)
  intro k hk2
  rw [List.mem_toFinset] at hk2 ⊢
  exact mem_endpoints_of_key (hk k hk2)

theorem ChainInv.after {es : List edge} (h : Sparse (ends es)) {old V : List Int} {x : Int}
    (hc : ChainInv es old V x) :
    inner (ends es) (V ++ [x]).toFinset + 1 = (V ++ [x]).length ∧
      link es x V.toFinset = 1 := by
  obtain ⟨e, he, heo⟩ := hc.entry
  have hndV : (V ++ [x]).Nodup := (List.nodup_append.mp hc.nd).2.1
  have hx : x ∉ V := by
    intro hx
    have := List.nodup_append.mp hndV
    exact this.2.2 hx (List.mem_singleton_self x)
  exact visit_new h V x (List.nodup_append.mp hndV).1 hc.tight hx e he heo

/-- One step of the chain walk from a node `x` with exactly two edges: the node `w` the
code moves to is new, and it is reached from `x`. -/
theorem chain_step {es : List edge} (h : Sparse (ends es)) {old V : List Int} {x : Int}
    (hc : ChainInv es old V x) {e0 e1 : edge} (hpair : buildNodeToEdge es x = [e0, e1]) :
    ChainInv es old (V ++ [x])
      (if e0.other x ∈ old ++ (V ++ [x]) then e1.other x else e0.other x) ∧
    Finished es (old ++ (V ++ [x] ++
      [if e0.other x ∈ old ++ (V ++ [x]) then e1.other x else e0.other x])) x := by
  obtain ⟨htight, hlink⟩ := hc.after h
  have hndV : (V ++ [x]).Nodup := (List.nodup_append.mp hc.nd).2.1
  have hxold : x ∉ old := by
    intro hx
    exact (List.nodup_append.mp hc.nd).2.2 hx (by simp)
  have hm0 : e0 ∈ buildNodeToEdge es x := by rw [hpair]; simp
  have hm1 : e1 ∈ buildNodeToEdge es x := by rw [hpair]; simp
  -- the edge `ef` leads forward to `w`, the edge `eb` leads back into `V`
  have key : ∀ ef eb : edge, ef ∈ buildNodeToEdge es x → eb ∈ buildNodeToEdge es x →
      eb.other x ∈ V → ef.other x ∉ V →
      (∀ e ∈ buildNodeToEdge es x, e = ef ∨ e = eb) →
      ef.other x ∉ old ++ (V ++ [x]) ∧
      ChainInv es old (V ++ [x]) (ef.other x) ∧
      Finished es (old ++ (V ++ [x] ++ [ef.other x])) x := by
    intro ef eb hef heb hebV hefV hall
    obtain ⟨_, hne, hback, hoo, _⟩ := other_of_mem h hef
    have hnew : ef.other x ∉ old ++ (V ++ [x]) := by
      intro hmem
      rcases List.mem_append.mp hmem with hmem | hmem
      · exact hxold ((hc.closed.other h hef).mp hmem)
      · rcases List.mem_append.mp hmem with hmem | hmem
        · exact hefV hmem
        · exact hne (List.mem_singleton.mp hmem)
    refine ⟨hnew, ?_, ?_⟩
    · constructor
      · rw [← List.append_assoc, List.nodup_append]
        refine ⟨hc.nd, List.nodup_singleton _, ?_⟩
        intro k hk1 hk2
        rw [List.mem_singleton] at hk2
        subst hk2
        exact hnew hk1
      · exact htight
      · exact hc.closed
      · exact ⟨ef, hback, by rw [hoo]; simp⟩
      · intro k hk
        rw [← List.append_assoc] at hk
        rcases List.mem_append.mp hk with hk | hk
        · exact hc.keys k hk
        · rw [List.mem_singleton] at hk
          subst hk
          exact List.ne_nil_of_mem hback
    · intro e he
      rcases hall e he with rfl | rfl
      · simp
      · simp [hebV]
  have hall : ∀ e ∈ buildNodeToEdge es x, e = e0 ∨ e = e1 := by
    intro e he
    rw [hpair] at he
    simpa using he
  rcases link_pair hlink hpair with ⟨h0, h1⟩ | ⟨h0, h1⟩
  · -- `e0` leads back
    have h0V : e0.other x ∈ V := List.mem_toFinset.mp h0
    have h1V : e1.other x ∉ V := fun hh => h1 (List.mem_toFinset.mpr hh)
    have hif : e0.other x ∈ old ++ (V ++ [x]) := by simp [h0V]
    rw [if_pos hif]
    have := key e1 e0 hm1 hm0 h0V h1V (fun e he => (hall e he).symm)
    exact ⟨this.2.1, this.2.2⟩
  · -- `e0` leads forward
    have h1V : e1.other x ∈ V := List.mem_toFinset.mp h1
    have h0V : e0.other x ∉ V := fun hh => h0 (List.mem_toFinset.mpr hh)
    have := key e0 e1 hm0 hm1 h1V h0V hall
    rw [if_neg this.1]
    exact ⟨this.2.1, this.2.2⟩

theorem Finished.mono {es : List edge} {vis vis2 : List Int} {k : Int}
    (h : Finished es vis k) (hsub : ∀ a ∈ vis, a ∈ vis2) : Finished es vis2 k :=
  fun e he => hsub _ (h e he)

/-- The chain walk on a forest: with enough fuel it returns; it appends the nodes `chain`
with exactly two edges that it passes and the node `x2` where it stops, and one position
per passed node to the path. -/
theorem walkChain_spec {es : List edge} (h : Sparse (ends es)) (smoothPosition : Int → Vec2f)
    (old : List Int) (fuel : Nat) (V : List Int) (x : Int) (path : List Vec2f)
    (hc : ChainInv es old V x) (hfuel : 2 * es.length < fuel + (old ++ (V ++ [x])).length) :
    ∃ (chain : List Int) (x2 : Int),
      walkChain (buildNodeToEdge es) smoothPosition fuel (old ++ (V ++ [x])) path x =
        some (old ++ (V ++ chain ++ [x2]), path ++ chain.map smoothPosition, x2) ∧
      ChainInv es old (V ++ chain) x2 ∧
      (buildNodeToEdge es x2).length ≠ 2 ∧
      (∃ rest, chain ++ [x2] = x :: rest) ∧
      ∀ k ∈ chain, (buildNodeToEdge es k).length = 2 ∧
        Finished es (old ++ (V ++ chain ++ [x2])) k := by
  induction fuel generalizing V x path with
  | zero =>
    have := visited_length_le hc.nd hc.keys
    omega
  | succ fuel ih =>
    by_cases hpair : ∃ e0 e1, buildNodeToEdge es x = [e0, e1]
    · obtain ⟨e0, e1, hpair⟩ := hpair
      obtain ⟨hnext, hfin⟩ := chain_step h hc hpair
      obtain ⟨chain, x2, hres, hc2, hlen, ⟨rest, hrest⟩, hchain⟩ :=
        ih (V ++ [x]) _ (path ++ [smoothPosition x]) hnext (by
          simp only [List.length_append, List.length_singleton] at hfuel ⊢
          omega)
      refine ⟨x :: chain, x2, ?_, ?_, hlen, ⟨chain ++ [x2], by simp⟩, ?_⟩
      · unfold walkChain
        simp only [hpair]
        have e1 : old ++ (V ++ [x]) ++
            [if e0.other x ∈ old ++ (V ++ [x]) then e1.other x else e0.other x] =
            old ++ (V ++ [x] ++
            [if e0.other x ∈ old ++ (V ++ [x]) then e1.other x else e0.other x]) := by
          simp
        rw [e1, hres]
        simp
      · simpa using hc2
      · intro k hk
        have hsub : ∀ a ∈ old ++ (V ++ [x] ++
            [if e0.other x ∈ old ++ (V ++ [x]) then e1.other x else e0.other x]),
            a ∈ old ++ (V ++ (x :: chain) ++ [x2]) := by
          intro a ha
          have hw : (if e0.other x ∈ old ++ (V ++ [x]) then e1.other x else e0.other x) ∈
              chain ++ [x2] := by rw [hrest]; exact List.mem_cons_self _ _
          generalize (if e0.other x ∈ old ++ (V ++ [x]) then e1.other x else e0.other x) = w
            at ha hw
          rcases List.mem_append.mp ha with ha | ha
          · exact List.mem_append_left _ ha
          · apply List.mem_append_right
            rcases List.mem_append.mp ha with ha | ha
            · rcases List.mem_append.mp ha with ha | ha
              · exact List.mem_append_left _ (List.mem_append_left _ ha)
              · rw [List.mem_singleton] at ha
                subst ha
                exact List.mem_append_left _ (List.mem_append_right _ (List.mem_cons_self _ _))
            · rw [List.mem_singleton] at ha
              subst ha
              rcases List.mem_append.mp hw with hw | hw
              · exact List.mem_append_left _
                  (List.mem_append_right _ (List.mem_cons_of_mem _ hw))
              · exact List.mem_append_right _ hw
        rcases List.mem_cons.mp hk with hk | hk
        · subst hk
          exact ⟨by rw [hpair]; rfl, hfin.mono hsub⟩
        · have := hchain k hk
          refine ⟨this.1, ?_⟩
          simpa using this.2
    · refine ⟨[], x, ?_, by simpa using hc, ?_, ⟨[], rfl⟩, by simp⟩
      · unfold walkChain
        split
        · rename_i e0 e1 heq
          exact absurd ⟨e0, e1, heq⟩ hpair
        · simp
      · intro hlen
        apply hpair
        match hm : buildNodeToEdge es x, hlen with
        | [e0, e1], _ => exact ⟨e0, e1, rfl⟩

end ppa

namespace ppa

open zhou

/-! ## The tables -/

theorem mapSet_new {β : Type} (m : List (Int × β)) (k : Int) (v : β)
    (hk : k ∉ m.map Prod.fst) : mapSet m k v = m ++ [(k, v)] := by
  unfold mapSet
  rw [if_neg]
  intro hany
  rw [List.any_eq_true] at hany
  obtain ⟨kv, hkv, hd⟩ := hany
  apply hk
  rw [List.mem_map]
  exact ⟨kv, hkv, by simpa using hd⟩

theorem mapModify_keys {β : Type} [Inhabited β] (m : List (Int × β)) (k : Int) (f : β → β)
    (hk : k ∈ m.map Prod.fst) : (mapModify m k f).map Prod.fst = m.map Prod.fst := by
  unfold mapModify
  rw [if_pos]
  · rw [List.map_map]
    apply List.map_congr_left
    intro kv _
    simp only [Function.comp]
    split
    · rename_i heq; exact heq.symm
    · rfl
  · rw [List.any_eq_true]
    obtain ⟨kv, hkv, hd⟩ := List.mem_map.mp hk
    exact ⟨kv, hkv, by simpa using hd⟩

theorem length_eq_of_keys {β : Type} {m m2 : List (Int × β)}
    (h : m2.map Prod.fst = m.map Prod.fst) : m2.length = m.length := by
  have := congrArg List.length h
  simpa using this

/-- The node table after a new end node `x2` was stored and the new edge id was pushed to
`c` and to `x2`. -/
theorem nodes_after_edge (m : List (Int × FeatureNode)) (c x2 : Int) (node : FeatureNode)
    (f : FeatureNode → FeatureNode) (hc : c ∈ m.map Prod.fst) (hx : x2 ∉ m.map Prod.fst) :
    (mapModify (mapModify (mapSet m x2 node) c f) x2 f).map Prod.fst = m.map Prod.fst ++ [x2] := by
  have h1 : (mapSet m x2 node).map Prod.fst = m.map Prod.fst ++ [x2] := by
    rw [mapSet_new m x2 node hx]
    simp
  have h2 : (mapModify (mapSet m x2 node) c f).map Prod.fst = m.map Prod.fst ++ [x2] := by
    rw [mapModify_keys _ _ _ (by rw [h1]; exact List.mem_append_left _ hc), h1]
  rw [mapModify_keys _ _ _ (by rw [h2]; simp), h2]

theorem not_mem_of_nodup_append {old V : List Int} {x : Int}
    (h : (old ++ (V ++ [x])).Nodup) : x ∉ old ++ V := by
  rw [← List.append_assoc] at h
  intro hx
  exact (List.nodup_append.mp h).2.2 hx (List.mem_singleton_self x)

end ppa

namespace ppa

open zhou

/-! ## One edge of the current node -/

theorem processEdge_spec {es : List edge} (h : Sparse (ends es)) (smoothPosition : Int → Vec2f)
    (fuel : Nat) (hfuel : 2 * es.length < fuel) {old cur : List Int} {st : Trace} {c : Int}
    {stack : List Int} (hinv : DfsInv es old cur st [c] stack) (e : edge)
    (he : e ∈ buildNodeToEdge es c) :
    ∃ (st2 : Trace) (stack2 cur2 : List Int),
      processEdge fuel (buildNodeToEdge es) smoothPosition c (st, stack) e = some (st2, stack2) ∧
      DfsInv es old cur2 st2 [c] stack2 ∧
      e.other c ∈ st2.visited ∧
      (∀ a ∈ st.visited, a ∈ st2.visited) ∧
      stack2.length + st.visited.length ≤ stack.length + st2.visited.length := by
  by_cases hvis : e.other c ∈ st.visited
  · refine ⟨st, stack, cur, ?_, hinv, hvis, fun a ha => ha, le_refl _⟩
    unfold processEdge
    simp only [hvis, if_true]
  · obtain ⟨_, hne, hback, hoo, _⟩ := other_of_mem h he
    have hccur : c ∈ cur := hinv.sub c (Or.inr (List.mem_singleton_self c))
    have hnd0 : (old ++ cur).Nodup := by rw [← hinv.vis]; exact hinv.nd
    have hx0 : e.other c ∉ old ++ cur := by rw [← hinv.vis]; exact hvis
    have hc0 : ChainInv es old cur (e.other c) := by
      constructor
      · rw [← List.append_assoc, List.nodup_append]
        refine ⟨hnd0, List.nodup_singleton _, ?_⟩
        intro k hk1 hk2
        rw [List.mem_singleton] at hk2
        subst hk2
        exact hx0 hk1
      · exact hinv.tight
      · exact hinv.closed
      · exact ⟨e, hback, by rw [hoo]; exact hccur⟩
      · intro k hk
        rw [← List.append_assoc] at hk
        rcases List.mem_append.mp hk with hk | hk
        · exact hinv.keys k (by rw [hinv.vis]; exact hk)
        · rw [List.mem_singleton] at hk
          subst hk
          exact List.ne_nil_of_mem hback
    obtain ⟨chain, x2, hres, hc2, _, ⟨rest, hrest⟩, hchain⟩ :=
      walkChain_spec h smoothPosition old fuel cur (e.other c) [smoothPosition c] hc0 (by omega)
    have hx2 : x2 ∉ old ++ (cur ++ chain) := not_mem_of_nodup_append hc2.nd
    have hx2vis : x2 ∉ st.visited := by
      rw [hinv.vis]
      intro hmem
      apply hx2
      rcases List.mem_append.mp hmem with hm | hm
      · exact List.mem_append_left _ hm
      · exact List.mem_append_right _ (List.mem_append_left _ hm)
    have hx2keys : x2 ∉ st.m_nodes.map Prod.fst := fun hm => hx2vis (hinv.tab.nodes_sub x2 hm)
    have hckeys : c ∈ st.m_nodes.map Prod.fst := hinv.isnode c (Or.inr (List.mem_singleton_self c))
    have hcx2 : c ≠ x2 := by
      intro heq
      apply hx2
      rw [← heq]
      exact List.mem_append_right _ (List.mem_append_left _ hccur)
    have hcounter : st.edgeidcounter ∉ st.m_edges.map Prod.fst := by
      intro hm
      obtain ⟨kv, hkv, hk⟩ := List.mem_map.mp hm
      have := hinv.tab.edge_lt kv hkv
      omega
    have hent : e.other c ∈ chain ++ [x2] := by rw [hrest]; exact List.mem_cons_self _ _
    -- the result of the call
    have hcall : walkChain (buildNodeToEdge es) smoothPosition fuel
        (st.visited ++ [e.other c]) [smoothPosition c] (e.other c) =
        some (old ++ (cur ++ chain ++ [x2]), [smoothPosition c] ++ chain.map smoothPosition, x2) := by
      rw [hinv.vis, List.append_assoc]
      exact hres
    refine ⟨storeEdge smoothPosition st c (old ++ (cur ++ chain ++ [x2]))
      ([smoothPosition c] ++ chain.map smoothPosition) x2, x2 :: stack,
      cur ++ chain ++ [x2], ?_, ?_, ?_, ?_, ?_⟩
    · unfold processEdge
      simp only [hvis, if_false, hcall]
    · have hkeys3 := nodes_after_edge st.m_nodes c x2 ⟨x2, smoothPosition x2, []⟩
        (fun n => { n with edges := n.edges ++ [st.edgeidcounter] }) hckeys hx2keys
      have hsubvis : ∀ a ∈ st.visited, a ∈ old ++ (cur ++ chain ++ [x2]) := by
        intro a ha
        rw [hinv.vis] at ha
        rcases List.mem_append.mp ha with ha | ha
        · exact List.mem_append_left _ ha
        · exact List.mem_append_right _ (List.mem_append_left _ (List.mem_append_left _ ha))
      have hv : (storeEdge smoothPosition st c (old ++ (cur ++ chain ++ [x2]))
          ([smoothPosition c] ++ chain.map smoothPosition) x2).visited =
          old ++ (cur ++ chain ++ [x2]) := rfl
      constructor
      · exact hinv.closed
      · rfl
      · rw [hv]; exact hc2.nd
      · simp
      · exact (hc2.after h).1
      · rw [hv]; exact hc2.keys
      · intro k hk
        rw [hv]
        rcases List.mem_append.mp hk with hk | hk
        · rcases List.mem_append.mp hk with hk | hk
          · rcases hinv.fin k hk with hf | hf | hf
            · exact Or.inl (List.mem_cons_of_mem _ hf)
            · exact Or.inr (Or.inl hf)
            · exact Or.inr (Or.inr (hf.mono hsubvis))
          · exact Or.inr (Or.inr (hchain k hk).2)
        · rw [List.mem_singleton] at hk
          subst hk
          exact Or.inl (List.mem_cons_self _ _)
      · intro k hk
        rcases hk with hk | hk
        · rcases List.mem_cons.mp hk with hk | hk
          · subst hk; simp
          · exact List.mem_append_left _ (List.mem_append_left _ (hinv.sub k (Or.inl hk)))
        · exact List.mem_append_left _ (List.mem_append_left _ (hinv.sub k (Or.inr hk)))
      · intro k hk
        simp only [storeEdge]
        rw [hkeys3]
        rcases hk with hk | hk
        · rcases List.mem_cons.mp hk with hk | hk
          · subst hk; simp
          · exact List.mem_append_left _ (hinv.isnode k (Or.inl hk))
        · exact List.mem_append_left _ (hinv.isnode k (Or.inr hk))
      · constructor
        · simp only [storeEdge]
          rw [hkeys3, List.nodup_append]
          refine ⟨hinv.tab.nodes_nd, List.nodup_singleton _, ?_⟩
          intro k hk1 hk2
          rw [List.mem_singleton] at hk2
          subst hk2
          exact hx2keys hk1
        · intro k hk
          simp only [storeEdge] at hk ⊢
          rw [hkeys3] at hk
          rcases List.mem_append.mp hk with hk | hk
          · exact hsubvis k (hinv.tab.nodes_sub k hk)
          · rw [List.mem_singleton] at hk
            subst hk
            simp
        · simp only [storeEdge]
          rw [length_eq_of_keys (hkeys3.trans (by simp : st.m_nodes.map Prod.fst ++ [x2] =
            (st.m_nodes ++ [(x2, (default : FeatureNode))]).map Prod.fst)),
            mapSet_new _ _ _ hcounter]
          have := hinv.tab.count
          rw [hinv.vis] at this
          simp only [List.map_append, List.sum_append, List.length_append, List.map_cons,
            List.map_nil, List.sum_cons, List.sum_nil, List.length_cons, List.length_nil,
            List.length_map] at this ⊢
          omega
        · simp only [storeEdge]
          rw [mapSet_new _ _ _ hcounter]
          have : featureEnds (st.m_edges ++ [(st.edgeidcounter,
              (⟨st.edgeidcounter, c, x2, [smoothPosition c] ++ chain.map smoothPosition ++
                [((mapFind (mapSet st.m_nodes x2 ⟨x2, smoothPosition x2, []⟩) x2).getD
                  default).p]⟩ : FeatureEdge))]) =
              featureEnds st.m_edges ++ [(c, x2)] := by
            simp [featureEnds]
          rw [this]
          apply hinv.tab.fsparse.pendant c x2 hcx2
          intro p hp
          obtain ⟨kv, hkv, rfl⟩ := List.mem_map.mp hp
          have := hinv.tab.fnodes kv hkv
          constructor
          · intro heq
            exact hx2keys (heq ▸ this.1)
          · intro heq
            exact hx2keys (heq ▸ this.2)
        · intro kv hkv
          simp only [storeEdge] at hkv ⊢
          rw [hkeys3]
          rw [mapSet_new _ _ _ hcounter] at hkv
          rcases List.mem_append.mp hkv with hkv | hkv
          · have := hinv.tab.fnodes kv hkv
            exact ⟨List.mem_append_left _ this.1, List.mem_append_left _ this.2⟩
          · rw [List.mem_singleton] at hkv
            subst hkv
            exact ⟨List.mem_append_left _ hckeys, by simp⟩
        · intro kv hkv
          simp only [storeEdge] at hkv ⊢
          rw [mapSet_new _ _ _ hcounter] at hkv
          rcases List.mem_append.mp hkv with hkv | hkv
          · have := hinv.tab.edge_lt kv hkv
            omega
          · rw [List.mem_singleton] at hkv
            subst hkv
            simp
    · show e.other c ∈ old ++ (cur ++ chain ++ [x2])
      apply List.mem_append_right
      rcases List.mem_append.mp hent with hm | hm
      · exact List.mem_append_left _ (List.mem_append_right _ hm)
      · exact List.mem_append_right _ hm
    · intro a ha
      show a ∈ old ++ (cur ++ chain ++ [x2])
      rw [hinv.vis] at ha
      rcases List.mem_append.mp ha with ha | ha
      · exact List.mem_append_left _ ha
      · exact List.mem_append_right _ (List.mem_append_left _ (List.mem_append_left _ ha))
    · show (x2 :: stack).length + st.visited.length ≤
        stack.length + (old ++ (cur ++ chain ++ [x2])).length
      simp only [hinv.vis, List.length_append, List.length_cons, List.length_nil]
      omega

end ppa

namespace ppa

open zhou

/-! ## The traversal of one tree -/

theorem processNode_fold {es : List edge} (h : Sparse (ends es)) (smoothPosition : Int → Vec2f)
    (fuel : Nat) (hfuel : 2 * es.length < fuel) {old : List Int} {c : Int} (rest : List edge)
    (hrest : ∀ e ∈ rest, e ∈ buildNodeToEdge es c) {cur : List Int} {st : Trace}
    {stack : List Int} (hinv : DfsInv es old cur st [c] stack) :
    ∃ (st2 : Trace) (stack2 cur2 : List Int),
      rest.foldlM (processEdge fuel (buildNodeToEdge es) smoothPosition c) (st, stack) =
        some (st2, stack2) ∧
      DfsInv es old cur2 st2 [c] stack2 ∧
      (∀ e ∈ rest, e.other c ∈ st2.visited) ∧
      (∀ a ∈ st.visited, a ∈ st2.visited) ∧
      stack2.length + st.visited.length ≤ stack.length + st2.visited.length := by
  induction rest generalizing cur st stack with
  | nil => exact ⟨st, stack, cur, rfl, hinv, fun e he => (by cases he), fun a ha => ha, le_refl _⟩
  | cons e rest ih =>
    obtain ⟨st1, stack1, cur1, hstep, hinv1, hvis1, hmono1, hlen1⟩ :=
      processEdge_spec h smoothPosition fuel hfuel hinv e (hrest e (List.mem_cons_self _ _))
    obtain ⟨st2, stack2, cur2, hfold, hinv2, hvis2, hmono2, hlen2⟩ :=
      ih (fun e2 he2 => hrest e2 (List.mem_cons_of_mem _ he2)) hinv1
    refine ⟨st2, stack2, cur2, ?_, hinv2, ?_, fun a ha => hmono2 a (hmono1 a ha), by omega⟩
    · rw [List.foldlM_cons, hstep]
      exact hfold
    · intro e2 he2
      rcases List.mem_cons.mp he2 with he2 | he2
      · subst he2; exact hmono2 _ hvis1
      · exact hvis2 e2 he2

theorem DfsInv.pop {es : List edge} {old cur : List Int} {st : Trace} {c : Int}
    {stack : List Int} (hinv : DfsInv es old cur st [] (c :: stack)) :
    DfsInv es old cur st [c] stack := by
  refine ⟨hinv.closed, hinv.vis, hinv.nd, hinv.ne, hinv.tight, hinv.keys, ?_, ?_, ?_, hinv.tab⟩
  · intro k hk
    rcases hinv.fin k hk with hf | hf | hf
    · rcases List.mem_cons.mp hf with hf | hf
      · exact Or.inr (Or.inl (by rw [hf]; exact List.mem_singleton_self _))
      · exact Or.inl hf
    · cases hf
    · exact Or.inr (Or.inr hf)
  · intro k hk
    rcases hk with hk | hk
    · exact hinv.sub k (Or.inl (List.mem_cons_of_mem _ hk))
    · rw [List.mem_singleton] at hk
      exact hinv.sub k (Or.inl (by rw [hk]; exact List.mem_cons_self _ _))
  · intro k hk
    rcases hk with hk | hk
    · exact hinv.isnode k (Or.inl (List.mem_cons_of_mem _ hk))
    · rw [List.mem_singleton] at hk
      exact hinv.isnode k (Or.inl (by rw [hk]; exact List.mem_cons_self _ _))

theorem DfsInv.done {es : List edge} {old cur : List Int} {st : Trace} {c : Int}
    {stack : List Int} (hinv : DfsInv es old cur st [c] stack)
    (hfin : Finished es st.visited c) : DfsInv es old cur st [] stack := by
  refine ⟨hinv.closed, hinv.vis, hinv.nd, hinv.ne, hinv.tight, hinv.keys, ?_, ?_, ?_, hinv.tab⟩
  · intro k hk
    rcases hinv.fin k hk with hf | hf | hf
    · exact Or.inl hf
    · rw [List.mem_singleton] at hf
      exact Or.inr (Or.inr (by rw [hf]; exact hfin))
    · exact Or.inr (Or.inr hf)
  · intro k hk
    rcases hk with hk | hk
    · exact hinv.sub k (Or.inl hk)
    · cases hk
  · intro k hk
    rcases hk with hk | hk
    · exact hinv.isnode k (Or.inl hk)
    · cases hk

theorem dfsLoop_spec {es : List edge} (h : Sparse (ends es)) (smoothPosition : Int → Vec2f)
    (chainFuel : Nat) (hcf : 2 * es.length < chainFuel) {old : List Int} (fuel : Nat)
    {cur : List Int} {st : Trace} {stack : List Int} (hinv : DfsInv es old cur st [] stack)
    (hfuel : stack.length + 2 * es.length ≤ fuel + st.visited.length) :
    ∃ (st2 : Trace) (cur2 : List Int),
      dfsLoop chainFuel (buildNodeToEdge es) smoothPosition fuel st stack = some st2 ∧
      DfsInv es old cur2 st2 [] [] ∧ (∀ a ∈ st.visited, a ∈ st2.visited) := by
  induction fuel generalizing cur st stack with
  | zero =>
    cases stack with
    | nil => exact ⟨st, cur, by simp [dfsLoop], hinv, fun a ha => ha⟩
    | cons c rest =>
      have := visited_length_le hinv.nd hinv.keys
      simp only [List.length_cons] at hfuel
      omega
  | succ fuel ih =>
    cases stack with
    | nil => exact ⟨st, cur, by simp [dfsLoop], hinv, fun a ha => ha⟩
    | cons c rest =>
      obtain ⟨st1, stack1, cur1, hnode, hinv1, hvis1, hmono1, hlen1⟩ :=
        processNode_fold h smoothPosition chainFuel hcf (buildNodeToEdge es c)
          (fun e he => he) hinv.pop
      have hdone := hinv1.done hvis1
      simp only [List.length_cons] at hfuel
      obtain ⟨st2, cur2, hloop, hinv2, hmono2⟩ := ih hdone (by omega)
      refine ⟨st2, cur2, ?_, hinv2, fun a ha => hmono2 a (hmono1 a ha)⟩
      unfold dfsLoop processNode
      simp only [hnode]
      exact hloop

/-! ## The traversal of the forest -/

theorem other_id1 (e : edge) : e.other e.id1 = e.id2 := by
  simp [edge.other]

theorem other_id2 (e : edge) : e.other e.id2 = e.id1 := by
  unfold edge.other
  split
  · rename_i heq; exact heq
  · rfl

theorem DfsInv.closed_all {es : List edge} {old cur : List Int} {st : Trace}
    (hinv : DfsInv es old cur st [] []) : Closed es st.visited := by
  intro e he
  have hfin : ∀ k ∈ cur, Finished es st.visited k := by
    intro k hk
    rcases hinv.fin k hk with hf | hf | hf
    · cases hf
    · cases hf
    · exact hf
  rw [hinv.vis]
  constructor
  · intro h1
    rcases List.mem_append.mp h1 with h1 | h1
    · exact List.mem_append_left _ ((hinv.closed e he).mp h1)
    · have := hfin _ h1 e ((mem_nodetoedge es _ e).mpr ⟨he, Or.inl rfl⟩)
      rw [other_id1, hinv.vis] at this
      exact this
  · intro h2
    rcases List.mem_append.mp h2 with h2 | h2
    · exact List.mem_append_left _ ((hinv.closed e he).mpr h2)
    · have := hfin _ h2 e ((mem_nodetoedge es _ e).mpr ⟨he, Or.inr rfl⟩)
      rw [other_id2, hinv.vis] at this
      exact this

theorem sparse_nil : Sparse [] := by
  intro U hU
  simpa [inner] using Finset.card_pos.mpr hU

theorem outerInv_init (es : List edge) : OuterInv es ⟨[], 0, [], []⟩ := by
  refine ⟨?_, List.nodup_nil, ?_, ?_⟩
  · intro e _; simp
  · intro k hk; cases hk
  · refine ⟨List.nodup_nil, ?_, rfl, sparse_nil, ?_, ?_⟩
    · intro k hk; cases hk
    · intro kv hkv; cases hkv
    · intro kv hkv; cases hkv

theorem traceFrom_spec {es : List edge} (h : Sparse (ends es)) (smoothPosition : Int → Vec2f)
    (fuel : Nat) (hfuel : 2 * es.length < fuel) {st : Trace} (hinv : OuterInv es st)
    (pid : Int) :
    ∃ st2 : Trace,
      traceFrom fuel (buildNodeToEdge es) smoothPosition st pid = some st2 ∧
      OuterInv es st2 ∧
      ((buildNodeToEdge es pid).length = 1 → pid ∈ st2.visited) ∧
      (∀ a ∈ st.visited, a ∈ st2.visited) := by
  by_cases hstart : (buildNodeToEdge es pid).length = 1 ∧ pid ∉ st.visited
  · obtain ⟨hleaf, hnew⟩ := hstart
    have hpkeys : pid ∉ st.m_nodes.map Prod.fst := fun hm => hnew (hinv.tab.nodes_sub pid hm)
    have hset : mapSet st.m_nodes pid ⟨pid, smoothPosition pid, []⟩ =
        st.m_nodes ++ [(pid, ⟨pid, smoothPosition pid, []⟩)] := mapSet_new _ _ _ hpkeys
    have hdfs : DfsInv es st.visited [pid]
        { st with
          visited := st.visited ++ [pid]
          m_nodes := mapSet st.m_nodes pid ⟨pid, smoothPosition pid, []⟩ } [] [pid] := by
      constructor
      · exact hinv.closed
      · rfl
      · show (st.visited ++ [pid]).Nodup
        rw [List.nodup_append]
        refine ⟨hinv.nd, List.nodup_singleton _, ?_⟩
        intro k hk1 hk2
        rw [List.mem_singleton] at hk2
        subst hk2
        exact hnew hk1
      · simp
      · have := h ([pid].toFinset) (by simp)
        simp only [List.toFinset_cons, List.toFinset_nil, insert_emptyc_eq,
          Finset.card_singleton] at this ⊢
        simp only [List.length_singleton]
        omega
      · intro k hk
        rcases List.mem_append.mp hk with hk | hk
        · exact hinv.keys k hk
        · rw [List.mem_singleton] at hk
          subst hk
          intro hnil
          rw [hnil] at hleaf
          cases hleaf
      · intro k hk
        exact Or.inl hk
      · intro k hk
        rcases hk with hk | hk
        · exact hk
        · cases hk
      · intro k hk
        rcases hk with hk | hk
        · rw [List.mem_singleton] at hk
          subst hk
          simp only [hset]
          simp
        · cases hk
      · constructor
        · simp only [hset, List.map_append, List.map_cons, List.map_nil]
          rw [List.nodup_append]
          refine ⟨hinv.tab.nodes_nd, List.nodup_singleton _, ?_⟩
          intro k hk1 hk2
          rw [List.mem_singleton] at hk2
          subst hk2
          exact hpkeys hk1
        · intro k hk
          simp only [hset, List.map_append, List.map_cons, List.map_nil] at hk
          rcases List.mem_append.mp hk with hk | hk
          · exact List.mem_append_left _ (hinv.tab.nodes_sub k hk)
          · exact List.mem_append_right _ hk
        · have := hinv.tab.count
          simp only [hset, List.length_append, List.length_singleton]
          omega
        · exact hinv.tab.fsparse
        · intro kv hkv
          have := hinv.tab.fnodes kv hkv
          simp only [hset, List.map_append]
          exact ⟨List.mem_append_left _ this.1, List.mem_append_left _ this.2⟩
        · exact hinv.tab.edge_lt
    obtain ⟨st2, cur2, hloop, hinv2, hmono⟩ :=
      dfsLoop_spec h smoothPosition fuel hfuel fuel hdfs (by
        simp only [List.length_singleton, List.length_append]
        omega)
    refine ⟨st2, ?_, ⟨hinv2.closed_all, hinv2.nd, hinv2.keys, hinv2.tab⟩, ?_, ?_⟩
    · unfold traceFrom
      rw [if_pos ⟨hleaf, hnew⟩]
      exact hloop
    · intro _
      exact hmono pid (List.mem_append_right _ (List.mem_singleton_self _))
    · intro a ha
      exact hmono a (List.mem_append_left _ ha)
  · refine ⟨st, ?_, hinv, ?_, fun a ha => ha⟩
    · unfold traceFrom
      rw [if_neg hstart]
    · intro hleaf
      by_contra hnot
      exact hstart ⟨hleaf, hnot⟩

theorem traceSkeleton_fold {es : List edge} (h : Sparse (ends es)) (smoothPosition : Int → Vec2f)
    (fuel : Nat) (hfuel : 2 * es.length < fuel) (order : List Int) {st : Trace}
    (hinv : OuterInv es st) :
    ∃ st2 : Trace,
      order.foldlM (traceFrom fuel (buildNodeToEdge es) smoothPosition) st = some st2 ∧
      OuterInv es st2 ∧
      (∀ pid ∈ order, (buildNodeToEdge es pid).length = 1 → pid ∈ st2.visited) ∧
      (∀ a ∈ st.visited, a ∈ st2.visited) := by
  induction order generalizing st with
  | nil => exact ⟨st, rfl, hinv, fun pid hp => (by cases hp), fun a ha => ha⟩
  | cons pid order ih =>
    obtain ⟨st1, hstep, hinv1, hleaf1, hmono1⟩ := traceFrom_spec h smoothPosition fuel hfuel hinv pid
    obtain ⟨st2, hfold, hinv2, hleaf2, hmono2⟩ := ih hinv1
    refine ⟨st2, ?_, hinv2, ?_, fun a ha => hmono2 a (hmono1 a ha)⟩
    · rw [List.foldlM_cons, hstep]
      exact hfold
    · intro p hp hl
      rcases List.mem_cons.mp hp with hp | hp
      · subst hp; exact hmono2 _ (hleaf1 hl)
      · exact hleaf2 p hp hl

end ppa

namespace ppa

open zhou

/-! ## Every node with an edge is visited -/

theorem mem_survivors (es : List edge) (k : Int) :
    k ∈ survivors es ↔ buildNodeToEdge es k ≠ [] := by
  unfold survivors
  rw [List.mem_dedup, List.mem_flatMap]
  constructor
  · rintro ⟨e, he, hk⟩
    have : e ∈ buildNodeToEdge es k := by
      rw [mem_nodetoedge]
      refine ⟨he, ?_⟩
      simp only [List.mem_cons, List.mem_singleton, List.not_mem_nil, or_false] at hk
      rcases hk with hk | hk
      · exact Or.inl hk.symm
      · exact Or.inr hk.symm
    exact List.ne_nil_of_mem this
  · intro hk
    have := mem_endpoints_of_key hk
    rw [List.mem_flatMap] at this
    exact this

theorem length_incident_cons (e : edge) (es : List edge) (k : Int) :
    (incident (e :: es) k).length =
      ((if e.id1 = k then 1 else 0) + (if e.id2 = k then 1 else 0)) + (incident es k).length := by
  have hcons : incident (e :: es) k =
      ((if e.id1 = k then [e] else []) ++ (if e.id2 = k then [e] else [])) ++ incident es k := by
    simp [incident, List.flatMap_cons]
  rw [hcons]
  simp only [List.length_append]
  congr 1
  by_cases h1 : e.id1 = k <;> by_cases h2 : e.id2 = k <;> simp [h1, h2]

/-- The degrees of the nodes of `W` add up to the number of edge ends in `W`. -/
theorem sum_degrees (es : List edge) (W : Finset Int) :
    Finset.sum W (fun k => (incident es k).length) =
      es.countP (fun e => decide (e.id1 ∈ W)) + es.countP (fun e => decide (e.id2 ∈ W)) := by
  induction es with
  | nil => simp [incident]
  | cons e es ih =>
    simp only [length_incident_cons, Finset.sum_add_distrib, ih, List.countP_cons,
      Finset.sum_ite_eq, decide_eq_true_eq]
    omega

/-- All nodes with an edge are visited once the visited set is closed and holds every
node with exactly one edge. -/
theorem all_visited {es : List edge} (h : Sparse (ends es)) {vis : List Int}
    (hclosed : Closed es vis)
    (hleaf : ∀ k, (buildNodeToEdge es k).length = 1 → k ∈ vis) (k : Int)
    (hk : buildNodeToEdge es k ≠ []) : k ∈ vis := by
  by_contra hnot
  have hkW : k ∈ (survivors es).toFinset.filter (fun a => a ∉ vis) := by
    rw [Finset.mem_filter, List.mem_toFinset, mem_survivors]
    exact ⟨hk, hnot⟩
  have hWmem : ∀ a, a ∈ (survivors es).toFinset.filter (fun a => a ∉ vis) ↔
      buildNodeToEdge es a ≠ [] ∧ a ∉ vis := by
    intro a
    rw [Finset.mem_filter, List.mem_toFinset, mem_survivors]
  have hlt := h _ ⟨k, hkW⟩
  have hsum := sum_degrees es ((survivors es).toFinset.filter (fun a => a ∉ vis))
  -- every node of `W` has at least two edges
  have hdeg : ((survivors es).toFinset.filter (fun a => a ∉ vis)).card * 2 ≤
      Finset.sum ((survivors es).toFinset.filter (fun a => a ∉ vis))
        (fun k => (incident es k).length) := by
    rw [← smul_eq_mul, ← Finset.sum_const]
    apply Finset.sum_le_sum
    intro a ha
    obtain ⟨ha1, ha2⟩ := (hWmem a).mp ha
    rw [← buildNodeToEdge_eq]
    have h0 : (buildNodeToEdge es a).length ≠ 0 := fun hh => ha1 (List.length_eq_zero.mp hh)
    have h1 : (buildNodeToEdge es a).length ≠ 1 := fun hh => ha2 (hleaf a hh)
    omega
  -- both ends of an edge are in `W` together
  have hkey : ∀ e ∈ es, buildNodeToEdge es e.id1 ≠ [] ∧ buildNodeToEdge es e.id2 ≠ [] := by
    intro e he
    exact ⟨List.ne_nil_of_mem ((mem_nodetoedge es _ e).mpr ⟨he, Or.inl rfl⟩),
      List.ne_nil_of_mem ((mem_nodetoedge es _ e).mpr ⟨he, Or.inr rfl⟩)⟩
  have hc1 : es.countP (fun e => decide (e.id1 ∈
      (survivors es).toFinset.filter (fun a => a ∉ vis))) =
      inner (ends es) ((survivors es).toFinset.filter (fun a => a ∉ vis)) := by
    unfold inner ends
    rw [List.countP_map]
    apply List.countP_congr
    intro e he
    simp only [Function.comp, decide_eq_true_eq, hWmem]
    constructor
    · rintro ⟨_, h2⟩
      exact ⟨⟨(hkey e he).1, h2⟩, (hkey e he).2, fun hh => h2 ((hclosed e he).mpr hh)⟩
    · rintro ⟨h1, _⟩
      exact h1
  have hc2 : es.countP (fun e => decide (e.id2 ∈
      (survivors es).toFinset.filter (fun a => a ∉ vis))) =
      inner (ends es) ((survivors es).toFinset.filter (fun a => a ∉ vis)) := by
    unfold inner ends
    rw [List.countP_map]
    apply List.countP_congr
    intro e he
    simp only [Function.comp, decide_eq_true_eq, hWmem]
    constructor
    · rintro ⟨_, h2⟩
      exact ⟨⟨(hkey e he).1, fun hh => h2 ((hclosed e he).mp hh)⟩, (hkey e he).2, h2⟩
    · rintro ⟨_, h2⟩
      exact h2
  rw [hc1, hc2] at hsum
  omega

/-- The traversal of a forest: with enough fuel it returns, and the invariants hold at the
end. -/
theorem traceSkeleton_spec {es : List edge} (h : Sparse (ends es)) (smoothPosition : Int → Vec2f)
    (fuel : Nat) (hfuel : 2 * es.length < fuel) (order : List Int) :
    ∃ t : Trace,
      traceSkeleton fuel (buildNodeToEdge es) smoothPosition order = some t ∧
      OuterInv es t ∧
      ((∀ k, (buildNodeToEdge es k).length = 1 → k ∈ order) →
        ∀ k, k ∈ t.visited ↔ k ∈ survivors es) := by
  obtain ⟨t, hfold, hinv, hleaf, _⟩ :=
    traceSkeleton_fold h smoothPosition fuel hfuel order (outerInv_init es)
  refine ⟨t, hfold, hinv, ?_⟩
  intro horder k
  rw [mem_survivors]
  constructor
  · exact hinv.keys k
  · exact all_visited h hinv.closed (fun a ha => hleaf a (horder a ha) ha) k

end ppa

namespace ppa

open zhou

/-! ## C9: no cycles -/

theorem prunedEdges_sublist (rnd rndD : ℚ → ℚ) (minSpanForest : List edge → List edge)
    (input : Mat Val) (grid_spacing profile_length : Nat) (feature_type : Int) :
    (prunedEdges rnd rndD minSpanForest input grid_spacing profile_length feature_type).Sublist
      (spanningForest rnd rndD minSpanForest input grid_spacing profile_length feature_type) := by
  unfold prunedEdges
  exact reduceGraph_sublist _ _ _ _

/-- C9: when the edge list returned by the spanning-forest step has no cycle, the edge
list left after the pruning rounds is a sub-list of it and has no cycle; the constructor
(with enough fuel for its loops, and a non-empty operational grid) returns a graph, for
every iteration order of the map; and the graph whose vertices are the node ids and in
which every `FeatureEdge` joins `node_start` and `node_end` has no cycle, and at most one
path connects any two of its nodes. -/
theorem feature_graph_acyclic (rnd rndD : ℚ → ℚ) (minSpanForest : List edge → List edge)
    (order : List Int) (fuel : Nat) (input : Mat Val) (grid_spacing profile_length : Nat)
    (feature_type : Int)
    (hac : Acyclic (ends
      (spanningForest rnd rndD minSpanForest input grid_spacing profile_length feature_type)))
    (hfuel : 2 * (spanningForest rnd rndD minSpanForest input grid_spacing profile_length
      feature_type).length < fuel) :
    (prunedEdges rnd rndD minSpanForest input grid_spacing profile_length feature_type).Sublist
      (spanningForest rnd rndD minSpanForest input grid_spacing profile_length feature_type) ∧
    Acyclic (ends
      (prunedEdges rnd rndD minSpanForest input grid_spacing profile_length feature_type)) ∧
    (input.rows / grid_spacing ≠ 0 → input.cols / grid_spacing ≠ 0 →
      ∃ g, FeatureGraph.build rnd rndD minSpanForest order fuel input grid_spacing
        profile_length feature_type = some g) ∧
    ∀ g, FeatureGraph.build rnd rndD minSpanForest order fuel input grid_spacing
        profile_length feature_type = some g →
      Acyclic (featureEnds g.edges) ∧ UniquePaths (featureEnds g.edges) := by
  have hsub := prunedEdges_sublist rnd rndD minSpanForest input grid_spacing profile_length
    feature_type
  have hsp : Sparse (ends
      (prunedEdges rnd rndD minSpanForest input grid_spacing profile_length feature_type)) :=
    hac.sparse.sublist (ends_sublist hsub)
  have hf : 2 * (prunedEdges rnd rndD minSpanForest input grid_spacing profile_length
      feature_type).length < fuel := by
    have := hsub.length_le
    omega
  obtain ⟨t, ht, hinv, _⟩ := traceSkeleton_spec hsp
    (smoothAt rnd rndD (operationalGrid rnd input grid_spacing feature_type) grid_spacing
      (buildNodeToEdge
        (prunedEdges rnd rndD minSpanForest input grid_spacing profile_length feature_type))
      (buildNodeToPosition
        (prunedEdges rnd rndD minSpanForest input grid_spacing profile_length feature_type)))
    fuel hf order
  refine ⟨hsub, hsp.acyclic, ?_, ?_⟩
  · intro h1 h2
    refine ⟨⟨t.m_nodes, t.m_edges, feature_type⟩, ?_⟩
    unfold FeatureGraph.build
    rw [if_neg (by simp [h1, h2])]
    simp only [ht, Option.map_some']
  · intro g hg
    unfold FeatureGraph.build at hg
    split at hg
    · cases hg
    · simp only [ht, Option.map_some', Option.some.injEq] at hg
      subst hg
      exact ⟨hinv.tab.fsparse.acyclic, hinv.tab.fsparse.acyclic.unique_paths⟩

theorem ridge_forest :
    ends (spanningForest id id (fun es => es) ridgeField 1 3 1) =
      [(0, 1), (1, 2), (2, 3), (3, 4)] := by
  decide!

theorem acyclic_path4 : Acyclic [((0 : Int), (1 : Int)), (1, 2), (2, 3), (3, 4)] := by
  apply Sparse.acyclic
  have h1 := sparse_nil.pendant 0 1 (by decide) (by intro e he; cases he)
  have h2 := h1.pendant 1 2 (by decide) (by decide)
  have h3 := h2.pendant 2 3 (by decide) (by decide)
  exact h3.pendant 3 4 (by decide) (by decide)

/-- Witness for C9: the 5×5 field with a ridge along row 2, grid spacing 1, profile length
3: the spanning-forest step returns the path 0 - 1 - 2 - 3 - 4, the constructor returns a
graph, and the graph has no cycle. -/
theorem feature_graph_acyclic_witness :
    Acyclic (ends (spanningForest id id (fun es => es) ridgeField 1 3 1)) ∧
    ∃ g, FeatureGraph.build id id (fun es => es) [1, 2, 3] 9 ridgeField 1 3 1 = some g ∧
      Acyclic (featureEnds g.edges) ∧ UniquePaths (featureEnds g.edges) := by
  have hac : Acyclic (ends (spanningForest id id (fun es => es) ridgeField 1 3 1)) := by
    rw [ridge_forest]; exact acyclic_path4
  have hlen : 2 * (spanningForest id id (fun es => es) ridgeField 1 3 1).length < 9 := by
    have := congrArg List.length ridge_forest
    simp only [ends, List.length_map, List.length_cons, List.length_nil] at this
    omega
  have h := feature_graph_acyclic id id (fun es => es) [1, 2, 3] 9 ridgeField 1 3 1 hac hlen
  obtain ⟨g, hg⟩ := h.2.2.1 (by decide) (by decide)
  exact ⟨hac, g, hg, h.2.2.2 g hg⟩

/-! ## C10: every node is visited once -/

/-- C10, as stated, fails on the path 0 - 1 - 2: the traversal stores the two end nodes
and absorbs the node 1 into the only edge, and 2 + 2 * 1 is not 3. -/
theorem chain_count_counterexample :
    Acyclic (ends pathEdges) ∧
    ∃ t, traceSkeleton 5 (buildNodeToEdge pathEdges) (fun _ => default) [0, 1, 2] = some t ∧
      t.m_nodes.length + 2 * (t.m_edges.map (fun kv => kv.2.path.length - 2)).sum ≠
        (survivors pathEdges).length := by
  constructor
  · apply Sparse.acyclic
    have h1 := sparse_nil.pendant 0 1 (by decide) (by intro e he; cases he)
    exact h1.pendant 1 2 (by decide) (by decide)
  · have h : (traceSkeleton 5 (buildNodeToEdge pathEdges) (fun _ => default) [0, 1, 2]).map
        (fun t => (t.m_nodes.length, (t.m_edges.map (fun kv => kv.2.path.length - 2)).sum)) =
        some (2, 1) := by decide!
    have hs : (survivors pathEdges).length = 3 := by decide!
    obtain ⟨t, ht, hpair⟩ := Option.map_eq_some'.mp h
    refine ⟨t, ht, ?_⟩
    simp only [Prod.mk.injEq] at hpair
    rw [hpair.1, hpair.2, hs]
    decide

/-- C10, amended: on a forest, with enough fuel and an iteration order that lists the
nodes with an edge, the traversal returns; the list of visited nodes has no repetition and
holds exactly the nodes with at least one edge; and the number of `FeatureNode`s plus the
number of interior points of the edge polylines (one per absorbed chain node) is the
number of nodes with at least one edge. -/
theorem trace_visits_once (es : List edge) (smoothPosition : Int → Vec2f) (order : List Int)
    (fuel : Nat) (hac : Acyclic (ends es)) (horder : order.Perm (survivors es))
    (hfuel : 2 * es.length < fuel) :
    ∃ t, traceSkeleton fuel (buildNodeToEdge es) smoothPosition order = some t ∧
      t.visited.Nodup ∧
      (∀ k, k ∈ t.visited ↔ buildNodeToEdge es k ≠ []) ∧
      t.visited.Perm (survivors es) ∧
      t.m_nodes.length + (t.m_edges.map (fun kv => kv.2.path.length - 2)).sum =
        (survivors es).length := by
  obtain ⟨t, ht, hinv, hall⟩ := traceSkeleton_spec hac.sparse smoothPosition fuel hfuel order
  have hmem : ∀ k, k ∈ t.visited ↔ k ∈ survivors es := by
    apply hall
    intro k hk
    rw [horder.mem_iff, mem_survivors]
    intro hnil
    rw [hnil] at hk
    cases hk
  have hperm : t.visited.Perm (survivors es) :=
    (List.perm_ext_iff_of_nodup hinv.nd (List.nodup_dedup _)).mpr hmem
  refine ⟨t, ht, hinv.nd, fun k => (hmem k).trans (mem_survivors es k), hperm, ?_⟩
  rw [hinv.tab.count]
  exact hperm.length_eq

/-- Witness for the amended C10: the tree 0 - 1 - 2, 2 - 3, 2 - 4 - 5 has four
`FeatureNode`s (0, 2, 3, 5) and two absorbed nodes (1, 4). -/
theorem trace_visits_once_witness :
    Acyclic (ends treeEdges) ∧
    ∃ t, traceSkeleton 11 (buildNodeToEdge treeEdges) (fun _ => default) [0, 1, 2, 3, 4, 5] =
        some t ∧
      t.m_nodes.length + (t.m_edges.map (fun kv => kv.2.path.length - 2)).sum = 6 := by
  have hac : Acyclic (ends treeEdges) := by
    apply Sparse.acyclic
    have h1 := sparse_nil.pendant 0 1 (by decide) (by intro e he; cases he)
    have h2 := h1.pendant 1 2 (by decide) (by decide)
    have h3 := h2.pendant 2 3 (by decide) (by decide)
    have h4 := h3.pendant 2 4 (by decide) (by decide)
    exact h4.pendant 4 5 (by decide) (by decide)
  obtain ⟨t, ht, _, _, _, hcount⟩ :=
    trace_visits_once treeEdges (fun _ => default) [0, 1, 2, 3, 4, 5] 11 hac (by decide!)
      (by decide)
  have hs : (survivors treeEdges).length = 6 := by decide!
  exact ⟨hac, t, ht, by rw [hcount, hs]⟩

end ppa
namespace zhou

/-! ## C13: the row of a masked cell -/

/-- C13 fails on the code: on the 1×3 field `1 2 4` with every cell masked and no seam
cell, the middle cell has two masked horizontal neighbours; its row (row 1) holds the
coefficient `+1` on each neighbour and `+2`, not `-2`, on the cell itself, with the
right-hand side `4 + 1 - 2 * 2 = 1`; the original values give `4 + 1 + 2 * 2 = 9` on the
left, so they do not satisfy the row. -/
theorem masked_row_sign :
    (assemble id stepField (Mat.fill 1 3 true) (Mat.fill 1 3 false)).idToPoint =
      [⟨1, 0⟩, ⟨0, 0⟩, ⟨2, 0⟩] ∧
    (assemble id stepField (Mat.fill 1 3 true) (Mat.fill 1 3 false)).system =
      ⟨3, 3,
        [⟨0, 0, 1⟩, ⟨0, 1, 1⟩, ⟨1, 2, 1⟩, ⟨1, 1, 1⟩, ⟨1, 0, 2⟩, ⟨2, 0, 1⟩, ⟨2, 2, 1⟩],
        [some 1, some 1, some (-2)]⟩ ∧
    rowDot (assemble id stepField (Mat.fill 1 3 true) (Mat.fill 1 3 false)).triplet_list
      (fun k => if k = 0 then 2 else if k = 1 then 1 else 4) 1 = 9 := by
  refine ⟨by decide!, by decide!, by decide!⟩

end zhou
namespace zhou

/-! ## C14: the cells that hold an unknown -/

theorem mem_getid_iff {st : Assembly} (h : IndexInv st) (p x : Point) :
    x ∈ (getid st p).2.idToPoint ↔ x ∈ st.idToPoint ∨ x = p := by
  constructor
  · exact getid_mem st p x
  · rintro (hx | rfl)
    · exact getid_subset st p x hx
    · exact List.mem_iff_getElem?.mpr ⟨_, getid_get h x⟩

theorem emplace_index {st : Assembly} (h : IndexInv st) (p : Point) (v : ℚ) :
    IndexInv (emplace st p v) :=
  ⟨(getid_inv h p).inv, (getid_inv h p).neg⟩

theorem mem_emplace_iff {st : Assembly} (h : IndexInv st) (p x : Point) (v : ℚ) :
    x ∈ (emplace st p v).idToPoint ↔ x ∈ st.idToPoint ∨ x = p :=
  mem_getid_iff h p x

theorem addNeighbour_index (rnd : ℚ → ℚ) (synthesis : Mat Val) (mask : Mat Bool) (q : Point)
    (acc : Assembly × Val × Nat) (h : IndexInv acc.1) :
    IndexInv (addNeighbour rnd synthesis mask q acc).1 := by
  unfold addNeighbour
  split
  · exact emplace_index h q 1
  · exact h

theorem mem_addNeighbour_iff (rnd : ℚ → ℚ) (synthesis : Mat Val) (mask : Mat Bool) (q : Point)
    (acc : Assembly × Val × Nat) (h : IndexInv acc.1) (x : Point) :
    x ∈ (addNeighbour rnd synthesis mask q acc).1.idToPoint ↔
      x ∈ acc.1.idToPoint ∨ (x = q ∧ maskedAt mask q = true) := by
  unfold addNeighbour maskedAt
  split
  · rename_i hq
    rw [mem_emplace_iff h]
    simp [hq]
  · rename_i hq
    simp [hq]

theorem addNeighbour_count (rnd : ℚ → ℚ) (synthesis : Mat Val) (mask : Mat Bool) (q : Point)
    (acc : Assembly × Val × Nat) :
    (addNeighbour rnd synthesis mask q acc).2.2 =
      acc.2.2 + (if maskedAt mask q = true then 1 else 0) := by
  unfold addNeighbour maskedAt
  split <;> rfl

theorem closeAxis_index (rnd : ℚ → ℚ) (seam_mask : Mat Bool) (p : Point) (pvalue : Val)
    (acc : Assembly × Val × Nat) (h : IndexInv acc.1) :
    IndexInv (closeAxis rnd seam_mask p pvalue acc) := by
  unfold closeAxis
  split
  · exact ⟨(emplace_index h p (acc.2.2 : ℚ)).inv, (emplace_index h p (acc.2.2 : ℚ)).neg⟩
  · exact h

theorem mem_closeAxis_iff (rnd : ℚ → ℚ) (seam_mask : Mat Bool) (p : Point) (pvalue : Val)
    (acc : Assembly × Val × Nat) (h : IndexInv acc.1) (x : Point) :
    x ∈ (closeAxis rnd seam_mask p pvalue acc).idToPoint ↔
      x ∈ acc.1.idToPoint ∨ (x = p ∧ 0 < acc.2.2) := by
  unfold closeAxis
  split
  · rename_i hc
    show x ∈ (emplace acc.1 p (acc.2.2 : ℚ)).idToPoint ↔ _
    rw [mem_emplace_iff h]
    simp [hc]
  · rename_i hc
    simp [hc]

theorem axisRow_index (rnd : ℚ → ℚ) (synthesis : Mat Val) (mask seam_mask : Mat Bool)
    (p n1 n2 : Point) (pvalue : Val) (st : Assembly) (h : IndexInv st) :
    IndexInv (axisRow rnd synthesis mask seam_mask p n1 n2 pvalue st) := by
  unfold axisRow
  apply closeAxis_index
  apply addNeighbour_index
  apply addNeighbour_index
  exact h

theorem mem_axisRow_iff (rnd : ℚ → ℚ) (synthesis : Mat Val) (mask seam_mask : Mat Bool)
    (p n1 n2 : Point) (pvalue : Val) (st : Assembly) (h : IndexInv st) (x : Point) :
    x ∈ (axisRow rnd synthesis mask seam_mask p n1 n2 pvalue st).idToPoint ↔
      x ∈ st.idToPoint ∨ (x = p + n1 ∧ maskedAt mask (p + n1) = true) ∨
        (x = p + n2 ∧ maskedAt mask (p + n2) = true) ∨
        (x = p ∧ (maskedAt mask (p + n1) = true ∨ maskedAt mask (p + n2) = true)) := by
  unfold axisRow
  have h1 : IndexInv (addNeighbour rnd synthesis mask (p + n1) (st, some 0, 0)).1 :=
    addNeighbour_index rnd synthesis mask _ _ h
  have h2 := addNeighbour_index rnd synthesis mask (p + n2) _ h1
  rw [mem_closeAxis_iff rnd seam_mask p pvalue _ h2, mem_addNeighbour_iff rnd synthesis mask _ _ h1,
    mem_addNeighbour_iff rnd synthesis mask _ _ h, addNeighbour_count, addNeighbour_count]
  by_cases c1 : maskedAt mask (p + n1) = true <;> by_cases c2 : maskedAt mask (p + n2) = true <;>
    simp [c1, c2] <;> tauto

end zhou
namespace zhou

theorem pushRow_emplace_index {st : Assembly} (h : IndexInv st) (p : Point) (v : ℚ) (b : Val) :
    IndexInv (pushRow (emplace st p v) b) :=
  ⟨(emplace_index h p v).inv, (emplace_index h p v).neg⟩

theorem cellStep_index (rnd : ℚ → ℚ) (synthesis : Mat Val) (mask seam_mask : Mat Bool)
    (st : Assembly) (p : Point) (h : IndexInv st) :
    IndexInv (cellStep rnd synthesis mask seam_mask st p) := by
  unfold cellStep
  simp only
  split
  · exact h
  · split
    · exact axisRow_index _ _ _ _ _ _ _ _ _ (axisRow_index _ _ _ _ _ _ _ _ _ h)
    · rw [boundaryLoop_eq]
      split
      · exact pushRow_emplace_index h p 1 _
      · exact h

theorem hasMaskedNeighbour_iff (mask : Mat Bool) (p : Point) :
    hasMaskedNeighbour mask p = true ↔
      maskedAt mask (p + ⟨1, 0⟩) = true ∨ maskedAt mask (p + ⟨0, 1⟩) = true ∨
      maskedAt mask (p + ⟨-1, 0⟩) = true ∨ maskedAt mask (p + ⟨0, -1⟩) = true := by
  simp [hasMaskedNeighbour, delta]

theorem axis_logic (m0 b0 b1 b2 b3 b4 a1 a2 a3 a4 s t f : Prop) (hs : s) (ht : t) (hf : ¬ f) :
    ((m0 ∨ (b1 ∧ a1) ∨ (b3 ∧ a3) ∨ (b0 ∧ (a1 ∨ a3))) ∨ (b2 ∧ a2) ∨ (b4 ∧ a4) ∨
      (b0 ∧ (a2 ∨ a4))) ↔
    (m0 ∨ (s ∧ ((t ∧ ((b0 ∧ (a1 ∨ a2 ∨ a3 ∨ a4)) ∨
      ((b1 ∧ a1) ∨ (b2 ∧ a2) ∨ (b3 ∧ a3) ∨ (b4 ∧ a4)))) ∨
      (f ∧ b0 ∧ (a1 ∨ a2 ∨ a3 ∨ a4))))) := by
  tauto

/-- The cells that hold an unknown after the loop body ran for the cell `p`. -/
theorem mem_cellStep_iff (rnd : ℚ → ℚ) (synthesis : Mat Val) (mask seam_mask : Mat Bool)
    (st : Assembly) (p : Point) (h : IndexInv st) (x : Point) :
    x ∈ (cellStep rnd synthesis mask seam_mask st p).idToPoint ↔
      x ∈ st.idToPoint ∨
      (synthesis.get p ≠ none ∧
        ((mask.get p = true ∧
            ((x = p ∧ hasMaskedNeighbour mask p = true) ∨
              ∃ d ∈ delta, x = p + d ∧ maskedAt mask (p + d) = true)) ∨
          (mask.get p = false ∧ x = p ∧ hasMaskedNeighbour mask p = true))) := by
  unfold cellStep
  simp only
  by_cases hnan : isnan (synthesis.get p) = true
  · have hnone : synthesis.get p = none := by simpa [isnan] using hnan
    simp only [hnan, if_true]
    simp [hnone]
  · have hnan2 : isnan (synthesis.get p) = false := by simpa using hnan
    have hsome : synthesis.get p ≠ none := by simpa [isnan] using hnan
    simp only [hnan2, Bool.false_eq_true, if_false]
    by_cases hm : mask.get p = true
    · rw [if_pos hm]
      have hex : (∃ d ∈ delta, x = p + d ∧ maskedAt mask (p + d) = true) ↔
          (x = p + ⟨1, 0⟩ ∧ maskedAt mask (p + ⟨1, 0⟩) = true) ∨
          (x = p + ⟨0, 1⟩ ∧ maskedAt mask (p + ⟨0, 1⟩) = true) ∨
          (x = p + ⟨-1, 0⟩ ∧ maskedAt mask (p + ⟨-1, 0⟩) = true) ∨
          (x = p + ⟨0, -1⟩ ∧ maskedAt mask (p + ⟨0, -1⟩) = true) := by
        simp [delta]
      rw [mem_axisRow_iff _ _ _ _ _ _ _ _ _ (axisRow_index _ _ _ _ _ _ _ _ _ h),
        mem_axisRow_iff _ _ _ _ _ _ _ _ _ h, hasMaskedNeighbour_iff, hex]
      exact axis_logic _ _ _ _ _ _ _ _ _ _ _ _ _ hsome hm (by simp [hm])
    · have hm2 : mask.get p = false := by simpa using hm
      simp only [hm2, Bool.false_eq_true, if_false]
      rw [boundaryLoop_eq]
      have hany : delta.any (fun d => mask.contains (p + d) && mask.get (p + d)) =
          hasMaskedNeighbour mask p := rfl
      rw [hany]
      split
      · rename_i hn
        show x ∈ (emplace st p 1).idToPoint ↔ _
        rw [mem_emplace_iff h]
        simp [hn, hsome]
      · rename_i hn
        simp [hn]

end zhou
namespace zhou

theorem foldl_done_invariant {σ α : Type} (P : σ → List α → Prop) (f : σ → α → σ)
    (rest : List α) (done : List α) (st : σ) (h0 : P st done)
    (hstep : ∀ st done c, c ∈ rest → P st done → P (f st c) (done ++ [c])) :
    P (rest.foldl f st) (done ++ rest) := by
  induction rest generalizing done st with
  | nil => simpa using h0
  | cons c rest ih =>
    rw [List.foldl_cons]
    have h1 := hstep st done c (List.mem_cons_self _ _) h0
    have h2 := ih (done ++ [c]) (f st c) h1
      (fun st done d hd hp => hstep st done d (List.mem_cons_of_mem _ hd) hp)
    simpa using h2

/-- Every direction of `delta` has its opposite in `delta`. -/
theorem delta_opposite (d : Point) (hd : d ∈ delta) :
    ∃ d2 ∈ delta, ∀ p : Point, (p + d) + d2 = p := by
  simp only [delta, List.mem_cons, List.mem_singleton, List.not_mem_nil, or_false] at hd
  rcases hd with rfl | rfl | rfl | rfl
  · refine ⟨⟨-1, 0⟩, by simp [delta], fun p => ?_⟩
    show Point.mk (p.x + 1 + -1) (p.y + 0 + 0) = p
    cases p; simp
  · refine ⟨⟨0, -1⟩, by simp [delta], fun p => ?_⟩
    show Point.mk (p.x + 0 + 0) (p.y + 1 + -1) = p
    cases p; simp
  · refine ⟨⟨1, 0⟩, by simp [delta], fun p => ?_⟩
    show Point.mk (p.x + -1 + 1) (p.y + 0 + 0) = p
    cases p; simp
  · refine ⟨⟨0, 1⟩, by simp [delta], fun p => ?_⟩
    show Point.mk (p.x + 0 + 0) (p.y + -1 + 1) = p
    cases p; simp

theorem hasMaskedNeighbour_def (mask : Mat Bool) (p : Point) :
    hasMaskedNeighbour mask p = true ↔ ∃ d ∈ delta, maskedAt mask (p + d) = true := by
  simp [hasMaskedNeighbour]

/-- A neighbour of a masked cell of the extent has a masked neighbour. -/
theorem hasMaskedNeighbour_back (mask : Mat Bool) (p d : Point) (hd : d ∈ delta)
    (hp : maskedAt mask p = true) : hasMaskedNeighbour mask (p + d) = true := by
  obtain ⟨d2, hd2, hback⟩ := delta_opposite d hd
  rw [hasMaskedNeighbour_def]
  exact ⟨d2, hd2, by rw [hback]; exact hp⟩

theorem cellStep_unkInv (rnd : ℚ → ℚ) (synthesis : Mat Val) (mask seam_mask : Mat Bool)
    (st : Assembly) (done : List (Nat × Nat)) (c : Nat × Nat) (hidx : IndexInv st)
    (h : UnkInv synthesis mask st done) (hin : mask.contains (cellPoint c) = true) :
    UnkInv synthesis mask (cellStep rnd synthesis mask seam_mask st (cellPoint c))
      (done ++ [c]) := by
  constructor
  · intro x hx
    rw [mem_cellStep_iff _ _ _ _ _ _ hidx] at hx
    rcases hx with hx | ⟨hdef, ⟨hm, hx⟩ | ⟨hm, rfl, hn⟩⟩
    · exact h.sound x hx
    · rcases hx with ⟨rfl, hn⟩ | ⟨d, hd, rfl, hq⟩
      · exact ⟨hin, Or.inr ⟨hm, hn⟩⟩
      · have hq2 := hq
        simp only [maskedAt, Bool.and_eq_true] at hq2
        refine ⟨hq2.1, Or.inr ⟨hq2.2, ?_⟩⟩
        apply hasMaskedNeighbour_back mask _ d hd
        simp [maskedAt, hin, hm]
    · refine ⟨hin, Or.inl ?_⟩
      have hnan : isnan (synthesis.get (cellPoint c)) = false := by
        cases hv : synthesis.get (cellPoint c) with
        | none => exact absurd hv hdef
        | some v => rfl
      have hn2 : delta.any (fun d => mask.contains (cellPoint c + d) &&
          mask.get (cellPoint c + d)) = true := hn
      simp [dirichletCell, hin, hnan, hm, hn2]
  · intro d hd hm hdef hn
    rw [mem_cellStep_iff _ _ _ _ _ _ hidx]
    rcases List.mem_append.mp hd with hd | hd
    · exact Or.inl (h.complete d hd hm hdef hn)
    · rw [List.mem_singleton] at hd
      subst hd
      exact Or.inr ⟨hdef, Or.inl ⟨hm, Or.inl ⟨rfl, hn⟩⟩⟩

theorem assemble_unkInv (rnd : ℚ → ℚ) (synthesis : Mat Val) (mask seam_mask : Mat Bool) :
    IndexInv (assemble rnd synthesis mask seam_mask) ∧
    UnkInv synthesis mask (assemble rnd synthesis mask seam_mask)
      (cellList mask.rows mask.cols) := by
  unfold assemble
  rw [forCells_eq_foldl]
  have key := foldl_done_invariant
    (fun (st : Assembly) (done : List (Nat × Nat)) => IndexInv st ∧ UnkInv synthesis mask st done)
    (fun st c => cellStep rnd synthesis mask seam_mask st (cellPoint c))
    (cellList mask.rows mask.cols) [] (Assembly.init mask.rows mask.cols)
    ⟨indexInv_init _ _, ⟨fun x hx => by simp [Assembly.init] at hx, fun c hc => by cases hc⟩⟩
    (fun st done c hc hp => by
      have hin : mask.contains (cellPoint c) = true := by
        rw [mem_cellList] at hc
        exact contains_cell mask c.1 c.2 hc.1 hc.2
      exact ⟨cellStep_index _ _ _ _ _ _ hp.1, cellStep_unkInv _ _ _ _ _ _ _ hp.1 hp.2 hin⟩)
  simpa using key

end zhou
namespace zhou

/-- C14, as stated, fails on the flat 1×3 field with only the first cell masked: the
masked cell `(0, 0)` has no masked neighbour, so it gets no unknown and is not
overwritten; the only unknown is the boundary cell `(1, 0)`. -/
theorem isolated_masked_cell_counterexample :
    firstMask.contains ⟨0, 0⟩ = true ∧ firstMask.get ⟨0, 0⟩ = true ∧
    (assemble id (Mat.fill 1 3 (some 1)) firstMask (Mat.fill 1 3 false)).idToPoint = [⟨1, 0⟩] ∧
    (poissonSeamRemoval id (fun _ _ => some 7) (Mat.fill 1 3 (some 1)) firstMask
      (Mat.fill 1 3 false)).get ⟨0, 0⟩ = some 1 ∧
    ¬ (∀ p : Point,
        p ∈ (assemble id (Mat.fill 1 3 (some 1)) firstMask (Mat.fill 1 3 false)).idToPoint ↔
          (firstMask.contains p = true ∧
            (firstMask.get p = true ∨
              dirichletCell (Mat.fill 1 3 (some 1)) firstMask p = true))) := by
  have hl : (assemble id (Mat.fill 1 3 (some 1)) firstMask (Mat.fill 1 3 false)).idToPoint =
      [⟨1, 0⟩] := by decide!
  refine ⟨by decide, by decide, hl, by decide!, ?_⟩
  intro hall
  have hmem := (hall ⟨0, 0⟩).mpr ⟨by decide, Or.inl (by decide)⟩
  rw [hl] at hmem
  revert hmem
  decide

/-- C14, amended: every cell that gets an unknown lies in the extent and is a masked cell
or a non-masked cell that received a boundary row; every cell that received a boundary
row gets an unknown; a masked cell of the extent whose value is defined gets an unknown
exactly when one of its four neighbours is in bounds and masked; no cell gets two
unknowns; and the cells overwritten after the solve are the cells with an unknown, each
with the solved value of its unknown. -/
theorem unknowns_characterised (rnd : ℚ → ℚ) (synthesis : Mat Val)
    (mask seam_mask : Mat Bool) :
    (∀ x ∈ (assemble rnd synthesis mask seam_mask).idToPoint,
      mask.contains x = true ∧
        (mask.get x = true ∨ dirichletCell synthesis mask x = true)) ∧
    (∀ x, dirichletCell synthesis mask x = true →
      x ∈ (assemble rnd synthesis mask seam_mask).idToPoint) ∧
    (∀ x, mask.contains x = true → mask.get x = true → synthesis.get x ≠ none →
      (x ∈ (assemble rnd synthesis mask seam_mask).idToPoint ↔
        ∃ d ∈ delta, mask.contains (x + d) = true ∧ mask.get (x + d) = true)) ∧
    (assemble rnd synthesis mask seam_mask).idToPoint.Nodup ∧
    ∀ solve : LinSystem → Nat → Val,
      (∀ x k, (assemble rnd synthesis mask seam_mask).idToPoint[k]? = some x →
        (poissonSeamRemoval rnd solve synthesis mask seam_mask).get x =
          solve (assemble rnd synthesis mask seam_mask).system k) ∧
      (∀ x, x ∉ (assemble rnd synthesis mask seam_mask).idToPoint →
        (poissonSeamRemoval rnd solve synthesis mask seam_mask).get x = synthesis.get x) := by
  obtain ⟨hidx, hunk⟩ := assemble_unkInv rnd synthesis mask seam_mask
  refine ⟨?_, ?_, ?_, hidx.nodup, ?_⟩
  · intro x hx
    obtain ⟨hc, hcase⟩ := hunk.sound x hx
    refine ⟨hc, ?_⟩
    rcases hcase with hd | ⟨hm, _⟩
    · exact Or.inr hd
    · exact Or.inl hm
  · intro x hx
    obtain ⟨k, hk, _⟩ := assemble_dirichlet rnd synthesis mask seam_mask x hx
    exact List.mem_iff_getElem?.mpr ⟨k, hk⟩
  · intro x hc hm hdef
    have hiff : hasMaskedNeighbour mask x = true ↔
        ∃ d ∈ delta, mask.contains (x + d) = true ∧ mask.get (x + d) = true := by
      rw [hasMaskedNeighbour_def]
      simp only [maskedAt, Bool.and_eq_true]
    rw [← hiff]
    constructor
    · intro hx
      rcases (hunk.sound x hx).2 with hd | ⟨_, hn⟩
      · rw [dirichletCell_iff] at hd
        rw [hd.2.2.1] at hm
        cases hm
      · exact hn
    · intro hn
      obtain ⟨c, hcl, hcp⟩ := mem_cellList_of_contains mask x hc
      subst hcp
      exact hunk.complete c hcl hm hdef hn
  · intro solve
    constructor
    · intro x k hk
      unfold poissonSeamRemoval
      simp only
      rw [scatterFrom_get_of_index _ x _ 0 k _ hidx.nodup hk, Nat.zero_add]
    · intro x hx
      unfold poissonSeamRemoval
      simp only
      exact scatterFrom_get_of_not_mem _ x _ 0 _ hx

/-- Witness for the amended C14: on the 1×3 field `1 2 4` with every cell masked, the
middle cell has a masked neighbour and holds an unknown. -/
theorem unknowns_characterised_witness :
    (Mat.fill 1 3 true).contains ⟨1, 0⟩ = true ∧ stepField.get ⟨1, 0⟩ ≠ none ∧
    (⟨1, 0⟩ : Point) ∈ (assemble id stepField (Mat.fill 1 3 true) (Mat.fill 1 3 false)).idToPoint :=
  ⟨by decide, by decide,
    ((unknowns_characterised id stepField (Mat.fill 1 3 true) (Mat.fill 1 3 false)).2.2.1
      ⟨1, 0⟩ (by decide) (by decide) (by decide)).mpr ⟨⟨1, 0⟩, by decide, by decide, by decide⟩⟩

end zhou
namespace zhou

/-! ## C15: the seam field of `placePatch` -/

theorem seamNeighbours_get (synthesis : Mat Val) (synthesis_mask : Mat Bool) (p : Point)
    (seam_mask : Mat Bool) (q : Point) :
    (seamNeighbours synthesis synthesis_mask p seam_mask).get q = true ↔
      seam_mask.get q = true ∨
      ∃ d ∈ delta, (synthesis.contains (p + d) && !isnan (synthesis.get (p + d)) &&
        !synthesis_mask.get (p + d)) = true ∧ p + d = q := by
  unfold seamNeighbours
  exact foldl_set_true_get
    (fun d : Point => synthesis.contains (p + d) && !isnan (synthesis.get (p + d)) &&
      !synthesis_mask.get (p + d))
    (fun d => p + d) q delta seam_mask

theorem foldl_seam_get (synthesis : Mat Val) (synthesis_mask : Mat Bool) (pos : Int × Int)
    (l : List (Nat × Nat)) (init : Mat Bool) (q : Point) :
    (l.foldl (fun sk c =>
        if synthesis.contains (target pos c) && synthesis_mask.get (target pos c) then
          seamNeighbours synthesis synthesis_mask (target pos c) sk
        else sk) init).get q = true ↔
      init.get q = true ∨
      ∃ c ∈ l, (synthesis.contains (target pos c) && synthesis_mask.get (target pos c)) = true ∧
        ∃ d ∈ delta, (synthesis.contains (target pos c + d) &&
          !isnan (synthesis.get (target pos c + d)) &&
          !synthesis_mask.get (target pos c + d)) = true ∧ target pos c + d = q := by
  induction l generalizing init with
  | nil => simp
  | cons c l ih =>
    rw [List.foldl_cons, ih]
    by_cases hc : (synthesis.contains (target pos c) && synthesis_mask.get (target pos c)) = true
    · rw [if_pos hc, seamNeighbours_get]
      constructor
      · rintro ((h | h) | ⟨c2, hc2, h⟩)
        · exact Or.inl h
        · exact Or.inr ⟨c, List.mem_cons_self _ _, hc, h⟩
        · exact Or.inr ⟨c2, List.mem_cons_of_mem _ hc2, h⟩
      · rintro (h | ⟨c2, hc2, hcond, h⟩)
        · exact Or.inl (Or.inl h)
        · rcases List.mem_cons.mp hc2 with rfl | hc2
          · exact Or.inl (Or.inr h)
          · exact Or.inr ⟨c2, hc2, hcond, h⟩
    · rw [if_neg hc]
      constructor
      · rintro (h | ⟨c2, hc2, h⟩)
        · exact Or.inl h
        · exact Or.inr ⟨c2, List.mem_cons_of_mem _ hc2, h⟩
      · rintro (h | ⟨c2, hc2, hcond, h⟩)
        · exact Or.inl h
        · rcases List.mem_cons.mp hc2 with rfl | hc2
          · exact absurd hcond hc
          · exact Or.inr ⟨c2, hc2, hcond, h⟩

theorem makeSeam_get (synthesis : Mat Val) (mask : Mat Bool) (pos : Int × Int)
    (synthesis_mask : Mat Bool) (q : Point) :
    (makeSeam synthesis mask pos synthesis_mask).get q = true ↔
      ∃ c ∈ cellList mask.rows mask.cols,
        (synthesis.contains (target pos c) && synthesis_mask.get (target pos c)) = true ∧
        ∃ d ∈ delta, (synthesis.contains (target pos c + d) &&
          !isnan (synthesis.get (target pos c + d)) &&
          !synthesis_mask.get (target pos c + d)) = true ∧ target pos c + d = q := by
  unfold makeSeam
  rw [forCells_eq_foldl]
  have := foldl_seam_get synthesis synthesis_mask pos (cellList mask.rows mask.cols)
    (Mat.fill synthesis.rows synthesis.cols false) q
  simp only [target] at this ⊢
  rw [this]
  simp [Mat.fill, Mat.get]

/-- The cells of the placed mask: the targets in the extent of the patch cells that the
patch mask holds. -/
theorem placeMask_iff (synthesis : Mat Val) (mask : Mat Bool) (pos : Int × Int) (p : Point) :
    (placeMask synthesis mask pos).get p = true ↔
      synthesis.contains p = true ∧
      ∃ i j : Nat, i < mask.rows ∧ j < mask.cols ∧ mask.data i j = true ∧
        p = ⟨(j : Int) + pos.1, (i : Int) + pos.2⟩ := by
  rw [placeMask_get]
  constructor
  · rintro ⟨c, hc, hcond, rfl⟩
    rw [mem_cellList] at hc
    simp only [Bool.and_eq_true] at hcond
    exact ⟨hcond.1, c.1, c.2, hc.1, hc.2, hcond.2, rfl⟩
  · rintro ⟨hin, i, j, hi, hj, hm, rfl⟩
    refine ⟨(i, j), (mem_cellList _ _ _).mpr ⟨hi, hj⟩, ?_, rfl⟩
    simp only [Bool.and_eq_true]
    exact ⟨hin, hm⟩

/-- C15: the seam field that `placePatch` hands to the solver is true at `q` exactly when
`q` is in the target extent, the target value at `q` (before the patch is copied in) is
not NaN, `q` is not in the placed mask, and one of the four neighbours of `q` is in the
placed mask; the placed mask holds the in-bounds targets of the patch-mask cells. -/
theorem seam_field_characterised (rnd : ℚ → ℚ) (solve : LinSystem → Nat → Val)
    (synthesis patch : Mat Val) (mask : Mat Bool) (pos : Int × Int) :
    placePatch rnd solve synthesis patch mask pos =
      poissonSeamRemoval rnd solve (placeValues synthesis patch mask pos)
        (placeMask synthesis mask pos)
        (makeSeam synthesis mask pos (placeMask synthesis mask pos)) ∧
    (∀ q, (makeSeam synthesis mask pos (placeMask synthesis mask pos)).get q = true ↔
      synthesis.contains q = true ∧ synthesis.get q ≠ none ∧
      (placeMask synthesis mask pos).get q = false ∧
      ∃ d ∈ delta, (placeMask synthesis mask pos).get (q + d) = true) ∧
    (∀ p, (placeMask synthesis mask pos).get p = true ↔
      synthesis.contains p = true ∧
      ∃ i j : Nat, i < mask.rows ∧ j < mask.cols ∧ mask.data i j = true ∧
        p = ⟨(j : Int) + pos.1, (i : Int) + pos.2⟩) := by
  refine ⟨rfl, ?_, placeMask_iff synthesis mask pos⟩
  intro q
  rw [makeSeam_get]
  constructor
  · rintro ⟨c, _, hc, d, hd, hq, rfl⟩
    simp only [Bool.and_eq_true, Bool.not_eq_true', isnan, Option.isNone_eq_false_iff] at hc hq
    obtain ⟨d2, hd2, hback⟩ := delta_opposite d hd
    refine ⟨hq.1.1, ?_, hq.2, d2, hd2, ?_⟩
    · intro hnone
      rw [hnone] at hq
      simp at hq
    · rw [hback]
      exact hc.2
  · rintro ⟨hin, hdef, hnot, d, hd, hm⟩
    obtain ⟨d2, hd2, hback⟩ := delta_opposite d hd
    obtain ⟨c, hc, hcond, htgt⟩ := (placeMask_get synthesis mask pos (q + d)).mp hm
    simp only [Bool.and_eq_true] at hcond
    refine ⟨c, hc, ?_, d2, hd2, ?_, ?_⟩
    · simp only [Bool.and_eq_true]
      exact ⟨hcond.1, by rw [htgt]; exact hm⟩
    · rw [htgt, hback]
      have hnan : isnan (synthesis.get q) = false := by
        cases hv : synthesis.get q with
        | none => exact absurd hv hdef
        | some v => rfl
      simp [hin, hnan, hnot]
    · rw [htgt, hback]

end zhou
namespace zhou

/-- Witness for C15: a 1×1 patch placed at column 1 of a 1×4 field: the cell `(2, 0)` is
next to the placed cell and is a seam cell. -/
theorem seam_field_characterised_witness :
    (makeSeam ⟨1, 4, fun _ j => some (j : ℚ)⟩ ⟨1, 1, fun _ _ => true⟩ (1, 0)
      (placeMask ⟨1, 4, fun _ j => some (j : ℚ)⟩ ⟨1, 1, fun _ _ => true⟩ (1, 0))).get ⟨2, 0⟩ =
      true :=
  ((seam_field_characterised id (fun _ _ => some 7) ⟨1, 4, fun _ j => some (j : ℚ)⟩
      ⟨1, 1, fun _ _ => some 9⟩ ⟨1, 1, fun _ _ => true⟩ (1, 0)).2.1 ⟨2, 0⟩).mpr
    ⟨by decide, by decide, by decide, ⟨-1, 0⟩, by decide, by decide⟩

/-! ## C16: the seam field of `placePatch` is never read where it is set -/

theorem closeAxis_seam_congr (rnd : ℚ → ℚ) (seam1 seam2 : Mat Bool) (p : Point) (pvalue : Val)
    (acc : Assembly × Val × Nat) (h : seam1.get p = seam2.get p) :
    closeAxis rnd seam1 p pvalue acc = closeAxis rnd seam2 p pvalue acc := by
  unfold closeAxis
  rw [h]

theorem cellStep_seam_congr (rnd : ℚ → ℚ) (synthesis : Mat Val) (mask seam1 seam2 : Mat Bool)
    (h : ∀ p, mask.get p = true → seam1.get p = seam2.get p) (st : Assembly) (p : Point) :
    cellStep rnd synthesis mask seam1 st p = cellStep rnd synthesis mask seam2 st p := by
  unfold cellStep
  simp only
  split
  · rfl
  · split
    · rename_i hm
      unfold axisRow
      rw [closeAxis_seam_congr rnd seam1 seam2 p _ _ (h p hm),
        closeAxis_seam_congr rnd seam1 seam2 p _ _ (h p hm)]
    · rfl

/-- The assembly reads the seam field at masked cells only. -/
theorem assemble_seam_congr (rnd : ℚ → ℚ) (synthesis : Mat Val) (mask seam1 seam2 : Mat Bool)
    (h : ∀ p, mask.get p = true → seam1.get p = seam2.get p) :
    assemble rnd synthesis mask seam1 = assemble rnd synthesis mask seam2 := by
  have hbody : (fun (st : Assembly) (i j : Nat) =>
        cellStep rnd synthesis mask seam1 st ⟨(j : Int), (i : Int)⟩) =
      (fun (st : Assembly) (i j : Nat) =>
        cellStep rnd synthesis mask seam2 st ⟨(j : Int), (i : Int)⟩) := by
    funext st i j
    exact cellStep_seam_congr rnd synthesis mask seam1 seam2 h st _
  unfold assemble
  rw [hbody]

theorem makeSeam_not_masked (synthesis : Mat Val) (mask : Mat Bool) (pos : Int × Int)
    (q : Point) (hq : (placeMask synthesis mask pos).get q = true) :
    (makeSeam synthesis mask pos (placeMask synthesis mask pos)).get q = false := by
  cases hs : (makeSeam synthesis mask pos (placeMask synthesis mask pos)).get q with
  | false => rfl
  | true =>
    rw [makeSeam_get] at hs
    obtain ⟨c, _, _, d, _, hcond, rfl⟩ := hs
    simp only [Bool.and_eq_true, Bool.not_eq_true'] at hcond
    rw [hcond.2] at hq
    cases hq

/-- C16: the seam field that `placePatch` derives is false on the placed mask; the
assembly gives the same result for two seam fields that agree on the masked cells; hence
the system assembled inside `placePatch` and the result of `placePatch` are those of the
solver called with the all-false seam field. -/
theorem placePatch_seam_unused (rnd : ℚ → ℚ) (solve : LinSystem → Nat → Val)
    (synthesis patch : Mat Val) (mask : Mat Bool) (pos : Int × Int) :
    (∀ q, (placeMask synthesis mask pos).get q = true →
      (makeSeam synthesis mask pos (placeMask synthesis mask pos)).get q = false) ∧
    (∀ (field : Mat Val) (m seam1 seam2 : Mat Bool),
      (∀ p, m.get p = true → seam1.get p = seam2.get p) →
      assemble rnd field m seam1 = assemble rnd field m seam2 ∧
      poissonSeamRemoval rnd solve field m seam1 = poissonSeamRemoval rnd solve field m seam2) ∧
    assemble rnd (placeValues synthesis patch mask pos) (placeMask synthesis mask pos)
        (makeSeam synthesis mask pos (placeMask synthesis mask pos)) =
      assemble rnd (placeValues synthesis patch mask pos) (placeMask synthesis mask pos)
        (Mat.fill synthesis.rows synthesis.cols false) ∧
    placePatch rnd solve synthesis patch mask pos =
      poissonSeamRemoval rnd solve (placeValues synthesis patch mask pos)
        (placeMask synthesis mask pos) (Mat.fill synthesis.rows synthesis.cols false) := by
  have hagree : ∀ p, (placeMask synthesis mask pos).get p = true →
      (makeSeam synthesis mask pos (placeMask synthesis mask pos)).get p =
        (Mat.fill synthesis.rows synthesis.cols false).get p := by
    intro p hp
    rw [makeSeam_not_masked synthesis mask pos p hp]
    rfl
  have hasm := assemble_seam_congr rnd (placeValues synthesis patch mask pos)
    (placeMask synthesis mask pos) _ _ hagree
  refine ⟨makeSeam_not_masked synthesis mask pos, ?_, hasm, ?_⟩
  · intro field m seam1 seam2 h
    have := assemble_seam_congr rnd field m seam1 seam2 h
    refine ⟨this, ?_⟩
    unfold poissonSeamRemoval
    rw [this]
  · unfold placePatch poissonSeamRemoval
    simp only
    rw [hasm]

/-- Witness for C16: a 1×1 patch of value 9 placed at column 1 of the 1×4 field
`0 1 2 3`: the seam field holds the cells `(0, 0)` and `(2, 0)`, and the assembled system
is the one of the all-false seam field. -/
theorem placePatch_seam_unused_witness :
    (makeSeam ⟨1, 4, fun _ j => some (j : ℚ)⟩ ⟨1, 1, fun _ _ => true⟩ (1, 0)
      (placeMask ⟨1, 4, fun _ j => some (j : ℚ)⟩ ⟨1, 1, fun _ _ => true⟩ (1, 0))).get ⟨1, 0⟩ =
      false ∧
    placePatch id (fun _ _ => some 7) ⟨1, 4, fun _ j => some (j : ℚ)⟩ ⟨1, 1, fun _ _ => some 9⟩
        ⟨1, 1, fun _ _ => true⟩ (1, 0) =
      poissonSeamRemoval id (fun _ _ => some 7)
        (placeValues ⟨1, 4, fun _ j => some (j : ℚ)⟩ ⟨1, 1, fun _ _ => some 9⟩
          ⟨1, 1, fun _ _ => true⟩ (1, 0))
        (placeMask ⟨1, 4, fun _ j => some (j : ℚ)⟩ ⟨1, 1, fun _ _ => true⟩ (1, 0))
        (Mat.fill 1 4 false) :=
  ⟨(placePatch_seam_unused id (fun _ _ => some 7) ⟨1, 4, fun _ j => some (j : ℚ)⟩
      ⟨1, 1, fun _ _ => some 9⟩ ⟨1, 1, fun _ _ => true⟩ (1, 0)).1 ⟨1, 0⟩ (by decide),
    (placePatch_seam_unused id (fun _ _ => some 7) ⟨1, 4, fun _ j => some (j : ℚ)⟩
      ⟨1, 1, fun _ _ => some 9⟩ ⟨1, 1, fun _ _ => true⟩ (1, 0)).2.2.2⟩

end zhou
namespace zhou

/-! ## C12: the text export of a terrain -/

/-- C12 fails on the code: for the heightmap with one row and two columns the line
`nrows` holds 2, the number of columns, where the heightmap has one row; the rest of the
file is as the claim says: the five header lines in order, then one line for the row with
its two values separated by one space. -/
theorem terrainWriteTxt_nrows (showFloat : Val → String) (showSpacing : ℚ → String) :
    smallTerrain.heightmap.rows = 1 ∧ smallTerrain.heightmap.cols = 2 ∧
    terrainWriteTxt showFloat showSpacing smallTerrain =
      "ncols        2\nnrows        2\nxllcorner    0.0\nyllcorner    0.0\ncellsize     " ++
        showSpacing 1 ++ "\n" ++ (showFloat (some 1) ++ " " ++ showFloat (some 2) ++ "\n") :=
  ⟨rfl, rfl, rfl⟩

end zhou
namespace ppa

open zhou

/-! ## C17: the feature points -/

theorem foldl_or_pair {α : Type} (f g : α → Bool) (l : List α) (b : Bool × Bool) :
    l.foldl (fun acc a => (acc.1 || f a, acc.2 || g a)) b = (b.1 || l.any f, b.2 || l.any g) := by
  induction l generalizing b with
  | nil => simp
  | cons a l ih =>
    rw [List.foldl_cons, ih]
    simp [Bool.or_assoc]

/-- The steps `0 .. k-1` of the profile loop, as integers. -/
theorem mem_range_cast (k : Nat) (x : Int) :
    x ∈ ((List.range k : List Nat) : List Int) ↔ ∃ a < k, x = (a : Int) := by
  simp

/-- The two profile flags of the cell `p` in the direction `n`. -/
theorem profiles_iff (rnd : ℚ → ℚ) (grid : Mat Val) (thresh : Val) (profile_length : Nat)
    (p n : Point) :
    ((profiles rnd grid thresh profile_length p n).1 = true ↔
      ∃ l : Nat, 1 ≤ l ∧ l ≤ profile_length / 2 ∧ grid.contains (p + scale n (l : Int)) = true ∧
        fgt (fsub rnd (grid.get p) (grid.get (p + scale n (l : Int)))) thresh = true) ∧
    ((profiles rnd grid thresh profile_length p n).2 = true ↔
      ∃ l : Nat, 1 ≤ l ∧ l ≤ profile_length / 2 ∧ grid.contains (p - scale n (l : Int)) = true ∧
        fgt (fsub rnd (grid.get p) (grid.get (p - scale n (l : Int)))) thresh = true) := by
  unfold profiles
  simp only
  rw [foldl_or_pair
    (fun l0 : Int => grid.contains (p + scale n (l0 + 1)) &&
      fgt (fsub rnd (grid.get p) (grid.get (p + scale n (l0 + 1)))) thresh)
    (fun l0 : Int => grid.contains (p - scale n (l0 + 1)) &&
      fgt (fsub rnd (grid.get p) (grid.get (p - scale n (l0 + 1)))) thresh)]
  simp only [Bool.false_or, List.any_eq_true, Bool.and_eq_true, mem_range_cast]
  constructor
  · constructor
    · rintro ⟨x, ⟨l0, hl0, rfl⟩, h1, h2⟩
      refine ⟨l0 + 1, by omega, by omega, ?_, ?_⟩
      · rw [Nat.cast_succ]; exact h1
      · rw [Nat.cast_succ]; exact h2
    · rintro ⟨l, h1, h2, h3, h4⟩
      obtain ⟨l0, rfl⟩ : ∃ l0, l = l0 + 1 := ⟨l - 1, by omega⟩
      refine ⟨(l0 : Int), ⟨l0, by omega, rfl⟩, ?_, ?_⟩
      · rw [Nat.cast_succ] at h3; exact h3
      · rw [Nat.cast_succ] at h4; exact h4
  · constructor
    · rintro ⟨x, ⟨l0, hl0, rfl⟩, h1, h2⟩
      refine ⟨l0 + 1, by omega, by omega, ?_, ?_⟩
      · rw [Nat.cast_succ]; exact h1
      · rw [Nat.cast_succ]; exact h2
    · rintro ⟨l, h1, h2, h3, h4⟩
      obtain ⟨l0, rfl⟩ : ∃ l0, l = l0 + 1 := ⟨l - 1, by omega⟩
      refine ⟨(l0 : Int), ⟨l0, by omega, rfl⟩, ?_, ?_⟩
      · rw [Nat.cast_succ] at h3; exact h3
      · rw [Nat.cast_succ] at h4; exact h4

/-- The test of the selection loop, in words. -/
theorem crest_iff (rnd : ℚ → ℚ) (grid : Mat Val) (thresh : Val) (profile_length : Nat)
    (p : Point) :
    crest rnd grid thresh profile_length p = true ↔
      ∃ n ∈ fneighbours,
        (∃ l : Nat, 1 ≤ l ∧ l ≤ profile_length / 2 ∧
          grid.contains (p + scale n (l : Int)) = true ∧
          fgt (fsub rnd (grid.get p) (grid.get (p + scale n (l : Int)))) thresh = true) ∧
        (∃ l : Nat, 1 ≤ l ∧ l ≤ profile_length / 2 ∧
          grid.contains (p - scale n (l : Int)) = true ∧
          fgt (fsub rnd (grid.get p) (grid.get (p - scale n (l : Int)))) thresh = true) := by
  unfold crest
  rw [List.any_eq_true]
  constructor
  · rintro ⟨n, hn, hb⟩
    rw [Bool.and_eq_true] at hb
    exact ⟨n, hn, (profiles_iff rnd grid thresh profile_length p n).1.mp hb.1,
      (profiles_iff rnd grid thresh profile_length p n).2.mp hb.2⟩
  · rintro ⟨n, hn, h1, h2⟩
    refine ⟨n, hn, ?_⟩
    rw [Bool.and_eq_true]
    exact ⟨(profiles_iff rnd grid thresh profile_length p n).1.mpr h1,
      (profiles_iff rnd grid thresh profile_length p n).2.mpr h2⟩

/-- The loop over the directions gives the cell the next id when one direction has both
profiles, and leaves the state alone otherwise. -/
theorem markCell_eq (rnd : ℚ → ℚ) (grid : Mat Val) (thresh : Val) (profile_length : Nat)
    (p : Point) (st : Mat Int × Int) (ns : List Point) :
    markCell rnd grid thresh profile_length p st ns =
      if ns.any (fun n => (profiles rnd grid thresh profile_length p n).1 &&
          (profiles rnd grid thresh profile_length p n).2) = true then
        (st.1.set p st.2, st.2 + 1)
      else st := by
  induction ns with
  | nil => simp [markCell]
  | cons n ns ih =>
    unfold markCell
    by_cases hn : ((profiles rnd grid thresh profile_length p n).1 &&
        (profiles rnd grid thresh profile_length p n).2) = true
    · simp [hn]
    · rw [if_neg hn, ih]
      simp [hn]

end ppa
namespace ppa

open zhou

theorem foldl_fresh_invariant {σ α : Type} (P : σ → List α → Prop) (f : σ → α → σ)
    (rest : List α) (done : List α) (st : σ) (h0 : P st done) (hnd : rest.Nodup)
    (hdisj : ∀ c ∈ rest, c ∉ done)
    (hstep : ∀ st done c, c ∈ rest → c ∉ done → P st done → P (f st c) (done ++ [c])) :
    P (rest.foldl f st) (done ++ rest) := by
  induction rest generalizing done st with
  | nil => simpa using h0
  | cons c rest ih =>
    rw [List.foldl_cons]
    have hc := List.nodup_cons.mp hnd
    have h1 := hstep st done c (List.mem_cons_self _ _) (hdisj c (List.mem_cons_self _ _)) h0
    have h2 := ih (done ++ [c]) (f st c) h1 hc.2
      (fun d hd hmem => by
        rcases List.mem_append.mp hmem with hm | hm
        · exact hdisj d (List.mem_cons_of_mem _ hd) hm
        · rw [List.mem_singleton] at hm
          subst hm
          exact hc.1 hd)
      (fun st done d hd hnot hp => hstep st done d (List.mem_cons_of_mem _ hd) hnot hp)
    simpa using h2

theorem markCell_selInv (rnd : ℚ → ℚ) (grid : Mat Val) (thresh : Val) (profile_length : Nat)
    (st : Mat Int × Int) (done : List (Nat × Nat)) (c : Nat × Nat)
    (h : SelInv rnd grid thresh profile_length st done) (hc : c ∉ done) :
    SelInv rnd grid thresh profile_length
      (markCell rnd grid thresh profile_length (cellPoint c) st fneighbours) (done ++ [c]) := by
  rw [markCell_eq]
  have hany : fneighbours.any (fun n =>
      (profiles rnd grid thresh profile_length (cellPoint c) n).1 &&
        (profiles rnd grid thresh profile_length (cellPoint c) n).2) =
      crest rnd grid thresh profile_length (cellPoint c) := rfl
  rw [hany]
  by_cases hcr : crest rnd grid thresh profile_length (cellPoint c) = true
  · rw [if_pos hcr]
    have hfil : (done ++ [c]).filter
        (fun c => crest rnd grid thresh profile_length (cellPoint c)) =
        done.filter (fun c => crest rnd grid thresh profile_length (cellPoint c)) ++ [c] := by
      rw [List.filter_append]
      simp [hcr]
    constructor
    · rw [hfil, List.length_append, List.length_singleton]
      show st.2 + 1 = _
      rw [h.counter]
      push_cast
      rfl
    · intro k c2 hk
      rw [hfil] at hk
      show (st.1.set (cellPoint c) st.2).get (cellPoint c2) = (k : Int)
      rw [Mat.get_set]
      by_cases hlt : k < (done.filter
          (fun c => crest rnd grid thresh profile_length (cellPoint c))).length
      · rw [List.getElem?_append_left hlt] at hk
        have hmem : c2 ∈ done := (List.mem_filter.mp (List.mem_iff_getElem?.mpr ⟨k, hk⟩)).1
        have hne : cellPoint c2 ≠ cellPoint c := by
          intro heq
          have := cellPoint_injective heq
          subst this
          exact hc hmem
        rw [if_neg hne]
        exact h.ids k c2 hk
      · have hge : (done.filter
            (fun c => crest rnd grid thresh profile_length (cellPoint c))).length ≤ k := by omega
        rw [List.getElem?_append_right hge] at hk
        have hk0 : k - (done.filter
            (fun c => crest rnd grid thresh profile_length (cellPoint c))).length = 0 := by
          by_contra hne
          obtain ⟨m, hm⟩ := Nat.exists_eq_succ_of_ne_zero hne
          rw [hm] at hk
          simp at hk
        rw [hk0] at hk
        simp only [List.getElem?_cons_zero, Option.some.injEq] at hk
        subst hk
        rw [if_pos rfl, h.counter]
        congr 1
        omega
    · intro p hp
      show (st.1.set (cellPoint c) st.2).get p = -1
      rw [Mat.get_set]
      have hne : p ≠ cellPoint c := by
        intro heq
        exact hp ⟨c, List.mem_append_right _ (List.mem_singleton_self c), hcr, heq.symm⟩
      rw [if_neg hne]
      apply h.rest
      rintro ⟨c2, hc2, hcrest, hpt⟩
      exact hp ⟨c2, List.mem_append_left _ hc2, hcrest, hpt⟩
  · rw [if_neg hcr]
    have hfil : (done ++ [c]).filter
        (fun c => crest rnd grid thresh profile_length (cellPoint c)) =
        done.filter (fun c => crest rnd grid thresh profile_length (cellPoint c)) := by
      rw [List.filter_append]
      simp [hcr]
    constructor
    · rw [hfil]; exact h.counter
    · intro k c2 hk
      rw [hfil] at hk
      exact h.ids k c2 hk
    · intro p hp
      apply h.rest
      rintro ⟨c2, hc2, hcrest, hpt⟩
      exact hp ⟨c2, List.mem_append_left _ hc2, hcrest, hpt⟩

theorem selectFeaturePoints_selInv (rnd : ℚ → ℚ) (grid : Mat Val) (thresh : Val)
    (profile_length : Nat) :
    SelInv rnd grid thresh profile_length (selectFeaturePoints rnd grid thresh profile_length)
      (cellList grid.rows grid.cols) := by
  unfold selectFeaturePoints
  rw [forCells_eq_foldl]
  have key := foldl_fresh_invariant
    (fun (st : Mat Int × Int) (done : List (Nat × Nat)) =>
      SelInv rnd grid thresh profile_length st done)
    (fun st c => markCell rnd grid thresh profile_length (cellPoint c) st fneighbours)
    (cellList grid.rows grid.cols) [] (Mat.fill grid.rows grid.cols (-1), 0)
    ⟨by simp, fun k c hk => by simp at hk, fun p _ => rfl⟩
    (cellList_nodup _ _) (fun c _ hc => by cases hc)
    (fun st done c _ hc hp => markCell_selInv rnd grid thresh profile_length st done c hp hc)
  simpa using key

end ppa
namespace ppa

open zhou

/-- The result of `minMaxIdx` on the samples seen so far: no pair when every sample is
NaN, otherwise the least and the greatest of the samples that are not NaN. -/
theorem minMaxIdx_fold (l : List Val) :
    (l.foldl
        (fun (acc : Option (ℚ × ℚ)) (v : Val) =>
          match v, acc with
          | none, _ => acc
          | some u, none => some (u, u)
          | some u, some lohi => some (min lohi.1 u, max lohi.2 u))
        none = none → ∀ v ∈ l, v = none) ∧
    ∀ lo hi,
      l.foldl
        (fun (acc : Option (ℚ × ℚ)) (v : Val) =>
          match v, acc with
          | none, _ => acc
          | some u, none => some (u, u)
          | some u, some lohi => some (min lohi.1 u, max lohi.2 u))
        none = some (lo, hi) →
      some lo ∈ l ∧ some hi ∈ l ∧ ∀ u, some u ∈ l → lo ≤ u ∧ u ≤ hi := by
  have key := foldl_done_invariant
    (fun (acc : Option (ℚ × ℚ)) (done : List Val) =>
      (acc = none → ∀ v ∈ done, v = none) ∧
      ∀ lo hi, acc = some (lo, hi) →
        some lo ∈ done ∧ some hi ∈ done ∧ ∀ u, some u ∈ done → lo ≤ u ∧ u ≤ hi)
    (fun (acc : Option (ℚ × ℚ)) (v : Val) =>
      match v, acc with
      | none, _ => acc
      | some u, none => some (u, u)
      | some u, some lohi => some (min lohi.1 u, max lohi.2 u))
    l [] none
    ⟨fun _ v hv => (by cases hv), fun lo hi h => (by cases h)⟩
    (fun acc done v _ hp => by
      obtain ⟨hnone, hsome⟩ := hp
      cases v with
      | none =>
        refine ⟨?_, ?_⟩
        · intro hacc w hw
          rcases List.mem_append.mp hw with hw | hw
          · exact hnone hacc w hw
          · exact List.mem_singleton.mp hw
        · intro lo hi hacc
          obtain ⟨h1, h2, h3⟩ := hsome lo hi hacc
          refine ⟨List.mem_append_left _ h1, List.mem_append_left _ h2, ?_⟩
          intro u hu
          rcases List.mem_append.mp hu with hu | hu
          · exact h3 u hu
          · simp at hu
      | some u =>
        cases acc with
        | none =>
          refine ⟨fun h => (by cases h), ?_⟩
          intro lo hi hacc
          simp only [Option.some.injEq, Prod.mk.injEq] at hacc
          obtain ⟨rfl, rfl⟩ := hacc
          refine ⟨by simp, by simp, ?_⟩
          intro w hw
          rcases List.mem_append.mp hw with hw | hw
          · have := hnone rfl _ hw
            cases this
          · simp only [List.mem_singleton, Option.some.injEq] at hw
            subst hw
            exact ⟨le_refl _, le_refl _⟩
        | some lohi =>
          obtain ⟨lo0, hi0⟩ := lohi
          obtain ⟨h1, h2, h3⟩ := hsome lo0 hi0 rfl
          refine ⟨fun h => (by cases h), ?_⟩
          intro lo hi hacc
          simp only [Option.some.injEq, Prod.mk.injEq] at hacc
          obtain ⟨rfl, rfl⟩ := hacc
          refine ⟨?_, ?_, ?_⟩
          · rcases min_choice lo0 u with hm | hm <;> rw [hm]
            · exact List.mem_append_left _ h1
            · simp
          · rcases max_choice hi0 u with hm | hm <;> rw [hm]
            · exact List.mem_append_left _ h2
            · simp
          · intro w hw
            rcases List.mem_append.mp hw with hw | hw
            · exact ⟨le_trans (min_le_left _ _) (h3 w hw).1, le_trans (h3 w hw).2 (le_max_left _ _)⟩
            · simp only [List.mem_singleton, Option.some.injEq] at hw
              subst hw
              exact ⟨min_le_right _ _, le_max_right _ _⟩)
  simpa using key

/-- The threshold is one hundredth of the range of the samples of the input that are not
NaN, in `double` arithmetic; there is no threshold when every sample is NaN. -/
theorem threshold_spec (rndD : ℚ → ℚ) (input : Mat Val) :
    (minMaxIdx input = none → threshold rndD input = none ∧ ∀ v ∈ samples input, v = none) ∧
    ∀ lo hi, minMaxIdx input = some (lo, hi) →
      threshold rndD input = some (rndD (1 / 100 * rndD (hi - lo))) ∧
      some lo ∈ samples input ∧ some hi ∈ samples input ∧
      ∀ u, some u ∈ samples input → lo ≤ u ∧ u ≤ hi := by
  obtain ⟨h1, h2⟩ := minMaxIdx_fold (samples input)
  constructor
  · intro hnone
    refine ⟨by simp [threshold, hnone], h1 hnone⟩
  · intro lo hi hsome
    refine ⟨by simp [threshold, hsome], h2 lo hi hsome⟩

end ppa
namespace ppa

open zhou

theorem mem_crestCells (rnd : ℚ → ℚ) (grid : Mat Val) (thresh : Val) (profile_length : Nat)
    (c : Nat × Nat) :
    c ∈ crestCells rnd grid thresh profile_length ↔
      (c.1 < grid.rows ∧ c.2 < grid.cols) ∧
        crest rnd grid thresh profile_length (cellPoint c) = true := by
  unfold crestCells
  rw [List.mem_filter, mem_cellList]

/-- The ids of the selection loop on any grid and threshold. -/
theorem selectFeaturePoints_spec (rnd : ℚ → ℚ) (grid : Mat Val) (thresh : Val)
    (profile_length : Nat) :
    (∀ p, grid.contains p = true →
      (0 ≤ (selectFeaturePoints rnd grid thresh profile_length).1.get p ↔
        crest rnd grid thresh profile_length p = true)) ∧
    (∀ (k : Nat) (c : Nat × Nat),
      (crestCells rnd grid thresh profile_length)[k]? = some c →
        (selectFeaturePoints rnd grid thresh profile_length).1.get (cellPoint c) = (k : Int)) ∧
    (selectFeaturePoints rnd grid thresh profile_length).2 =
      ((crestCells rnd grid thresh profile_length).length : Int) ∧
    (∀ p, (¬ ∃ c ∈ crestCells rnd grid thresh profile_length, cellPoint c = p) →
      (selectFeaturePoints rnd grid thresh profile_length).1.get p = -1) := by
  have hinv := selectFeaturePoints_selInv rnd grid thresh profile_length
  have hrest : ∀ p, (¬ ∃ c ∈ crestCells rnd grid thresh profile_length, cellPoint c = p) →
      (selectFeaturePoints rnd grid thresh profile_length).1.get p = -1 := by
    intro p hp
    apply hinv.rest
    rintro ⟨c, hc, hcr, hpt⟩
    exact hp ⟨c, List.mem_filter.mpr ⟨hc, hcr⟩, hpt⟩
  refine ⟨?_, hinv.ids, hinv.counter, hrest⟩
  intro p hp
  obtain ⟨c, hc, rfl⟩ := mem_cellList_of_contains grid p hp
  constructor
  · intro hge
    by_contra hcr
    have := hrest (cellPoint c) (by
      rintro ⟨c2, hc2, hpt⟩
      have := cellPoint_injective hpt
      subst this
      exact hcr ((mem_crestCells _ _ _ _ _).mp hc2).2)
    omega
  · intro hcr
    have hmem : c ∈ crestCells rnd grid thresh profile_length :=
      List.mem_filter.mpr ⟨hc, hcr⟩
    obtain ⟨k, hk⟩ := List.mem_iff_getElem?.mp hmem
    rw [hinv.ids k c hk]
    omega

/-- C17: a cell of the operational grid gets a candidate id exactly when one of the four
forward directions has a step `l` in `1 .. profile_length/2` forwards and a step `l2` in
the same range backwards that are in bounds with a drop greater than the threshold; the
cells with an id, listed row by row, carry the ids 0, 1, 2, … in this order and
`nodeidcounter` is their number; every other cell keeps the id -1; the threshold is one
hundredth of the range of the input field. -/
theorem candidates_characterised (rnd rndD : ℚ → ℚ) (input : Mat Val)
    (grid_spacing profile_length : Nat) (feature_type : Int) :
    (∀ p, (operationalGrid rnd input grid_spacing feature_type).contains p = true →
      (0 ≤ (selectFeaturePoints rnd (operationalGrid rnd input grid_spacing feature_type)
          (threshold rndD input) profile_length).1.get p ↔
        ∃ n ∈ fneighbours,
          (∃ l : Nat, 1 ≤ l ∧ l ≤ profile_length / 2 ∧
            (operationalGrid rnd input grid_spacing feature_type).contains
              (p + scale n (l : Int)) = true ∧
            fgt (fsub rnd ((operationalGrid rnd input grid_spacing feature_type).get p)
              ((operationalGrid rnd input grid_spacing feature_type).get (p + scale n (l : Int))))
              (threshold rndD input) = true) ∧
          (∃ l : Nat, 1 ≤ l ∧ l ≤ profile_length / 2 ∧
            (operationalGrid rnd input grid_spacing feature_type).contains
              (p - scale n (l : Int)) = true ∧
            fgt (fsub rnd ((operationalGrid rnd input grid_spacing feature_type).get p)
              ((operationalGrid rnd input grid_spacing feature_type).get (p - scale n (l : Int))))
              (threshold rndD input) = true))) ∧
    (crestCells rnd (operationalGrid rnd input grid_spacing feature_type)
        (threshold rndD input) profile_length).Sublist
      (cellList (input.rows / grid_spacing) (input.cols / grid_spacing)) ∧
    (∀ c : Nat × Nat,
      c ∈ crestCells rnd (operationalGrid rnd input grid_spacing feature_type)
          (threshold rndD input) profile_length ↔
        (c.1 < input.rows / grid_spacing ∧ c.2 < input.cols / grid_spacing) ∧
        0 ≤ (selectFeaturePoints rnd (operationalGrid rnd input grid_spacing feature_type)
          (threshold rndD input) profile_length).1.get (cellPoint c)) ∧
    (∀ (k : Nat) (c : Nat × Nat),
      (crestCells rnd (operationalGrid rnd input grid_spacing feature_type)
          (threshold rndD input) profile_length)[k]? = some c →
        (selectFeaturePoints rnd (operationalGrid rnd input grid_spacing feature_type)
          (threshold rndD input) profile_length).1.get (cellPoint c) = (k : Int)) ∧
    (selectFeaturePoints rnd (operationalGrid rnd input grid_spacing feature_type)
        (threshold rndD input) profile_length).2 =
      ((crestCells rnd (operationalGrid rnd input grid_spacing feature_type)
        (threshold rndD input) profile_length).length : Int) ∧
    (∀ p, (¬ ∃ c ∈ crestCells rnd (operationalGrid rnd input grid_spacing feature_type)
          (threshold rndD input) profile_length, cellPoint c = p) →
      (selectFeaturePoints rnd (operationalGrid rnd input grid_spacing feature_type)
        (threshold rndD input) profile_length).1.get p = -1) ∧
    (minMaxIdx input = none →
      threshold rndD input = none ∧ ∀ v ∈ samples input, v = none) ∧
    (∀ lo hi, minMaxIdx input = some (lo, hi) →
      threshold rndD input = some (rndD (1 / 100 * rndD (hi - lo))) ∧
      some lo ∈ samples input ∧ some hi ∈ samples input ∧
      ∀ u, some u ∈ samples input → lo ≤ u ∧ u ≤ hi) := by
  obtain ⟨h1, h2, h3, h4⟩ := selectFeaturePoints_spec rnd
    (operationalGrid rnd input grid_spacing feature_type) (threshold rndD input) profile_length
  refine ⟨?_, ?_, ?_, h2, h3, h4, (threshold_spec rndD input).1, (threshold_spec rndD input).2⟩
  · intro p hp
    rw [h1 p hp, crest_iff]
  · exact List.filter_sublist _
  · intro c
    rw [mem_crestCells]
    constructor
    · rintro ⟨hc, hcr⟩
      exact ⟨hc, (h1 _ (contains_cell _ c.1 c.2 hc.1 hc.2)).mpr hcr⟩
    · rintro ⟨hc, hge⟩
      exact ⟨hc, (h1 _ (contains_cell _ c.1 c.2 hc.1 hc.2)).mp hge⟩

/-- Witness for C17: on the 2×4 field with a plateau of height 10 on the two middle
columns, grid spacing 1 and profile length 5, the cell `(1, 0)` has a drop of 10 two
steps to the right and one step to the left, so it has an id; the ids are 0 to 3. -/
theorem candidates_characterised_witness :
    threshold id plateauField = some (1 / 10) ∧
    0 ≤ (selectFeaturePoints id (operationalGrid id plateauField 1 1)
      (threshold id plateauField) 5).1.get ⟨1, 0⟩ ∧
    (selectFeaturePoints id (operationalGrid id plateauField 1 1)
      (threshold id plateauField) 5).2 = 4 :=
  ⟨by decide!,
    ((candidates_characterised id id plateauField 1 5 1).1 ⟨1, 0⟩ (by decide)).mpr
      ⟨⟨1, 0⟩, by decide, ⟨2, by decide, by decide, by decide, by decide!⟩,
        ⟨1, by decide, by decide, by decide, by decide!⟩⟩,
    by decide!⟩

end ppa
namespace ppa

open zhou

/-! ## C18: the candidate graph -/

/-- C18 fails on the code: on the 2×4 field with a plateau of height 10 on the two middle
columns, grid spacing 1 and profile length 5, the cells `(1, 1)` and `(2, 1)` of the last
row are candidates with the ids 2 and 3, and `(2, 1) = (1, 1) + (1, 0)`; the candidate
graph holds the five edges that start in row 0 and no edge joining the ids 2 and 3,
because the loop over the start cells stops before the last row (and the last column). -/
theorem last_row_edge_missing :
    (selectFeaturePoints id (operationalGrid id plateauField 1 1)
      (threshold id plateauField) 5).1.get ⟨1, 1⟩ = 2 ∧
    (selectFeaturePoints id (operationalGrid id plateauField 1 1)
      (threshold id plateauField) 5).1.get ⟨2, 1⟩ = 3 ∧
    ends (createGraph id (operationalGrid id plateauField 1 1)
      (selectFeaturePoints id (operationalGrid id plateauField 1 1)
        (threshold id plateauField) 5).1) = [(0, 1), (0, 2), (0, 3), (1, 3), (1, 2)] ∧
    (createGraph id (operationalGrid id plateauField 1 1)
      (selectFeaturePoints id (operationalGrid id plateauField 1 1)
        (threshold id plateauField) 5).1).filter
      (fun e => decide ((e.p1 = ⟨1, 1⟩ ∧ e.p2 = ⟨2, 1⟩) ∨ (e.p1 = ⟨2, 1⟩ ∧ e.p2 = ⟨1, 1⟩))) =
      [] := by
  refine ⟨by decide!, by decide!, by decide!, by decide!⟩

end ppa
namespace ppa

open zhou

/-! ## C19: pruning a path -/

theorem pointDegree_cons (e : edge) (es : List edge) (x : Point) :
    pointDegree (e :: es) x =
      ((if e.p1 = x then 1 else 0) + (if e.p2 = x then 1 else 0)) + pointDegree es x := by
  unfold pointDegree
  rw [List.countP_cons, List.countP_cons]
  by_cases h1 : e.p1 = x <;> by_cases h2 : e.p2 = x <;> simp [h1, h2] <;> omega

theorem foldl_degree_get (es : List edge) (d : Mat Int) (x : Point) :
    (es.foldl
      (fun d e =>
        (d.set e.p1 (d.get e.p1 + 1)).set e.p2 ((d.set e.p1 (d.get e.p1 + 1)).get e.p2 + 1))
      d).get x = d.get x + (pointDegree es x : Int) := by
  induction es generalizing d with
  | nil => simp [pointDegree]
  | cons e es ih =>
    rw [List.foldl_cons, ih, pointDegree_cons]
    simp only [Mat.get_set]
    by_cases h1 : x = e.p1 <;> by_cases h2 : x = e.p2
    · subst h1
      have h3 : e.p2 = e.p1 := h2.symm
      simp [h3]
      omega
    · subst h1
      have h3 : ¬ e.p2 = e.p1 := fun h => h2 h.symm
      simp [h2, h3]
      omega
    · subst h2
      have h3 : ¬ e.p1 = e.p2 := fun h => h1 h.symm
      simp [h1, h3]
      omega
    · have h3 : ¬ e.p1 = x := fun h => h1 h.symm
      have h4 : ¬ e.p2 = x := fun h => h2 h.symm
      simp [h1, h2, h3, h4]

/-- The matrix `degree` holds the number of edge ends at every cell. -/
theorem degreeMat_get (rows cols : Nat) (es : List edge) (x : Point) :
    (degreeMat rows cols es).get x = (pointDegree es x : Int) := by
  unfold degreeMat
  rw [foldl_degree_get]
  simp [Mat.fill, Mat.get]

/-- One pruning round keeps the edges whose two ends have more than one edge end. -/
theorem mem_reduceRound (rows cols : Nat) (es : List edge) (e : edge) :
    e ∈ reduceRound rows cols es ↔
      e ∈ es ∧ 1 < pointDegree es e.p1 ∧ 1 < pointDegree es e.p2 := by
  unfold reduceRound
  rw [List.mem_filter, degreeMat_get, degreeMat_get]
  simp

theorem reduceRound_eq (rows cols : Nat) (es : List edge) :
    reduceRound rows cols es =
      es.filter (fun e => decide (1 < pointDegree es e.p1) && decide (1 < pointDegree es e.p2)) := by
  unfold reduceRound
  apply List.filter_congr
  intro e _
  rw [degreeMat_get, degreeMat_get]
  simp

end ppa
namespace ppa

open zhou

theorem countP_add_congr {α : Type} (l : List α) (p q r s : α → Bool)
    (h : ∀ e ∈ l, (if p e = true then 1 else 0) + (if q e = true then 1 else 0) =
      (if r e = true then 1 else 0) + (if s e = true then (1 : Nat) else 0)) :
    l.countP p + l.countP q = l.countP r + l.countP s := by
  induction l with
  | nil => simp
  | cons a l ih =>
    have h1 := h a (List.mem_cons_self _ _)
    have h2 := ih (fun e he => h e (List.mem_cons_of_mem _ he))
    simp only [List.countP_cons]
    omega

theorem joinsPoints_iff (e : edge) (a b : Point) :
    joinsPoints e a b = true ↔ (e.p1 = a ∧ e.p2 = b) ∨ (e.p1 = b ∧ e.p2 = a) := by
  simp [joinsPoints]

theorem PathFn.ne {es : List edge} {v : Nat → Point} {n : Nat} (h : PathFn es v n)
    {i j : Nat} (hi : i < n) (hj : j < n) (hij : i ≠ j) : v i ≠ v j :=
  fun heq => hij (h.inj i j hi hj heq)

/-- The ends of an edge that joins the cells number `j` and `j + 1` of a path, counted at
the cell number `i`. -/
theorem PathFn.ends_at {es : List edge} {v : Nat → Point} {n : Nat} (h : PathFn es v n)
    (e : edge) (i j : Nat) (hi : i < n) (hj : j + 1 < n)
    (hjoin : joinsPoints e (v j) (v (j + 1)) = true) :
    (if e.p1 = v i then 1 else 0) + (if e.p2 = v i then (1 : Nat) else 0) =
      if i = j ∨ i = j + 1 then 1 else 0 := by
  rw [joinsPoints_iff] at hjoin
  have hne : v j ≠ v (j + 1) := h.ne (by omega) hj (by omega)
  rcases hjoin with ⟨h1, h2⟩ | ⟨h1, h2⟩
  · rw [h1, h2]
    by_cases c1 : i = j
    · subst c1
      simp [hne.symm]
    · by_cases c2 : i = j + 1
      · subst c2
        simp [hne]
      · have n1 : v j ≠ v i := h.ne (by omega) hi (fun hh => c1 hh.symm)
        have n2 : v (j + 1) ≠ v i := h.ne hj hi (fun hh => c2 hh.symm)
        simp [c1, c2, n1, n2]
  · rw [h1, h2]
    by_cases c1 : i = j
    · subst c1
      simp [hne.symm]
    · by_cases c2 : i = j + 1
      · subst c2
        simp [hne]
      · have n1 : v j ≠ v i := h.ne (by omega) hi (fun hh => c1 hh.symm)
        have n2 : v (j + 1) ≠ v i := h.ne hj hi (fun hh => c2 hh.symm)
        simp [c1, c2, n1, n2]

/-- An edge joins at most one pair of consecutive cells of a path. -/
theorem PathFn.pair_unique {es : List edge} {v : Nat → Point} {n : Nat} (h : PathFn es v n)
    (e : edge) (j k : Nat) (hj : j + 1 < n) (hk : k + 1 < n)
    (h1 : joinsPoints e (v j) (v (j + 1)) = true)
    (h2 : joinsPoints e (v k) (v (k + 1)) = true) : j = k := by
  have a1 := h.ends_at e j k (by omega) hk h2
  have a2 := h.ends_at e (j + 1) k hj hk h2
  have b1 := h.ends_at e j j (by omega) hj h1
  have b2 := h.ends_at e (j + 1) j hj hj h1
  simp only [true_or, or_true, if_true] at b1 b2
  rw [b1] at a1
  rw [b2] at a2
  by_contra hne
  have c1 : j = k + 1 := by
    by_contra hc
    rw [if_neg (by omega)] at a1
    cases a1
  have c2 : j + 1 = k := by
    by_contra hc
    rw [if_neg (by omega)] at a2
    cases a2
  omega

/-- The number of edge ends at the cell number `i` of a path: one for each of its two
neighbours on the path. -/
theorem PathFn.degree {es : List edge} {v : Nat → Point} {n : Nat} (h : PathFn es v n)
    (i : Nat) (hi : i < n) :
    pointDegree es (v i) = (if 0 < i then 1 else 0) + (if i + 1 < n then 1 else 0) := by
  unfold pointDegree
  rw [countP_add_congr es _ _
    (fun e => decide (0 < i) && joinsPoints e (v (i - 1)) (v i))
    (fun e => decide (i + 1 < n) && joinsPoints e (v i) (v (i + 1)))]
  · congr 1
    · by_cases h0 : 0 < i
      · obtain ⟨k, rfl⟩ : ∃ k, i = k + 1 := ⟨i - 1, by omega⟩
        simp only [h0, decide_True, Bool.true_and, Nat.add_sub_cancel, if_true]
        exact h.link k hi
      · simp [h0]
    · by_cases h1 : i + 1 < n
      · simp only [h1, decide_True, Bool.true_and, if_true]
        exact h.link i h1
      · simp [h1]
  · intro e he
    by_cases htouch : e.p1 = v i ∨ e.p2 = v i
    · obtain ⟨j, hj, hjoin⟩ := h.only e he ⟨i, hi, htouch⟩
      have hcount := h.ends_at e i j hi hj hjoin
      have hij : i = j ∨ i = j + 1 := by
        by_contra hc
        rw [if_neg hc] at hcount
        rcases htouch with ht | ht <;> simp [ht] at hcount
      simp only [decide_eq_true_eq]
      rw [hcount, if_pos hij]
      rcases hij with rfl | rfl
      · have hfirst : (decide (0 < i) && joinsPoints e (v (i - 1)) (v i)) = false := by
          by_cases h0 : 0 < i
          · cases hjp : joinsPoints e (v (i - 1)) (v i) with
            | false => simp
            | true =>
              obtain ⟨k, rfl⟩ : ∃ k, i = k + 1 := ⟨i - 1, by omega⟩
              rw [Nat.add_sub_cancel] at hjp
              have := h.pair_unique e k (k + 1) hi hj hjp hjoin
              omega
          · simp [h0]
        rw [hfirst]
        simp [hj, hjoin]
      · have hsecond : (decide (j + 1 + 1 < n) && joinsPoints e (v (j + 1)) (v (j + 1 + 1))) =
            false := by
          by_cases h1 : j + 1 + 1 < n
          · cases hjp : joinsPoints e (v (j + 1)) (v (j + 1 + 1)) with
            | false => simp
            | true =>
              have := h.pair_unique e (j + 1) j h1 hj hjp hjoin
              omega
          · simp [h1]
        rw [hsecond]
        simp [hjoin]
    · have n1 : ¬ e.p1 = v i := fun hh => htouch (Or.inl hh)
      have n2 : ¬ e.p2 = v i := fun hh => htouch (Or.inr hh)
      have hfirst : joinsPoints e (v (i - 1)) (v i) = false := by
        cases hjp : joinsPoints e (v (i - 1)) (v i) with
        | false => rfl
        | true =>
          rw [joinsPoints_iff] at hjp
          rcases hjp with ⟨_, hh⟩ | ⟨hh, _⟩
          · exact absurd hh n2
          · exact absurd hh n1
      have hsecond : joinsPoints e (v i) (v (i + 1)) = false := by
        cases hjp : joinsPoints e (v i) (v (i + 1)) with
        | false => rfl
        | true =>
          rw [joinsPoints_iff] at hjp
          rcases hjp with ⟨hh, _⟩ | ⟨_, hh⟩
          · exact absurd hh n1
          · exact absurd hh n2
      simp [n1, n2, hfirst, hsecond]

end ppa
namespace ppa

open zhou

/-- An edge of a path survives a pruning round exactly when it is not one of the two end
edges. -/
theorem PathFn.keep {es : List edge} {v : Nat → Point} {n : Nat} (h : PathFn es v n)
    (rows cols : Nat) (e : edge) (he : e ∈ es) (j : Nat) (hj : j + 1 < n)
    (hjoin : joinsPoints e (v j) (v (j + 1)) = true) :
    e ∈ reduceRound rows cols es ↔ 0 < j ∧ j + 2 < n := by
  rw [mem_reduceRound]
  have d1 := h.degree j (by omega)
  have d2 := h.degree (j + 1) hj
  rw [if_pos hj] at d1
  rw [if_pos (by omega : 0 < j + 1)] at d2
  rw [joinsPoints_iff] at hjoin
  rcases hjoin with ⟨h1, h2⟩ | ⟨h1, h2⟩
  · rw [h1, h2, d1, d2]
    by_cases c1 : 0 < j <;> by_cases c2 : j + 1 + 1 < n <;> simp [c1, c2, he]
  · rw [h1, h2, d1, d2]
    by_cases c1 : 0 < j <;> by_cases c2 : j + 1 + 1 < n <;> simp [c1, c2, he]

theorem touch_of_join {v : Nat → Point} {e : edge} {j : Nat}
    (hjoin : joinsPoints e (v j) (v (j + 1)) = true) : e.p1 = v j ∨ e.p2 = v j := by
  rw [joinsPoints_iff] at hjoin
  rcases hjoin with ⟨h1, _⟩ | ⟨_, h2⟩
  · exact Or.inl h1
  · exact Or.inr h2

/-- After a pruning round the path without its two end cells is a path of the new list. -/
theorem PathFn.shrink {es : List edge} {v : Nat → Point} {n : Nat} (h : PathFn es v n)
    (rows cols : Nat) :
    PathFn (reduceRound rows cols es) (fun i => v (i + 1)) (n - 2) := by
  constructor
  · intro i j hi hj heq
    have := h.inj (i + 1) (j + 1) (by omega) (by omega) heq
    omega
  · intro i hi
    rw [reduceRound_eq, List.countP_filter]
    refine Eq.trans ?_ (h.link (i + 1) (by omega))
    apply List.countP_congr
    intro e he
    simp only [Bool.and_eq_true, decide_eq_true_eq]
    constructor
    · exact fun hh => hh.1
    · intro hjoin
      refine ⟨hjoin, ?_⟩
      have := (h.keep rows cols e he (i + 1) (by omega) hjoin).mpr ⟨by omega, by omega⟩
      rw [mem_reduceRound] at this
      exact this.2
  · intro e he htouch
    obtain ⟨i, hi, ht⟩ := htouch
    have hes : e ∈ es := ((mem_reduceRound rows cols es e).mp he).1
    obtain ⟨j, hj, hjoin⟩ := h.only e hes ⟨i + 1, by omega, ht⟩
    obtain ⟨h0, h2⟩ := (h.keep rows cols e hes j hj hjoin).mp he
    obtain ⟨k, rfl⟩ : ∃ k, j = k + 1 := ⟨j - 1, by omega⟩
    exact ⟨k, by omega, hjoin⟩

/-- After a pruning round no edge is left at the two end cells of a path. -/
theorem PathFn.shrink_touch {es : List edge} {v : Nat → Point} {n : Nat} (h : PathFn es v n)
    (rows cols : Nat) (e : edge) (he : e ∈ reduceRound rows cols es)
    (htouch : ∃ i, i < n ∧ (e.p1 = v i ∨ e.p2 = v i)) :
    ∃ i, i < n - 2 ∧ (e.p1 = v (i + 1) ∨ e.p2 = v (i + 1)) := by
  have hes : e ∈ es := ((mem_reduceRound rows cols es e).mp he).1
  obtain ⟨j, hj, hjoin⟩ := h.only e hes htouch
  obtain ⟨h0, h2⟩ := (h.keep rows cols e hes j hj hjoin).mp he
  obtain ⟨k, rfl⟩ : ∃ k, j = k + 1 := ⟨j - 1, by omega⟩
  exact ⟨k, by omega, touch_of_join hjoin⟩

theorem countP_exists_disjoint {α : Type} (l : List α) (q : Nat → α → Bool) (m : Nat)
    (T : α → Bool) (hT : ∀ e ∈ l, T e = true ↔ ∃ j, j < m ∧ q j e = true)
    (hdisj : ∀ e ∈ l, ∀ j k, j < m → k < m → q j e = true → q k e = true → j = k) :
    l.countP T = Finset.sum (Finset.range m) (fun j => l.countP (q j)) := by
  induction l with
  | nil => simp
  | cons a l ih =>
    have ih2 := ih (fun e he => hT e (List.mem_cons_of_mem _ he))
      (fun e he => hdisj e (List.mem_cons_of_mem _ he))
    simp only [List.countP_cons, Finset.sum_add_distrib]
    rw [ih2]
    congr 1
    by_cases hTa : T a = true
    · obtain ⟨j, hj, hq⟩ := (hT a (List.mem_cons_self _ _)).mp hTa
      rw [if_pos hTa, Finset.sum_eq_single j]
      · rw [if_pos hq]
      · intro k hk hne
        rw [Finset.mem_range] at hk
        rw [if_neg]
        intro hqk
        exact hne (hdisj a (List.mem_cons_self _ _) k j hk hj hqk hq)
      · intro hnot
        exact absurd (Finset.mem_range.mpr hj) hnot
    · rw [if_neg hTa]
      symm
      apply Finset.sum_eq_zero
      intro k hk
      rw [Finset.mem_range] at hk
      rw [if_neg]
      intro hqk
      exact hTa ((hT a (List.mem_cons_self _ _)).mpr ⟨k, hk, hqk⟩)

/-- A path of `n` cells has `n - 1` edges. -/
theorem PathFn.count {es : List edge} {v : Nat → Point} {n : Nat} (h : PathFn es v n)
    (T : edge → Bool)
    (hT : ∀ e ∈ es, T e = true ↔ ∃ i, i < n ∧ (e.p1 = v i ∨ e.p2 = v i)) :
    es.countP T = n - 1 := by
  rw [countP_exists_disjoint es (fun j e => joinsPoints e (v j) (v (j + 1))) (n - 1) T]
  · rw [Finset.sum_congr rfl (fun j hj => h.link j (by
      rw [Finset.mem_range] at hj
      omega))]
    simp
  · intro e he
    rw [hT e he]
    constructor
    · intro htouch
      obtain ⟨j, hj, hjoin⟩ := h.only e he htouch
      exact ⟨j, by omega, hjoin⟩
    · rintro ⟨j, hj, hjoin⟩
      exact ⟨j, by omega, touch_of_join hjoin⟩
  · intro e _ j k hj hk h1 h2
    exact h.pair_unique e j k (by omega) (by omega) h1 h2

end ppa
namespace ppa

open zhou

theorem cellAt_of_lt (vs : List Point) (i : Nat) (hi : i < vs.length) :
    vs[i]? = some (cellAt vs i) := by
  unfold cellAt
  rw [List.getD_eq_getElem vs _ hi, List.getElem?_eq_getElem hi]

theorem mem_iff_cellAt (vs : List Point) (x : Point) :
    x ∈ vs ↔ ∃ i, i < vs.length ∧ x = cellAt vs i := by
  rw [List.mem_iff_getElem?]
  constructor
  · rintro ⟨i, hi⟩
    have hlt : i < vs.length := getElem?_lt_of_eq_some hi
    refine ⟨i, hlt, ?_⟩
    rw [cellAt_of_lt vs i hlt] at hi
    exact (Option.some.inj hi).symm
  · rintro ⟨i, hi, rfl⟩
    exact ⟨i, cellAt_of_lt vs i hi⟩

theorem touches_iff (vs : List Point) (e : edge) :
    touches vs e = true ↔ ∃ i, i < vs.length ∧ (e.p1 = cellAt vs i ∨ e.p2 = cellAt vs i) := by
  unfold touches
  rw [decide_eq_true_eq, mem_iff_cellAt, mem_iff_cellAt]
  constructor
  · rintro (⟨i, hi, h⟩ | ⟨i, hi, h⟩)
    · exact ⟨i, hi, Or.inl h⟩
    · exact ⟨i, hi, Or.inr h⟩
  · rintro ⟨i, hi, h | h⟩
    · exact Or.inl ⟨i, hi, h⟩
    · exact Or.inr ⟨i, hi, h⟩

theorem PathComponent.toFn {es : List edge} {vs : List Point} (h : PathComponent es vs) :
    PathFn es (cellAt vs) vs.length := by
  constructor
  · intro i j hi hj heq
    have h1 := cellAt_of_lt vs i hi
    have h2 := cellAt_of_lt vs j hj
    rw [heq, ← h2, List.getElem?_eq_getElem hi, List.getElem?_eq_getElem hj,
      Option.some.injEq] at h1
    exact (h.nodup.getElem_inj_iff).mp h1
  · exact h.link
  · intro e he htouch
    apply h.only e he
    have := (touches_iff vs e).mpr htouch
    simpa [touches] using this

theorem foldl_reduceRound_succ (rows cols r : Nat) (es : List edge) :
    (List.range (r + 1)).foldl (fun es _ => reduceRound rows cols es) es =
      reduceRound rows cols ((List.range r).foldl (fun es _ => reduceRound rows cols es) es) := by
  rw [List.range_succ, List.foldl_append]
  rfl

/-- After `r` pruning rounds the path without its first `r` and last `r` cells is a path
of the list, and no edge is left at the cells removed. -/
theorem PathFn.rounds {es : List edge} {v : Nat → Point} {n : Nat} (h : PathFn es v n)
    (rows cols r : Nat) :
    PathFn ((List.range r).foldl (fun es _ => reduceRound rows cols es) es)
      (fun i => v (i + r)) (n - 2 * r) ∧
    ∀ e ∈ (List.range r).foldl (fun es _ => reduceRound rows cols es) es,
      (∃ i, i < n ∧ (e.p1 = v i ∨ e.p2 = v i)) →
      ∃ i, i < n - 2 * r ∧ (e.p1 = v (i + r) ∨ e.p2 = v (i + r)) := by
  induction r with
  | zero => exact ⟨h, fun e _ ht => ht⟩
  | succ r ih =>
    obtain ⟨ih1, ih2⟩ := ih
    have hf : (fun i => v (i + 1 + r)) = fun i => v (i + (r + 1)) := by
      funext i
      congr 1
      omega
    have hn : n - 2 * r - 2 = n - 2 * (r + 1) := by omega
    rw [foldl_reduceRound_succ]
    constructor
    · have s := ih1.shrink rows cols
      rw [hn] at s
      rw [← hf]
      exact s
    · intro e he htouch
      have hprev : e ∈ (List.range r).foldl (fun es _ => reduceRound rows cols es) es :=
        ((mem_reduceRound rows cols _ e).mp he).1
      obtain ⟨i, hi, ht⟩ := ih1.shrink_touch rows cols e he (ih2 e hprev htouch)
      refine ⟨i, by omega, ?_⟩
      have hidx : i + (r + 1) = i + 1 + r := by omega
      rw [hidx]
      exact ht

end ppa
namespace ppa

open zhou

theorem PathFn.touch_iff {es : List edge} {v : Nat → Point} {n : Nat} (h : PathFn es v n)
    (e : edge) (i j : Nat) (hi : i < n) (hj : j + 1 < n)
    (hjoin : joinsPoints e (v j) (v (j + 1)) = true) :
    (e.p1 = v i ∨ e.p2 = v i) ↔ (i = j ∨ i = j + 1) := by
  have hcount := h.ends_at e i j hi hj hjoin
  constructor
  · intro ht
    by_contra hc
    rw [if_neg hc] at hcount
    rcases ht with ht | ht <;> simp [ht] at hcount
  · intro hij
    rw [if_pos hij] at hcount
    by_contra hc
    have n1 : ¬ e.p1 = v i := fun hh => hc (Or.inl hh)
    have n2 : ¬ e.p2 = v i := fun hh => hc (Or.inr hh)
    simp [n1, n2] at hcount

theorem PathComponent.rounds_count {es : List edge} {vs : List Point}
    (h : PathComponent es vs) (rows cols r : Nat) :
    (((List.range r).foldl (fun es _ => reduceRound rows cols es) es).filter
      (touches vs)).length = vs.length - 1 - 2 * r := by
  obtain ⟨hp, hq⟩ := h.toFn.rounds rows cols r
  rw [← List.countP_eq_length_filter, hp.count (touches vs)]
  · omega
  · intro e he
    constructor
    · intro ht
      exact hq e he ((touches_iff vs e).mp ht)
    · rintro ⟨i, hi, ht⟩
      exact (touches_iff vs e).mpr ⟨i + r, by omega, ht⟩

/-- C19: for a connected component of the edge list that is a simple path on the cells
`vs` (so it has `vs.length - 1` edges), an edge of the path survives one pruning round
exactly when it has no end at the first or the last cell of the path; after one round
`vs.length - 1 - 2` edges of the path are left, and after the `profile_length / 2` rounds
`vs.length - 1 - 2 * (profile_length / 2)` (subtraction stops at 0). -/
theorem pruning_on_path (rows cols profile_length : Nat) (es : List edge) (vs : List Point)
    (h : PathComponent es vs) :
    (es.filter (touches vs)).length = vs.length - 1 ∧
    (∀ e ∈ es, touches vs e = true →
      (e ∈ reduceRound rows cols es ↔
        e.p1 ≠ cellAt vs 0 ∧ e.p2 ≠ cellAt vs 0 ∧
        e.p1 ≠ cellAt vs (vs.length - 1) ∧ e.p2 ≠ cellAt vs (vs.length - 1))) ∧
    ((reduceRound rows cols es).filter (touches vs)).length = vs.length - 1 - 2 ∧
    ((reduceGraph rows cols profile_length es).filter (touches vs)).length =
      vs.length - 1 - 2 * (profile_length / 2) := by
  refine ⟨?_, ?_, ?_, ?_⟩
  · have := h.rounds_count rows cols 0
    simpa using this
  · intro e he ht
    obtain ⟨j, hj, hjoin⟩ := h.toFn.only e he ((touches_iff vs e).mp ht)
    rw [h.toFn.keep rows cols e he j hj hjoin]
    have t0 := h.toFn.touch_iff e 0 j (by omega) hj hjoin
    have t1 := h.toFn.touch_iff e (vs.length - 1) j (by omega) hj hjoin
    constructor
    · rintro ⟨h0, h2⟩
      refine ⟨fun hh => ?_, fun hh => ?_, fun hh => ?_, fun hh => ?_⟩
      · have := t0.mp (Or.inl hh); omega
      · have := t0.mp (Or.inr hh); omega
      · have := t1.mp (Or.inl hh); omega
      · have := t1.mp (Or.inr hh); omega
    · rintro ⟨a1, a2, a3, a4⟩
      constructor
      · by_contra hc
        rcases t0.mpr (Or.inl (by omega)) with hh | hh
        · exact a1 hh
        · exact a2 hh
      · by_contra hc
        rcases t1.mpr (Or.inr (by omega)) with hh | hh
        · exact a3 hh
        · exact a4 hh
  · have := h.rounds_count rows cols 1
    simpa using this
  · exact h.rounds_count rows cols (profile_length / 2)

theorem path5_component : PathComponent path5 path5Cells := by
  constructor
  · decide
  · intro i hi
    have hi4 : i < 4 := by
      simp only [path5Cells, List.length_cons, List.length_nil] at hi
      omega
    interval_cases i <;> decide
  · intro e he _
    simp only [path5, List.mem_cons, List.mem_singleton, List.not_mem_nil, or_false] at he
    rcases he with rfl | rfl | rfl | rfl
    · exact ⟨0, by decide, by decide⟩
    · exact ⟨1, by decide, by decide⟩
    · exact ⟨2, by decide, by decide⟩
    · exact ⟨3, by decide, by decide⟩

/-- Witness for C19: the path 0 - 1 - 2 - 3 - 4 has four edges; with profile length 3
there is one pruning round, which leaves the two middle edges. -/
theorem pruning_on_path_witness :
    PathComponent path5 path5Cells ∧
    reduceGraph 1 5 3 path5 = [mkEdge 1 2, mkEdge 2 3] ∧
    ((reduceGraph 1 5 3 path5).filter (touches path5Cells)).length = 2 :=
  ⟨path5_component, by decide,
    (pruning_on_path 1 5 3 path5 path5Cells path5_component).2.2.2⟩

end ppa
namespace ppa

open zhou

/-! ## The steps of the traversal -/

/-- One edge of the current node either leaves the state alone or is an edge step. -/
theorem processEdge_step {es : List edge} (h : Sparse (ends es)) (smoothPosition : Int → Vec2f)
    (fuel : Nat) (hfuel : 2 * es.length < fuel) {old cur : List Int} {st : Trace} {c : Int}
    {stack : List Int} (hinv : DfsInv es old cur st [c] stack) (e : edge)
    (he : e ∈ buildNodeToEdge es c) (r : Trace × List Int)
    (hr : processEdge fuel (buildNodeToEdge es) smoothPosition c (st, stack) e = some r) :
    r.1 = st ∨ EdgeStep es smoothPosition fuel st r.1 := by
  by_cases hvis : e.other c ∈ st.visited
  · left
    unfold processEdge at hr
    simp only [hvis, if_true, Option.some.injEq] at hr
    rw [← hr]
  · right
    obtain ⟨_, hne, hback, hoo, _⟩ := other_of_mem h he
    have hccur : c ∈ cur := hinv.sub c (Or.inr (List.mem_singleton_self c))
    have hnd0 : (old ++ cur).Nodup := by rw [← hinv.vis]; exact hinv.nd
    have hx0 : e.other c ∉ old ++ cur := by rw [← hinv.vis]; exact hvis
    have hc0 : ChainInv es old cur (e.other c) := by
      constructor
      · rw [← List.append_assoc, List.nodup_append]
        refine ⟨hnd0, List.nodup_singleton _, ?_⟩
        intro k hk1 hk2
        rw [List.mem_singleton] at hk2
        subst hk2
        exact hx0 hk1
      · exact hinv.tight
      · exact hinv.closed
      · exact ⟨e, hback, by rw [hoo]; exact hccur⟩
      · intro k hk
        rw [← List.append_assoc] at hk
        rcases List.mem_append.mp hk with hk | hk
        · exact hinv.keys k (by rw [hinv.vis]; exact hk)
        · rw [List.mem_singleton] at hk
          subst hk
          exact List.ne_nil_of_mem hback
    obtain ⟨chain, x2, hres, hc2, hlen, _, hchain⟩ :=
      walkChain_spec h smoothPosition old fuel cur (e.other c) [smoothPosition c] hc0 (by omega)
    have hform : old ++ (cur ++ chain ++ [x2]) = st.visited ++ (chain ++ [x2]) := by
      rw [hinv.vis]
      simp
    have hcall : walkChain (buildNodeToEdge es) smoothPosition fuel
        (st.visited ++ [e.other c]) [smoothPosition c] (e.other c) =
        some (st.visited ++ (chain ++ [x2]),
          [smoothPosition c] ++ chain.map smoothPosition, x2) := by
      rw [← hform, hinv.vis, List.append_assoc]
      exact hres
    refine ⟨c, x2, e, chain, he, hvis, hcall, ?_, hinv.tab,
      hinv.isnode c (Or.inr (List.mem_singleton_self c)), ?_, ?_,
      fun k hk => (hchain k hk).1, hlen, hinv.keys⟩
    · unfold processEdge at hr
      simp only [hvis, if_false, hcall, Option.some.injEq] at hr
      rw [← hr]
    · rw [hinv.vis]
      exact List.mem_append_right _ hccur
    · rw [← hform]
      exact hc2.nd

end ppa
namespace ppa

open zhou

theorem processNode_induct {es : List edge} (h : Sparse (ends es)) (smoothPosition : Int → Vec2f)
    (fuel : Nat) (hfuel : 2 * es.length < fuel) (Q : Trace → Prop)
    (hedge : ∀ st st2, EdgeStep es smoothPosition fuel st st2 → Q st → Q st2)
    {old : List Int} {c : Int} (rest : List edge)
    (hrest : ∀ e ∈ rest, e ∈ buildNodeToEdge es c) {cur : List Int} {st : Trace}
    {stack : List Int} (hinv : DfsInv es old cur st [c] stack) (hq : Q st)
    (r : Trace × List Int)
    (hr : rest.foldlM (processEdge fuel (buildNodeToEdge es) smoothPosition c) (st, stack) =
      some r) : Q r.1 := by
  induction rest generalizing cur st stack with
  | nil =>
    simp only [List.foldlM_nil] at hr
    have : (st, stack) = r := Option.some.inj hr
    rw [← this]
    exact hq
  | cons e rest ih =>
    obtain ⟨st1, stack1, cur1, hstep, hinv1, _, _, _⟩ :=
      processEdge_spec h smoothPosition fuel hfuel hinv e (hrest e (List.mem_cons_self _ _))
    have hq1 : Q st1 := by
      rcases processEdge_step h smoothPosition fuel hfuel hinv e
        (hrest e (List.mem_cons_self _ _)) (st1, stack1) hstep with heq | hes
      · have heq2 : st1 = st := heq
        rw [heq2]
        exact hq
      · exact hedge st st1 hes hq
    rw [List.foldlM_cons, hstep] at hr
    exact ih (fun e2 he2 => hrest e2 (List.mem_cons_of_mem _ he2)) hinv1 hq1 hr

theorem dfsLoop_induct {es : List edge} (h : Sparse (ends es)) (smoothPosition : Int → Vec2f)
    (chainFuel : Nat) (hcf : 2 * es.length < chainFuel) (Q : Trace → Prop)
    (hedge : ∀ st st2, EdgeStep es smoothPosition chainFuel st st2 → Q st → Q st2)
    {old : List Int} (fuel : Nat) {cur : List Int} {st : Trace} {stack : List Int}
    (hinv : DfsInv es old cur st [] stack) (hq : Q st) (t : Trace)
    (ht : dfsLoop chainFuel (buildNodeToEdge es) smoothPosition fuel st stack = some t) :
    Q t := by
  induction fuel generalizing cur st stack with
  | zero =>
    cases stack with
    | nil =>
      simp only [dfsLoop, Option.some.injEq] at ht
      rw [← ht]
      exact hq
    | cons c rest => simp [dfsLoop] at ht
  | succ fuel ih =>
    cases stack with
    | nil =>
      simp only [dfsLoop, Option.some.injEq] at ht
      rw [← ht]
      exact hq
    | cons c rest =>
      obtain ⟨st1, stack1, cur1, hnode, hinv1, hvis1, _, _⟩ :=
        processNode_fold h smoothPosition chainFuel hcf (buildNodeToEdge es c)
          (fun e he => he) hinv.pop
      have hq1 : Q st1 :=
        processNode_induct h smoothPosition chainFuel hcf Q hedge (buildNodeToEdge es c)
          (fun e he => he) hinv.pop hq (st1, stack1) hnode
      unfold dfsLoop processNode at ht
      simp only [hnode] at ht
      exact ih (hinv1.done hvis1) hq1 ht

end ppa
namespace ppa

open zhou

/-- The state in which the traversal of a tree starts at the leaf `pid`. -/
theorem dfsInv_start {es : List edge} (h : Sparse (ends es)) (smoothPosition : Int → Vec2f)
    {st : Trace} (hinv : OuterInv es st) (pid : Int)
    (hleaf : (buildNodeToEdge es pid).length = 1) (hnew : pid ∉ st.visited) :
    DfsInv es st.visited [pid]
      { st with
        visited := st.visited ++ [pid]
        m_nodes := mapSet st.m_nodes pid ⟨pid, smoothPosition pid, []⟩ } [] [pid] := by
  have hpkeys : pid ∉ st.m_nodes.map Prod.fst := fun hm => hnew (hinv.tab.nodes_sub pid hm)
  have hset : mapSet st.m_nodes pid ⟨pid, smoothPosition pid, []⟩ =
      st.m_nodes ++ [(pid, ⟨pid, smoothPosition pid, []⟩)] := mapSet_new _ _ _ hpkeys
  refine ⟨hinv.closed, rfl, ?_, by simp, ?_, ?_, fun k hk => Or.inl hk, ?_, ?_, ?_⟩
  · show (st.visited ++ [pid]).Nodup
    rw [List.nodup_append]
    refine ⟨hinv.nd, List.nodup_singleton _, ?_⟩
    intro k hk1 hk2
    rw [List.mem_singleton] at hk2
    subst hk2
    exact hnew hk1
  · have := h ([pid].toFinset) (by simp)
    simp only [List.toFinset_cons, List.toFinset_nil, insert_emptyc_eq,
      Finset.card_singleton] at this ⊢
    simp only [List.length_singleton]
    omega
  · intro k hk
    rcases List.mem_append.mp hk with hk | hk
    · exact hinv.keys k hk
    · rw [List.mem_singleton] at hk
      subst hk
      intro hnil
      rw [hnil] at hleaf
      cases hleaf
  · intro k hk
    rcases hk with hk | hk
    · exact hk
    · cases hk
  · intro k hk
    rcases hk with hk | hk
    · rw [List.mem_singleton] at hk
      subst hk
      simp only [hset]
      simp
    · cases hk
  · refine ⟨?_, ?_, ?_, hinv.tab.fsparse, ?_, hinv.tab.edge_lt⟩
    · simp only [hset, List.map_append, List.map_cons, List.map_nil]
      rw [List.nodup_append]
      refine ⟨hinv.tab.nodes_nd, List.nodup_singleton _, ?_⟩
      intro k hk1 hk2
      rw [List.mem_singleton] at hk2
      subst hk2
      exact hpkeys hk1
    · intro k hk
      simp only [hset, List.map_append, List.map_cons, List.map_nil] at hk
      rcases List.mem_append.mp hk with hk | hk
      · exact List.mem_append_left _ (hinv.tab.nodes_sub k hk)
      · exact List.mem_append_right _ hk
    · have := hinv.tab.count
      simp only [hset, List.length_append, List.length_singleton]
      omega
    · intro kv hkv
      have := hinv.tab.fnodes kv hkv
      simp only [hset, List.map_append]
      exact ⟨List.mem_append_left _ this.1, List.mem_append_left _ this.2⟩

theorem traceFrom_induct {es : List edge} (h : Sparse (ends es)) (smoothPosition : Int → Vec2f)
    (fuel : Nat) (hfuel : 2 * es.length < fuel) (Q : Trace → Prop)
    (hstart : ∀ st st2, StartStep es smoothPosition st st2 → Q st → Q st2)
    (hedge : ∀ st st2, EdgeStep es smoothPosition fuel st st2 → Q st → Q st2)
    {st : Trace} (hinv : OuterInv es st) (hq : Q st) (pid : Int) (t : Trace)
    (ht : traceFrom fuel (buildNodeToEdge es) smoothPosition st pid = some t) : Q t := by
  by_cases hcond : (buildNodeToEdge es pid).length = 1 ∧ pid ∉ st.visited
  · unfold traceFrom at ht
    rw [if_pos hcond] at ht
    have hdfs := dfsInv_start h smoothPosition hinv pid hcond.1 hcond.2
    have hq1 := hstart st _ ⟨pid, hcond.1, hcond.2, hinv, rfl⟩ hq
    exact dfsLoop_induct h smoothPosition fuel hfuel Q hedge fuel hdfs hq1 t ht
  · unfold traceFrom at ht
    rw [if_neg hcond, Option.some.injEq] at ht
    rw [← ht]
    exact hq

/-- Induction over the steps of the traversal of a forest: a property of the tables that
holds at the start and is kept by the start of a tree and by every stored edge holds at
the end. -/
theorem traceSkeleton_induct {es : List edge} (h : Sparse (ends es))
    (smoothPosition : Int → Vec2f) (fuel : Nat) (hfuel : 2 * es.length < fuel)
    (Q : Trace → Prop) (h0 : Q ⟨[], 0, [], []⟩)
    (hstart : ∀ st st2, StartStep es smoothPosition st st2 → Q st → Q st2)
    (hedge : ∀ st st2, EdgeStep es smoothPosition fuel st st2 → Q st → Q st2)
    (order : List Int) (t : Trace)
    (ht : traceSkeleton fuel (buildNodeToEdge es) smoothPosition order = some t) : Q t := by
  have key : ∀ (order : List Int) (st : Trace), OuterInv es st → Q st →
      ∀ t, order.foldlM (traceFrom fuel (buildNodeToEdge es) smoothPosition) st = some t →
        Q t := by
    intro order
    induction order with
    | nil =>
      intro st _ hq t ht
      simp only [List.foldlM_nil] at ht
      have : st = t := Option.some.inj ht
      rw [← this]
      exact hq
    | cons pid order ih =>
      intro st hinv hq t ht
      obtain ⟨st1, hstep, hinv1, _, _⟩ := traceFrom_spec h smoothPosition fuel hfuel hinv pid
      have hq1 := traceFrom_induct h smoothPosition fuel hfuel Q hstart hedge hinv hq pid st1
        hstep
      rw [List.foldlM_cons, hstep] at ht
      exact ih st1 hinv1 hq1 t ht
  exact key order _ (outerInv_init es) h0 t ht

end ppa
namespace ppa

open zhou

/-! ## C11, C20: the tables of the feature graph -/

theorem updEntry_fst {β : Type} (k : Int) (f : β → β) (kv : Int × β) :
    (updEntry k f kv).1 = kv.1 := by
  unfold updEntry
  split
  · rename_i heq; exact heq.symm
  · rfl

theorem mapModify_of_mem {β : Type} [Inhabited β] (m : List (Int × β)) (k : Int) (f : β → β)
    (hk : k ∈ m.map Prod.fst) : mapModify m k f = m.map (updEntry k f) := by
  unfold mapModify
  rw [if_pos]
  · rfl
  · rw [List.any_eq_true]
    obtain ⟨kv, hkv, hd⟩ := List.mem_map.mp hk
    exact ⟨kv, hkv, by simpa using hd⟩

theorem map_updEntry_of_not_mem {β : Type} (m : List (Int × β)) (k : Int) (f : β → β)
    (hk : k ∉ m.map Prod.fst) : m.map (updEntry k f) = m := by
  conv_rhs => rw [← List.map_id m]
  apply List.map_congr_left
  intro kv hkv
  unfold updEntry
  rw [if_neg]
  · rfl
  · intro heq
    exact hk (List.mem_map.mpr ⟨kv, hkv, heq⟩)

theorem map_fst_updEntry {β : Type} (m : List (Int × β)) (k : Int) (f : β → β) :
    (m.map (updEntry k f)).map Prod.fst = m.map Prod.fst := by
  rw [List.map_map]
  apply List.map_congr_left
  intro kv _
  exact updEntry_fst k f kv

theorem mapFind_append_new {β : Type} (m : List (Int × β)) (k : Int) (v : β)
    (hk : k ∉ m.map Prod.fst) : mapFind (m ++ [(k, v)]) k = some v := by
  unfold mapFind
  rw [List.find?_append]
  have hnone : m.find? (fun kv => decide (kv.1 = k)) = none := by
    rw [List.find?_eq_none]
    intro kv hkv hd
    apply hk
    exact List.mem_map.mpr ⟨kv, hkv, by simpa using hd⟩
  rw [hnone]
  simp

/-- The node table after an edge step. -/
theorem storeEdge_nodes (smoothPosition : Int → Vec2f) (st : Trace) (c x2 : Int)
    (visited : List Int) (path : List Vec2f) (hc : c ∈ st.m_nodes.map Prod.fst)
    (hx : x2 ∉ st.m_nodes.map Prod.fst) (hne : c ≠ x2) :
    (storeEdge smoothPosition st c visited path x2).m_nodes =
      st.m_nodes.map (updEntry c (fun n => { n with edges := n.edges ++ [st.edgeidcounter] })) ++
        [(x2, ⟨x2, smoothPosition x2, [st.edgeidcounter]⟩)] := by
  unfold storeEdge
  simp only
  rw [mapSet_new _ _ _ hx]
  rw [mapModify_of_mem (st.m_nodes ++ [(x2, FeatureNode.mk x2 (smoothPosition x2) [])]) c _
    (by rw [List.map_append]; exact List.mem_append_left _ hc)]
  rw [mapModify_of_mem _ x2 _ (by
    rw [map_fst_updEntry, List.map_append]
    exact List.mem_append_right _ (by simp))]
  rw [List.map_append, List.map_append, List.map_cons, List.map_cons, List.map_nil, List.map_nil]
  rw [map_updEntry_of_not_mem _ x2 _ (by rw [map_fst_updEntry]; exact hx)]
  congr 1
  have hne2 : ¬ x2 = c := fun hh => hne hh.symm
  simp [updEntry, hne2]

/-- The edge table after an edge step: the new edge has the next id, joins `c` and `x2`,
and its path is the given path closed with the position of `x2`. -/
theorem storeEdge_edges (smoothPosition : Int → Vec2f) (st : Trace) (c x2 : Int)
    (visited : List Int) (path : List Vec2f) (hx : x2 ∉ st.m_nodes.map Prod.fst)
    (hcnt : st.edgeidcounter ∉ st.m_edges.map Prod.fst) :
    (storeEdge smoothPosition st c visited path x2).m_edges =
      st.m_edges ++
        [(st.edgeidcounter, ⟨st.edgeidcounter, c, x2, path ++ [smoothPosition x2]⟩)] := by
  unfold storeEdge
  simp only
  rw [mapSet_new _ _ _ hcnt, mapSet_new _ _ _ hx, mapFind_append_new _ _ _ hx]
  rfl

end ppa
namespace ppa

open zhou

theorem tableCons_init (es : List edge) : TableCons es ⟨[], 0, [], []⟩ := by
  refine ⟨?_, ?_, rfl, rfl, ?_, ?_⟩
  · intro kv hkv; cases hkv
  · intro kv hkv; cases hkv
  · intro kv hkv; cases hkv
  · intro k hk; cases hk

theorem tableCons_startStep {es : List edge} {smoothPosition : Int → Vec2f} {st st2 : Trace}
    (hs : StartStep es smoothPosition st st2) (hc : TableCons es st) : TableCons es st2 := by
  obtain ⟨pid, hleaf, hnew, hinv, rfl⟩ := hs
  have hpkeys : pid ∉ st.m_nodes.map Prod.fst := fun hm => hnew (hinv.tab.nodes_sub pid hm)
  have hset : mapSet st.m_nodes pid ⟨pid, smoothPosition pid, []⟩ =
      st.m_nodes ++ [(pid, ⟨pid, smoothPosition pid, []⟩)] := mapSet_new _ _ _ hpkeys
  refine ⟨?_, hc.edge_id, hc.edge_keys, hc.counter, ?_, ?_⟩
  · intro kv hkv
    simp only [hset] at hkv
    rcases List.mem_append.mp hkv with hkv | hkv
    · exact hc.node_id kv hkv
    · rw [List.mem_singleton] at hkv
      subst hkv
      rfl
  · intro kv hkv
    simp only [hset] at hkv
    rcases List.mem_append.mp hkv with hkv | hkv
    · exact hc.node_edges kv hkv
    · rw [List.mem_singleton] at hkv
      subst hkv
      show [] = (st.m_edges.filter _).map Prod.fst
      have hnil : st.m_edges.filter
          (fun f => decide (f.2.node_start = pid ∨ f.2.node_end = pid)) = [] := by
        rw [List.filter_eq_nil_iff]
        intro f hf hd
        simp only [decide_eq_true_eq] at hd
        have := hinv.tab.fnodes f hf
        rcases hd with hd | hd
        · exact hpkeys (hd ▸ this.1)
        · exact hpkeys (hd ▸ this.2)
      rw [hnil]
      rfl
  · intro k hk
    simp only [hset, List.map_append, List.map_cons, List.map_nil]
    rcases List.mem_append.mp hk with hk | hk
    · have hne : k ≠ pid := fun hh => hnew (hh ▸ hk)
      rw [← hc.degree k hk]
      simp [hne]
    · rw [List.mem_singleton] at hk
      subst hk
      simp [hleaf]

theorem tableCons_edgeStep {es : List edge} {smoothPosition : Int → Vec2f} {fuel : Nat}
    {st st2 : Trace} (hs : EdgeStep es smoothPosition fuel st st2) (hc : TableCons es st) :
    TableCons es st2 := by
  obtain ⟨c, x2, e, chain, _, _, _, rfl, htab, hckeys, hcvis, hnd, hchain, hx2len, _⟩ := hs
  have hndparts := List.nodup_append.mp hnd
  have hx2vis : x2 ∉ st.visited := fun hm =>
    hndparts.2.2 hm (List.mem_append_right _ (List.mem_singleton_self x2))
  have hx2keys : x2 ∉ st.m_nodes.map Prod.fst := fun hm => hx2vis (htab.nodes_sub x2 hm)
  have hcx2 : c ≠ x2 := fun hh => hx2vis (hh ▸ hcvis)
  have hcounter : st.edgeidcounter ∉ st.m_edges.map Prod.fst := by
    intro hm
    obtain ⟨kv, hkv, hk⟩ := List.mem_map.mp hm
    have := htab.edge_lt kv hkv
    omega
  have hN := storeEdge_nodes smoothPosition st c x2 (st.visited ++ (chain ++ [x2]))
    ([smoothPosition c] ++ chain.map smoothPosition) hckeys hx2keys hcx2
  have hE := storeEdge_edges smoothPosition st c x2 (st.visited ++ (chain ++ [x2]))
    ([smoothPosition c] ++ chain.map smoothPosition) hx2keys hcounter
  have hfilter : ∀ k : Int,
      ((st.m_edges ++ [(st.edgeidcounter, (⟨st.edgeidcounter, c, x2,
          [smoothPosition c] ++ chain.map smoothPosition ++ [smoothPosition x2]⟩ :
            FeatureEdge))]).filter
        (fun f => decide (f.2.node_start = k ∨ f.2.node_end = k))).map Prod.fst =
      (st.m_edges.filter (fun f => decide (f.2.node_start = k ∨ f.2.node_end = k))).map
          Prod.fst ++ (if c = k ∨ x2 = k then [st.edgeidcounter] else []) := by
    intro k
    rw [List.filter_append, List.map_append]
    congr 1
    by_cases hk : c = k ∨ x2 = k
    · rw [if_pos hk]
      simp [List.filter_cons, hk]
    · rw [if_neg hk]
      simp [List.filter_cons, hk]
  refine ⟨?_, ?_, ?_, ?_, ?_, ?_⟩
  · intro kv hkv
    rw [hN] at hkv
    rcases List.mem_append.mp hkv with hkv | hkv
    · obtain ⟨kv0, hkv0, rfl⟩ := List.mem_map.mp hkv
      have := hc.node_id kv0 hkv0
      unfold updEntry
      split
      · rename_i heq
        rw [← heq]
        exact this
      · exact this
    · rw [List.mem_singleton] at hkv
      subst hkv
      rfl
  · intro kv hkv
    rw [hE] at hkv
    rcases List.mem_append.mp hkv with hkv | hkv
    · exact hc.edge_id kv hkv
    · rw [List.mem_singleton] at hkv
      subst hkv
      rfl
  · rw [hE, List.map_append, List.length_append, List.length_singleton, List.range_succ,
      List.map_append, hc.edge_keys, hc.counter]
    rfl
  · rw [hE, List.length_append, List.length_singleton]
    show st.edgeidcounter + 1 = _
    rw [hc.counter]
    push_cast
    rfl
  · intro kv hkv
    rw [hN] at hkv
    rw [hE, hfilter]
    rcases List.mem_append.mp hkv with hkv | hkv
    · obtain ⟨kv0, hkv0, rfl⟩ := List.mem_map.mp hkv
      have hold := hc.node_edges kv0 hkv0
      have hkey : kv0.1 ∈ st.m_nodes.map Prod.fst := List.mem_map.mpr ⟨kv0, hkv0, rfl⟩
      have hnx : ¬ x2 = kv0.1 := fun hh => hx2keys (hh ▸ hkey)
      rw [updEntry_fst]
      unfold updEntry
      by_cases hk : kv0.1 = c
      · rw [if_pos hk, if_pos (Or.inl hk.symm)]
        show kv0.2.edges ++ [st.edgeidcounter] = _
        rw [hold]
      · rw [if_neg hk, if_neg (by
          rintro (hh | hh)
          · exact hk hh.symm
          · exact hnx hh)]
        rw [List.append_nil]
        exact hold
    · rw [List.mem_singleton] at hkv
      subst hkv
      show [st.edgeidcounter] = _
      rw [if_pos (Or.inr rfl)]
      have hnil : st.m_edges.filter
          (fun f => decide (f.2.node_start = x2 ∨ f.2.node_end = x2)) = [] := by
        rw [List.filter_eq_nil_iff]
        intro f hf hd
        simp only [decide_eq_true_eq] at hd
        have := htab.fnodes f hf
        rcases hd with hd | hd
        · exact hx2keys (hd ▸ this.1)
        · exact hx2keys (hd ▸ this.2)
      rw [hnil]
      rfl
  · intro k hk
    have hv : (storeEdge smoothPosition st c (st.visited ++ (chain ++ [x2]))
        ([smoothPosition c] ++ chain.map smoothPosition) x2).visited =
        st.visited ++ (chain ++ [x2]) := rfl
    rw [hv] at hk
    rw [hN, List.map_append, map_fst_updEntry]
    simp only [List.map_cons, List.map_nil, List.mem_append, List.mem_singleton]
    rcases List.mem_append.mp hk with hk | hk
    · have hne : k ≠ x2 := fun hh => hx2vis (hh ▸ hk)
      rw [← hc.degree k hk]
      simp [hne]
    · rcases List.mem_append.mp hk with hk | hk
      · have hkvis : k ∉ st.visited := fun hm => hndparts.2.2 hm (List.mem_append_left _ hk)
        have hkkeys : k ∉ st.m_nodes.map Prod.fst := fun hm => hkvis (htab.nodes_sub k hm)
        have hne : k ≠ x2 := by
          intro hh
          exact (List.nodup_append.mp hndparts.2.1).2.2 hk
            (by rw [hh]; exact List.mem_singleton_self x2)
        have hlen := hchain k hk
        simp [hkkeys, hne, hlen]
      · rw [List.mem_singleton] at hk
        subst hk
        simp [hx2len]

end ppa
namespace ppa

open zhou

/-- The size of `nodetoedge[k]` is the number of edge ends at `k`. -/
theorem length_nodetoedge (es : List edge) (k : Int) :
    (buildNodeToEdge es k).length = idDegree es k := by
  rw [buildNodeToEdge_eq]
  induction es with
  | nil => simp [incident, idDegree]
  | cons e es ih =>
    rw [length_incident_cons, ih]
    unfold idDegree
    rw [List.countP_cons, List.countP_cons]
    by_cases h1 : e.id1 = k <;> by_cases h2 : e.id2 = k <;> simp [h1, h2] <;> omega

/-- The tables at the end of the traversal of a forest. -/
theorem traceSkeleton_tables {es : List edge} (h : Sparse (ends es))
    (smoothPosition : Int → Vec2f) (fuel : Nat) (hfuel : 2 * es.length < fuel)
    (order : List Int) :
    ∃ t : Trace, traceSkeleton fuel (buildNodeToEdge es) smoothPosition order = some t ∧
      OuterInv es t ∧ TableCons es t ∧
      ((∀ k, (buildNodeToEdge es k).length = 1 → k ∈ order) →
        ∀ k, k ∈ t.visited ↔ k ∈ survivors es) := by
  obtain ⟨t, ht, hinv, hall⟩ := traceSkeleton_spec h smoothPosition fuel hfuel order
  refine ⟨t, ht, hinv, ?_, hall⟩
  exact traceSkeleton_induct h smoothPosition fuel hfuel (TableCons es) (tableCons_init es)
    (fun _ _ hs hc => tableCons_startStep hs hc) (fun _ _ hs hc => tableCons_edgeStep hs hc)
    order t ht

/-- The graph that the constructor returns holds the tables of the traversal. -/
theorem build_eq_some (rnd rndD : ℚ → ℚ) (minSpanForest : List edge → List edge)
    (order : List Int) (fuel : Nat) (input : Mat Val) (grid_spacing profile_length : Nat)
    (feature_type : Int) (g : FeatureGraph)
    (hg : FeatureGraph.build rnd rndD minSpanForest order fuel input grid_spacing
      profile_length feature_type = some g) :
    ∃ t : Trace,
      traceSkeleton fuel
        (buildNodeToEdge
          (prunedEdges rnd rndD minSpanForest input grid_spacing profile_length feature_type))
        (smoothAt rnd rndD (operationalGrid rnd input grid_spacing feature_type) grid_spacing
          (buildNodeToEdge
            (prunedEdges rnd rndD minSpanForest input grid_spacing profile_length feature_type))
          (buildNodeToPosition
            (prunedEdges rnd rndD minSpanForest input grid_spacing profile_length
              feature_type)))
        order = some t ∧
      g.nodes = t.m_nodes ∧ g.edges = t.m_edges := by
  unfold FeatureGraph.build at hg
  split at hg
  · cases hg
  · obtain ⟨t, ht, hgt⟩ := Option.map_eq_some'.mp hg
    exact ⟨t, ht, by rw [← hgt]; rfl, by rw [← hgt]; rfl⟩

theorem build_of_trace (rnd rndD : ℚ → ℚ) (minSpanForest : List edge → List edge)
    (order : List Int) (fuel : Nat) (input : Mat Val) (grid_spacing profile_length : Nat)
    (feature_type : Int) (t : Trace) (h1 : input.rows / grid_spacing ≠ 0)
    (h2 : input.cols / grid_spacing ≠ 0)
    (ht : traceSkeleton fuel
        (buildNodeToEdge
          (prunedEdges rnd rndD minSpanForest input grid_spacing profile_length feature_type))
        (smoothAt rnd rndD (operationalGrid rnd input grid_spacing feature_type) grid_spacing
          (buildNodeToEdge
            (prunedEdges rnd rndD minSpanForest input grid_spacing profile_length feature_type))
          (buildNodeToPosition
            (prunedEdges rnd rndD minSpanForest input grid_spacing profile_length
              feature_type)))
        order = some t) :
    FeatureGraph.build rnd rndD minSpanForest order fuel input grid_spacing
      profile_length feature_type = some ⟨t.m_nodes, t.m_edges, feature_type⟩ := by
  unfold FeatureGraph.build
  rw [if_neg (by simp [h1, h2])]
  simp only [ht, Option.map_some']

end ppa
namespace ppa

open zhou

/-- C11: when the pruned edge set has no cycle, the constructor (with enough fuel for its
loops and a non-empty operational grid) returns a graph, for every iteration order, and in
every graph it returns no node key repeats, each node and each edge stores its key as id,
the edge keys are 0, 1, …, m-1, each once, the two end nodes of every edge are keys of
the node table, and the edge list of every node has no repetition and holds exactly the
ids of the edges that have this node as `node_start` or `node_end`. -/
theorem feature_tables_consistent (rnd rndD : ℚ → ℚ) (minSpanForest : List edge → List edge)
    (order : List Int) (fuel : Nat) (input : Mat Val) (grid_spacing profile_length : Nat)
    (feature_type : Int)
    (hac : Acyclic (ends
      (prunedEdges rnd rndD minSpanForest input grid_spacing profile_length feature_type)))
    (hfuel : 2 * (prunedEdges rnd rndD minSpanForest input grid_spacing profile_length
      feature_type).length < fuel) :
    (input.rows / grid_spacing ≠ 0 → input.cols / grid_spacing ≠ 0 →
      ∃ g, FeatureGraph.build rnd rndD minSpanForest order fuel input grid_spacing
        profile_length feature_type = some g) ∧
    ∀ g, FeatureGraph.build rnd rndD minSpanForest order fuel input grid_spacing
        profile_length feature_type = some g →
      (g.nodes.map Prod.fst).Nodup ∧
      (∀ kv ∈ g.nodes, kv.2.id = kv.1) ∧
      (∀ kv ∈ g.edges, kv.2.id = kv.1) ∧
      g.edges.map Prod.fst = (List.range g.edges.length).map (fun i : Nat => (i : Int)) ∧
      (∀ kv ∈ g.edges, kv.2.node_start ∈ g.nodes.map Prod.fst ∧
        kv.2.node_end ∈ g.nodes.map Prod.fst) ∧
      (∀ kv ∈ g.nodes, kv.2.edges.Nodup ∧
        ∀ i, i ∈ kv.2.edges ↔
          ∃ fe, (i, fe) ∈ g.edges ∧ (fe.node_start = kv.1 ∨ fe.node_end = kv.1)) := by
  obtain ⟨t, ht, hinv, hcons, _⟩ := traceSkeleton_tables hac.sparse
    (smoothAt rnd rndD (operationalGrid rnd input grid_spacing feature_type) grid_spacing
      (buildNodeToEdge
        (prunedEdges rnd rndD minSpanForest input grid_spacing profile_length feature_type))
      (buildNodeToPosition
        (prunedEdges rnd rndD minSpanForest input grid_spacing profile_length feature_type)))
    fuel hfuel order
  constructor
  · intro h1 h2
    exact ⟨_, build_of_trace rnd rndD minSpanForest order fuel input grid_spacing
      profile_length feature_type t h1 h2 ht⟩
  · intro g hg
    obtain ⟨t2, ht2, hn, he⟩ := build_eq_some rnd rndD minSpanForest order fuel input
      grid_spacing profile_length feature_type g hg
    rw [ht] at ht2
    have htt : t = t2 := Option.some.inj ht2
    subst htt
    rw [hn, he]
    have hkeysnd : (t.m_edges.map Prod.fst).Nodup := by
      rw [hcons.edge_keys]
      exact (List.nodup_range _).map (fun a b hab => by exact_mod_cast hab)
    refine ⟨hinv.tab.nodes_nd, hcons.node_id, hcons.edge_id, hcons.edge_keys,
      hinv.tab.fnodes, ?_⟩
    intro kv hkv
    rw [hcons.node_edges kv hkv]
    constructor
    · exact hkeysnd.sublist ((List.filter_sublist _).map Prod.fst)
    · intro i
      rw [List.mem_map]
      constructor
      · rintro ⟨f, hf, rfl⟩
        rw [List.mem_filter] at hf
        exact ⟨f.2, hf.1, by simpa using hf.2⟩
      · rintro ⟨fe, hfe, hends⟩
        exact ⟨(i, fe), List.mem_filter.mpr ⟨hfe, by simpa using hends⟩, rfl⟩

/-- C20: when the pruned edge set has no cycle and the map `nodetoedge` is iterated over
all of its keys, the constructor returns a graph, and the keys of its node table are
exactly the candidate ids whose number of surviving edge ends is at least 1 and not 2;
this number is the size of `nodetoedge[k]`. -/
theorem feature_nodes_by_degree (rnd rndD : ℚ → ℚ) (minSpanForest : List edge → List edge)
    (order : List Int) (fuel : Nat) (input : Mat Val) (grid_spacing profile_length : Nat)
    (feature_type : Int)
    (hac : Acyclic (ends
      (prunedEdges rnd rndD minSpanForest input grid_spacing profile_length feature_type)))
    (horder : order.Perm (survivors
      (prunedEdges rnd rndD minSpanForest input grid_spacing profile_length feature_type)))
    (hfuel : 2 * (prunedEdges rnd rndD minSpanForest input grid_spacing profile_length
      feature_type).length < fuel) :
    (input.rows / grid_spacing ≠ 0 → input.cols / grid_spacing ≠ 0 →
      ∃ g, FeatureGraph.build rnd rndD minSpanForest order fuel input grid_spacing
        profile_length feature_type = some g) ∧
    (∀ k, (buildNodeToEdge
        (prunedEdges rnd rndD minSpanForest input grid_spacing profile_length feature_type)
        k).length =
      idDegree
        (prunedEdges rnd rndD minSpanForest input grid_spacing profile_length feature_type) k) ∧
    ∀ g, FeatureGraph.build rnd rndD minSpanForest order fuel input grid_spacing
        profile_length feature_type = some g →
      ∀ k, k ∈ g.nodes.map Prod.fst ↔
        1 ≤ idDegree
          (prunedEdges rnd rndD minSpanForest input grid_spacing profile_length feature_type)
          k ∧
        idDegree
          (prunedEdges rnd rndD minSpanForest input grid_spacing profile_length feature_type)
          k ≠ 2 := by
  obtain ⟨t, ht, hinv, hcons, hall⟩ := traceSkeleton_tables hac.sparse
    (smoothAt rnd rndD (operationalGrid rnd input grid_spacing feature_type) grid_spacing
      (buildNodeToEdge
        (prunedEdges rnd rndD minSpanForest input grid_spacing profile_length feature_type))
      (buildNodeToPosition
        (prunedEdges rnd rndD minSpanForest input grid_spacing profile_length feature_type)))
    fuel hfuel order
  refine ⟨?_, length_nodetoedge _, ?_⟩
  · intro h1 h2
    exact ⟨_, build_of_trace rnd rndD minSpanForest order fuel input grid_spacing
      profile_length feature_type t h1 h2 ht⟩
  · intro g hg k
    obtain ⟨t2, ht2, hn, _⟩ := build_eq_some rnd rndD minSpanForest order fuel input
      grid_spacing profile_length feature_type g hg
    rw [ht] at ht2
    have htt : t = t2 := Option.some.inj ht2
    subst htt
    rw [hn, ← length_nodetoedge]
    have hvis : ∀ a, a ∈ t.visited ↔ a ∈ survivors
        (prunedEdges rnd rndD minSpanForest input grid_spacing profile_length feature_type) := by
      apply hall
      intro a ha
      rw [horder.mem_iff, mem_survivors]
      intro hnil
      rw [hnil] at ha
      cases ha
    constructor
    · intro hk
      have hkvis := hinv.tab.nodes_sub k hk
      have hne := hinv.keys k hkvis
      refine ⟨?_, (hcons.degree k hkvis).mp hk⟩
      rcases hlen : buildNodeToEdge
        (prunedEdges rnd rndD minSpanForest input grid_spacing profile_length feature_type)
        k with _ | ⟨e, rest⟩
      · exact absurd hlen hne
      · simp
    · rintro ⟨h1, h2⟩
      have hne : buildNodeToEdge
          (prunedEdges rnd rndD minSpanForest input grid_spacing profile_length feature_type)
          k ≠ [] := by
        intro hnil
        rw [hnil] at h1
        simp at h1
      have hkvis : k ∈ t.visited := (hvis k).mpr ((mem_survivors _ k).mpr hne)
      exact (hcons.degree k hkvis).mpr h2

end ppa
namespace ppa

open zhou

theorem ridge_pruned :
    ends (prunedEdges id id (fun es => es) ridgeField 1 3 1) = [(1, 2), (2, 3)] := by
  decide!

theorem ridge_pruned_acyclic :
    Acyclic (ends (prunedEdges id id (fun es => es) ridgeField 1 3 1)) := by
  rw [ridge_pruned]
  apply Sparse.acyclic
  have h1 := sparse_nil.pendant 1 2 (by decide) (by intro e he; cases he)
  exact h1.pendant 2 3 (by decide) (by decide)

theorem ridge_pruned_fuel :
    2 * (prunedEdges id id (fun es => es) ridgeField 1 3 1).length < 9 := by
  have := congrArg List.length ridge_pruned
  simp only [ends, List.length_map, List.length_cons, List.length_nil] at this
  omega

/-- Witness for C11: the 5×5 field with a ridge along row 2, grid spacing 1, profile length
3: the pruned edge set is the path 1 - 2 - 3, the constructor returns a graph, and its
tables are consistent. -/
theorem feature_tables_consistent_witness :
    Acyclic (ends (prunedEdges id id (fun es => es) ridgeField 1 3 1)) ∧
    ∃ g, FeatureGraph.build id id (fun es => es) [1, 2, 3] 9 ridgeField 1 3 1 = some g ∧
      (∀ kv ∈ g.nodes, kv.2.id = kv.1) ∧
      g.edges.map Prod.fst = (List.range g.edges.length).map (fun i : Nat => (i : Int)) := by
  have h := feature_tables_consistent id id (fun es => es) [1, 2, 3] 9 ridgeField 1 3 1
    ridge_pruned_acyclic ridge_pruned_fuel
  obtain ⟨g, hg⟩ := h.1 (by decide) (by decide)
  exact ⟨ridge_pruned_acyclic, g, hg, (h.2 g hg).2.1, (h.2 g hg).2.2.2.1⟩

/-- Witness for C20: on the same input the nodes 1 and 3 have one edge and are keys of the
node table; the node 2 has two edges and is not. -/
theorem feature_nodes_by_degree_witness :
    ∃ g, FeatureGraph.build id id (fun es => es) [1, 2, 3] 9 ridgeField 1 3 1 = some g ∧
      (1 : Int) ∈ g.nodes.map Prod.fst ∧ (3 : Int) ∈ g.nodes.map Prod.fst ∧
      (2 : Int) ∉ g.nodes.map Prod.fst := by
  have h := feature_nodes_by_degree id id (fun es => es) [1, 2, 3] 9 ridgeField 1 3 1
    ridge_pruned_acyclic (by decide!) ridge_pruned_fuel
  obtain ⟨g, hg⟩ := h.1 (by decide) (by decide)
  refine ⟨g, hg, (h.2.2 g hg 1).mpr (by decide!), (h.2.2 g hg 3).mpr (by decide!), ?_⟩
  intro hmem
  have := (h.2.2 g hg 2).mp hmem
  revert this
  decide!

end ppa
namespace ppa

open zhou

/-! ## C22: the smoothed positions -/

end ppa
namespace ppa

open zhou

theorem sum_map_neg_fst (l : List (ℚ × Point)) :
    ((l.map (fun n => (-n.1, n.2))).map Prod.fst).sum = -(l.map Prod.fst).sum := by
  induction l with
  | nil => simp
  | cons a l ih =>
    simp only [List.map_cons, List.sum_cons, ih]
    ring

theorem sum_map_neg_mul (l : List (ℚ × Point)) (c : Point → ℚ) :
    ((l.map (fun n => (-n.1, n.2))).map (fun n => n.1 * c n.2)).sum =
      -(l.map (fun n => n.1 * c n.2)).sum := by
  induction l with
  | nil => simp
  | cons a l ih =>
    simp only [List.map_cons, List.sum_cons, ih]
    ring

/-- Negating every weight does not change the average. -/
theorem hopAverage_neg (grid_spacing : Nat) (wv : ℚ) (pv : Point) (nbrs : List (ℚ × Point)) :
    hopAverage grid_spacing (-wv) pv (nbrs.map (fun n => (-n.1, n.2))) =
      hopAverage grid_spacing wv pv nbrs := by
  unfold hopAverage
  rw [sum_map_neg_fst, sum_map_neg_mul nbrs (fun p => (p.x : ℚ)),
    sum_map_neg_mul nbrs (fun p => (p.y : ℚ))]
  have e1 : ∀ a b : ℚ, 101 / 100 * -wv * a + -b = -(101 / 100 * wv * a + b) := by
    intro a b; ring
  have e2 : ∀ b : ℚ, 101 / 100 * -wv + -b = -(101 / 100 * wv + b) := by
    intro b; ring
  rw [e1, e1, e2, mul_neg, mul_neg, neg_div_neg_eq, neg_div_neg_eq]

/-- When the grid values at the node and at its neighbours have one sign, the average with
the grid values as weights is the average with their magnitudes as weights. -/
theorem signedAverage_eq_magnitude (grid : Mat Val) (grid_spacing : Nat) (es : List edge)
    (k : Int)
    (hsign : (0 ≤ gridValue grid (buildNodeToPosition es k) ∧
        ∀ n ∈ neighbourWeights grid es k, 0 ≤ n.1) ∨
      (gridValue grid (buildNodeToPosition es k) ≤ 0 ∧
        ∀ n ∈ neighbourWeights grid es k, n.1 ≤ 0)) :
    signedAverage grid grid_spacing es k = magnitudeAverage grid grid_spacing es k := by
  unfold signedAverage magnitudeAverage
  rcases hsign with ⟨h0, hn⟩ | ⟨h0, hn⟩
  · rw [abs_of_nonneg h0]
    have hmap : (neighbourWeights grid es k).map (fun n => (|n.1|, n.2)) =
        neighbourWeights grid es k := by
      conv_rhs => rw [← List.map_id (neighbourWeights grid es k)]
      apply List.map_congr_left
      intro n hmem
      rw [abs_of_nonneg (hn n hmem)]
      rfl
    rw [hmap]
  · rw [abs_of_nonpos h0]
    have hmap : (neighbourWeights grid es k).map (fun n => (|n.1|, n.2)) =
        (neighbourWeights grid es k).map (fun n => (-n.1, n.2)) := by
      apply List.map_congr_left
      intro n hmem
      rw [abs_of_nonpos (hn n hmem)]
    rw [hmap, hopAverage_neg]

end ppa
namespace ppa

open zhou

end ppa
namespace ppa

open zhou

end ppa
namespace ppa

open zhou

/-! ## The node ids along the stored paths -/

theorem hopSteps_cons_cons (u x : Int) (rest : List Int) :
    hopSteps (u :: x :: rest) = (u, x) :: hopSteps (x :: rest) := rfl

theorem interior_hop (c x2 : Int) (chain : List Int) :
    interior (c :: (chain ++ [x2])) = chain := by
  unfold interior
  simp

/-- The step to a new node joins it to the node it was reached from, through an edge of
the edge set. -/
theorem backLink_edge {es : List edge} (h : Sparse (ends es)) {W : List Int} {u x : Int}
    (hb : BackLink es W u x) : ∃ e ∈ es, covers e (u, x) = true := by
  obtain ⟨_, _, e0, he0, hou, _⟩ := hb
  obtain ⟨hes, _, _, _, hk⟩ := other_of_mem h he0
  refine ⟨e0, hes, ?_⟩
  unfold covers
  rw [decide_eq_true_eq]
  rcases hk with ⟨h1, h2⟩ | ⟨h1, h2⟩
  · right
    exact ⟨h1, by rw [← h2, hou]⟩
  · left
    exact ⟨by rw [← h2, hou], h1⟩

/-- Visiting a new node: the edges with both ends visited are those that had both ends
visited before and the edge of the step. -/
theorem backLink_count {es : List edge} (h : Sparse (ends es)) {W : List Int} {u x : Int}
    (hb : BackLink es W u x) (e : edge) (he : e ∈ es) :
    (if covers e (u, x) = true then 1 else 0) + spans W e = spans (W ++ [x]) e := by
  obtain ⟨hu, hx, e0, he0, hou, huniq⟩ := hb
  have hne := h.no_loop e he
  have hux : u ≠ x := fun hh => hx (hh ▸ hu)
  unfold covers spans
  simp only [decide_eq_true_eq, List.mem_append, List.mem_singleton]
  by_cases h1 : e.id1 = x
  · have h2 : e.id2 ≠ x := fun hh => hne (h1.trans hh.symm)
    have hmem : e ∈ buildNodeToEdge es x := (mem_nodetoedge es x e).mpr ⟨he, Or.inl h1⟩
    have hoth : e.other x = e.id2 := by rw [← h1]; exact other_id1 e
    have hiff : e.id2 = u ↔ e.id2 ∈ W := by
      constructor
      · intro hh
        rw [hh]
        exact hu
      · intro hh
        have := huniq e hmem (by rw [hoth]; exact hh)
        rw [← hou, ← this, hoth]
    have hx1 : e.id1 ∉ W := by rw [h1]; exact hx
    by_cases hw : e.id2 ∈ W
    · have hu2 : e.id2 = u := hiff.mpr hw
      simp [h1, hu2, hx, hu, hux]
    · have hu2 : e.id2 ≠ u := fun hh => hw (hiff.mp hh)
      simp [h1, h2, hu2, hx, hw]
  · by_cases h2 : e.id2 = x
    · have hmem : e ∈ buildNodeToEdge es x := (mem_nodetoedge es x e).mpr ⟨he, Or.inr h2⟩
      have hoth : e.other x = e.id1 := by rw [← h2]; exact other_id2 e
      have hiff : e.id1 = u ↔ e.id1 ∈ W := by
        constructor
        · intro hh
          rw [hh]
          exact hu
        · intro hh
          have := huniq e hmem (by rw [hoth]; exact hh)
          rw [← hou, ← this, hoth]
      by_cases hw : e.id1 ∈ W
      · have hu1 : e.id1 = u := hiff.mpr hw
        simp [h2, hu1, hx, hu, hux]
      · have hu1 : e.id1 ≠ u := fun hh => hw (hiff.mp hh)
        simp [h1, h2, hu1, hx, hw]
    · simp [h1, h2]

/-- Consecutive nodes of a sequence of visits are joined by an edge of the edge set. -/
theorem hops_linked {es : List edge} (h : Sparse (ends es)) (new : List Int) :
    ∀ (W : List Int) (u : Int), Hops es W u new →
      ∀ s ∈ hopSteps (u :: new), ∃ e ∈ es, covers e s = true := by
  induction new with
  | nil =>
    intro W u _ s hs
    cases hs
  | cons x rest ih =>
    intro W u hh s hs
    rw [hopSteps_cons_cons] at hs
    rcases List.mem_cons.mp hs with hs | hs
    · rw [hs]
      exact backLink_edge h hh.1
    · exact ih (W ++ [x]) x hh.2 s hs

/-- The steps of a sequence of visits join exactly the edges whose two ends are both
visited at the end but were not both visited at the start, each once. -/
theorem hops_count {es : List edge} (h : Sparse (ends es)) (new : List Int) :
    ∀ (W : List Int) (u : Int), Hops es W u new → ∀ e ∈ es,
      (hopSteps (u :: new)).countP (covers e) + spans W e = spans (W ++ new) e := by
  induction new with
  | nil =>
    intro W u _ e _
    simp [hopSteps]
  | cons x rest ih =>
    intro W u hh e he
    rw [hopSteps_cons_cons, List.countP_cons]
    have h1 := backLink_count h hh.1 e he
    have h2 := ih (W ++ [x]) x hh.2 e he
    have happ : W ++ [x] ++ rest = W ++ x :: rest := by simp
    rw [happ] at h2
    omega

end ppa
namespace ppa

open zhou

/-- In the state of the chain walk the node `x` has exactly one edge into the nodes
visited before it. -/
theorem ChainInv.backLink {es : List edge} (h : Sparse (ends es)) {old V : List Int} {x : Int}
    (hc : ChainInv es old V x) {e0 : edge} {u : Int} (he0 : e0 ∈ buildNodeToEdge es x)
    (hou : e0.other x = u) (hu : u ∈ V) : BackLink es (old ++ V) u x := by
  have hnd : (old ++ V ++ [x]).Nodup := by
    rw [List.append_assoc]
    exact hc.nd
  have hx : x ∉ old ++ V := fun hm =>
    (List.nodup_append.mp hnd).2.2 hm (List.mem_singleton_self x)
  refine ⟨List.mem_append_right _ hu, hx, e0, he0, hou, ?_⟩
  intro e he heo
  rcases List.mem_append.mp heo with heo | heo
  · exact absurd (List.mem_append_left _ ((hc.closed.other h he).mp heo)) hx
  · exact link_unique (hc.after h).2 he (List.mem_toFinset.mpr heo) he0
      (List.mem_toFinset.mpr (by rw [hou]; exact hu))

/-- The node that the chain walk moves to from a node with the two edges `e0` and `e1`
is reached through one of them. -/
theorem next_entry {es : List edge} (h : Sparse (ends es)) {x : Int} {e0 e1 : edge}
    (hpair : buildNodeToEdge es x = [e0, e1]) (vis : List Int) :
    ∃ ef ∈ buildNodeToEdge es
        (if e0.other x ∈ vis then e1.other x else e0.other x),
      ef.other (if e0.other x ∈ vis then e1.other x else e0.other x) = x := by
  have hm0 : e0 ∈ buildNodeToEdge es x := by rw [hpair]; simp
  have hm1 : e1 ∈ buildNodeToEdge es x := by rw [hpair]; simp
  by_cases hv : e0.other x ∈ vis
  · rw [if_pos hv]
    obtain ⟨_, _, hback, hoo, _⟩ := other_of_mem h hm1
    exact ⟨e1, hback, hoo⟩
  · rw [if_neg hv]
    obtain ⟨_, _, hback, hoo, _⟩ := other_of_mem h hm0
    exact ⟨e0, hback, hoo⟩

/-- The nodes that the chain walk appends to `visited` are visited one after the other,
each through its only edge into the nodes visited before it, and the visited part of the
tree stays tight. -/
theorem walkChain_hops {es : List edge} (h : Sparse (ends es)) (smoothPosition : Int → Vec2f)
    (old : List Int) (fuel : Nat) (V : List Int) (x : Int) (path : List Vec2f)
    (hc : ChainInv es old V x) (r : List Int × List Vec2f × Int)
    (hr : walkChain (buildNodeToEdge es) smoothPosition fuel (old ++ (V ++ [x])) path x =
      some r) :
    ∃ rest : List Int, r.1 = old ++ (V ++ [x]) ++ rest ∧
      Hops es (old ++ (V ++ [x])) x rest ∧
      inner (ends es) (V ++ [x] ++ rest).toFinset + 1 = (V ++ [x] ++ rest).length := by
  induction fuel generalizing V x path with
  | zero => simp [walkChain] at hr
  | succ fuel ih =>
    by_cases hpair : ∃ e0 e1, buildNodeToEdge es x = [e0, e1]
    · obtain ⟨e0, e1, hpair⟩ := hpair
      obtain ⟨hnext, _⟩ := chain_step h hc hpair
      obtain ⟨ef, hef, hefo⟩ := next_entry h hpair (old ++ (V ++ [x]))
      have hb := hnext.backLink h hef hefo (List.mem_append_right _ (List.mem_singleton_self x))
      unfold walkChain at hr
      simp only [hpair] at hr
      have hassoc : old ++ (V ++ [x]) ++
          [if e0.other x ∈ old ++ (V ++ [x]) then e1.other x else e0.other x] =
          old ++ (V ++ [x] ++
          [if e0.other x ∈ old ++ (V ++ [x]) then e1.other x else e0.other x]) := by
        simp
      rw [hassoc] at hr
      obtain ⟨rest, hr1, hhops, htight⟩ := ih (V ++ [x]) _ (path ++ [smoothPosition x]) hnext hr
      refine ⟨(if e0.other x ∈ old ++ (V ++ [x]) then e1.other x else e0.other x) :: rest,
        ?_, ⟨hb, ?_⟩, ?_⟩
      · rw [hr1]
        simp
      · rw [hassoc]
        exact hhops
      · have happ : V ++ [x] ++
            (if e0.other x ∈ old ++ (V ++ [x]) then e1.other x else e0.other x) :: rest =
            V ++ [x] ++
            [if e0.other x ∈ old ++ (V ++ [x]) then e1.other x else e0.other x] ++ rest := by
          simp
        rw [happ]
        exact htight
    · refine ⟨[], ?_, trivial, ?_⟩
      · unfold walkChain at hr
        split at hr
        · rename_i e0 e1 heq
          exact absurd ⟨e0, e1, heq⟩ hpair
        · rw [← Option.some.inj hr]
          simp
      · rw [List.append_nil]
        exact (hc.after h).1

end ppa
namespace ppa

open zhou

/-! ## The invariant about the paths of the stored edges -/

theorem hopInv_init (es : List edge) (smoothPosition : Int → Vec2f) :
    HopInv es smoothPosition ⟨[], 0, [], []⟩ [] [] [] := by
  refine ⟨List.Forall₂.nil, rfl, ?_, List.nodup_nil, Or.inl rfl, ?_, ?_, ?_⟩
  · intro e _
    simp
  · simp
  · intro k
    simp
  · intro e _
    simp [spans]

/-- A node outside a closed set of nodes adds no edge with both ends in the set. -/
theorem spans_append_closed {es : List edge} (h : Sparse (ends es)) {W : List Int}
    (hc : Closed es W) (x : Int) (e : edge) (he : e ∈ es) :
    spans (W ++ [x]) e = spans W e := by
  have hne := h.no_loop e he
  have hiff := hc e he
  unfold spans
  by_cases h1 : e.id1 ∈ W
  · have h2 : e.id2 ∈ W := hiff.mp h1
    simp [h1, h2]
  · have h2 : e.id2 ∉ W := fun hh => h1 (hiff.mpr hh)
    have hnot : ¬ (e.id1 = x ∧ e.id2 = x) := fun hh => hne (hh.1.trans hh.2.symm)
    simp [h1, h2, hnot]

theorem hopInv_startStep {es : List edge} (h : Sparse (ends es)) {smoothPosition : Int → Vec2f}
    {st st2 : Trace} (hs : StartStep es smoothPosition st st2)
    (hq : ∃ hops old cur, HopInv es smoothPosition st hops old cur) :
    ∃ hops old cur, HopInv es smoothPosition st2 hops old cur := by
  obtain ⟨pid, hleaf, hnew, hinv, rfl⟩ := hs
  obtain ⟨hops, old, cur, hq⟩ := hq
  refine ⟨hops, st.visited, [pid], hq.hop, rfl, hinv.closed, ?_, Or.inr ?_, hq.mid_nd, ?_, ?_⟩
  · show (st.visited ++ [pid]).Nodup
    rw [List.nodup_append]
    refine ⟨hinv.nd, List.nodup_singleton _, ?_⟩
    intro k hk1 hk2
    rw [List.mem_singleton] at hk2
    subst hk2
    exact hnew hk1
  · have := h ([pid].toFinset) (by simp)
    simp only [List.toFinset_cons, List.toFinset_nil, insert_emptyc_eq,
      Finset.card_singleton] at this ⊢
    simp only [List.length_singleton]
    omega
  · intro k
    rw [hq.mid_iff k]
    show _ ↔ k ∈ st.visited ++ [pid] ∧ _
    constructor
    · rintro ⟨h1, h2⟩
      exact ⟨List.mem_append_left _ h1, h2⟩
    · rintro ⟨h1, h2⟩
      rcases List.mem_append.mp h1 with h1 | h1
      · exact ⟨h1, h2⟩
      · rw [List.mem_singleton] at h1
        subst h1
        omega
  · intro e he
    rw [hq.cover e he]
    exact (spans_append_closed h hinv.closed pid e he).symm

end ppa
namespace ppa

open zhou

/-- The nodes that an edge step appends are visited one after the other, starting from
the node `c`, and the visited part of the current tree stays tight. -/
theorem edgeStep_hops {es : List edge} (h : Sparse (ends es)) {smoothPosition : Int → Vec2f}
    {fuel : Nat} {st : Trace} {old cur : List Int} {c x2 : Int} {e : edge} {chain : List Int}
    (hvisEq : st.visited = old ++ cur) (hclosed : Closed es old) (hnd : st.visited.Nodup)
    (htight : cur = [] ∨ inner (ends es) cur.toFinset + 1 = cur.length)
    (hkeys : ∀ k ∈ st.visited, buildNodeToEdge es k ≠ [])
    (he : e ∈ buildNodeToEdge es c) (hvis : e.other c ∉ st.visited) (hcvis : c ∈ st.visited)
    (hcall : walkChain (buildNodeToEdge es) smoothPosition fuel (st.visited ++ [e.other c])
        [smoothPosition c] (e.other c) =
      some (st.visited ++ (chain ++ [x2]), [smoothPosition c] ++ chain.map smoothPosition, x2)) :
    Hops es st.visited c (chain ++ [x2]) ∧
    inner (ends es) (cur ++ (chain ++ [x2])).toFinset + 1 = (cur ++ (chain ++ [x2])).length := by
  obtain ⟨_, hne, hback, hoo, _⟩ := other_of_mem h he
  have hccur : c ∈ cur := by
    rw [hvisEq] at hcvis
    rcases List.mem_append.mp hcvis with hc | hc
    · exfalso
      apply hvis
      rw [hvisEq]
      exact List.mem_append_left _ ((hclosed.other h he).mpr hc)
    · exact hc
  have htight2 : inner (ends es) cur.toFinset + 1 = cur.length := by
    rcases htight with hnil | ht
    · rw [hnil] at hccur
      cases hccur
    · exact ht
  have hnd0 : (old ++ cur).Nodup := by rw [← hvisEq]; exact hnd
  have hx0 : e.other c ∉ old ++ cur := by rw [← hvisEq]; exact hvis
  have hc0 : ChainInv es old cur (e.other c) := by
    constructor
    · rw [← List.append_assoc, List.nodup_append]
      refine ⟨hnd0, List.nodup_singleton _, ?_⟩
      intro k hk1 hk2
      rw [List.mem_singleton] at hk2
      subst hk2
      exact hx0 hk1
    · exact htight2
    · exact hclosed
    · exact ⟨e, hback, by rw [hoo]; exact hccur⟩
    · intro k hk
      rw [← List.append_assoc] at hk
      rcases List.mem_append.mp hk with hk | hk
      · exact hkeys k (by rw [hvisEq]; exact hk)
      · rw [List.mem_singleton] at hk
        subst hk
        exact List.ne_nil_of_mem hback
  have hb0 : BackLink es (old ++ cur) c (e.other c) := hc0.backLink h hback hoo hccur
  have hcall2 : walkChain (buildNodeToEdge es) smoothPosition fuel
      (old ++ (cur ++ [e.other c])) [smoothPosition c] (e.other c) =
      some (st.visited ++ (chain ++ [x2]),
        [smoothPosition c] ++ chain.map smoothPosition, x2) := by
    rw [← List.append_assoc, ← hvisEq]
    exact hcall
  obtain ⟨rest, hr1, hhops, ht⟩ :=
    walkChain_hops h smoothPosition old fuel cur (e.other c) [smoothPosition c] hc0 _ hcall2
  have hform : chain ++ [x2] = e.other c :: rest := by
    have h1 : st.visited ++ (chain ++ [x2]) = st.visited ++ (e.other c :: rest) := by
      have : st.visited ++ (chain ++ [x2]) = old ++ (cur ++ [e.other c]) ++ rest := hr1
      rw [this, hvisEq]
      simp
    exact List.append_cancel_left h1
  rw [hform]
  refine ⟨⟨?_, ?_⟩, ?_⟩
  · rw [hvisEq]
    exact hb0
  · rw [hvisEq, List.append_assoc]
    exact hhops
  · have happ : cur ++ e.other c :: rest = cur ++ [e.other c] ++ rest := by simp
    rw [happ]
    exact ht

end ppa
namespace ppa

open zhou

/-- The list of node ids of the edge that an edge step stores. -/
theorem hopOf_new {es : List edge} (h : Sparse (ends es)) (smoothPosition : Int → Vec2f)
    {W : List Int} {c x2 : Int} {chain : List Int} (k : Int)
    (hhops : Hops es W c (chain ++ [x2])) (hc : c ∈ W) (hnd : (W ++ (chain ++ [x2])).Nodup)
    (hchain : ∀ a ∈ chain, (buildNodeToEdge es a).length = 2) :
    HopOf es smoothPosition
      ⟨k, c, x2, [smoothPosition c] ++ chain.map smoothPosition ++ [smoothPosition x2]⟩
      (c :: (chain ++ [x2])) := by
  have hparts := List.nodup_append.mp hnd
  have hlast : (c :: (chain ++ [x2])).getLast? = some x2 := by
    rw [← List.cons_append]
    exact List.getLast?_concat _
  refine ⟨by simp, rfl, hlast, by simp, ?_, hops_linked h _ W c hhops, ?_⟩
  · rw [List.nodup_cons]
    exact ⟨fun hm => hparts.2.2 hc hm, hparts.2.1⟩
  · intro a ha
    rw [interior_hop] at ha
    rw [← length_nodetoedge]
    exact hchain a ha

theorem hopInv_edgeStep {es : List edge} (h : Sparse (ends es)) {smoothPosition : Int → Vec2f}
    {fuel : Nat} {st st2 : Trace} (hs : EdgeStep es smoothPosition fuel st st2)
    (hq : ∃ hops old cur, HopInv es smoothPosition st hops old cur) :
    ∃ hops old cur, HopInv es smoothPosition st2 hops old cur := by
  obtain ⟨c, x2, e, chain, he, hvis, hcall, rfl, htab, hckeys, hcvis, hnd, hchain, hx2len,
    hkeys⟩ := hs
  obtain ⟨hops, old, cur, hq⟩ := hq
  obtain ⟨hhops, htight⟩ := edgeStep_hops h hq.vis hq.closed hq.nd hq.tight hkeys he hvis hcvis
    hcall
  have hndparts := List.nodup_append.mp hnd
  have hx2vis : x2 ∉ st.visited := fun hm =>
    hndparts.2.2 hm (List.mem_append_right _ (List.mem_singleton_self x2))
  have hx2keys : x2 ∉ st.m_nodes.map Prod.fst := fun hm => hx2vis (htab.nodes_sub x2 hm)
  have hcounter : st.edgeidcounter ∉ st.m_edges.map Prod.fst := by
    intro hm
    obtain ⟨kv, hkv, hk⟩ := List.mem_map.mp hm
    have := htab.edge_lt kv hkv
    omega
  have hE := storeEdge_edges smoothPosition st c x2 (st.visited ++ (chain ++ [x2]))
    ([smoothPosition c] ++ chain.map smoothPosition) hx2keys hcounter
  have hV : (storeEdge smoothPosition st c (st.visited ++ (chain ++ [x2]))
      ([smoothPosition c] ++ chain.map smoothPosition) x2).visited =
      st.visited ++ (chain ++ [x2]) := rfl
  have hflat : ∀ (β : Type) (f : List Int → List β),
      (hops ++ [c :: (chain ++ [x2])]).flatMap f =
        hops.flatMap f ++ f (c :: (chain ++ [x2])) := by
    intro β f
    simp
  refine ⟨hops ++ [c :: (chain ++ [x2])], old, cur ++ (chain ++ [x2]), ?_, ?_, hq.closed, ?_,
    Or.inr htight, ?_, ?_, ?_⟩
  · rw [hE]
    exact List.rel_append hq.hop
      (List.Forall₂.cons (hopOf_new h smoothPosition _ hhops hcvis hnd hchain) List.Forall₂.nil)
  · rw [hV, hq.vis, List.append_assoc]
  · rw [hV]
    exact hnd
  · rw [hflat, interior_hop, List.nodup_append]
    refine ⟨hq.mid_nd, (List.nodup_append.mp hndparts.2.1).1, ?_⟩
    intro k hk1 hk2
    exact hndparts.2.2 ((hq.mid_iff k).mp hk1).1 (List.mem_append_left _ hk2)
  · intro k
    rw [hflat, interior_hop, hV, List.mem_append, hq.mid_iff k]
    constructor
    · rintro (⟨h1, h2⟩ | h1)
      · exact ⟨List.mem_append_left _ h1, h2⟩
      · exact ⟨List.mem_append_right _ (List.mem_append_left _ h1), hchain k h1⟩
    · rintro ⟨h1, h2⟩
      rcases List.mem_append.mp h1 with h1 | h1
      · exact Or.inl ⟨h1, h2⟩
      · rcases List.mem_append.mp h1 with h1 | h1
        · exact Or.inr h1
        · rw [List.mem_singleton] at h1
          subst h1
          exact absurd h2 hx2len
  · intro e2 he2
    rw [hflat, List.countP_append, hq.cover e2 he2, hV, add_comm]
    exact hops_count h _ st.visited c hhops e2 he2

end ppa
namespace ppa

open zhou

theorem forall2_left {α β : Type} {R : α → β → Prop} {l1 : List α} {l2 : List β}
    (h : List.Forall₂ R l1 l2) : ∀ a ∈ l1, ∃ b ∈ l2, R a b := by
  induction h with
  | nil =>
    intro a ha
    cases ha
  | cons hab _ ih =>
    intro a ha
    rcases List.mem_cons.mp ha with ha | ha
    · subst ha
      exact ⟨_, List.mem_cons_self _ _, hab⟩
    · obtain ⟨b, hb, hr⟩ := ih a ha
      exact ⟨b, List.mem_cons_of_mem _ hb, hr⟩

/-- The paths of the stored edges at the end of the traversal of a forest. -/
theorem traceSkeleton_hops {es : List edge} (h : Sparse (ends es))
    (smoothPosition : Int → Vec2f) (fuel : Nat) (hfuel : 2 * es.length < fuel)
    (order : List Int) (horder : order.Perm (survivors es)) (t : Trace)
    (ht : traceSkeleton fuel (buildNodeToEdge es) smoothPosition order = some t) :
    ∃ hops : List (List Int),
      List.Forall₂ (fun kv hop => HopOf es smoothPosition kv.2 hop) t.m_edges hops ∧
      (∀ kv ∈ t.m_edges, 2 ≤ kv.2.path.length) ∧
      (∀ k, idDegree es k = 2 → (hops.flatMap interior).count k = 1) ∧
      (∀ e ∈ es, (hops.flatMap hopSteps).countP (covers e) = 1) := by
  obtain ⟨t2, ht2, _, hall⟩ := traceSkeleton_spec h smoothPosition fuel hfuel order
  rw [ht] at ht2
  have htt : t = t2 := Option.some.inj ht2
  subst htt
  have hvis : ∀ a, a ∈ t.visited ↔ a ∈ survivors es := by
    apply hall
    intro a ha
    rw [horder.mem_iff, mem_survivors]
    intro hnil
    rw [hnil] at ha
    cases ha
  obtain ⟨hops, old, cur, hq⟩ := traceSkeleton_induct h smoothPosition fuel hfuel
    (fun st => ∃ hops old cur, HopInv es smoothPosition st hops old cur)
    ⟨[], [], [], hopInv_init es smoothPosition⟩
    (fun _ _ hs hq => hopInv_startStep h hs hq) (fun _ _ hs hq => hopInv_edgeStep h hs hq)
    order t ht
  refine ⟨hops, hq.hop, ?_, ?_, ?_⟩
  · intro kv hkv
    obtain ⟨hop, _, hof⟩ := forall2_left hq.hop kv hkv
    rw [hof.path, List.length_map]
    exact hof.len
  · intro k hk
    apply List.count_eq_one_of_mem hq.mid_nd
    rw [hq.mid_iff k, length_nodetoedge, hvis k, mem_survivors]
    refine ⟨?_, hk⟩
    intro hnil
    have := length_nodetoedge es k
    rw [hnil, hk] at this
    cases this
  · intro e he
    rw [hq.cover e he]
    unfold spans
    have h1 : e.id1 ∈ t.visited := by
      rw [hvis, mem_survivors]
      exact List.ne_nil_of_mem ((mem_nodetoedge es _ e).mpr ⟨he, Or.inl rfl⟩)
    have h2 : e.id2 ∈ t.visited := by
      rw [hvis, mem_survivors]
      exact List.ne_nil_of_mem ((mem_nodetoedge es _ e).mpr ⟨he, Or.inr rfl⟩)
    rw [if_pos ⟨h1, h2⟩]

/-- C21: when the pruned edge set has no cycle, the map `nodetoedge` is iterated over all
of its keys and the loops have enough fuel, the constructor returns a graph (for a
non-empty operational grid), and for every graph it returns there is one list of node ids
per `FeatureEdge`, in the order of the edge table, such that: the path of the edge is the
list of the smoothed positions of these ids, so it has at least two points; the list
starts at `node_start`, ends at `node_end`, has at least two ids and repeats none,
consecutive ids are joined by an edge of the pruned edge set, and every id in its interior
has exactly two edge ends; every id with exactly two edge ends occurs exactly once in the
interiors of all the lists together; and every edge of the pruned edge set is joined by
exactly one step of all the lists together. -/
theorem feature_paths_cover (rnd rndD : ℚ → ℚ) (minSpanForest : List edge → List edge)
    (order : List Int) (fuel : Nat) (input : Mat Val) (grid_spacing profile_length : Nat)
    (feature_type : Int)
    (hac : Acyclic (ends
      (prunedEdges rnd rndD minSpanForest input grid_spacing profile_length feature_type)))
    (horder : order.Perm (survivors
      (prunedEdges rnd rndD minSpanForest input grid_spacing profile_length feature_type)))
    (hfuel : 2 * (prunedEdges rnd rndD minSpanForest input grid_spacing profile_length
      feature_type).length < fuel) :
    (input.rows / grid_spacing ≠ 0 → input.cols / grid_spacing ≠ 0 →
      ∃ g, FeatureGraph.build rnd rndD minSpanForest order fuel input grid_spacing
        profile_length feature_type = some g) ∧
    ∀ g, FeatureGraph.build rnd rndD minSpanForest order fuel input grid_spacing
        profile_length feature_type = some g →
      ∃ hops : List (List Int),
        List.Forall₂
          (fun kv hop =>
            HopOf
              (prunedEdges rnd rndD minSpanForest input grid_spacing profile_length
                feature_type)
              (smoothAt rnd rndD (operationalGrid rnd input grid_spacing feature_type)
                grid_spacing
                (buildNodeToEdge
                  (prunedEdges rnd rndD minSpanForest input grid_spacing profile_length
                    feature_type))
                (buildNodeToPosition
                  (prunedEdges rnd rndD minSpanForest input grid_spacing profile_length
                    feature_type)))
              kv.2 hop)
          g.edges hops ∧
        (∀ kv ∈ g.edges, 2 ≤ kv.2.path.length) ∧
        (∀ k, idDegree
            (prunedEdges rnd rndD minSpanForest input grid_spacing profile_length feature_type)
            k = 2 → (hops.flatMap interior).count k = 1) ∧
        (∀ e ∈ prunedEdges rnd rndD minSpanForest input grid_spacing profile_length
            feature_type, (hops.flatMap hopSteps).countP (covers e) = 1) := by
  constructor
  · intro h1 h2
    obtain ⟨t, ht, _⟩ := traceSkeleton_spec hac.sparse
      (smoothAt rnd rndD (operationalGrid rnd input grid_spacing feature_type) grid_spacing
        (buildNodeToEdge
          (prunedEdges rnd rndD minSpanForest input grid_spacing profile_length feature_type))
        (buildNodeToPosition
          (prunedEdges rnd rndD minSpanForest input grid_spacing profile_length feature_type)))
      fuel hfuel order
    exact ⟨_, build_of_trace rnd rndD minSpanForest order fuel input grid_spacing
      profile_length feature_type t h1 h2 ht⟩
  · intro g hg
    obtain ⟨t, ht, _, he⟩ := build_eq_some rnd rndD minSpanForest order fuel input
      grid_spacing profile_length feature_type g hg
    rw [he]
    exact traceSkeleton_hops hac.sparse _ fuel hfuel order horder t ht

/-- Witness for C21: the 5×5 field with a ridge along row 2, grid spacing 1, profile length
3: the pruned edge set is the path 1 - 2 - 3, the constructor returns a graph with the one
edge from node 1 to node 3 whose path has three points, and the node 2 is in the interior
of exactly one list of node ids. -/
theorem feature_paths_cover_witness :
    Acyclic (ends (prunedEdges id id (fun es => es) ridgeField 1 3 1)) ∧
    idDegree (prunedEdges id id (fun es => es) ridgeField 1 3 1) 2 = 2 ∧
    ∃ g, FeatureGraph.build id id (fun es => es) [1, 2, 3] 9 ridgeField 1 3 1 = some g ∧
      g.edges.map (fun kv => (kv.2.node_start, kv.2.node_end, kv.2.path.length)) =
        [(1, 3, 3)] ∧
      ∃ hops : List (List Int),
        (∀ kv ∈ g.edges, 2 ≤ kv.2.path.length) ∧
        (hops.flatMap interior).count 2 = 1 ∧
        (∀ e ∈ prunedEdges id id (fun es => es) ridgeField 1 3 1,
          (hops.flatMap hopSteps).countP (covers e) = 1) := by
  have h := feature_paths_cover id id (fun es => es) [1, 2, 3] 9 ridgeField 1 3 1
    ridge_pruned_acyclic (by decide!) ridge_pruned_fuel
  obtain ⟨g, hg⟩ := h.1 (by decide) (by decide)
  obtain ⟨hops, _, hlen, hmid, hcov⟩ := h.2 g hg
  have hdeg : idDegree (prunedEdges id id (fun es => es) ridgeField 1 3 1) 2 = 2 := by decide!
  have hval : (FeatureGraph.build id id (fun es => es) [1, 2, 3] 9 ridgeField 1 3 1).map
      (fun g => g.edges.map (fun kv => (kv.2.node_start, kv.2.node_end, kv.2.path.length))) =
      some [(1, 3, 3)] := by decide!
  rw [hg] at hval
  exact ⟨ridge_pruned_acyclic, hdeg, g, hg, Option.some.inj hval, hops, hlen, hmid 2 hdeg, hcov⟩

end ppa
